import Mathlib

/-!
HStore, the grouped fabric demultiplexer, the ordered key index and the
append store (comanche): a verification development.

A shallow embedding of `src/components/store/hstore/src/hstore.cpp`, of the
interface `src/components/api/kvstore_itf.h`, of
`src/components/net/fabric/src/fabric_comm_grouped.cpp`, of
`src/components/index/ramrbtree/src/ramrbtree.cpp` and of
`split_iterator` and `get` of
`src/components/store/append/src/append_store.cpp`.

* C++ functions with reference (in/out) parameters become functions that take
  the incoming values and return a record of the outgoing ones.
* A C++ function that may throw returns an `Outcome`: either the value it
  returns or the exception it throws.  The store state is threaded
  explicitly and is returned in both cases.
* The hop-scotch table (`hop_hash.h`), the session (`enter_update`,
  `enter_replace`) and `dummy_shared_mutex.h` are not among the sources; they
  are modelled from the specification and marked as such.
* The groups of `fabric_comm_grouped.cpp` share one `Fabric.State`: the
  completion queue of the parent connection, the group objects, the live
  async records, and the traces of posting calls and callback invocations.
  The parent connection (`fabric_generic_grouped.h`) is not among the
  sources and is modelled from the specification.  A result of `cq_read` is
  a non-negative value or `-errno`; the polls switch on `unsigned(-ct)`,
  `errno` modulo `2^32`.
* The `std::set<std::string>` of the key index is the strictly ascending
  list of its keys; `std::regex` is a parameter.  The `size_t` subtraction
  of the append store is taken modulo `2^64`.
-/

set_option autoImplicit false

namespace Comanche

/-! ## kvstore_itf.h -/

/-- Type `status_t`: the integer status codes of `IKVStore`. -/
abbrev status_t := Int

def S_OK : status_t := 0
def S_MORE : status_t := 1
def E_FAIL : status_t := -1
def E_KEY_EXISTS : status_t := -2
def E_KEY_NOT_FOUND : status_t := -3
def E_POOL_NOT_FOUND : status_t := -4
def E_NOT_SUPPORTED : status_t := -5
def E_ALREADY_EXISTS : status_t := -6
def E_TOO_LARGE : status_t := -7
def E_BAD_PARAM : status_t := -8
def E_BAD_ALIGNMENT : status_t := -9
def E_INSUFFICIENT_BUFFER : status_t := -10
def E_BAD_OFFSET : status_t := -11

/-- Enumeration `lock_type_t` (`STORE_LOCK_READ=1`, `STORE_LOCK_WRITE=2`). -/
inductive lock_type_t where
  | STORE_LOCK_READ
  | STORE_LOCK_WRITE
deriving DecidableEq, Repr

/-- Type `pool_t`: `uint64_t`, in hstore the address of the tracked pool. -/
abbrev pool_t := Nat

/-- Bytes of memory. -/
abbrev Bytes := List UInt8

/-- Type `key_t`: `Opaque_key *`.  `KEY_NONE` is the null pointer; the handle
`hstore::lock` returns is `new std::string(key)`, modelled by the string. -/
abbrev key_t := Option String

def KEY_NONE : key_t := none

/-- The exceptions the embedded code throws, and `fault` for behaviour the
C++ standard leaves undefined (a failed `assert`, a copy through a null
pointer or past the end of a buffer). -/
inductive Exn where
  | API_exception
  | General_exception
  | invalid_argument
  | out_of_range
  | bad_alloc
  | regex_error
  | fault
deriving DecidableEq, Repr

/-- Result of running a C++ function body: normal return or a throw. -/
inductive Outcome (α : Type) where
  | returned : α → Outcome α
  | thrown : Exn → Outcome α
deriving DecidableEq, Repr

/-! ## Build parameters and external collaborators -/

/-- What `hstore.cpp` takes from outside the listed sources.

* `H`: the neighbourhood width of the hop-scotch table;
* `hf`: `pstr_hash::hf`, that is `CityHash64` over the key bytes (`city.h`);
* `segment_capacity`: the number of entries of the segment directory;
* `load_exceeded size bucket_count`: the configured load-factor threshold;
* `thread_safe_hash`: the `#if 0` switch at hstore.cpp:70 that chooses
  `hstore_shared_mutex`; the source as given has it `false`
  (`dummy::shared_mutex`, `THREAD_MODEL_SINGLE_PER_POOL`);
* `malloc0_null`: whether `malloc(0)` returns a null pointer
  (implementation-defined);
* `uninit`: the bytes found in freshly allocated, uninitialised storage. -/
structure Config where
  H : Nat
  hf : String → Nat
  segment_capacity : Nat
  load_exceeded : Nat → Nat → Bool
  thread_safe_hash : Bool
  malloc0_null : Bool
  uninit : Nat → UInt8

/-! ## The hop-scotch table (modelled from the specification) -/

abbrev KEY_T := String
abbrev MAPPED_T := Bytes

/-- Modelled from the spec: the bucket of `hop_hash.h` (§3 "Bucket").  The
owner part is a bitmap of width `H`; the content part is clear (`none`) or
in use with a `(key, value)` pair; `readers`/`writer` is the state of the
bucket's shared/exclusive lock. -/
structure Bucket where
  owner : Nat
  content : Option (KEY_T × MAPPED_T)
  readers : Nat
  writer : Bool
deriving DecidableEq, Repr

def clear_bucket : Bucket := ⟨0, none, 0, false⟩

/-- Modelled from the spec: the table of `hop_hash.h` (§3 "Segment",
"Persist-data").  `buckets` is the concatenation of the segments in
directory order, so `bucket_count` is the sum of the segment sizes. -/
structure Table where
  segment_count : Nat
  buckets : List Bucket
deriving DecidableEq, Repr

namespace Table

def bucket_count (t : Table) : Nat := t.buckets.length

def bucket_at (t : Table) (j : Nat) : Bucket := t.buckets.getD j clear_bucket

def owner_at (t : Table) (h : Nat) : Nat := (t.bucket_at h).owner

def content_at (t : Table) (j : Nat) : Option (KEY_T × MAPPED_T) := (t.bucket_at j).content

def key_at (t : Table) (j : Nat) : Option KEY_T := (t.content_at j).map Prod.fst

/-- Rewrite bucket `j` in place. -/
def update (t : Table) (j : Nat) (f : Bucket → Bucket) : Table :=
  { t with buckets := t.buckets.set j (f (t.bucket_at j)) }

def set_content (t : Table) (j : Nat) (c : Option (KEY_T × MAPPED_T)) : Table :=
  t.update j (fun b => { b with content := c })

def set_owner (t : Table) (h : Nat) (o : Nat) : Table :=
  t.update h (fun b => { b with owner := o })

end Table

/-- Set bit `i` of an owner bitmap. -/
def bit_set (o i : Nat) : Nat := o ||| 2 ^ i

/-- Clear bit `i` of an owner bitmap. -/
def bit_clear (o i : Nat) : Nat := if o.testBit i then o ^^^ 2 ^ i else o

namespace Table

/-- Modelled from the spec: `table::bucket` (hop_hash.h), the hash bucket of a
key, `hash(k) mod bucket_count` (§8.1). -/
def bucket (cfg : Config) (t : Table) (k : KEY_T) : Nat := cfg.hf k % t.bucket_count

/-- Modelled from the spec: the lookup of hop_hash.h (§4.2 "Lookup").  Iterate the bits set in
`owner[h]`, least significant first; bit `i` set means slot `h+i` holds a key
that hashed to `h`; compare keys; on a match answer the slot. -/
def locate_key (cfg : Config) (t : Table) (k : KEY_T) : Option Nat :=
  let h := t.bucket cfg k
  ((List.range cfg.H).find? (fun i => (t.owner_at h).testBit i && t.key_at (h + i) == some k)).map
    (fun i => h + i)

/-- Modelled from the spec: the content found by the lookup of hop_hash.h
(§4.2 "Lookup": on a match return the content), here its mapped value. -/
def value_of (cfg : Config) (t : Table) (k : KEY_T) : Option MAPPED_T :=
  (t.locate_key cfg k).bind (fun j => (t.content_at j).map Prod.snd)

/-- Modelled from the spec: `table::at` (hop_hash.h), the mapped value of a key, throwing
`std::out_of_range` when the key is absent (as `hstore::get` expects). -/
def at_ (cfg : Config) (t : Table) (k : KEY_T) : Outcome MAPPED_T :=
  match t.value_of cfg k with
  | some v => .returned v
  | none => .thrown .out_of_range

/-- Modelled from the spec: `table::size` (hop_hash.h), the number of contents
in use (§3 "Bucket": state clear or in-use). -/
def size (t : Table) : Nat := t.buckets.countP (fun b => b.content.isSome)

end Table

/-! ### Insertion -/

namespace Table

/-- Modelled from the spec: the linear probe of `table::emplace` (hop_hash.h,
§4.2 insert steps 1 and 2): the first clear slot among `lo, …, hi-1`, if any. -/
def free_slot (t : Table) (lo hi : Nat) : Option Nat :=
  (List.range' lo (hi - lo)).find? (fun j => (t.content_at j).isNone)

/-- Modelled from the spec: insert steps 1 and 4 of `table::emplace`
(hop_hash.h, §4.2): write the content
`(k, v)` at slot `j` and set the bit of `j` in `owner[h]`. -/
def place (t : Table) (h j : Nat) (k : KEY_T) (v : MAPPED_T) : Table :=
  (t.set_content j (some (k, v))).set_owner h (bit_set (t.owner_at h) (j - h))

/-- Modelled from the spec: the displacement victim for the free slot `j` in
`table::emplace` (hop_hash.h, §4.2 insert step 3): some bucket `h' ∈ (j-H+1, j]` whose owner bitmap
contains a slot `i` with `i < j`.  Buckets are tried in ascending order and
owner bits least significant first (§4.2 "Ordering and tie-breaks").  The
answer is `(h', i)`. -/
def find_victim (cfg : Config) (t : Table) (j : Nat) : Option (Nat × Nat) :=
  (List.range' (j + 2 - cfg.H) (cfg.H - 1)).findSome? (fun h' =>
    ((List.range cfg.H).find? (fun b => (t.owner_at h').testBit b && decide (h' + b < j))).map
      (fun b => (h', h' + b)))

/-- Modelled from the spec: one displacement of `table::emplace` (hop_hash.h,
§4.2 insert step 3): move the
content `i → j`, flip the bits in `owner[h']` (clear `i`, set `j`), clear the
content at `i`. -/
def move (t : Table) (h' i j : Nat) : Table :=
  let t1 := t.set_content j (t.content_at i)
  let t2 := t1.set_owner h' (bit_set (bit_clear (t.owner_at h') (i - h')) (j - h'))
  t2.set_content i none

/-- Modelled from the spec: insert step 3 of `table::emplace` (hop_hash.h,
§4.2): while `j - h ≥ H`, displace
and set `j := i`.  `none` when no victim exists.  The first argument bounds
the number of rounds; `j` decreases in every round, so `j` rounds suffice. -/
def displace (cfg : Config) : Nat → Table → Nat → Nat → Option (Table × Nat)
  | 0, t, h, j => if j - h < cfg.H then some (t, j) else none
  | fuel + 1, t, h, j =>
    if j - h < cfg.H then some (t, j)
    else
      match t.find_victim cfg j with
      | none => none
      | some (h', i) => displace cfg fuel (t.move h' i j) h i

/-- Modelled from the spec: insert steps 1–4 of `table::emplace` (hop_hash.h,
§4.2) for a key that is not in
the table, without resizing.  `none` asks for a resize (the probe ran past
`bucket_count`, or no displacement victim exists); otherwise the new table
and the slot of the key. -/
def try_insert (cfg : Config) (t : Table) (k : KEY_T) (v : MAPPED_T) : Option (Table × Nat) :=
  let h := t.bucket cfg k
  match t.free_slot h (min (h + cfg.H) t.bucket_count) with
  | some j => some (t.place h j k v, j)
  | none =>
    match t.free_slot (h + cfg.H) t.bucket_count with
    | none => none
    | some j =>
      match displace cfg j t h j with
      | none => none
      | some (t', j') => some (t'.place h j' k v, j')

/-- Modelled from the spec: the rehash test of the resize of hop_hash.h (§4.2
"Resize": entries that now belong to the new segment): does the key of this
content hash into the new segment once the bucket count has doubled from `n`
to `2n`? -/
def migrates (cfg : Config) (n : Nat) (c : Option (KEY_T × MAPPED_T)) : Bool :=
  match c with
  | none => false
  | some kv => decide (n ≤ cfg.hf kv.1 % (2 * n))

/-- The owner bitmap `o` restricted to the bits `i < H` with `p i` (used by the
resize below). -/
def owner_keep (H : Nat) (p : Nat → Bool) (o : Nat) : Nat :=
  (List.range H).foldl (fun acc i => if o.testBit i && p i then bit_set acc i else acc) 0

/-- Modelled from the spec: the resize of hop_hash.h (§4.2 "Resize").  A new
segment of size
equal to the current bucket count is appended to the directory.  Every old
bucket `s` is rehashed in place: an entry it owns whose key now hashes to
`s + n` migrates to the new segment, keeping its distance from the owner; the
other entries stay.  The definition gives the state when the cursor has
reached the end. -/
def resize (cfg : Config) (t : Table) : Table :=
  let n := t.bucket_count
  let senior (s : Nat) : Bucket :=
    let b := t.bucket_at s
    { b with
      owner := owner_keep cfg.H (fun i => !(migrates cfg n (t.content_at (s + i)))) b.owner
      content := if migrates cfg n b.content then none else b.content }
  let junior (s : Nat) : Bucket :=
    let b := t.bucket_at s
    { owner := owner_keep cfg.H (fun i => migrates cfg n (t.content_at (s + i))) b.owner
      content := if migrates cfg n b.content then b.content else none
      readers := 0
      writer := false }
  { segment_count := t.segment_count + 1
    buckets := (List.range n).map senior ++ (List.range n).map junior }

/-- Modelled from the spec: the "resize, retry" loop of `table::emplace`
(hop_hash.h, §4.2 insert step 2).
`room` is the number of free entries of the segment directory; when it is
used up the resize cannot allocate (§4.2 "insufficient-space") and
`std::bad_alloc` is thrown.  A returned value is the slot of the new key. -/
def insert_loop (cfg : Config) (k : KEY_T) (v : MAPPED_T) : Nat → Table → Outcome Nat × Table
  | 0, t =>
    match t.try_insert cfg k v with
    | some (t', j) => (.returned j, t')
    | none => (.thrown .bad_alloc, t)
  | room + 1, t =>
    match t.try_insert cfg k v with
    | some (t', j) => (.returned j, t')
    | none => insert_loop cfg k v room (t.resize cfg)

/-- Modelled from the spec: `table::emplace` (hop_hash.h, §4.2 "Insert", "Resize",
"Failure conditions").  An equal key in the neighbourhood is a duplicate: the
table is unchanged and the answer is `(slot, false)`.  Otherwise the table is
first resized if the load factor exceeds the configured threshold (and the
directory has room), then the key is inserted; the answer is `(slot, true)`. -/
def emplace (cfg : Config) (t : Table) (k : KEY_T) (v : MAPPED_T) : Outcome (Nat × Bool) × Table :=
  match t.locate_key cfg k with
  | some j => (.returned (j, false), t)
  | none =>
    let t1 :=
      if cfg.load_exceeded t.size t.bucket_count && decide (t.segment_count < cfg.segment_capacity)
      then t.resize cfg else t
    match insert_loop cfg k v (cfg.segment_capacity - t1.segment_count) t1 with
    | (.returned j, t') => (.returned (j, true), t')
    | (.thrown e, t') => (.thrown e, t')

/-- Modelled from the spec: `table::erase` (hop_hash.h, §4.2 "Erase"): locate as in
lookup; mark the content clear; clear the bit in `owner[h]`.  The answer is
the number of entries erased. -/
def erase (cfg : Config) (t : Table) (k : KEY_T) : Nat × Table :=
  match t.locate_key cfg k with
  | none => (0, t)
  | some j =>
    let h := t.bucket cfg k
    (1, (t.set_content j none).set_owner h (bit_clear (t.owner_at h) (j - h)))

/-- Modelled from the spec: the constructor of the table (hop_hash.h, §3
"Segment", "Lifecycles"): one segment of
`2^k` clear buckets. -/
def create (k : Nat) : Table :=
  { segment_count := 1, buckets := List.replicate (2 ^ k) clear_bucket }

/-! ### The bucket lock -/

/-- Modelled from the spec: `try_lock_shared` of the bucket lock, a
`hstore_shared_mutex` (dummy_shared_mutex.h or `std::shared_timed_mutex`; §5
"Scheduling model"): a no-op that succeeds in the single-threaded
configuration, a shared/exclusive lock in the multi-per-pool one. -/
def try_lock_shared (cfg : Config) (b : Bucket) : Bool × Bucket :=
  if cfg.thread_safe_hash then
    if b.writer then (false, b) else (true, { b with readers := b.readers + 1 })
  else (true, b)

/-- Modelled from the spec: `try_lock` (exclusive) of the bucket lock, a
`hstore_shared_mutex` (dummy_shared_mutex.h or `std::shared_timed_mutex`, §5). -/
def try_lock_unique (cfg : Config) (b : Bucket) : Bool × Bucket :=
  if cfg.thread_safe_hash then
    if b.writer || decide (0 < b.readers) then (false, b) else (true, { b with writer := true })
  else (true, b)

/-- Modelled from the spec: `unlock` / `unlock_shared` of the bucket lock, a
`hstore_shared_mutex` (dummy_shared_mutex.h or `std::shared_timed_mutex`, §5). -/
def unlock_bucket (cfg : Config) (b : Bucket) : Bucket :=
  if cfg.thread_safe_hash then
    if b.writer then { b with writer := false } else { b with readers := b.readers - 1 }
  else b

/-- Modelled from the spec: `table::lock_shared(key)` (hop_hash.h): try to take the
shared lock of the bucket that holds the key (§4.5 `lock`, §5). -/
def lock_shared (cfg : Config) (t : Table) (k : KEY_T) : Outcome Bool × Table :=
  match t.locate_key cfg k with
  | none => (.thrown .out_of_range, t)
  | some j =>
    let r := try_lock_shared cfg (t.bucket_at j)
    (.returned r.1, t.update j (fun _ => r.2))

/-- Modelled from the spec: `table::lock_unique(key)` (hop_hash.h): try to take the
exclusive lock of the bucket that holds the key (§4.3 step 1, §5). -/
def lock_unique (cfg : Config) (t : Table) (k : KEY_T) : Outcome Bool × Table :=
  match t.locate_key cfg k with
  | none => (.thrown .out_of_range, t)
  | some j =>
    let r := try_lock_unique cfg (t.bucket_at j)
    (.returned r.1, t.update j (fun _ => r.2))

/-- Modelled from the spec: `table::unlock(key)` (hop_hash.h): release the lock of the
bucket that holds the key; `std::out_of_range` when the key is absent (as
`hstore::unlock` expects). -/
def unlock (cfg : Config) (t : Table) (k : KEY_T) : Outcome Unit × Table :=
  match t.locate_key cfg k with
  | none => (.thrown .out_of_range, t)
  | some j => (.returned (), t.update j (unlock_bucket cfg))

end Table

/-! ## The session (modelled from the specification) -/

/-- Class `IKVStore::Operation` and its subclasses (kvstore_itf.h:87-124).
`Operation_write` is the only class of the interface that can be
constructed; `data` is the memory its pointer refers to. -/
inductive Operation where
  | Operation_write (offset len : Nat) (data : Bytes)
deriving DecidableEq, Repr

/-- Modelled from the spec: class `session` (declared at hstore.cpp:147 and
defined outside the listed sources; §3 "Session"): the table view over the
mapped pool. -/
structure session_t where
  map : Table
deriving DecidableEq, Repr

/-- Write `src` into `v` at `offset`. -/
def write_at (v : Bytes) (offset : Nat) (src : Bytes) : Bytes :=
  v.take offset ++ src ++ v.drop (offset + src.length)

/-- Modelled from the spec: one operation of the atomic controller
(atomic_controller.h) on the mapped value bytes (§4.3, `WRITE(offset, len, bytes)`); `none` when the
operation does not fit the value or its source. -/
def apply_op (v : Bytes) : Operation → Option Bytes
  | .Operation_write offset len data =>
    if offset + len ≤ v.length ∧ len ≤ data.length then some (write_at v offset (data.take len))
    else none

/-- Modelled from the spec: the operations of the atomic controller
(atomic_controller.h) applied in order (§4.3 step 3). -/
def apply_ops : Bytes → List Operation → Option Bytes
  | v, [] => some v
  | v, op :: ops =>
    match apply_op v op with
    | none => none
    | some v' => apply_ops v' ops

namespace session_t

/-- Modelled from the spec: `session::enter_update` (not among the sources;
§4.3): for each
operation in order, write into the mapped value bytes of the key.  An absent
key raises `std::out_of_range`.  The spec does not say what happens to an
operation that does not fit; the model answers `E_BAD_OFFSET` and changes
nothing. -/
def enter_update (cfg : Config) (s : session_t) (k : KEY_T) (ops : List Operation) :
    Outcome status_t × session_t :=
  match s.map.locate_key cfg k with
  | none => (.thrown .out_of_range, s)
  | some j =>
    match s.map.content_at j with
    | none => (.thrown .out_of_range, s)
    | some kv =>
      match apply_ops kv.2 ops with
      | none => (.returned E_BAD_OFFSET, s)
      | some v' => (.returned S_OK, { s with map := s.map.set_content j (some (kv.1, v')) })

/-- Modelled from the spec: `session::enter_replace` (not among the sources;
§4.5 "overwrite if
different size (reallocate)"): the value of the key becomes a new string with
the given bytes.  An absent key raises `std::out_of_range`. -/
def enter_replace (cfg : Config) (s : session_t) (k : KEY_T) (value : Bytes) :
    Outcome status_t × session_t :=
  match s.map.locate_key cfg k with
  | none => (.thrown .out_of_range, s)
  | some j =>
    match s.map.content_at j with
    | none => (.thrown .out_of_range, s)
    | some kv => (.returned S_OK, { s with map := s.map.set_content j (some (kv.1, value)) })

end session_t

/-! ## hstore.cpp -/

/-- Class `hstore`: the pool registry `_pools` (a `std::map` from the address
of a tracked pool to the pool it owns) and the calling thread's `tls_cache`
(a `std::set` of such addresses). -/
structure hstore where
  _pools : List (pool_t × session_t)
  tls_cache : List pool_t
deriving DecidableEq, Repr

/-- Is the exception a `std::exception`?  (`API_exception` and
`General_exception` derive from the `Exception` class of
`common/exceptions.h`, not from `std::exception`.) -/
def Exn.is_std_exception : Exn → Bool
  | .invalid_argument => true
  | .out_of_range => true
  | .bad_alloc => true
  | .regex_error => true
  | _ => false

/-- The C library `memcpy(dst, src, n)`: the buffer `dst` afterwards.  `none`
when `n` bytes do not fit `dst` or are not available in `src` (undefined
behaviour). -/
def memcpy (dst src : Bytes) (n : Nat) : Option Bytes :=
  if n ≤ dst.length ∧ n ≤ src.length then some (src.take n ++ dst.drop n) else none

/-- The C library `malloc(n)`: a fresh buffer of `n` uninitialised bytes;
`malloc(0)` may answer a null pointer.  Exhaustion of the process heap is
not modelled. -/
def malloc (cfg : Config) (n : Nat) : Option Bytes :=
  if n = 0 ∧ cfg.malloc0_null then none else some ((List.range n).map cfg.uninit)

namespace hstore

/-- The pool object an address refers to: the registry owns it. -/
def deref (st : hstore) (pid : pool_t) : Option session_t := st._pools.lookup pid

/-- Write through a reference to the pool object at `pid`. -/
def set_session (st : hstore) (pid : pool_t) (s : session_t) : hstore :=
  { st with _pools := st._pools.map (fun p => if p.1 = pid then (pid, s) else p) }

/-- The state in which the address `pid` is in the thread's cache (what a
successful `locate_open_pool` leaves behind). -/
def cached (st : hstore) (pid : pool_t) : hstore :=
  { st with tls_cache := if pid ∈ st.tls_cache then st.tls_cache else pid :: st.tls_cache }

/-- Function `hstore::locate_open_pool` (hstore.cpp:166-181). -/
def locate_open_pool (st : hstore) (pid : pool_t) : Outcome session_t × hstore :=
  if pid ∈ st.tls_cache then
    match st.deref pid with
    | some s => (.returned s, st)
    | none => (.thrown .fault, st)
  else
    match st._pools.lookup pid with
    | none => (.thrown .API_exception, st)
    | some s => (.returned s, { st with tls_cache := pid :: st.tls_cache })

/-- Function `hstore::locate_session` (hstore.cpp:161-164). -/
def locate_session (st : hstore) (pid : pool_t) : Outcome session_t × hstore :=
  st.locate_open_pool pid

/-- Constructor and destructor of class `maybe_lock` (hstore.cpp:579-606)
around a body: take the unique lock of the key if asked, run the body,
release the lock if it was taken (also when the body throws). -/
def maybe_lock (cfg : Config) (s : session_t) (k : KEY_T) (take_ : Bool)
    (body : session_t → Outcome status_t × session_t) : Outcome status_t × session_t :=
  if take_ then
    match s.map.lock_unique cfg k with
    | (.thrown e, m) => (.thrown e, { s with map := m })
    | (.returned false, m) => (.thrown .General_exception, { s with map := m })
    | (.returned true, m) =>
      let r := body { s with map := m }
      (r.1, { r.2 with map := (r.2.map.unlock cfg k).2 })
  else body s

/-- Function `hstore::atomic_update` (hstore.cpp:761-779). -/
def atomic_update (cfg : Config) (st : hstore) (pool : pool_t) (key : String)
    (op_vector : List Operation) (take_lock : Bool) : Outcome status_t × hstore :=
  match st.locate_session pool with
  | (.thrown e, st1) => if e.is_std_exception then (.returned E_FAIL, st1) else (.thrown e, st1)
  | (.returned session, st1) =>
    match maybe_lock cfg session key take_lock (fun s => s.enter_update cfg key op_vector) with
    | (.thrown e, s') =>
      if e.is_std_exception then (.returned E_FAIL, st1.set_session pool s')
      else (.thrown e, st1.set_session pool s')
    | (.returned r, s') => (.returned r, st1.set_session pool s')

/-- Function `hstore::update_by_issue_41` (hstore.cpp:348-380).  The byte
range `value .. value + value_len` is given by its bytes. -/
def update_by_issue_41 (cfg : Config) (st : hstore) (pool : pool_t) (key : String)
    (value : Bytes) (old_value_len : Nat) : Outcome status_t × hstore :=
  if value.length ≠ old_value_len then
    match st.locate_session pool with
    | (.thrown e, st1) => if e.is_std_exception then (.returned E_FAIL, st1) else (.thrown e, st1)
    | (.returned session, st1) =>
      match session.enter_replace cfg key value with
      | (.thrown e, s') =>
        if e.is_std_exception then (.returned E_FAIL, st1.set_session pool s')
        else (.thrown e, st1.set_session pool s')
      | (.returned r, s') => (.returned r, st1.set_session pool s')
  else
    match st.atomic_update cfg pool key [.Operation_write 0 value.length value] false with
    | (.thrown e, st1) => if e.is_std_exception then (.returned E_FAIL, st1) else (.thrown e, st1)
    | r => r

/-- Function `hstore::put` (hstore.cpp:307-346).  `value` is `none` for a null
pointer and otherwise the bytes `value .. value + value_len`. -/
def put (cfg : Config) (st : hstore) (pool : pool_t) (key : String) (value : Option Bytes) :
    Outcome status_t × hstore :=
  match value with
  | none => (.thrown .invalid_argument, st)
  | some cvalue =>
    match st.locate_session pool with
    | (.thrown e, st1) => (.thrown e, st1)
    | (.returned session, st1) =>
      match session.map.emplace cfg key cvalue with
      | (.thrown e, m) => (.thrown e, st1.set_session pool { session with map := m })
      | (.returned i, m) =>
        let st2 := st1.set_session pool { session with map := m }
        if i.2 then (.returned S_OK, st2)
        else
          st2.update_by_issue_41 cfg pool key cvalue
            (((m.content_at i.1).map (fun kv => kv.2.length)).getD 0)

/-- Function `hstore::put_direct` (hstore.cpp:389-396). -/
def put_direct (cfg : Config) (st : hstore) (pool : pool_t) (key : String) (value : Option Bytes) :
    Outcome status_t × hstore :=
  st.put cfg pool key value

/-- The status and the reference parameters of `get` and `get_direct` on return. -/
structure get_result where
  status : status_t
  out_value : Option Bytes
  out_value_len : Nat
deriving DecidableEq, Repr

/-- Function `hstore::get` (hstore.cpp:398-428).  `out_value` is `none` for a
null pointer and otherwise the caller's buffer. -/
def get (cfg : Config) (st : hstore) (pool : pool_t) (key : String)
    (out_value : Option Bytes) (out_value_len : Nat) : Outcome get_result × hstore :=
  match st.locate_session pool with
  | (.thrown .fault, st1) => (.thrown .fault, st1)
  | (.thrown _, st1) => (.thrown .General_exception, st1)
  | (.returned session, st1) =>
    match session.map.at_ cfg key with
    | .thrown .out_of_range => (.returned ⟨E_KEY_NOT_FOUND, out_value, out_value_len⟩, st1)
    | .thrown _ => (.thrown .General_exception, st1)
    | .returned v =>
      if out_value.isNone ∨ out_value_len = 0 then
        match malloc cfg v.length with
        | none => (.thrown .General_exception, st1)
        | some buf =>
          match memcpy buf v v.length with
          | none => (.thrown .fault, st1)
          | some buf' => (.returned ⟨S_OK, some buf', v.length⟩, st1)
      else
        match out_value.bind (fun buf => memcpy buf v out_value_len) with
        | none => (.thrown .fault, st1)
        | some buf' => (.returned ⟨S_OK, some buf', out_value_len⟩, st1)

/-- Function `hstore::get_direct` (hstore.cpp:430-474). -/
def get_direct (cfg : Config) (st : hstore) (pool : pool_t) (key : String)
    (out_value : Option Bytes) (out_value_len : Nat) : Outcome get_result × hstore :=
  match st.locate_session pool with
  | (.thrown .fault, st1) => (.thrown .fault, st1)
  | (.thrown _, st1) => (.thrown .General_exception, st1)
  | (.returned session, st1) =>
    match session.map.at_ cfg key with
    | .thrown .out_of_range => (.returned ⟨E_KEY_NOT_FOUND, out_value, out_value_len⟩, st1)
    | .thrown _ => (.thrown .General_exception, st1)
    | .returned v =>
      let value_len := v.length
      if out_value_len < value_len then
        (.returned ⟨E_INSUFFICIENT_BUFFER, out_value, out_value_len⟩, st1)
      else
        match out_value.bind (fun buf => memcpy buf v value_len) with
        | none => (.thrown .fault, st1)
        | some buf' => (.returned ⟨S_OK, some buf', value_len⟩, st1)

/-- Function `hstore::erase` (hstore.cpp:657-673). -/
def erase (cfg : Config) (st : hstore) (pool : pool_t) (key : String) : Outcome status_t × hstore :=
  match st.locate_session pool with
  | (.thrown .fault, st1) => (.thrown .fault, st1)
  | (.thrown _, st1) => (.thrown .General_exception, st1)
  | (.returned session, st1) =>
    let r := session.map.erase cfg key
    (.returned (if r.1 = 0 then E_KEY_NOT_FOUND else S_OK),
      st1.set_session pool { session with map := r.2 })

/-- Function `hstore::count` (hstore.cpp:675-679). -/
def count (st : hstore) (pool : pool_t) : Outcome Nat × hstore :=
  match st.locate_session pool with
  | (.thrown e, st1) => (.thrown e, st1)
  | (.returned session, st1) => (.returned session.map.size, st1)

/-- Function `try_lock` (hstore.cpp:492-502). -/
def try_lock (cfg : Config) (map : Table) (type : lock_type_t) (p_key : KEY_T) :
    Outcome Bool × Table :=
  if type = .STORE_LOCK_READ then map.lock_shared cfg p_key else map.lock_unique cfg p_key

/-- The handle and the reference parameters of `lock` on return.  `out_value`
points into the store: it is given by the bytes it points to. -/
structure lock_result where
  handle : key_t
  out_value : Option Bytes
  out_value_len : Nat
deriving DecidableEq, Repr

/-- The handler `catch ( std::out_of_range & )` of `hstore::lock`
(hstore.cpp:523-548) followed by the final `return`: the key was not found,
so it is created with value space of `out_value_len` bytes. -/
def lock_key_not_found (cfg : Config) (st1 : hstore) (pool : pool_t) (session : session_t)
    (key : String) (out_value : Option Bytes) (out_value_len : Nat) : Outcome lock_result × hstore :=
  match session.map.emplace cfg key ((List.range out_value_len).map cfg.uninit) with
  | (.thrown e, m) => (.thrown e, st1.set_session pool { session with map := m })
  | (.returned r, m) =>
    let st2 := st1.set_session pool { session with map := m }
    if ! r.2 then (.returned ⟨KEY_NONE, out_value, out_value_len⟩, st2)
    else
      let v := ((m.content_at r.1).map (fun kv => kv.2)).getD []
      (.returned ⟨some key, some v, v.length⟩, st2)

/-- Function `hstore::lock` (hstore.cpp:504-550). -/
def lock (cfg : Config) (st : hstore) (pool : pool_t) (key : String) (type : lock_type_t)
    (out_value : Option Bytes) (out_value_len : Nat) : Outcome lock_result × hstore :=
  match st.locate_session pool with
  | (.thrown e, st1) => (.thrown e, st1)
  | (.returned session, st1) =>
    match session.map.at_ cfg key with
    | .returned val =>
      match try_lock cfg session.map type key with
      | (.thrown .out_of_range, m) =>
        lock_key_not_found cfg st1 pool { session with map := m } key out_value out_value_len
      | (.thrown e, m) => (.thrown e, st1.set_session pool { session with map := m })
      | (.returned false, m) =>
        (.returned ⟨KEY_NONE, out_value, out_value_len⟩, st1.set_session pool { session with map := m })
      | (.returned true, m) =>
        (.returned ⟨some key, some val, val.length⟩, st1.set_session pool { session with map := m })
    | .thrown .out_of_range => lock_key_not_found cfg st1 pool session key out_value out_value_len
    | .thrown e => (.thrown e, st1)

/-- Function `hstore::unlock` (hstore.cpp:553-577). -/
def unlock (cfg : Config) (st : hstore) (pool : pool_t) (key_ : key_t) : Outcome status_t × hstore :=
  match key_ with
  | none => (.returned S_OK, st)
  | some key =>
    match st.locate_session pool with
    | (.thrown .fault, st1) => (.thrown .fault, st1)
    | (.thrown .out_of_range, st1) => (.returned E_KEY_NOT_FOUND, st1)
    | (.thrown _, st1) => (.thrown .General_exception, st1)
    | (.returned session, st1) =>
      match session.map.unlock cfg key with
      | (.thrown .fault, m) => (.thrown .fault, st1.set_session pool { session with map := m })
      | (.thrown .out_of_range, m) =>
        (.returned E_KEY_NOT_FOUND, st1.set_session pool { session with map := m })
      | (.thrown _, m) => (.thrown .General_exception, st1.set_session pool { session with map := m })
      | (.returned _, m) => (.returned S_OK, st1.set_session pool { session with map := m })

/-- Modelled from the spec: `_pool_manager->pool_create` (hstore_nupm.h is
not among the sources): a session over an empty table (§3 "Lifecycles") whose
first segment has `2^seg_log` buckets. -/
def pool_create (seg_log : Nat) : session_t := { map := Table.create seg_log }

/-- Function `hstore::create_pool` (hstore.cpp:220-246).  `c` is the answer
of `pool_create_check(size_)`, `p` the address of the session that
`pool_create` allocates, `seg_log` the size it chooses for the table.  The
returned `pool_t` is a `uint64_t`. -/
def create_pool (st : hstore) (c : status_t) (p : pool_t) (seg_log : Nat) : pool_t × hstore :=
  if c ≠ S_OK then ((c % 2 ^ 64).toNat, st)
  else
    match st._pools.lookup p with
    | some _ => (p, st)
    | none => (p, { st with _pools := st._pools ++ [(p, pool_create seg_log)] })

end hstore

/-! ## hstore.cpp: iteration and the pool life cycle -/

namespace Table

/-- Modelled from the spec: the bucket-local range `begin(n) … end(n)` of the
table (hop_hash.h): the slots that bucket `h` owns, owner bits least
significant first (§4.2 "Lookup", "Ordering and tie-breaks"). -/
def owned_slots (cfg : Config) (t : Table) (h : Nat) : List Nat :=
  ((List.range cfg.H).filter (fun i => (t.owner_at h).testBit i)).map (fun i => h + i)

/-- Modelled from the spec: the iteration `begin() … end()` over the table
(hop_hash.h): every live entry, in bucket-directory order (§4.5 `map`). -/
def entries (cfg : Config) (t : Table) : List (KEY_T × MAPPED_T) :=
  ((List.range t.bucket_count).flatMap (t.owned_slots cfg)).filterMap t.content_at

end Table

namespace hstore

/-- One invocation of the functor given to `hstore::map`: the arguments
`(key, val, val_len)` and what the functor returned. -/
structure map_call where
  key : String
  val : Bytes
  val_len : Nat
  result : Int
deriving DecidableEq, Repr

/-- Function `_functor` (hstore.cpp:727-738): call the functor on the key and
the mapped value; the answer of the functor is dropped and 0 is returned. -/
def _functor (key : String) (m : MAPPED_T) (lambda : String → Bytes → Nat → Int) :
    Int × map_call :=
  (0, ⟨key, m, m.length, lambda key m m.length⟩)

/-- Function `hstore::map` (hstore.cpp:741-759): the status, and the
invocations of the functor in order. -/
def map (cfg : Config) (st : hstore) (pool : pool_t) (function : String → Bytes → Nat → Int) :
    Outcome (status_t × List map_call) × hstore :=
  match st.locate_session pool with
  | (.thrown e, st1) => (.thrown e, st1)
  | (.returned session, st1) =>
    (.returned (S_OK, (session.map.entries cfg).map (fun mt => (_functor mt.1 mt.2 function).2)),
      st1)

/-- Function `hstore::move_pool` (hstore.cpp:183-198). -/
def move_pool (st : hstore) (pid : pool_t) : Outcome session_t × hstore :=
  match st._pools.lookup pid with
  | none => (.thrown .API_exception, st)
  | some s2 =>
    (.returned s2,
      { _pools := st._pools.filter (fun p => p.1 ≠ pid)
        tls_cache := st.tls_cache.filter (fun q => q ≠ pid) })

/-- Function `hstore::close_pool` (hstore.cpp:260-276).  `pool_close_check`
is what `_pool_manager->pool_close_check` does (hstore_nupm.h, outside the
listed sources): it returns or throws, and does not touch the registry. -/
def close_pool (st : hstore) (pid : pool_t) (pool_close_check : Outcome Unit) :
    Outcome Unit × hstore :=
  match st.move_pool pid with
  | (.thrown e, st1) => (.thrown e, st1)
  | (.returned _, st1) => (pool_close_check, st1)

/-- Function `hstore::delete_pool(pool_t)` (hstore.cpp:289-305).
`pool_delete` is what `_pool_manager->pool_delete` does (hstore_nupm.h,
outside the listed sources). -/
def delete_pool (st : hstore) (pid : pool_t) (pool_delete : Outcome Unit) :
    Outcome Unit × hstore :=
  match st.move_pool pid with
  | (.thrown e, st1) => (.thrown e, st1)
  | (.returned _, st1) => (pool_delete, st1)

/-- Function `hstore::open_pool` (hstore.cpp:248-258).  `s` is the session
that `_pool_manager->pool_open` builds over the mapped pool and `p` its
address. -/
def open_pool (st : hstore) (p : pool_t) (s : session_t) : pool_t × hstore :=
  match st._pools.lookup p with
  | some _ => (p, st)
  | none => (p, { st with _pools := st._pools ++ [(p, s)] })

end hstore

/-- The calls `put(k₁, v₁); …; put(kₙ, vₙ)` on one pool, in order: the store
they leave and whether every call returned `S_OK`. -/
def hstore.put_all (cfg : Config) (pool : pool_t) : hstore → List (String × Bytes) → hstore × Bool
  | st, [] => (st, true)
  | st, kv :: rest =>
    let r := st.put cfg pool kv.1 (some kv.2)
    let q := hstore.put_all cfg pool r.2 rest
    (q.1, decide (r.1 = .returned S_OK) && q.2)

/-! ## fabric_comm_grouped.cpp: the grouped completion demultiplexer -/

namespace Fabric

/-- The address of a `Fabric_comm_grouped` object (a group). -/
abbrev group_t := Nat

/-- An address of an `async_req_record`, as carried in `op_context`. -/
abbrev addr_t := Nat

/-- Modelled from the spec: class `async_req_record` (async_req_record.h is
not among the sources): the pair `{group, user_context}` (§4.6). -/
structure async_req_record where
  comm : group_t
  context : Nat
deriving DecidableEq, Repr

/-- Modelled from the spec: `Fabric_op_control::fi_cq_entry_t`
(fabric_op_control.h is not among the sources), with the fields the source
reads and writes (fabric_comm_grouped.cpp:313). -/
structure fi_cq_entry_t where
  op_context : addr_t
  flags : Nat
  len : Nat
  buf : Nat
  data : Nat
deriving DecidableEq, Repr

/-- Type `completion_t`: a completion entry and its status (fabric_comm_grouped.cpp:213). -/
abbrev completion_t := fi_cq_entry_t × status_t

/-- Modelled from the spec: `cb_acceptance` of the fabric interface
(fabric_itf.h is not among the sources): the source names `ACCEPT`; every
other answer is a reject (§4.6). -/
inductive cb_acceptance where
  | ACCEPT
  | DEFER
deriving DecidableEq, Repr

/-- Member `_stats` of a group (the counters are `std::size_t`; each
increment takes a completion, so they are not taken modulo `2^64`). -/
structure stats where
  ct_total : Nat
  defer_total : Nat
  redirect_total : Nat
deriving DecidableEq, Repr

/-- Class `Fabric_comm_grouped`: the deferred queue `_completions`, front
first, and the counters. -/
structure Fabric_comm_grouped where
  _completions : List completion_t
  _stats : stats
deriving DecidableEq, Repr

/-- One invocation of a completion callback: the group whose poll made it and
the arguments (`flags`, `len` are absent for `complete_old`; `cb_param`
is present for the `param` flavors; `error_data` is always null). -/
structure cb_call where
  comm : group_t
  context : Nat
  status : status_t
  flags : Option Nat
  len : Option Nat
  cb_param : Option Nat
deriving DecidableEq, Repr

/-- A `struct iovec`. -/
structure iovec where
  iov_base : Nat
  iov_len : Nat
deriving DecidableEq, Repr

/-- The posting operations of the connection. -/
inductive post_kind where
  | post_send
  | post_recv
  | post_read
  | post_write
deriving DecidableEq, Repr

/-- One call of a posting operation of the connection: the buffers
`first_ .. last_`, the descriptors (absent in the overloads without
`desc_`), remote address and key (for read and write), and the operation
context. -/
structure post_call where
  kind : post_kind
  buffers : List iovec
  desc : Option (List Nat)
  remote_addr : Option Nat
  key : Option Nat
  context : addr_t
deriving DecidableEq, Repr

/-- The result of one call `ct = _conn.cq_read(&entry, 1)`: a non-negative
value `ct` with the completion entry written to `entry`, or a negative value
`ct = -errno` with `errno >= 1` (`ct` is a `ssize_t`, so `errno` need not fit
in 32 bits); `err` is what `_conn.get_cq_comp_err()` then yields, should the
poll ask for it. -/
inductive cq_event where
  | completion (entry : fi_cq_entry_t)
  | error (errno : ℕ+) (err : fi_cq_entry_t)
deriving DecidableEq

/-- The conversion `unsigned(x)` of a non-negative `x`: its value modulo
`2^32`. -/
def unsigned (x : Nat) : Nat := x % 2 ^ 32

/-- The error numbers of libfabric (rdma/fi_errno.h, not among the sources). -/
def FI_EINTR : Nat := 4
def FI_EAGAIN : Nat := 11
def FI_EAVAIL : Nat := 259

/-- The outcome of a call: a value, the exception `fabric_runtime_error`, or
undefined behaviour (an `op_context` that is no live `async_req_record`). -/
inductive Result (α : Type) where
  | returned (a : α)
  | fabric_runtime_error (e : Nat)
  | fault
deriving DecidableEq, Repr

/-- Modelled from the spec: the parent connection `Fabric_generic_grouped`
(fabric_generic_grouped.h is not among the sources) with the objects it
refers to (§4.6, §6 "Fabric connection"): the shared completion queue `cq`
(what the next calls of `cq_read` find; when it is empty `cq_read` answers
`-FI_EAGAIN`), the groups it knows, the group objects by address, the live
async records by address, the posting calls it received, and the callback
invocations so far. -/
structure State where
  cq : List cq_event
  clients : List group_t
  comm : group_t → Fabric_comm_grouped
  records : addr_t → Option async_req_record
  posted : List post_call
  called : List cb_call

namespace State

/-- Write a group object. -/
def set_comm (st : State) (g : group_t) (c : Fabric_comm_grouped) : State :=
  { st with comm := Function.update st.comm g c }

/-- An async record is created at the address `a` (`new async_req_record`). -/
def new_record (st : State) (a : addr_t) (r : async_req_record) : State :=
  { st with records := Function.update st.records a (some r) }

/-- The async record at `a` is deleted (the `std::unique_ptr` that owns it
goes out of scope). -/
def free (st : State) (a : addr_t) : State :=
  { st with records := Function.update st.records a none }

/-- A completion callback is invoked. -/
def invoke (st : State) (c : cb_call) : State := { st with called := st.called ++ [c] }

/-- Statement `++_stats.redirect_total` of group `g`. -/
def incr_redirect_total (st : State) (g : group_t) : State :=
  st.set_comm g { st.comm g with
    _stats := { (st.comm g)._stats with redirect_total := (st.comm g)._stats.redirect_total + 1 } }

/-- Statement `++_stats.defer_total` of group `g`. -/
def incr_defer_total (st : State) (g : group_t) : State :=
  st.set_comm g { st.comm g with
    _stats := { (st.comm g)._stats with defer_total := (st.comm g)._stats.defer_total + 1 } }

/-- Statement `_stats.ct_total += ct_total` of group `g`. -/
def add_ct_total (st : State) (g : group_t) (ct_total : Nat) : State :=
  st.set_comm g { st.comm g with
    _stats := { (st.comm g)._stats with ct_total := (st.comm g)._stats.ct_total + ct_total } }

end State

/-- Modelled from the spec: the posting operations of the connection
(fabric_generic_grouped.h is not among the sources): the connection takes
the call (§4.6 "Posting"); a failure to post is not modelled. -/
def conn_post (st : State) (c : post_call) : State := { st with posted := st.posted ++ [c] }

/-- Function `Fabric_comm_grouped::queue_completion`
(fabric_comm_grouped.cpp:210-214). -/
def Fabric_comm_grouped.queue_completion (g : Fabric_comm_grouped) (status_ : status_t)
    (cq_entry_ : fi_cq_entry_t) : Fabric_comm_grouped :=
  { g with _completions := g._completions ++ [(cq_entry_, status_)] }

/-- Modelled from the spec: `Fabric_generic_grouped::queue_completion`
(fabric_generic_grouped.h is not among the sources): the completion is
pushed onto the deferred queue of the named group (§4.6 step 3); for a group
the connection has forgotten it goes nowhere (§4.6 "Lifetime"). -/
def conn_queue_completion (st : State) (comm_ : group_t) (status_ : status_t)
    (cq_entry_ : fi_cq_entry_t) : State :=
  if comm_ ∈ st.clients then st.set_comm comm_ ((st.comm comm_).queue_completion status_ cq_entry_)
  else st

end Fabric

namespace Fabric

/-! ### Posting -/

/-- Function `Fabric_comm_grouped::post_send`, the overload with `desc_`
(fabric_comm_grouped.cpp:69-79).  `gc` is the address of the record that
`new async_req_record(this, context_)` creates. -/
def post_send (this : group_t) (buffers : List iovec) (desc_ : List Nat) (context_ : Nat)
    (gc : addr_t) (st : State) : State :=
  conn_post (st.new_record gc ⟨this, context_⟩) ⟨.post_send, buffers, some desc_, none, none, gc⟩

/-- Function `Fabric_comm_grouped::post_send`, the overload taking a vector
(fabric_comm_grouped.cpp:81-89). -/
def post_send_vector (this : group_t) (buffers_ : List iovec) (context_ : Nat)
    (gc : addr_t) (st : State) : State :=
  conn_post (st.new_record gc ⟨this, context_⟩) ⟨.post_send, buffers_, none, none, none, gc⟩

/-- Function `Fabric_comm_grouped::post_recv`, the overload with `desc_`
(fabric_comm_grouped.cpp:99-109): it calls `_conn.post_send`. -/
def post_recv (this : group_t) (buffers : List iovec) (desc_ : List Nat) (context_ : Nat)
    (gc : addr_t) (st : State) : State :=
  conn_post (st.new_record gc ⟨this, context_⟩) ⟨.post_send, buffers, some desc_, none, none, gc⟩

/-- Function `Fabric_comm_grouped::post_recv`, the overload taking a vector
(fabric_comm_grouped.cpp:111-119). -/
def post_recv_vector (this : group_t) (buffers_ : List iovec) (context_ : Nat)
    (gc : addr_t) (st : State) : State :=
  conn_post (st.new_record gc ⟨this, context_⟩) ⟨.post_recv, buffers_, none, none, none, gc⟩

/-- Function `Fabric_comm_grouped::post_read`, the overload with `desc_`
(fabric_comm_grouped.cpp:131-144). -/
def post_read (this : group_t) (buffers : List iovec) (desc_ : List Nat) (remote_addr_ key_ : Nat)
    (context_ : Nat) (gc : addr_t) (st : State) : State :=
  conn_post (st.new_record gc ⟨this, context_⟩)
    ⟨.post_read, buffers, some desc_, some remote_addr_, some key_, gc⟩

/-- Function `Fabric_comm_grouped::post_read`, the overload taking a vector
(fabric_comm_grouped.cpp:146-157). -/
def post_read_vector (this : group_t) (buffers_ : List iovec) (remote_addr_ key_ : Nat)
    (context_ : Nat) (gc : addr_t) (st : State) : State :=
  conn_post (st.new_record gc ⟨this, context_⟩)
    ⟨.post_read, buffers_, none, some remote_addr_, some key_, gc⟩

/-- Function `Fabric_comm_grouped::post_write`, the overload with `desc_`
(fabric_comm_grouped.cpp:169-181). -/
def post_write (this : group_t) (buffers : List iovec) (desc_ : List Nat) (remote_addr_ key_ : Nat)
    (context_ : Nat) (gc : addr_t) (st : State) : State :=
  conn_post (st.new_record gc ⟨this, context_⟩)
    ⟨.post_write, buffers, some desc_, some remote_addr_, some key_, gc⟩

/-- Function `Fabric_comm_grouped::post_write`, the overload taking a vector
(fabric_comm_grouped.cpp:183-193). -/
def post_write_vector (this : group_t) (buffers_ : List iovec) (remote_addr_ key_ : Nat)
    (context_ : Nat) (gc : addr_t) (st : State) : State :=
  conn_post (st.new_record gc ⟨this, context_⟩)
    ⟨.post_write, buffers_, none, some remote_addr_, some key_, gc⟩

/-! ### Completion callbacks -/

/-- The callbacks that cannot reject: `complete_old`, `complete_definite`,
`complete_param_definite` (with the `cb_param_` given to the poll).  What
such a callback does is outside the demultiplexer; the invocation is
recorded. -/
inductive definite_completer where
  | complete_old
  | complete_definite
  | complete_param_definite (cb_param_ : Nat)
deriving DecidableEq, Repr

/-- The callbacks that answer a `cb_acceptance`: `complete_tentative` and
`complete_param_tentative` (with the `cb_param_` given to the poll).  The
answer may depend on the invocations made so far and on the arguments. -/
inductive tentative_completer where
  | complete_tentative (cb_ : List cb_call → cb_call → cb_acceptance)
  | complete_param_tentative (cb_ : List cb_call → cb_call → cb_acceptance) (cb_param_ : Nat)

/-- The arguments with which `cb_` is invoked in the definite flavors
(fabric_comm_grouped.cpp:222, 241, 279). -/
def definite_completer.call (cb_ : definite_completer) (this : group_t) (context : Nat)
    (status_ : status_t) (cq_entry_ : fi_cq_entry_t) : cb_call :=
  match cb_ with
  | .complete_old => ⟨this, context, status_, none, none, none⟩
  | .complete_definite => ⟨this, context, status_, some cq_entry_.flags, some cq_entry_.len, none⟩
  | .complete_param_definite cb_param_ =>
    ⟨this, context, status_, some cq_entry_.flags, some cq_entry_.len, some cb_param_⟩

/-- The arguments with which `cb_` is invoked in the tentative flavors
(fabric_comm_grouped.cpp:258, 295). -/
def tentative_completer.call (cb_ : tentative_completer) (this : group_t) (context : Nat)
    (status_ : status_t) (cq_entry_ : fi_cq_entry_t) : cb_call :=
  match cb_ with
  | .complete_tentative _ =>
    ⟨this, context, status_, some cq_entry_.flags, some cq_entry_.len, none⟩
  | .complete_param_tentative _ cb_param_ =>
    ⟨this, context, status_, some cq_entry_.flags, some cq_entry_.len, some cb_param_⟩

/-- The answer of a tentative callback to an invocation, after the
invocations `called`. -/
def tentative_completer.answer (cb_ : tentative_completer) (called : List cb_call) (c : cb_call) :
    cb_acceptance :=
  match cb_ with
  | .complete_tentative f => f called c
  | .complete_param_tentative f _ => f called c

/-! ### Routing one completion -/

/-- Function `Fabric_comm_grouped::process_or_queue_completion`, the
overloads for `complete_old`, `complete_definite` and
`complete_param_definite` (fabric_comm_grouped.cpp:216-252, 272-289). -/
def process_or_queue_completion (this : group_t) (cb_ : definite_completer)
    (cq_entry_ : fi_cq_entry_t) (status_ : status_t) (st : State) : Result Nat × State :=
  match st.records cq_entry_.op_context with
  | none => (.fault, st)
  | some g_context =>
    if g_context.comm = this then
      (.returned 1,
        (st.invoke (cb_.call this g_context.context status_ cq_entry_)).free cq_entry_.op_context)
    else
      (.returned 0,
        (conn_queue_completion st g_context.comm status_ cq_entry_).incr_redirect_total this)

/-- Function `Fabric_comm_grouped::process_or_queue_completion`, the
overloads for `complete_tentative` and `complete_param_tentative`
(fabric_comm_grouped.cpp:254-270, 291-307). -/
def process_or_queue_completion_tentative (this : group_t) (cb_ : tentative_completer)
    (cq_entry_ : fi_cq_entry_t) (status_ : status_t) (st : State) : Result Nat × State :=
  match st.records cq_entry_.op_context with
  | none => (.fault, st)
  | some g_context =>
    if g_context.comm = this then
      let c := cb_.call this g_context.context status_ cq_entry_
      if cb_.answer st.called c = .ACCEPT then
        (.returned 1, (st.invoke c).free cq_entry_.op_context)
      else
        (.returned 0,
          (conn_queue_completion (st.invoke c) g_context.comm status_ cq_entry_).incr_defer_total
            this)
    else
      (.returned 0,
        (conn_queue_completion st g_context.comm status_ cq_entry_).incr_redirect_total this)

/-- Function `Fabric_comm_grouped::process_cq_comp_err`, definite flavors
(fabric_comm_grouped.cpp:309-323, 333-339); `e` is what
`_conn.get_cq_comp_err()` yields. -/
def process_cq_comp_err (this : group_t) (cb_ : definite_completer) (e : fi_cq_entry_t)
    (st : State) : Result Nat × State :=
  process_or_queue_completion this cb_ ⟨e.op_context, e.flags, e.len, e.buf, e.data⟩ E_FAIL st

/-- Function `Fabric_comm_grouped::process_cq_comp_err`, tentative flavors
(fabric_comm_grouped.cpp:325-331, 341-347). -/
def process_cq_comp_err_tentative (this : group_t) (cb_ : tentative_completer) (e : fi_cq_entry_t)
    (st : State) : Result Nat × State :=
  process_or_queue_completion_tentative this cb_ ⟨e.op_context, e.flags, e.len, e.buf, e.data⟩
    E_FAIL st

end Fabric

namespace Fabric

/-! ### Draining the deferred queue -/

/-- The loop of `drain_old_completions` in the definite flavors: `queue` is
`_completions`. -/
def drain_loop (this : group_t) (cb_ : definite_completer) :
    List completion_t → State → Result Nat × State
  | [], st => (.returned 0, st)
  | c :: rest, st =>
    let st0 := st.set_comm this { st.comm this with _completions := rest }
    match st0.records c.1.op_context with
    | none => (.fault, st0)
    | some g_context =>
      match drain_loop this cb_ rest
          ((st0.invoke (cb_.call this g_context.context c.2 c.1)).free c.1.op_context) with
      | (.returned ct_total, st1) => (.returned (ct_total + 1), st1)
      | r => r

/-- Function `Fabric_comm_grouped::drain_old_completions`, the overloads for
`complete_old`, `complete_definite` and `complete_param_definite`
(fabric_comm_grouped.cpp:357-391, 421-437). -/
def drain_old_completions (this : group_t) (cb_ : definite_completer) (st : State) :
    Result Nat × State :=
  drain_loop this cb_ (st.comm this)._completions st

/-- The loop of `drain_old_completions` in the tentative flavors, with the
final `std::swap`: `queue` is `_completions`, `deferred_completions` the
local queue of the rejected completions. -/
def drain_loop_tentative (this : group_t) (cb_ : tentative_completer) :
    List completion_t → List completion_t → State → Result Nat × State
  | [], deferred_completions, st =>
    (.returned 0, st.set_comm this { st.comm this with _completions := deferred_completions })
  | c :: rest, deferred_completions, st =>
    let st0 := st.set_comm this { st.comm this with _completions := rest }
    match st0.records c.1.op_context with
    | none => (.fault, st0)
    | some g_context =>
      let call := cb_.call this g_context.context c.2 c.1
      if cb_.answer st0.called call = .ACCEPT then
        match drain_loop_tentative this cb_ rest deferred_completions
            ((st0.invoke call).free c.1.op_context) with
        | (.returned ct_total, st1) => (.returned (ct_total + 1), st1)
        | r => r
      else
        drain_loop_tentative this cb_ rest (deferred_completions ++ [c])
          ((st0.invoke call).incr_defer_total this)

/-- Function `Fabric_comm_grouped::drain_old_completions`, the overloads for
`complete_tentative` and `complete_param_tentative`
(fabric_comm_grouped.cpp:393-419, 439-465). -/
def drain_old_completions_tentative (this : group_t) (cb_ : tentative_completer) (st : State) :
    Result Nat × State :=
  drain_loop_tentative this cb_ (st.comm this)._completions [] st

/-! ### Polling -/

/-- The loop `while ( ! drained )` of the polling functions
(fabric_comm_grouped.cpp:471-500 and its four copies): `events` is the shared
completion queue, `comp` the call of `process_or_queue_completion` and
`comp_err` that of `process_cq_comp_err` for the flavor.  On a negative
result `ct = -errno` the source switches on `e = unsigned(-ct)`. -/
def cq_loop (comp : fi_cq_entry_t → status_t → State → Result Nat × State)
    (comp_err : fi_cq_entry_t → State → Result Nat × State) :
    List cq_event → State → Result Nat × State
  | [], st => (.returned 0, st)
  | ev :: rest, st =>
    let st0 := { st with cq := rest }
    match ev with
    | .completion entry =>
      match comp entry S_OK st0 with
      | (.returned ct, st1) =>
        match cq_loop comp comp_err rest st1 with
        | (.returned ct_total, st2) => (.returned (ct + ct_total), st2)
        | r => r
      | r => r
    | .error errno err =>
      if unsigned errno = FI_EAVAIL then
        match comp_err err st0 with
        | (.returned ct, st1) =>
          match cq_loop comp comp_err rest st1 with
          | (.returned ct_total, st2) => (.returned (ct + ct_total), st2)
          | r => r
        | r => r
      else if unsigned errno = FI_EAGAIN then (.returned 0, st0)
      else if unsigned errno = FI_EINTR then cq_loop comp comp_err rest st0
      else (.fabric_runtime_error (unsigned errno), st0)

/-- Function `Fabric_comm_grouped::poll_completions`, the overloads for
`complete_old`, `complete_definite` and `complete_param_definite`
(fabric_comm_grouped.cpp:467-541, 582-618). -/
def poll_completions (this : group_t) (cb_ : definite_completer) (st : State) :
    Result Nat × State :=
  match drain_old_completions this cb_ st with
  | (.returned ct0, st1) =>
    match cq_loop (process_or_queue_completion this cb_) (process_cq_comp_err this cb_)
        st1.cq st1 with
    | (.returned ct1, st2) => (.returned (ct0 + ct1), st2.add_ct_total this (ct0 + ct1))
    | r => r
  | r => r

/-- Function `Fabric_comm_grouped::poll_completions_tentative`, both
overloads (fabric_comm_grouped.cpp:543-580, 620-657). -/
def poll_completions_tentative (this : group_t) (cb_ : tentative_completer) (st : State) :
    Result Nat × State :=
  match cq_loop (process_or_queue_completion_tentative this cb_)
      (process_cq_comp_err_tentative this cb_) st.cq st with
  | (.returned ct0, st1) =>
    match drain_old_completions_tentative this cb_ st1 with
    | (.returned ct1, st2) => (.returned (ct0 + ct1), st2.add_ct_total this (ct0 + ct1))
    | r => r
  | r => r

/-- Function `Fabric_comm_grouped::stalled_completion_count`
(fabric_comm_grouped.cpp:659-663). -/
def stalled_completion_count (this : group_t) (st : State) : Nat :=
  (st.comm this)._completions.length

end Fabric

/-! ## Concrete groups and completions -/

namespace Fabric

/-- Two groups, 1 and 2, over one connection; nothing posted yet. -/
def fab_0 : State := ⟨[], [1, 2], fun _ => ⟨[], ⟨0, 0, 0⟩⟩, fun _ => none, [], []⟩

/-- Two sends posted on group 1 (contexts 10, 11; records at 100, 101) and
two on group 2 (contexts 20, 21; records at 200, 201). -/
def fab_posted : State :=
  post_send_vector 2 [⟨7, 8⟩] 21 201
    (post_send_vector 2 [⟨7, 8⟩] 20 200
      (post_send_vector 1 [⟨7, 8⟩] 11 101 (post_send_vector 1 [⟨7, 8⟩] 10 100 fab_0)))

/-- The completion entry of the operation whose record is at `a`. -/
def entry_w (a : addr_t) : fi_cq_entry_t := ⟨a, 1, 8, 0, 0⟩

/-- The four completions have arrived, those of the two groups interleaved. -/
def fab_w : State :=
  { fab_posted with
    cq := [.completion (entry_w 100), .completion (entry_w 200), .completion (entry_w 101),
      .completion (entry_w 201)] }

/-- A tentative callback that rejects whatever it is offered. -/
def cb_reject : tentative_completer := .complete_tentative (fun _ _ => .DEFER)

/-- A tentative callback that accepts whatever it is offered. -/
def cb_accept : tentative_completer := .complete_tentative (fun _ _ => .ACCEPT)

/-- A tentative callback that rejects its first offer and accepts from then on. -/
def cb_second : tentative_completer :=
  .complete_param_tentative (fun called _ => if called = [] then .DEFER else .ACCEPT) 5

/-- One completion, of the operation posted on group 1 with context 10, has arrived. -/
def fab_1 : State :=
  { post_send_vector 1 [⟨7, 8⟩] 10 100 fab_0 with cq := [.completion (entry_w 100)] }

end Fabric

namespace Fabric

/-- The group named by the async record of a completion entry, if the
record is live. -/
def State.tag (st : State) (e : fi_cq_entry_t) : Option group_t :=
  (st.records e.op_context).map (fun r => r.comm)

/-- The user context in the async record of a completion entry. -/
def State.user_context (st : State) (e : fi_cq_entry_t) : Nat :=
  ((st.records e.op_context).map (fun r => r.context)).getD 0

/-- The completion entries, in order, whose record names the group `g`. -/
def State.tagged (st : State) (g : group_t) (es : List fi_cq_entry_t) : List fi_cq_entry_t :=
  es.filter (fun e => st.tag e = some g)

end Fabric

namespace Fabric

/-- The invocation of a tentative callback of group `this` for the
completion `c`, with the user context of its record in `st`. -/
def tentative_completer.offer (cb_ : tentative_completer) (this : group_t) (st : State)
    (c : completion_t) : cb_call :=
  cb_.call this (st.user_context c.1) c.2 c.1

/-- The completions of `cs` that a tentative callback rejects when they are
offered to it one after the other, after the invocations `called`. -/
def tentative_completer.rejected (cb_ : tentative_completer) (this : group_t) (st : State) :
    List cb_call → List completion_t → List completion_t
  | _, [] => []
  | called, c :: cs =>
    if cb_.answer called (cb_.offer this st c) = .ACCEPT then
      cb_.rejected this st (called ++ [cb_.offer this st c]) cs
    else c :: cb_.rejected this st (called ++ [cb_.offer this st c]) cs

end Fabric

namespace hstore

/-- Function `hstore::debug` (hstore.cpp:681-722).  The result is the value
stored through `arg`, if the command stores one.  Commands 0 and 1 drive
`perishable`, the crash-injection counter (not among the sources), which no
operation embedded here reads.  Command 2 walks the buckets from
`bucket_count() - 1` down to 0 and counts the elements of each bucket-local
range. -/
def debug (cfg : Config) (st : hstore) (pool : pool_t) (cmd : Nat) :
    Outcome (Option Nat) × hstore :=
  if cmd = 2 then
    match st.locate_session pool with
    | (.thrown e, st1) => (.thrown e, st1)
    | (.returned session, st1) =>
      (.returned (some ((List.range session.map.bucket_count).reverse.foldl
        (fun count n => count + (session.map.owned_slots cfg n).length) 0)), st1)
  else (.returned none, st)

end hstore

/-! ## ramrbtree.cpp -/

namespace RamRBTree

/-- A `std::string`, by its characters; `operator<` of `std::string` is the
lexicographic order of the characters. -/
abbrev string := List Char

/-- The index `m_index` (ramrbtree.cpp:11), a `std::set<std::string>`: its
keys in the order of the set, ascending by `operator<` of `std::string`. -/
abbrev index_t := List string

/-- Type `find_t` of the index interface (kvindex_itf.h is not among the
sources): the find types that `RamRBTree::find` names. -/
inductive find_t where
  | FIND_TYPE_REGEX
  | FIND_TYPE_EXACT
  | FIND_TYPE_PREFIX
  | FIND_TYPE_NEXT
deriving DecidableEq, Repr

/-- The class `std::regex` of the C++ library, as far as `find` uses it:
whether the constructor accepts an expression (it throws `std::regex_error`
otherwise) and `regex_match(key, r)` for the regex `r` of an expression. -/
structure regex_lib where
  well_formed : string → Bool
  regex_match : string → string → Bool

/-- Member `insert` of `std::set`: the set afterwards, and whether the key
was inserted. -/
def set_insert (m_index : index_t) (key : string) : index_t × Bool :=
  if key ∈ m_index then (m_index, false) else (m_index.orderedInsert (fun a b => a ≤ b) key, true)

/-- Function `RamRBTree::insert` (ramrbtree.cpp:19-24). -/
def insert (m_index : index_t) (key : string) : Outcome Unit × index_t :=
  if ! (set_insert m_index key).2 then (.thrown .API_exception, (set_insert m_index key).1)
  else (.returned (), (set_insert m_index key).1)

/-- Function `RamRBTree::erase` (ramrbtree.cpp:26). -/
def erase (m_index : index_t) (key : string) : index_t := m_index.filter (fun k => k ≠ key)

/-- Function `RamRBTree::clear` (ramrbtree.cpp:28). -/
def clear (_m_index : index_t) : index_t := []

/-- Function `RamRBTree::count` (ramrbtree.cpp:41). -/
def count (m_index : index_t) : Nat := m_index.length

/-- Function `RamRBTree::get` (ramrbtree.cpp:30-39). -/
def get (m_index : index_t) (position : Nat) : Outcome string :=
  if position ≥ m_index.length then .thrown .out_of_range
  else .returned (m_index.getD position [])

/-- Expression `key.find(key_expression) != string::npos`: `key_expression`
occurs in `key` at some position. -/
def find_ne_npos (key key_expression : string) : Bool :=
  key.tails.any (fun t => key_expression.isPrefixOf t)

/-- The test of a loop of `RamRBTree::find` on a key (ramrbtree.cpp:59, 67,
75). -/
def find_test (re : regex_lib) (find_type : find_t) (key_expression key : string) : Bool :=
  match find_type with
  | .FIND_TYPE_REGEX => re.regex_match key key_expression
  | .FIND_TYPE_EXACT => decide (key = key_expression)
  | .FIND_TYPE_PREFIX => find_ne_npos key key_expression
  | .FIND_TYPE_NEXT => false

/-- The loops `for (int i = begin_position; i <= out_end_position; i++)` of
`RamRBTree::find`, over the positions still to visit.  (The positions are
below `count()`; an index of `2^31` keys or more, for which the `int`
would overflow, is not modelled.) -/
def find_loop (m_index : index_t) (test : string → Bool) : List Nat → Outcome string
  | [] => .returned []
  | i :: rest =>
    match get m_index i with
    | .thrown e => .thrown e
    | .returned key => if test key then .returned key else find_loop m_index test rest

/-- The result of `find` and its reference parameter on return. -/
structure find_result where
  result : Outcome string
  out_end_position : Nat
deriving DecidableEq, Repr

/-- Function `RamRBTree::find` (ramrbtree.cpp:43-89). -/
def find (re : regex_lib) (m_index : index_t) (key_expression : string) (begin_position : Nat)
    (find_type : find_t) (out_end_position : Nat) : find_result :=
  if ! re.well_formed key_expression then ⟨.thrown .regex_error, out_end_position⟩
  else if begin_position ≥ m_index.length then ⟨.thrown .out_of_range, out_end_position⟩
  else if out_end_position ≥ m_index.length then ⟨.thrown .out_of_range, out_end_position⟩
  else
    match find_type with
    | .FIND_TYPE_NEXT => ⟨get m_index (begin_position + 1), out_end_position⟩
    | _ =>
      ⟨find_loop m_index (find_test re find_type key_expression)
        (List.range' begin_position (out_end_position + 1 - begin_position)), out_end_position⟩

/-- The behaviour of `std::regex` on the expressions of the examples: `(` is
not a regular expression; an expression of letters matches itself only. -/
def re_w : regex_lib := ⟨fun e => e ≠ ['('], fun key e => key = e⟩

end RamRBTree

/-! ## append_store.cpp -/

namespace Append_store

/-- Type `__record_t` (append_store.cpp:36-40). -/
structure __record_t where
  lba : Int
  len : Int
deriving DecidableEq, Repr

/-- Constant `APPEND_STORE_ITERATOR_MAGIC` (append_store.cpp:43). -/
def APPEND_STORE_ITERATOR_MAGIC : Nat := 0x11110000

/-- Type `__iterator_t` (append_store.cpp:45-51). -/
structure __iterator_t where
  magic : Nat
  current_idx : Nat
  exceeded_idx : Nat
  record_vector : List __record_t
deriving DecidableEq, Repr

/-- Statement `iv[j % ways]->record_vector.push_back(source_iter->record_vector[j])`
(append_store.cpp:606). -/
def push_record (ways : Nat) (iv : List __iterator_t) (j : Nat) (r : __record_t) :
    List __iterator_t :=
  iv.modify (fun e => { e with record_vector := e.record_vector ++ [r] }) (j % ways)

/-- The second loop of `split_iterator` (append_store.cpp:605-606), run for the
records `0 .. n - 1` of the source. -/
def distribute (ways : Nat) (source : List __record_t) (iv : List __iterator_t) (n : Nat) :
    List __iterator_t :=
  (List.range n).foldl (fun iv j => push_record ways iv j (source.getD j ⟨0, 0⟩)) iv

/-- Function `Append_store::split_iterator` (append_store.cpp:586-615).
`iter` is `none` for a null pointer and otherwise the iterator pointed to;
`out_iter_vector` is given by the iterators its elements point to.  The loop
counters are `unsigned`: with `2^32` ways or records, or more, a counter
wraps before its loop ends, the loop allocates without end, and the call ends
in `std::bad_alloc`.  The `exceeded_idx` of a new iterator is not set until
the last loop; it is 0 here. -/
def split_iterator (iter : Option __iterator_t) (ways : Nat)
    (out_iter_vector : List __iterator_t) : Outcome Unit × List __iterator_t :=
  match iter with
  | none => (.thrown .API_exception, out_iter_vector)
  | some source_iter =>
    if ways < 2 then (.thrown .API_exception, out_iter_vector)
    else if 2 ^ 32 ≤ ways ∨ 2 ^ 32 ≤ source_iter.record_vector.length then
      (.thrown .bad_alloc, [])
    else
      let iv := (List.range ways).map (fun _ => (⟨APPEND_STORE_ITERATOR_MAGIC, 0, 0, []⟩ : __iterator_t))
      let iv := distribute ways source_iter.record_vector iv source_iter.record_vector.length
      (.returned (), iv.map (fun e => { e with exceeded_idx := e.record_vector.length }))

/-- What the store needs of its surroundings for `get`: `_vi.block_size` of
the block device, the status `E_INSUFFICIENT_SPACE` (declared outside the
sources), and whether `assert` is compiled out. -/
structure Config where
  block_size : Nat
  E_INSUFFICIENT_SPACE : status_t
  NDEBUG : Bool

/-- One call of `_lower_layer->read(iob, offset, lba, lba_count, queue_id)`. -/
structure read_call where
  offset : Nat
  lba : Int
  lba_count : Int
  queue_id : Int
deriving DecidableEq, Repr

/-- Function `Append_store::get`, the overload by row id
(append_store.cpp:753-788): the status, and the block reads issued.  `row`
is what the SQL query yields, `(data_lba, data_len)`; `iob_size` is
`_lower_layer->get_size(iob)`.  Sizes and offsets are `size_t`: the
difference `get_size(iob) - offset` is taken modulo `2^64`, and the `int64_t`
product `data_len * block_size` is converted to `size_t` for the
comparison. -/
def get (cfg : Config) (row : Int × Int) (iob_size : Nat) (offset : Nat) (queue_id : Int) :
    Outcome status_t × List read_call :=
  if cfg.block_size = 0 then (.thrown .fault, [])
  else if offset % cfg.block_size ≠ 0 then (.thrown .API_exception, [])
  else if (iob_size + 2 ^ 64 - offset) % 2 ^ 64 < ((row.2 * cfg.block_size) % 2 ^ 64).toNat then
    (.returned cfg.E_INSUFFICIENT_SPACE, [])
  else if ¬ (row.2 > 0) ∧ ¬ cfg.NDEBUG then (.thrown .fault, [])
  else (.returned S_OK, [⟨offset, row.1, row.2, queue_id⟩])

/-- Function `Append_store::get`, the overload by key
(append_store.cpp:790-826). -/
def get_by_key (cfg : Config) (row : Int × Int) (iob_size : Nat) (offset : Nat) (queue_id : Int) :
    Outcome status_t × List read_call :=
  if cfg.block_size = 0 then (.thrown .fault, [])
  else if offset % cfg.block_size ≠ 0 then (.thrown .API_exception, [])
  else if (iob_size + 2 ^ 64 - offset) % 2 ^ 64 < ((row.2 * cfg.block_size) % 2 ^ 64).toNat then
    (.returned cfg.E_INSUFFICIENT_SPACE, [])
  else if ¬ (row.2 > 0) ∧ ¬ cfg.NDEBUG then (.thrown .fault, [])
  else (.returned S_OK, [⟨offset, row.1, row.2, queue_id⟩])

end Append_store

namespace Fabric

/-- The error number `e = unsigned(errno)` of the first negative result
`-errno` of `cq_read` whose error number is none of `FI_EINTR`, `FI_EAVAIL`,
`FI_EAGAIN` and that comes before the first result with error number
`FI_EAGAIN` (the end of the events counts as `-FI_EAGAIN`), if there is such
a result. -/
def fatal_before_again : List cq_event → Option Nat
  | [] => none
  | .completion _ :: rest => fatal_before_again rest
  | .error errno _ :: rest =>
    if unsigned errno = FI_EAVAIL then fatal_before_again rest
    else if unsigned errno = FI_EAGAIN then none
    else if unsigned errno = FI_EINTR then fatal_before_again rest
    else some (unsigned errno)

end Fabric

namespace Fabric

/-! ### Runs of posts and polls -/

/-- The eight posting operations of a group, with their arguments other than
the user context. -/
inductive post_op where
  | send (buffers : List iovec) (desc_ : List Nat)
  | send_vector (buffers_ : List iovec)
  | recv (buffers : List iovec) (desc_ : List Nat)
  | recv_vector (buffers_ : List iovec)
  | read (buffers : List iovec) (desc_ : List Nat) (remote_addr_ key_ : Nat)
  | read_vector (buffers_ : List iovec) (remote_addr_ key_ : Nat)
  | write (buffers : List iovec) (desc_ : List Nat) (remote_addr_ key_ : Nat)
  | write_vector (buffers_ : List iovec) (remote_addr_ key_ : Nat)
deriving DecidableEq, Repr

/-- The call of a posting operation on the group `this`. -/
def post_op.call (op : post_op) (this : group_t) (context_ : Nat) (gc : addr_t) (st : State) :
    State :=
  match op with
  | .send buffers desc_ => post_send this buffers desc_ context_ gc st
  | .send_vector buffers_ => post_send_vector this buffers_ context_ gc st
  | .recv buffers desc_ => post_recv this buffers desc_ context_ gc st
  | .recv_vector buffers_ => post_recv_vector this buffers_ context_ gc st
  | .read buffers desc_ remote_addr_ key_ =>
    post_read this buffers desc_ remote_addr_ key_ context_ gc st
  | .read_vector buffers_ remote_addr_ key_ =>
    post_read_vector this buffers_ remote_addr_ key_ context_ gc st
  | .write buffers desc_ remote_addr_ key_ =>
    post_write this buffers desc_ remote_addr_ key_ context_ gc st
  | .write_vector buffers_ remote_addr_ key_ =>
    post_write_vector this buffers_ remote_addr_ key_ context_ gc st

/-- One step of a run: a post through a group (the record is created at the
address `gc`), the arrival of results on the shared completion queue, or a
poll of a group in one of the five flavors. -/
inductive action where
  | post (this : group_t) (op : post_op) (context_ : Nat) (gc : addr_t)
  | arrive (events : List cq_event)
  | poll (this : group_t) (cb_ : definite_completer)
  | poll_tentative (this : group_t) (cb_ : tentative_completer)

/-- The addresses at which the run has created async records. -/
def State.used (st : State) : List addr_t := st.posted.map (fun c => c.context)

/-- The group named by the record at an address, if a record is live there. -/
def State.tag_at (st : State) (a : addr_t) : Option group_t :=
  (st.records a).map (fun r => r.comm)

/-- The number of operations posted through `g` whose record is live: their
completion has not been consumed by a callback. -/
def State.outstanding (st : State) (g : group_t) : Nat :=
  (st.used.filter (fun a => st.tag_at a = some g)).length

/-- The state after a step; `none` when the step does not return (a poll
that raises or whose behaviour is undefined) or when the post would create
its record at an address used before (the run names each operation by the
address of its record). -/
def step (st : State) : action → Option State
  | .post this op context_ gc =>
    if gc ∈ st.used then none else some (op.call this context_ gc st)
  | .arrive events => some { st with cq := st.cq ++ events }
  | .poll this cb_ =>
    match poll_completions this cb_ st with
    | (.returned _, st1) => some st1
    | _ => none
  | .poll_tentative this cb_ =>
    match poll_completions_tentative this cb_ st with
    | (.returned _, st1) => some st1
    | _ => none

/-- The state after a run of steps, each returning. -/
def run : List action → State → Option State
  | [], st => some st
  | a :: rest, st =>
    match step st a with
    | none => none
    | some st1 => run rest st1

/-- The number of operations posted through `g` in a run. -/
def posted_through (g : group_t) : List action → Nat
  | [] => 0
  | .post this _ _ _ :: rest => (if this = g then 1 else 0) + posted_through g rest
  | _ :: rest => posted_through g rest

/-- A run: two sends through group 1 and two through group 2, the four
completions arrive, group 1 polls, then group 2 polls. -/
def run_w : List action :=
  [.post 1 (.send_vector [⟨7, 8⟩]) 10 100, .post 1 (.send_vector [⟨7, 8⟩]) 11 101,
    .post 2 (.send_vector [⟨7, 8⟩]) 20 200, .post 2 (.send_vector [⟨7, 8⟩]) 21 201,
    .arrive [.completion (entry_w 100), .completion (entry_w 200), .completion (entry_w 101),
      .completion (entry_w 201)],
    .poll 1 .complete_definite, .poll 2 .complete_definite]

end Fabric

namespace Fabric

/-- The bookkeeping of a run is in order: no address was used twice; every
live record is at a used address; every queued completion refers to a used
address, and if its record is live the record names the group of the
queue. -/
def State.WF (st : State) : Prop :=
  st.used.Nodup ∧ (∀ a, st.records a ≠ none → a ∈ st.used) ∧
    (∀ g c, c ∈ (st.comm g)._completions →
      c.1.op_context ∈ st.used ∧ ∀ r, st.records c.1.op_context = some r → r.comm = g)

/-- The effect on the bookkeeping of a part of a poll of group `this` in
which callbacks consumed `n` completions: `n` records of `this` are no longer
live, nothing else changed in the counts, and `ct_total` is not yet
updated. -/
def State.Eff (this : group_t) (n : Nat) (st st1 : State) : Prop :=
  st1.posted = st.posted ∧ st1.outstanding this + n = st.outstanding this ∧
    (∀ g, g ≠ this → st1.outstanding g = st.outstanding g) ∧
    (∀ g, (st1.comm g)._stats.ct_total = (st.comm g)._stats.ct_total) ∧
    (∀ a r, st1.records a = some r → st.records a = some r) ∧ st1.WF

end Fabric

namespace Fabric

/-- The state in which the run `run_w`, begun on the fresh connection
`fab_0`, ends. -/
def fab_run_w : State := (run run_w fab_0).getD fab_0

end Fabric

namespace Fabric

/-! ### What a read loop reads -/

/-- The completions that the read loop of a poll routes from the results
`evs` of `cq_read`, in order, each with the status it is routed with: the
entry of a non-negative result with `S_OK`, the error entry of a result with
error number `FI_EAVAIL` with `E_FAIL`.  A result with error number
`FI_EINTR` is passed over; reading ends at the first other negative
result. -/
def routed : List cq_event → List completion_t
  | [] => []
  | .completion entry :: rest => (entry, S_OK) :: routed rest
  | .error errno err :: rest =>
    if unsigned errno = FI_EAVAIL then (err, E_FAIL) :: routed rest
    else if unsigned errno = FI_EAGAIN then []
    else if unsigned errno = FI_EINTR then routed rest
    else []

/-- The results that a read loop leaves unread: those after the first
negative result whose error number is neither `FI_EAVAIL` nor `FI_EINTR`. -/
def unread : List cq_event → List cq_event
  | [] => []
  | .completion _ :: rest => unread rest
  | .error errno _ :: rest =>
    if unsigned errno = FI_EAVAIL then unread rest
    else if unsigned errno = FI_EAGAIN then rest
    else if unsigned errno = FI_EINTR then unread rest
    else rest

/-- Routing the completions `cs` one after the other through `comp`, adding
the counts: what a read loop does with the completions it reads. -/
def route_all (comp : fi_cq_entry_t → status_t → State → Result Nat × State) :
    List completion_t → State → Result Nat × State
  | [], st => (.returned 0, st)
  | c :: rest, st =>
    match comp c.1 c.2 st with
    | (.returned ct, st1) =>
      match route_all comp rest st1 with
      | (.returned ct_total, st2) => (.returned (ct + ct_total), st2)
      | r => r
    | r => r

/-- The completions of `cs` whose record names the group `g`. -/
def State.own (st : State) (g : group_t) (cs : List completion_t) : List completion_t :=
  cs.filter (fun c => st.tag c.1 = some g)

end Fabric

namespace Fabric

/-- The four operations of `fab_posted`; the next results of `cq_read` are
the completions of the operations at 100 and 200, `-FI_EINTR`, `-FI_EAVAIL`
with the error entry of the operation at 101, `-FI_EAGAIN`, and the
completion of the operation at 201. -/
def fab_mixed : State :=
  { fab_posted with
    cq := [.completion (entry_w 100), .completion (entry_w 200), .error 4 (entry_w 0),
      .error 259 (entry_w 101), .error 11 (entry_w 0), .completion (entry_w 201)] }

end Fabric

/-! ## A concrete configuration and store -/

/-- A small configuration: neighbourhood width 4, the length of the key as
its hash, a directory of four segments, no load-factor threshold, the
mutex the source is built with. -/
def cfg_w : Config :=
  { H := 4
    hf := String.length
    segment_capacity := 4
    load_exceeded := fun _ _ => false
    thread_safe_hash := false
    malloc0_null := true
    uninit := fun _ => 0 }

/-- The configuration `cfg_w` with the thread-safe mutex. -/
def cfg_mt : Config := { cfg_w with thread_safe_hash := true }

/-- A store with one freshly created pool at address 4096 (four buckets). -/
def st_w : hstore := (hstore.create_pool ⟨[], []⟩ S_OK 4096 2).2

/-- The session of the pool of `st_w`. -/
def s_w : session_t := hstore.pool_create 2

/-- The store `st_w` after `put("k", "abcde")`. -/
def st_k : hstore := (st_w.put cfg_w 4096 "k" (some [97, 98, 99, 100, 101])).2

/-- The session of the pool of `st_k`. -/
def s_k : session_t := ((st_w.put cfg_w 4096 "k" (some [97, 98, 99, 100, 101])).2.deref 4096).getD s_w

/-- The store `st_w` after `put("a")`, `put("b")`, `put("c")`: the three
keys hash to bucket 1 and fill the slots 1, 2, 3 of the four buckets, so the
next key of length 1 makes the table grow. -/
def st_g : hstore := (hstore.put_all cfg_w 4096 st_w [("a", [1]), ("b", [2]), ("c", [3])]).1

/-- The session of the pool of `st_g`. -/
def s_g : session_t := (st_g.deref 4096).getD s_w

/-- A store with two open pools: pool 4096 holding "k", and a new pool 8192. -/
def st_2 : hstore := (st_k.create_pool S_OK 8192 2).2

/-- The store `st_2` after `close_pool(4096)`. -/
def st_2c : hstore := (st_2.close_pool 4096 (.returned ())).2

/-! ## The table invariant (specification §8, invariants 1 and 2) -/

namespace Table

/-- The hash bucket of the key stored at slot `j`, if the slot is in use. -/
def slot_home (cfg : Config) (t : Table) (j : Nat) : Option Nat :=
  (t.key_at j).map (fun k => t.bucket cfg k)

/-- The content of slot `j`, if in use, lies in the neighbourhood of the hash
bucket `h` of its key and the bit of `j` is set in `owner[h]`. -/
def slot_ok (cfg : Config) (t : Table) (j : Nat) : Bool :=
  match t.slot_home cfg j with
  | none => true
  | some h => decide (h ≤ j) && decide (j - h < cfg.H) && (t.owner_at h).testBit (j - h)

/-- Every bit set in an owner refers to a slot in use whose key hashes to
that owner (§8 invariant 2, first half). -/
def owners_ok (cfg : Config) (t : Table) : Prop :=
  ∀ h, h < t.bucket_count → ∀ i, i < cfg.H → (t.owner_at h).testBit i = true →
    h + i < t.bucket_count ∧ t.slot_home cfg (h + i) = some h

/-- Every slot in use is referenced by the owner of its key's hash bucket,
within the neighbourhood (§8 invariant 1). -/
def slots_ok (cfg : Config) (t : Table) : Prop :=
  ∀ j, j < t.bucket_count → t.slot_ok cfg j = true

/-- No key is stored in two slots. -/
def keys_distinct (t : Table) : Prop :=
  ∀ j, j < t.bucket_count → ∀ j', j' < t.bucket_count →
    t.key_at j ≠ none → t.key_at j = t.key_at j' → j = j'

instance (cfg : Config) (t : Table) : Decidable (t.owners_ok cfg) := by
  unfold owners_ok; infer_instance

instance (cfg : Config) (t : Table) : Decidable (t.slots_ok cfg) := by
  unfold slots_ok; infer_instance

instance (t : Table) : Decidable t.keys_distinct := by
  unfold keys_distinct; infer_instance

/-- The table invariant (§8 invariants 1 and 2): the table has a bucket; the
owners and the slots agree; no key is stored twice. -/
def invariant (cfg : Config) (t : Table) : Prop :=
  0 < t.bucket_count ∧ t.owners_ok cfg ∧ t.slots_ok cfg ∧ t.keys_distinct

instance (cfg : Config) (t : Table) : Decidable (t.invariant cfg) := by
  unfold invariant; infer_instance

/-- The table of every pool in the registry satisfies the table invariant. -/
def tables_ok (cfg : Config) (pools : List (pool_t × session_t)) : Prop :=
  ∀ p, p ∈ pools → p.2.map.invariant cfg

instance (cfg : Config) (pools : List (pool_t × session_t)) : Decidable (tables_ok cfg pools) := by
  unfold tables_ok; infer_instance

/-- The table stores the pair `(k, v)` in some slot. -/
def holds (t : Table) (k : KEY_T) (v : MAPPED_T) : Prop :=
  ∃ j, j < t.bucket_count ∧ t.content_at j = some (k, v)

end Table

end Comanche
namespace Comanche

/-! ## Lemmas on bitmaps and buckets -/

theorem testBit_bit_set (o i m : Nat) : (bit_set o i).testBit m = (decide (i = m) || o.testBit m) := by
  simp [bit_set, Nat.testBit_or, Nat.testBit_two_pow, Bool.or_comm]

theorem testBit_bit_clear (o i m : Nat) :
    (bit_clear o i).testBit m = (!decide (i = m) && o.testBit m) := by
  unfold bit_clear
  by_cases hb : o.testBit i = true
  · simp only [hb, if_true, Nat.testBit_xor, Nat.testBit_two_pow]
    by_cases him : i = m
    · subst him; simp [hb]
    · simp [him]
  · simp only [hb, if_false]
    by_cases him : i = m
    · subst him; simp at hb; simp [hb]
    · simp [him]

namespace Table

theorem bucket_count_update (t : Table) (j : Nat) (f : Bucket → Bucket) :
    (t.update j f).bucket_count = t.bucket_count := by
  simp [update, bucket_count]

theorem segment_count_update (t : Table) (j : Nat) (f : Bucket → Bucket) :
    (t.update j f).segment_count = t.segment_count := rfl

theorem bucket_at_ge (t : Table) (j : Nat) (h : t.bucket_count ≤ j) : t.bucket_at j = clear_bucket := by
  unfold bucket_at bucket_count at *
  rw [List.getD_eq_getElem?_getD, List.getElem?_eq_none h]; rfl

theorem bucket_at_update (t : Table) (j : Nat) (f : Bucket → Bucket) (j' : Nat) :
    (t.update j f).bucket_at j' =
      if j' = j ∧ j < t.bucket_count then f (t.bucket_at j) else t.bucket_at j' := by
  unfold update bucket_at bucket_count
  simp only [List.getD_eq_getElem?_getD, List.getElem?_set]
  by_cases h1 : j = j'
  · subst h1
    by_cases h2 : j < t.buckets.length
    · simp [h2]
    · simp [h2, List.getElem?_eq_none (Nat.le_of_not_lt h2)]
  · have h3 : ¬ j' = j := fun h => h1 h.symm
    simp [h1, h3]

theorem content_at_ge (t : Table) (j : Nat) (h : t.bucket_count ≤ j) : t.content_at j = none := by
  simp [content_at, bucket_at_ge t j h, clear_bucket]

theorem key_at_ge (t : Table) (j : Nat) (h : t.bucket_count ≤ j) : t.key_at j = none := by
  simp [key_at, content_at_ge t j h]

theorem owner_at_ge (t : Table) (j : Nat) (h : t.bucket_count ≤ j) : t.owner_at j = 0 := by
  simp [owner_at, bucket_at_ge t j h, clear_bucket]

theorem lt_of_content_at {t : Table} {j : Nat} {c : KEY_T × MAPPED_T}
    (h : t.content_at j = some c) : j < t.bucket_count := by
  by_contra hn
  rw [content_at_ge t j (Nat.le_of_not_lt hn)] at h
  cases h

theorem lt_of_key_at {t : Table} {j : Nat} {k : KEY_T}
    (h : t.key_at j = some k) : j < t.bucket_count := by
  by_contra hn
  rw [key_at_ge t j (Nat.le_of_not_lt hn)] at h
  cases h

theorem bucket_count_set_content (t : Table) (j : Nat) (c : Option (KEY_T × MAPPED_T)) :
    (t.set_content j c).bucket_count = t.bucket_count := bucket_count_update _ _ _

theorem bucket_count_set_owner (t : Table) (h o : Nat) :
    (t.set_owner h o).bucket_count = t.bucket_count := bucket_count_update _ _ _

theorem content_at_set_content (t : Table) (j : Nat) (c : Option (KEY_T × MAPPED_T)) (j' : Nat) :
    (t.set_content j c).content_at j' =
      if j' = j ∧ j < t.bucket_count then c else t.content_at j' := by
  unfold set_content content_at
  rw [bucket_at_update]
  split <;> rfl

theorem owner_at_set_content (t : Table) (j : Nat) (c : Option (KEY_T × MAPPED_T)) (h : Nat) :
    (t.set_content j c).owner_at h = t.owner_at h := by
  unfold set_content owner_at
  rw [bucket_at_update]
  split
  · next hh => rw [hh.1]
  · rfl

theorem content_at_set_owner (t : Table) (h o : Nat) (j : Nat) :
    (t.set_owner h o).content_at j = t.content_at j := by
  unfold set_owner content_at
  rw [bucket_at_update]
  split
  · next hh => rw [hh.1]
  · rfl

theorem owner_at_set_owner (t : Table) (h o : Nat) (h' : Nat) :
    (t.set_owner h o).owner_at h' = if h' = h ∧ h < t.bucket_count then o else t.owner_at h' := by
  unfold set_owner owner_at
  rw [bucket_at_update]
  split <;> rfl

theorem key_at_set_owner (t : Table) (h o : Nat) (j : Nat) :
    (t.set_owner h o).key_at j = t.key_at j := by
  simp [key_at, content_at_set_owner]

theorem bucket_set_content (cfg : Config) (t : Table) (j : Nat) (c : Option (KEY_T × MAPPED_T))
    (k : KEY_T) : (t.set_content j c).bucket cfg k = t.bucket cfg k := by
  simp [bucket, bucket_count_set_content]

theorem bucket_set_owner (cfg : Config) (t : Table) (h o : Nat) (k : KEY_T) :
    (t.set_owner h o).bucket cfg k = t.bucket cfg k := by
  simp [bucket, bucket_count_set_owner]

/-! ### Reading the invariant -/

theorem slot_home_eq {cfg : Config} {t : Table} {j : Nat} {k : KEY_T} {v : MAPPED_T}
    (h : t.content_at j = some (k, v)) : t.slot_home cfg j = some (t.bucket cfg k) := by
  simp [slot_home, key_at, h]

theorem key_at_eq {t : Table} {j : Nat} {k : KEY_T} {v : MAPPED_T}
    (h : t.content_at j = some (k, v)) : t.key_at j = some k := by
  simp [key_at, h]

theorem content_of_key_at {t : Table} {j : Nat} {k : KEY_T}
    (h : t.key_at j = some k) : ∃ v, t.content_at j = some (k, v) := by
  unfold key_at at h
  cases hc : t.content_at j with
  | none => rw [hc] at h; cases h
  | some kv =>
    rw [hc] at h
    simp at h
    exact ⟨kv.2, by rw [← h]⟩

theorem slot_ok_of_key_at {cfg : Config} {t : Table} {j : Nat} {k : KEY_T}
    (hs : t.slot_ok cfg j = true) (hk : t.key_at j = some k) :
    t.bucket cfg k ≤ j ∧ j - t.bucket cfg k < cfg.H ∧
      (t.owner_at (t.bucket cfg k)).testBit (j - t.bucket cfg k) = true := by
  unfold slot_ok slot_home at hs
  rw [hk] at hs
  simpa [Bool.and_eq_true, and_assoc] using hs

theorem slot_ok_intro {cfg : Config} {t : Table} {j : Nat}
    (h : ∀ k, t.key_at j = some k → t.bucket cfg k ≤ j ∧ j - t.bucket cfg k < cfg.H ∧
      (t.owner_at (t.bucket cfg k)).testBit (j - t.bucket cfg k) = true) :
    t.slot_ok cfg j = true := by
  unfold slot_ok slot_home
  cases hk : t.key_at j with
  | none => rfl
  | some k =>
    have := h k hk
    simp [this.1, this.2.1, this.2.2]

end Table
end Comanche
namespace Comanche
namespace Table

/-! ### Lookup -/

theorem locate_key_some {cfg : Config} {t : Table} {k : KEY_T} {j : Nat}
    (h : t.locate_key cfg k = some j) :
    t.key_at j = some k ∧ j < t.bucket_count ∧ t.bucket cfg k ≤ j ∧ j - t.bucket cfg k < cfg.H ∧
      (t.owner_at (t.bucket cfg k)).testBit (j - t.bucket cfg k) = true := by
  unfold locate_key at h
  simp only [Option.map_eq_some'] at h
  obtain ⟨i, hi, rfl⟩ := h
  have hp := List.find?_some hi
  have hm := List.mem_of_find?_eq_some hi
  simp only [Bool.and_eq_true, beq_iff_eq] at hp
  simp only [List.mem_range] at hm
  refine ⟨hp.2, lt_of_key_at hp.2, Nat.le_add_right _ _, ?_, ?_⟩
  · simpa using hm
  · simpa using hp.1

theorem locate_key_of_key_at {cfg : Config} {t : Table} {k : KEY_T} {j : Nat}
    (hs : t.slots_ok cfg) (hd : t.keys_distinct) (hk : t.key_at j = some k) :
    t.locate_key cfg k = some j := by
  have hj := lt_of_key_at hk
  obtain ⟨h1, h2, h3⟩ := slot_ok_of_key_at (hs j hj) hk
  unfold locate_key
  simp only
  cases hf : (List.range cfg.H).find?
      (fun i => (t.owner_at (t.bucket cfg k)).testBit i && t.key_at (t.bucket cfg k + i) == some k) with
  | none =>
    rw [List.find?_eq_none] at hf
    have := hf (j - t.bucket cfg k) (by simpa using h2)
    have e : t.bucket cfg k + (j - t.bucket cfg k) = j := by omega
    simp [h3, e, hk] at this
  | some i =>
    have hp := List.find?_some hf
    simp only [Bool.and_eq_true, beq_iff_eq] at hp
    have hlt := lt_of_key_at hp.2
    have := hd j hj _ hlt (by simp [hk]) (by rw [hk, hp.2])
    simp [this]

theorem locate_key_eq_none {cfg : Config} {t : Table} {k : KEY_T}
    (hs : t.slots_ok cfg) (hd : t.keys_distinct) :
    t.locate_key cfg k = none ↔ ∀ j, t.key_at j ≠ some k := by
  constructor
  · intro h j hk
    rw [locate_key_of_key_at hs hd hk] at h
    cases h
  · intro h
    cases hl : t.locate_key cfg k with
    | none => rfl
    | some j => exact absurd (locate_key_some hl).1 (h j)

theorem value_of_eq_some {cfg : Config} {t : Table} {k : KEY_T} {v : MAPPED_T}
    (hs : t.slots_ok cfg) (hd : t.keys_distinct) :
    t.value_of cfg k = some v ↔ t.holds k v := by
  unfold value_of holds
  constructor
  · intro h
    simp only [Option.bind_eq_some, Option.map_eq_some'] at h
    obtain ⟨j, hj, kv, hc, rfl⟩ := h
    have hk := (locate_key_some hj).1
    refine ⟨j, (locate_key_some hj).2.1, ?_⟩
    obtain ⟨v', hv'⟩ := content_of_key_at hk
    rw [hc] at hv' ⊢
    simp only [Option.some.injEq] at hv'
    rw [hv']
  · rintro ⟨j, _, hc⟩
    rw [locate_key_of_key_at hs hd (key_at_eq hc)]
    simp [hc]

theorem value_of_eq_none {cfg : Config} {t : Table} {k : KEY_T}
    (hs : t.slots_ok cfg) (hd : t.keys_distinct) :
    t.value_of cfg k = none ↔ ∀ j, t.key_at j ≠ some k := by
  rw [← locate_key_eq_none hs hd]
  unfold value_of
  constructor
  · intro h
    cases hl : t.locate_key cfg k with
    | none => rfl
    | some j =>
      obtain ⟨v, hv⟩ := content_of_key_at (locate_key_some hl).1
      simp [hl, hv] at h
  · intro h
    simp [h]

/-- Two tables that store the same pairs answer every lookup alike. -/
theorem value_of_congr {cfg : Config} {t t' : Table} (k : KEY_T)
    (hs : t.slots_ok cfg) (hd : t.keys_distinct)
    (hs' : t'.slots_ok cfg) (hd' : t'.keys_distinct)
    (h : ∀ v, t'.holds k v ↔ t.holds k v) :
    t'.value_of cfg k = t.value_of cfg k := by
  cases hv : t.value_of cfg k with
  | some v =>
    rw [value_of_eq_some hs hd] at hv
    rw [value_of_eq_some hs' hd']
    exact (h v).2 hv
  | none =>
    cases hv' : t'.value_of cfg k with
    | none => rfl
    | some v' =>
      rw [value_of_eq_some hs' hd'] at hv'
      have := (value_of_eq_some hs hd).2 ((h v').1 hv')
      rw [hv] at this
      cases this

end Table
end Comanche
namespace Comanche
namespace Table

/-! ### Placing a new content -/

theorem bucket_count_place (t : Table) (h j : Nat) (k : KEY_T) (v : MAPPED_T) :
    (t.place h j k v).bucket_count = t.bucket_count := by
  simp [place, bucket_count_set_owner, bucket_count_set_content]

theorem segment_count_place (t : Table) (h j : Nat) (k : KEY_T) (v : MAPPED_T) :
    (t.place h j k v).segment_count = t.segment_count := rfl

theorem content_at_place (t : Table) (h j : Nat) (k : KEY_T) (v : MAPPED_T) (j' : Nat)
    (hj : j < t.bucket_count) :
    (t.place h j k v).content_at j' = if j' = j then some (k, v) else t.content_at j' := by
  simp [place, content_at_set_owner, content_at_set_content, hj]

theorem key_at_place (t : Table) (h j : Nat) (k : KEY_T) (v : MAPPED_T) (j' : Nat)
    (hj : j < t.bucket_count) :
    (t.place h j k v).key_at j' = if j' = j then some k else t.key_at j' := by
  unfold key_at
  rw [content_at_place t h j k v j' hj]
  split <;> rfl

theorem owner_at_place (t : Table) (h j : Nat) (k : KEY_T) (v : MAPPED_T) (h' : Nat)
    (hh : h < t.bucket_count) :
    (t.place h j k v).owner_at h' =
      if h' = h then bit_set (t.owner_at h) (j - h) else t.owner_at h' := by
  simp [place, owner_at_set_owner, owner_at_set_content, bucket_count_set_content, hh]

theorem bucket_place (cfg : Config) (t : Table) (h j : Nat) (k : KEY_T) (v : MAPPED_T) (k' : KEY_T) :
    (t.place h j k v).bucket cfg k' = t.bucket cfg k' := by
  simp [bucket, bucket_count_place]

theorem slot_home_place (cfg : Config) (t : Table) (h j : Nat) (k : KEY_T) (v : MAPPED_T) (j' : Nat)
    (hj : j < t.bucket_count) :
    (t.place h j k v).slot_home cfg j' =
      if j' = j then some (t.bucket cfg k) else t.slot_home cfg j' := by
  unfold slot_home
  rw [key_at_place t h j k v j' hj]
  split
  · simp [bucket_place]
  · simp [bucket_place]

theorem invariant_place {cfg : Config} {t : Table} {h j : Nat} {k : KEY_T} (v : MAPPED_T)
    (hinv : t.invariant cfg) (hj : j < t.bucket_count) (hclear : t.content_at j = none)
    (hh : h = t.bucket cfg k) (hle : h ≤ j) (hlt : j - h < cfg.H)
    (habs : ∀ j', t.key_at j' ≠ some k) :
    (t.place h j k v).invariant cfg := by
  obtain ⟨hpos, hown, hslot, hdist⟩ := hinv
  have hhn : h < t.bucket_count := Nat.lt_of_le_of_lt hle hj
  have hkj : t.key_at j = none := by simp [key_at, hclear]
  have hsj : t.slot_home cfg j = none := by simp [slot_home, hkj]
  refine ⟨by rw [bucket_count_place]; exact hpos, ?_, ?_, ?_⟩
  · intro h0 hh0 i hi hbit
    rw [bucket_count_place] at hh0 ⊢
    rw [owner_at_place t h j k v h0 hhn] at hbit
    rw [slot_home_place cfg t h j k v _ hj]
    by_cases e : h0 = h
    · subst e
      rw [if_pos rfl, testBit_bit_set] at hbit
      by_cases e2 : j - h0 = i
      · have : h0 + i = j := by omega
        rw [this]
        exact ⟨hj, by rw [if_pos rfl, hh]⟩
      · simp only [e2, decide_False, Bool.false_or] at hbit
        obtain ⟨h1, h2⟩ := hown h0 hh0 i hi hbit
        refine ⟨h1, ?_⟩
        split
        · next e3 => rw [e3, hsj] at h2; cases h2
        · exact h2
    · rw [if_neg e] at hbit
      obtain ⟨h1, h2⟩ := hown h0 hh0 i hi hbit
      refine ⟨h1, ?_⟩
      split
      · next e3 => rw [e3, hsj] at h2; cases h2
      · exact h2
  · intro j0 hj0
    rw [bucket_count_place] at hj0
    apply slot_ok_intro
    intro k0 hk0
    rw [key_at_place t h j k v j0 hj] at hk0
    rw [bucket_place, owner_at_place t h j k v _ hhn]
    by_cases e : j0 = j
    · subst e
      simp only [if_true, Option.some.injEq] at hk0
      subst hk0
      rw [← hh]
      simp [hle, hlt, testBit_bit_set]
    · rw [if_neg e] at hk0
      obtain ⟨h1, h2, h3⟩ := slot_ok_of_key_at (hslot j0 hj0) hk0
      refine ⟨h1, h2, ?_⟩
      split
      · next e2 => rw [testBit_bit_set, ← e2, h3]; simp
      · exact h3
  · intro j1 hj1 j2 hj2 hne heq
    rw [bucket_count_place] at hj1 hj2
    rw [key_at_place t h j k v _ hj] at hne heq
    rw [key_at_place t h j k v _ hj] at heq
    by_cases e1 : j1 = j
    · by_cases e2 : j2 = j
      · rw [e1, e2]
      · rw [if_pos e1, if_neg e2] at heq
        exact absurd heq.symm (habs j2)
    · by_cases e2 : j2 = j
      · rw [if_neg e1, if_pos e2] at heq
        exact absurd heq (habs j1)
      · rw [if_neg e1] at hne
        rw [if_neg e1, if_neg e2] at heq
        exact hdist j1 hj1 j2 hj2 hne heq

theorem holds_place {t : Table} {h j : Nat} {k : KEY_T} {v : MAPPED_T}
    (hj : j < t.bucket_count) (hclear : t.content_at j = none) (k' : KEY_T) (v' : MAPPED_T) :
    (t.place h j k v).holds k' v' ↔ (k' = k ∧ v' = v) ∨ t.holds k' v' := by
  unfold holds
  simp only [bucket_count_place, content_at_place t h j k v _ hj]
  constructor
  · rintro ⟨j0, hj0, hc⟩
    by_cases e : j0 = j
    · rw [if_pos e] at hc
      simp only [Option.some.injEq, Prod.mk.injEq] at hc
      exact Or.inl ⟨hc.1.symm, hc.2.symm⟩
    · rw [if_neg e] at hc
      exact Or.inr ⟨j0, hj0, hc⟩
  · rintro (⟨rfl, rfl⟩ | ⟨j0, hj0, hc⟩)
    · exact ⟨j, hj, by simp⟩
    · refine ⟨j0, hj0, ?_⟩
      have : j0 ≠ j := by
        intro e; rw [e, hclear] at hc; cases hc
      rw [if_neg this]; exact hc

end Table
end Comanche
namespace Comanche
namespace Table

/-! ### Displacing a content -/

theorem bucket_count_move (t : Table) (h' i j : Nat) :
    (t.move h' i j).bucket_count = t.bucket_count := by
  simp [move, bucket_count_set_owner, bucket_count_set_content]

theorem segment_count_move (t : Table) (h' i j : Nat) :
    (t.move h' i j).segment_count = t.segment_count := rfl

theorem content_at_move (t : Table) (h' i j : Nat) (x : Nat)
    (hi : i < t.bucket_count) (hj : j < t.bucket_count) :
    (t.move h' i j).content_at x =
      if x = i then none else if x = j then t.content_at i else t.content_at x := by
  simp [move, content_at_set_owner, content_at_set_content, bucket_count_set_owner,
    bucket_count_set_content, hi, hj]

theorem key_at_move (t : Table) (h' i j : Nat) (x : Nat)
    (hi : i < t.bucket_count) (hj : j < t.bucket_count) :
    (t.move h' i j).key_at x =
      if x = i then none else if x = j then t.key_at i else t.key_at x := by
  unfold key_at
  rw [content_at_move t h' i j x hi hj]
  split
  · rfl
  · split <;> rfl

theorem owner_at_move (t : Table) (h' i j : Nat) (x : Nat) (hh : h' < t.bucket_count) :
    (t.move h' i j).owner_at x =
      if x = h' then bit_set (bit_clear (t.owner_at h') (i - h')) (j - h') else t.owner_at x := by
  simp [move, owner_at_set_owner, owner_at_set_content, bucket_count_set_content, hh]

theorem bucket_move (cfg : Config) (t : Table) (h' i j : Nat) (k : KEY_T) :
    (t.move h' i j).bucket cfg k = t.bucket cfg k := by
  simp [bucket, bucket_count_move]

theorem slot_home_move (cfg : Config) (t : Table) (h' i j : Nat) (x : Nat)
    (hi : i < t.bucket_count) (hj : j < t.bucket_count) :
    (t.move h' i j).slot_home cfg x =
      if x = i then none else if x = j then t.slot_home cfg i else t.slot_home cfg x := by
  unfold slot_home
  rw [key_at_move t h' i j x hi hj]
  split
  · rfl
  · split <;> simp [bucket_move]

theorem slot_home_some {cfg : Config} {t : Table} {j h : Nat}
    (hs : t.slot_home cfg j = some h) : ∃ k, t.key_at j = some k ∧ t.bucket cfg k = h := by
  unfold slot_home at hs
  simpa [Option.map_eq_some'] using hs

theorem invariant_move {cfg : Config} {t : Table} {h' i j : Nat}
    (hinv : t.invariant cfg) (hle : h' ≤ i) (hij : i < j) (hj : j < t.bucket_count)
    (hlt : j - h' < cfg.H) (hbit : (t.owner_at h').testBit (i - h') = true)
    (hclear : t.content_at j = none) :
    (t.move h' i j).invariant cfg := by
  obtain ⟨hpos, hown, hslot, hdist⟩ := hinv
  have hi : i < t.bucket_count := Nat.lt_trans hij hj
  have hhn : h' < t.bucket_count := Nat.lt_of_le_of_lt hle hi
  have hkj : t.key_at j = none := by simp [key_at, hclear]
  have hsj : t.slot_home cfg j = none := by simp [slot_home, hkj]
  have hsi : t.slot_home cfg i = some h' := by
    have := (hown h' hhn (i - h') (by omega) hbit).2
    rwa [Nat.add_sub_cancel' hle] at this
  obtain ⟨ki, hki, hbk⟩ := slot_home_some hsi
  refine ⟨by rw [bucket_count_move]; exact hpos, ?_, ?_, ?_⟩
  · intro h0 hh0 b hb hb0
    rw [bucket_count_move] at hh0 ⊢
    rw [owner_at_move t h' i j h0 hhn] at hb0
    rw [slot_home_move cfg t h' i j _ hi hj]
    by_cases e : h0 = h'
    · subst e
      rw [if_pos rfl, testBit_bit_set, testBit_bit_clear] at hb0
      by_cases e2 : j - h0 = b
      · have e3 : h0 + b = j := by omega
        rw [e3]
        refine ⟨hj, ?_⟩
        rw [if_neg (by omega), if_pos rfl]
        exact hsi
      · simp only [e2, decide_False, Bool.false_or, Bool.and_eq_true, Bool.not_eq_true',
          decide_eq_false_iff_not] at hb0
        obtain ⟨h1, h2⟩ := hown h0 hh0 b hb hb0.2
        refine ⟨h1, ?_⟩
        rw [if_neg (by omega), if_neg (by omega)]
        exact h2
    · rw [if_neg e] at hb0
      obtain ⟨h1, h2⟩ := hown h0 hh0 b hb hb0
      refine ⟨h1, ?_⟩
      have n1 : ¬ h0 + b = i := by
        intro e3; rw [e3, hsi] at h2
        exact e (Option.some.inj h2).symm
      have n2 : ¬ h0 + b = j := by
        intro e3; rw [e3, hsj] at h2; cases h2
      rw [if_neg n1, if_neg n2]
      exact h2
  · intro j0 hj0
    rw [bucket_count_move] at hj0
    apply slot_ok_intro
    intro k0 hk0
    rw [key_at_move t h' i j j0 hi hj] at hk0
    rw [bucket_move, owner_at_move t h' i j _ hhn]
    by_cases e : j0 = i
    · rw [if_pos e] at hk0; cases hk0
    · rw [if_neg e] at hk0
      by_cases e2 : j0 = j
      · rw [if_pos e2, hki] at hk0
        have : ki = k0 := Option.some.inj hk0
        subst this
        rw [hbk, e2, if_pos rfl, testBit_bit_set]
        refine ⟨by omega, hlt, by simp⟩
      · rw [if_neg e2] at hk0
        obtain ⟨h1, h2, h3⟩ := slot_ok_of_key_at (hslot j0 hj0) hk0
        refine ⟨h1, h2, ?_⟩
        split
        · next e3 =>
          rw [testBit_bit_set, testBit_bit_clear]
          rw [e3] at h3 h1 ⊢
          have : ¬ i - h' = j0 - h' := by omega
          simp [this, h3]
        · exact h3
  · intro j1 hj1 j2 hj2 hne heq
    rw [bucket_count_move] at hj1 hj2
    rw [key_at_move t h' i j _ hi hj] at hne heq
    rw [key_at_move t h' i j _ hi hj] at heq
    have hnei : t.key_at i ≠ none := by rw [hki]; simp
    by_cases a1 : j1 = i
    · rw [if_pos a1] at hne; exact absurd rfl hne
    · rw [if_neg a1] at hne heq
      by_cases a2 : j2 = i
      · rw [if_pos a2] at heq
        exact absurd heq hne
      · rw [if_neg a2] at heq
        by_cases b1 : j1 = j
        · by_cases b2 : j2 = j
          · rw [b1, b2]
          · rw [if_pos b1, if_neg b2] at heq
            exact absurd (hdist i hi j2 hj2 hnei heq).symm a2
        · by_cases b2 : j2 = j
          · rw [if_neg b1, if_pos b2] at heq
            rw [if_neg b1] at hne
            exact absurd (hdist j1 hj1 i hi hne heq) a1
          · rw [if_neg b1] at hne
            rw [if_neg b1, if_neg b2] at heq
            exact hdist j1 hj1 j2 hj2 hne heq

theorem holds_move {t : Table} {h' i j : Nat}
    (hij : i < j) (hj : j < t.bucket_count) (hclear : t.content_at j = none)
    (k : KEY_T) (v : MAPPED_T) :
    (t.move h' i j).holds k v ↔ t.holds k v := by
  have hi : i < t.bucket_count := Nat.lt_trans hij hj
  unfold holds
  simp only [bucket_count_move, content_at_move t h' i j _ hi hj]
  constructor
  · rintro ⟨x, hx, hc⟩
    by_cases e : x = i
    · rw [if_pos e] at hc; cases hc
    · rw [if_neg e] at hc
      by_cases e2 : x = j
      · rw [if_pos e2] at hc; exact ⟨i, hi, hc⟩
      · rw [if_neg e2] at hc; exact ⟨x, hx, hc⟩
  · rintro ⟨x, hx, hc⟩
    by_cases e : x = i
    · refine ⟨j, hj, ?_⟩
      rw [if_neg (by omega), if_pos rfl, ← e]; exact hc
    · refine ⟨x, hx, ?_⟩
      have : x ≠ j := by
        intro e2; rw [e2, hclear] at hc; cases hc
      rw [if_neg e, if_neg this]; exact hc

end Table
end Comanche
namespace Comanche
namespace Table

/-! ### The number of contents in use -/

theorem size_update (t : Table) (j : Nat) (f : Bucket → Bucket) (hj : j < t.bucket_count) :
    (t.update j f).size + (if (t.content_at j).isSome then 1 else 0) =
      t.size + (if (f (t.bucket_at j)).content.isSome then 1 else 0) := by
  unfold size update
  simp only
  unfold bucket_count at hj
  rw [List.countP_set _ _ _ _ hj]
  have e : t.buckets[j] = t.bucket_at j := by
    unfold bucket_at
    rw [List.getD_eq_getElem?_getD, List.getElem?_eq_getElem hj]; rfl
  rw [e]
  have hpos : (t.bucket_at j).content.isSome = true → 0 < List.countP (fun b => b.content.isSome) t.buckets := by
    intro hs
    rw [List.countP_pos_iff]
    exact ⟨t.buckets[j], List.getElem_mem _, by rw [e]; simpa using hs⟩
  unfold content_at
  by_cases h1 : (t.bucket_at j).content.isSome = true
  · have := hpos h1
    simp only [h1, if_true]
    omega
  · simp only [h1]
    simp

theorem size_update_ge (t : Table) (j : Nat) (f : Bucket → Bucket) (hj : t.bucket_count ≤ j) :
    (t.update j f).size = t.size := by
  unfold size update
  simp only
  rw [List.set_eq_of_length_le hj]

theorem size_set_owner (t : Table) (h o : Nat) : (t.set_owner h o).size = t.size := by
  by_cases hh : h < t.bucket_count
  · have := size_update t h (fun b => { b with owner := o }) hh
    simp only [content_at] at this
    unfold set_owner
    omega
  · exact size_update_ge _ _ _ (Nat.le_of_not_lt hh)

theorem size_set_content (t : Table) (j : Nat) (c : Option (KEY_T × MAPPED_T))
    (hj : j < t.bucket_count) :
    (t.set_content j c).size + (if (t.content_at j).isSome then 1 else 0) =
      t.size + (if c.isSome then 1 else 0) :=
  size_update t j (fun b => { b with content := c }) hj

theorem size_place (t : Table) (h j : Nat) (k : KEY_T) (v : MAPPED_T)
    (hj : j < t.bucket_count) (hclear : t.content_at j = none) :
    (t.place h j k v).size = t.size + 1 := by
  unfold place
  rw [size_set_owner]
  have := size_set_content t j (some (k, v)) hj
  simpa [hclear] using this

theorem size_move (t : Table) (h' i j : Nat) (hij : i < j) (hj : j < t.bucket_count)
    (hclear : t.content_at j = none) (hfull : (t.content_at i).isSome = true) :
    (t.move h' i j).size = t.size := by
  have hi : i < t.bucket_count := Nat.lt_trans hij hj
  unfold move
  simp only
  have hne : ¬ (i = j ∧ j < t.bucket_count) := by omega
  have h1 := size_set_content t j (t.content_at i) hj
  have h2 := size_set_owner (t.set_content j (t.content_at i)) h'
    (bit_set (bit_clear (t.owner_at h') (i - h')) (j - h'))
  have h3 := size_set_content ((t.set_content j (t.content_at i)).set_owner h'
    (bit_set (bit_clear (t.owner_at h') (i - h')) (j - h'))) i none
    (by rw [bucket_count_set_owner, bucket_count_set_content]; exact hi)
  rw [content_at_set_owner, content_at_set_content, if_neg hne, h2] at h3
  rw [hclear, hfull] at h1
  rw [hfull] at h3
  simp only [Option.isSome_none, Bool.false_eq_true, if_false, if_true, Nat.add_zero] at h1 h3
  omega

end Table
end Comanche
namespace Comanche
namespace Table

/-! ### Probing and displacement -/

theorem free_slot_some {t : Table} {lo hi j : Nat} (h : t.free_slot lo hi = some j) :
    lo ≤ j ∧ j < hi ∧ t.content_at j = none := by
  unfold free_slot at h
  have hp := List.find?_some h
  have hm := List.mem_of_find?_eq_some h
  rw [List.mem_range'_1] at hm
  refine ⟨hm.1, by omega, ?_⟩
  simpa using hp

theorem find_victim_some {cfg : Config} {t : Table} {j h' i : Nat}
    (h : t.find_victim cfg j = some (h', i)) :
    j + 2 ≤ h' + cfg.H ∧ h' ≤ i ∧ i < j ∧ (t.owner_at h').testBit (i - h') = true := by
  unfold find_victim at h
  obtain ⟨x, hx, hf⟩ := List.exists_of_findSome?_eq_some h
  rw [List.mem_range'_1] at hx
  simp only [Option.map_eq_some', Prod.mk.injEq] at hf
  obtain ⟨b, hb, rfl, rfl⟩ := hf
  have hp := List.find?_some hb
  simp only [Bool.and_eq_true, decide_eq_true_eq] at hp
  refine ⟨by omega, Nat.le_add_right _ _, hp.2, ?_⟩
  simpa using hp.1

theorem displace_spec {cfg : Config} (fuel : Nat) :
    ∀ {t : Table} {h j : Nat} {t' : Table} {j' : Nat},
      t.invariant cfg → h ≤ j → j < t.bucket_count → t.content_at j = none →
      displace cfg fuel t h j = some (t', j') →
      t'.invariant cfg ∧ t'.bucket_count = t.bucket_count ∧
        t'.segment_count = t.segment_count ∧ t'.size = t.size ∧
        (∀ k v, t'.holds k v ↔ t.holds k v) ∧
        h ≤ j' ∧ j' - h < cfg.H ∧ j' < t'.bucket_count ∧ t'.content_at j' = none := by
  induction fuel with
  | zero =>
    intro t h j t' j' hinv hle hj hclear hd
    unfold displace at hd
    split at hd
    · next hlt =>
      simp only [Option.some.injEq, Prod.mk.injEq] at hd
      obtain ⟨rfl, rfl⟩ := hd
      exact ⟨hinv, rfl, rfl, rfl, fun _ _ => Iff.rfl, hle, hlt, hj, hclear⟩
    · cases hd
  | succ fuel ih =>
    intro t h j t' j' hinv hle hj hclear hd
    unfold displace at hd
    split at hd
    · next hlt =>
      simp only [Option.some.injEq, Prod.mk.injEq] at hd
      obtain ⟨rfl, rfl⟩ := hd
      exact ⟨hinv, rfl, rfl, rfl, fun _ _ => Iff.rfl, hle, hlt, hj, hclear⟩
    · next hge =>
      split at hd
      · cases hd
      · next h' i hv =>
        obtain ⟨v1, v2, v3, v4⟩ := find_victim_some hv
        have hi : i < t.bucket_count := Nat.lt_trans v3 hj
        have hinv' : (t.move h' i j).invariant cfg :=
          invariant_move hinv v2 v3 hj (by omega) v4 hclear
        have hc' : (t.move h' i j).content_at i = none := by
          rw [content_at_move t h' i j i hi hj, if_pos rfl]
        have hfull : (t.content_at i).isSome = true := by
          have hs := (hinv.2.1 h' (Nat.lt_of_le_of_lt v2 hi) (i - h') (by omega) v4).2
          rw [Nat.add_sub_cancel' v2] at hs
          obtain ⟨ki, hki, _⟩ := slot_home_some hs
          obtain ⟨vi, hvi⟩ := content_of_key_at hki
          simp [hvi]
        obtain ⟨r1, r2, r3, rs, r4, r5⟩ :=
          ih hinv' (by omega) (by rw [bucket_count_move]; exact hi) hc' hd
        refine ⟨r1, by rw [r2, bucket_count_move], by rw [r3, segment_count_move],
          by rw [rs, size_move t h' i j v3 hj hclear hfull], ?_, r5⟩
        intro k v
        rw [r4 k v, holds_move v3 hj hclear]

theorem key_absent_of_holds {t t' : Table} {k : KEY_T}
    (h : ∀ k v, t'.holds k v ↔ t.holds k v) (habs : ∀ j, t.key_at j ≠ some k) :
    ∀ j, t'.key_at j ≠ some k := by
  intro j hk
  obtain ⟨v, hv⟩ := content_of_key_at hk
  obtain ⟨j0, _, hc⟩ := (h k v).1 ⟨j, lt_of_content_at hv, hv⟩
  exact habs j0 (key_at_eq hc)

theorem try_insert_spec {cfg : Config} {t : Table} {k : KEY_T} {v : MAPPED_T} {t' : Table} {j : Nat}
    (hinv : t.invariant cfg) (habs : ∀ j, t.key_at j ≠ some k)
    (h : t.try_insert cfg k v = some (t', j)) :
    t'.invariant cfg ∧ t'.bucket_count = t.bucket_count ∧
      t'.segment_count = t.segment_count ∧ t'.size = t.size + 1 ∧
      (∀ k' v', t'.holds k' v' ↔ (k' = k ∧ v' = v) ∨ t.holds k' v') ∧
      t'.content_at j = some (k, v) := by
  unfold try_insert at h
  simp only at h
  split at h
  · next j0 hf =>
    simp only [Option.some.injEq, Prod.mk.injEq] at h
    obtain ⟨rfl, rfl⟩ := h
    obtain ⟨f1, f2, f3⟩ := free_slot_some hf
    have hj : j0 < t.bucket_count := by omega
    refine ⟨invariant_place v hinv hj f3 rfl f1 (by omega) habs, bucket_count_place _ _ _ _ _,
      rfl, size_place t _ j0 k v hj f3, fun k' v' => holds_place hj f3 k' v', ?_⟩
    rw [content_at_place _ _ _ _ _ _ hj, if_pos rfl]
  · split at h
    · cases h
    · next j0 hf =>
      split at h
      · cases h
      · next t1 j1 hd =>
        simp only [Option.some.injEq, Prod.mk.injEq] at h
        obtain ⟨rfl, rfl⟩ := h
        obtain ⟨f1, f2, f3⟩ := free_slot_some hf
        obtain ⟨d1, d2, d3, ds, d4, d5, d6, d7, d8⟩ :=
          displace_spec j0 hinv (by omega) f2 f3 hd
        have hb : t.bucket cfg k = t1.bucket cfg k := by simp [bucket, d2]
        have habs1 := key_absent_of_holds d4 habs
        rw [hb]
        rw [hb] at d5 d6
        refine ⟨invariant_place v d1 d7 d8 rfl d5 d6 habs1, by rw [bucket_count_place, d2],
          by rw [segment_count_place, d3], by rw [size_place t1 _ j1 k v d7 d8, ds], ?_, ?_⟩
        · intro k' v'
          rw [holds_place d7 d8, d4]
        · rw [content_at_place _ _ _ _ _ _ d7, if_pos rfl]

end Table
end Comanche
namespace Comanche
namespace Table

/-! ### Resize -/

theorem owner_keep_succ (H : Nat) (p : Nat → Bool) (o : Nat) :
    owner_keep (H + 1) p o =
      if o.testBit H && p H then bit_set (owner_keep H p o) H else owner_keep H p o := by
  unfold owner_keep
  rw [List.range_succ, List.foldl_append]
  rfl

theorem testBit_owner_keep (H : Nat) (p : Nat → Bool) (o i : Nat) :
    (owner_keep H p o).testBit i = (decide (i < H) && o.testBit i && p i) := by
  induction H with
  | zero => simp [owner_keep]
  | succ H ih =>
    rw [owner_keep_succ]
    by_cases e : i = H
    · subst e
      by_cases hb : (o.testBit i && p i) = true
      · rw [if_pos hb, testBit_bit_set]
        simp only [Bool.and_eq_true] at hb
        simp [hb.1, hb.2]
      · rw [if_neg hb, ih]
        simp only [Bool.and_eq_true, not_and, Bool.not_eq_true] at hb
        by_cases h1 : o.testBit i = true
        · simp [h1, hb h1]
        · simp [h1]
    · have e' : ¬ H = i := fun h => e h.symm
      have hd : decide (i < H + 1) = decide (i < H) := by
        apply decide_eq_decide.2; omega
      split
      · rw [testBit_bit_set, ih, hd]; simp [e']
      · rw [ih, hd]

theorem bucket_count_resize (cfg : Config) (t : Table) :
    (t.resize cfg).bucket_count = 2 * t.bucket_count := by
  simp [resize, bucket_count]; omega

theorem segment_count_resize (cfg : Config) (t : Table) :
    (t.resize cfg).segment_count = t.segment_count + 1 := rfl

theorem bucket_at_resize_lt (cfg : Config) (t : Table) (s : Nat) (hs : s < t.bucket_count) :
    (t.resize cfg).bucket_at s =
      { t.bucket_at s with
        owner := owner_keep cfg.H
          (fun i => !(migrates cfg t.bucket_count (t.content_at (s + i)))) (t.bucket_at s).owner
        content := if migrates cfg t.bucket_count (t.bucket_at s).content then none
          else (t.bucket_at s).content } := by
  show (t.resize cfg).buckets.getD s clear_bucket = _
  unfold resize
  simp only
  rw [List.getD_eq_getElem?_getD, List.getElem?_append,
    if_pos (by rw [List.length_map, List.length_range]; exact hs),
    List.getElem?_map, List.getElem?_range hs]
  rfl

theorem bucket_at_resize_ge (cfg : Config) (t : Table) (s : Nat) (hs : s < t.bucket_count) :
    (t.resize cfg).bucket_at (t.bucket_count + s) =
      { owner := owner_keep cfg.H
          (fun i => migrates cfg t.bucket_count (t.content_at (s + i))) (t.bucket_at s).owner
        content := if migrates cfg t.bucket_count (t.bucket_at s).content
          then (t.bucket_at s).content else none
        readers := 0
        writer := false } := by
  show (t.resize cfg).buckets.getD (t.bucket_count + s) clear_bucket = _
  unfold resize
  simp only
  rw [List.getD_eq_getElem?_getD, List.getElem?_append,
    if_neg (by rw [List.length_map, List.length_range]; omega),
    List.length_map, List.length_range, Nat.add_sub_cancel_left,
    List.getElem?_map, List.getElem?_range hs]
  rfl

theorem content_at_resize_lt (cfg : Config) (t : Table) (s : Nat) (hs : s < t.bucket_count) :
    (t.resize cfg).content_at s =
      if migrates cfg t.bucket_count (t.content_at s) then none else t.content_at s := by
  unfold content_at
  rw [bucket_at_resize_lt cfg t s hs]

theorem owner_at_resize_lt (cfg : Config) (t : Table) (s : Nat) (hs : s < t.bucket_count) :
    (t.resize cfg).owner_at s =
      owner_keep cfg.H (fun i => !(migrates cfg t.bucket_count (t.content_at (s + i))))
        (t.owner_at s) := by
  unfold owner_at
  rw [bucket_at_resize_lt cfg t s hs]

theorem content_at_resize_ge (cfg : Config) (t : Table) (s : Nat) (hs : s < t.bucket_count) :
    (t.resize cfg).content_at (t.bucket_count + s) =
      if migrates cfg t.bucket_count (t.content_at s) then t.content_at s else none := by
  unfold content_at
  rw [bucket_at_resize_ge cfg t s hs]

theorem owner_at_resize_ge (cfg : Config) (t : Table) (s : Nat) (hs : s < t.bucket_count) :
    (t.resize cfg).owner_at (t.bucket_count + s) =
      owner_keep cfg.H (fun i => migrates cfg t.bucket_count (t.content_at (s + i)))
        (t.owner_at s) := by
  unfold owner_at
  rw [bucket_at_resize_ge cfg t s hs]

end Table
end Comanche
namespace Comanche
namespace Table

theorem mod_double_lt {x n : Nat} (h : x % (2 * n) < n) : x % (2 * n) = x % n := by
  have := Nat.mod_mul_left_mod x 2 n
  rw [Nat.mod_eq_of_lt h] at this
  exact this

theorem mod_double_ge {x n : Nat} (hn : 0 < n) (h : n ≤ x % (2 * n)) :
    x % (2 * n) = n + x % n := by
  have h1 := Nat.mod_mul_left_mod x 2 n
  have h2 : x % (2 * n) < 2 * n := Nat.mod_lt _ (by omega)
  have h3 : x % (2 * n) % n = x % (2 * n) - n := by
    rw [Nat.mod_eq_sub_mod h, Nat.mod_eq_of_lt (by omega)]
  omega

theorem bucket_resize_stay {cfg : Config} {t : Table} {k : KEY_T} {v : MAPPED_T}
    (hm : migrates cfg t.bucket_count (some (k, v)) = false) :
    (t.resize cfg).bucket cfg k = t.bucket cfg k := by
  unfold bucket
  rw [bucket_count_resize]
  unfold migrates at hm
  simp only [decide_eq_false_iff_not, Nat.not_le] at hm
  exact mod_double_lt hm

theorem bucket_resize_go {cfg : Config} {t : Table} {k : KEY_T} {v : MAPPED_T}
    (hn : 0 < t.bucket_count)
    (hm : migrates cfg t.bucket_count (some (k, v)) = true) :
    (t.resize cfg).bucket cfg k = t.bucket_count + t.bucket cfg k := by
  unfold bucket
  rw [bucket_count_resize]
  unfold migrates at hm
  simp only [decide_eq_true_eq] at hm
  exact mod_double_ge hn hm

/-- Where a content of the resized table comes from. -/
theorem content_at_resize_some {cfg : Config} {t : Table} {j : Nat} {c : KEY_T × MAPPED_T}
    (h : (t.resize cfg).content_at j = some c) :
    ∃ s, s < t.bucket_count ∧ t.content_at s = some c ∧
      ((j = s ∧ migrates cfg t.bucket_count (some c) = false) ∨
       (j = t.bucket_count + s ∧ migrates cfg t.bucket_count (some c) = true)) := by
  have hj := lt_of_content_at h
  rw [bucket_count_resize] at hj
  by_cases hlt : j < t.bucket_count
  · rw [content_at_resize_lt cfg t j hlt] at h
    split at h
    · cases h
    · next hm =>
      refine ⟨j, hlt, h, Or.inl ⟨rfl, ?_⟩⟩
      rw [h] at hm
      simpa using hm
  · obtain ⟨s, rfl⟩ : ∃ s, j = t.bucket_count + s := ⟨j - t.bucket_count, by omega⟩
    have hs : s < t.bucket_count := by omega
    rw [content_at_resize_ge cfg t s hs] at h
    split at h
    · next hm =>
      refine ⟨s, hs, h, Or.inr ⟨rfl, ?_⟩⟩
      rw [h] at hm
      exact hm
    · cases h

/-- Where a content of the table goes in a resize. -/
theorem content_at_resize_of {cfg : Config} {t : Table} {s : Nat} {c : KEY_T × MAPPED_T}
    (h : t.content_at s = some c) :
    (t.resize cfg).content_at
      (if migrates cfg t.bucket_count (some c) then t.bucket_count + s else s) = some c := by
  have hs := lt_of_content_at h
  split
  · next hm =>
    rw [content_at_resize_ge cfg t s hs, h, if_pos hm]
  · next hm =>
    rw [content_at_resize_lt cfg t s hs, h, if_neg hm]

theorem holds_resize (cfg : Config) (t : Table) (k : KEY_T) (v : MAPPED_T) :
    (t.resize cfg).holds k v ↔ t.holds k v := by
  unfold holds
  constructor
  · rintro ⟨j, _, hc⟩
    obtain ⟨s, hs, hcs, _⟩ := content_at_resize_some hc
    exact ⟨s, hs, hcs⟩
  · rintro ⟨s, hs, hc⟩
    have := @content_at_resize_of cfg t s (k, v) hc
    exact ⟨_, lt_of_content_at this, this⟩

theorem invariant_resize {cfg : Config} {t : Table} (hinv : t.invariant cfg) :
    (t.resize cfg).invariant cfg := by
  obtain ⟨hpos, hown, hslot, hdist⟩ := hinv
  refine ⟨by rw [bucket_count_resize]; omega, ?_, ?_, ?_⟩
  · intro h0 hh0 i hi hbit
    rw [bucket_count_resize] at hh0 ⊢
    by_cases hlt : h0 < t.bucket_count
    · rw [owner_at_resize_lt cfg t h0 hlt, testBit_owner_keep] at hbit
      simp only [Bool.and_eq_true, decide_eq_true_eq, Bool.not_eq_true'] at hbit
      obtain ⟨⟨_, hb⟩, hm⟩ := hbit
      obtain ⟨o1, o2⟩ := hown h0 hlt i hi hb
      obtain ⟨k, hk, hbk⟩ := slot_home_some o2
      obtain ⟨v, hv⟩ := content_of_key_at hk
      rw [hv] at hm
      have hc : (t.resize cfg).content_at (h0 + i) = some (k, v) := by
        rw [content_at_resize_lt cfg t _ o1, hv, if_neg (by simp [hm])]
      refine ⟨by omega, ?_⟩
      rw [slot_home_eq hc, bucket_resize_stay hm, hbk]
    · obtain ⟨s, rfl⟩ : ∃ s, h0 = t.bucket_count + s := ⟨h0 - t.bucket_count, by omega⟩
      have hs : s < t.bucket_count := by omega
      rw [owner_at_resize_ge cfg t s hs, testBit_owner_keep] at hbit
      simp only [Bool.and_eq_true, decide_eq_true_eq] at hbit
      obtain ⟨⟨_, hb⟩, hm⟩ := hbit
      obtain ⟨o1, o2⟩ := hown s hs i hi hb
      obtain ⟨k, hk, hbk⟩ := slot_home_some o2
      obtain ⟨v, hv⟩ := content_of_key_at hk
      rw [hv] at hm
      have hc : (t.resize cfg).content_at (t.bucket_count + s + i) = some (k, v) := by
        rw [Nat.add_assoc, content_at_resize_ge cfg t _ o1, hv, if_pos hm]
      refine ⟨by omega, ?_⟩
      rw [slot_home_eq hc, bucket_resize_go hpos hm, hbk]
  · intro j0 hj0
    apply slot_ok_intro
    intro k0 hk0
    obtain ⟨v0, hv0⟩ := content_of_key_at hk0
    obtain ⟨s, hs, hcs, hcase⟩ := content_at_resize_some hv0
    obtain ⟨s1, s2, s3⟩ := slot_ok_of_key_at (hslot s hs) (key_at_eq hcs)
    have e : t.bucket cfg k0 + (s - t.bucket cfg k0) = s := by omega
    have hhn : t.bucket cfg k0 < t.bucket_count := by omega
    rcases hcase with ⟨rfl, hm⟩ | ⟨rfl, hm⟩
    · rw [bucket_resize_stay hm, owner_at_resize_lt cfg t _ hhn, testBit_owner_keep]
      refine ⟨s1, s2, ?_⟩
      simp [s2, s3, e, hcs, hm]
    · rw [bucket_resize_go hpos hm, owner_at_resize_ge cfg t _ hhn, testBit_owner_keep]
      refine ⟨by omega, by omega, ?_⟩
      have e2 : t.bucket_count + s - (t.bucket_count + t.bucket cfg k0) = s - t.bucket cfg k0 := by
        omega
      rw [e2]
      simp [s2, s3, e, hcs, hm]
  · intro j1 hj1 j2 hj2 hne heq
    cases hk1 : (t.resize cfg).key_at j1 with
    | none => exact absurd hk1 hne
    | some k =>
      rw [hk1] at heq
      obtain ⟨v1, hv1⟩ := content_of_key_at hk1
      obtain ⟨v2, hv2⟩ := content_of_key_at heq.symm
      obtain ⟨s1, hs1, hc1, hcase1⟩ := content_at_resize_some hv1
      obtain ⟨s2, hs2, hc2, hcase2⟩ := content_at_resize_some hv2
      have hss : s1 = s2 := hdist s1 hs1 s2 hs2 (by rw [key_at_eq hc1]; simp)
        (by rw [key_at_eq hc1, key_at_eq hc2])
      subst hss
      rw [hc1] at hc2
      have hvv : v1 = v2 := by
        simp only [Option.some.injEq, Prod.mk.injEq, true_and] at hc2
        exact hc2
      subst hvv
      rcases hcase1 with ⟨rfl, hm1⟩ | ⟨rfl, hm1⟩ <;> rcases hcase2 with ⟨rfl, hm2⟩ | ⟨rfl, hm2⟩
      · rfl
      · rw [hm1] at hm2; cases hm2
      · rw [hm1] at hm2; cases hm2
      · rfl

end Table
end Comanche
namespace Comanche
namespace Table

theorem map_bucket_at_range (t : Table) :
    (List.range t.bucket_count).map t.bucket_at = t.buckets := by
  apply List.ext_getElem
  · simp [bucket_count]
  · intro i h1 h2
    simp [bucket_at, List.getD_eq_getElem?_getD, List.getElem?_eq_getElem h2]

theorem countP_split {α : Type} (p p1 p2 : α → Bool) (l : List α)
    (h : ∀ x ∈ l, (if p1 x then 1 else 0) + (if p2 x then 1 else 0) = (if p x then 1 else 0)) :
    l.countP p1 + l.countP p2 = l.countP p := by
  induction l with
  | nil => rfl
  | cons a l ih =>
    have ha := h a (List.mem_cons_self _ _)
    have hl := ih (fun x hx => h x (List.mem_cons_of_mem _ hx))
    simp only [List.countP_cons]
    omega

theorem size_resize (cfg : Config) (t : Table) : (t.resize cfg).size = t.size := by
  have h0 : t.size = (List.range t.bucket_count).countP
      (fun s => (t.bucket_at s).content.isSome) := by
    unfold size
    conv_lhs => rw [← map_bucket_at_range t]
    rw [List.countP_map]
    rfl
  rw [h0]
  unfold size resize
  simp only
  rw [List.countP_append, List.countP_map, List.countP_map]
  apply countP_split
  intro s _
  simp only [Function.comp]
  have key : ∀ x : Option (KEY_T × MAPPED_T),
      ((if (if migrates cfg t.bucket_count x = true then none else x).isSome = true then 1 else 0) +
        if (if migrates cfg t.bucket_count x = true then x else none).isSome = true then 1 else 0) =
      if x.isSome = true then 1 else 0 := by
    intro x
    cases x with
    | none => simp [migrates]
    | some c =>
      by_cases hm : migrates cfg t.bucket_count (some c) = true
      · simp [hm]
      · simp [hm]
  exact key _

end Table
end Comanche
namespace Comanche
namespace Table

/-! ### Insert with resize, `emplace` -/

theorem insert_loop_returned {cfg : Config} {k : KEY_T} {v : MAPPED_T} (room : Nat) :
    ∀ {t t' : Table} {j : Nat}, t.invariant cfg → (∀ j, t.key_at j ≠ some k) →
      insert_loop cfg k v room t = (.returned j, t') →
      t'.invariant cfg ∧ t'.size = t.size + 1 ∧ t'.content_at j = some (k, v) ∧
        (∀ k' v', t'.holds k' v' ↔ (k' = k ∧ v' = v) ∨ t.holds k' v') := by
  induction room with
  | zero =>
    intro t t' j hinv habs h
    unfold insert_loop at h
    split at h
    · next t1 j1 ht =>
      simp only [Prod.mk.injEq, Outcome.returned.injEq] at h
      obtain ⟨rfl, rfl⟩ := h
      obtain ⟨a1, _, _, a4, a5, a6⟩ := try_insert_spec hinv habs ht
      exact ⟨a1, a4, a6, a5⟩
    · simp at h
  | succ room ih =>
    intro t t' j hinv habs h
    unfold insert_loop at h
    split at h
    · next t1 j1 ht =>
      simp only [Prod.mk.injEq, Outcome.returned.injEq] at h
      obtain ⟨rfl, rfl⟩ := h
      obtain ⟨a1, _, _, a4, a5, a6⟩ := try_insert_spec hinv habs ht
      exact ⟨a1, a4, a6, a5⟩
    · have habs' : ∀ j, (t.resize cfg).key_at j ≠ some k :=
        key_absent_of_holds (holds_resize cfg t) habs
      obtain ⟨a1, a2, a3, a4⟩ := ih (invariant_resize hinv) habs' h
      refine ⟨a1, by rw [a2, size_resize], a3, ?_⟩
      intro k' v'
      rw [a4, holds_resize]

theorem insert_loop_thrown {cfg : Config} {k : KEY_T} {v : MAPPED_T} (room : Nat) :
    ∀ {t t' : Table} {e : Exn}, t.invariant cfg →
      insert_loop cfg k v room t = (.thrown e, t') →
      t'.invariant cfg ∧ t'.size = t.size ∧ (∀ k' v', t'.holds k' v' ↔ t.holds k' v') := by
  induction room with
  | zero =>
    intro t t' e hinv h
    unfold insert_loop at h
    split at h
    · simp at h
    · simp only [Prod.mk.injEq, Outcome.thrown.injEq] at h
      obtain ⟨_, rfl⟩ := h
      exact ⟨hinv, rfl, fun _ _ => Iff.rfl⟩
  | succ room ih =>
    intro t t' e hinv h
    unfold insert_loop at h
    split at h
    · simp at h
    · obtain ⟨a1, a2, a3⟩ := ih (invariant_resize hinv) h
      refine ⟨a1, by rw [a2, size_resize], ?_⟩
      intro k' v'
      rw [a3, holds_resize]

theorem emplace_of_locate {cfg : Config} {t : Table} {k : KEY_T} {j : Nat} (v : MAPPED_T)
    (h : t.locate_key cfg k = some j) : t.emplace cfg k v = (.returned (j, false), t) := by
  unfold emplace
  rw [h]

theorem emplace_returned_false {cfg : Config} {t t' : Table} {k : KEY_T} {v : MAPPED_T} {j : Nat}
    (h : t.emplace cfg k v = (.returned (j, false), t')) :
    t' = t ∧ t.locate_key cfg k = some j := by
  unfold emplace at h
  split at h
  · next j0 hl =>
    simp only [Prod.mk.injEq, Outcome.returned.injEq, and_true] at h
    exact ⟨h.2.symm, by rw [hl, h.1]⟩
  · simp only at h
    split at h
    · simp at h
    · simp at h

theorem emplace_returned_true {cfg : Config} {t t' : Table} {k : KEY_T} {v : MAPPED_T} {j : Nat}
    (hinv : t.invariant cfg) (h : t.emplace cfg k v = (.returned (j, true), t')) :
    t.locate_key cfg k = none ∧ t'.invariant cfg ∧ t'.size = t.size + 1 ∧
      t'.content_at j = some (k, v) ∧
      (∀ k' v', t'.holds k' v' ↔ (k' = k ∧ v' = v) ∨ t.holds k' v') := by
  unfold emplace at h
  split at h
  · simp at h
  · next hl =>
    have habs := (locate_key_eq_none hinv.2.2.1 hinv.2.2.2).1 hl
    simp only at h
    split at h
    · next j0 t0 hloop =>
      simp only [Prod.mk.injEq, Outcome.returned.injEq, and_true] at h
      obtain ⟨rfl, rfl⟩ := h
      by_cases hload : (cfg.load_exceeded t.size t.bucket_count &&
          decide (t.segment_count < cfg.segment_capacity)) = true
      · rw [if_pos hload] at hloop
        obtain ⟨a1, a2, a3, a4⟩ := insert_loop_returned _ (invariant_resize hinv)
          (key_absent_of_holds (holds_resize cfg t) habs) hloop
        refine ⟨hl, a1, by rw [a2, size_resize], a3, ?_⟩
        intro k' v'
        rw [a4, holds_resize]
      · rw [if_neg hload] at hloop
        obtain ⟨a1, a2, a3, a4⟩ := insert_loop_returned _ hinv habs hloop
        exact ⟨hl, a1, a2, a3, a4⟩
    · simp at h

theorem emplace_thrown {cfg : Config} {t t' : Table} {k : KEY_T} {v : MAPPED_T} {e : Exn}
    (hinv : t.invariant cfg) (h : t.emplace cfg k v = (.thrown e, t')) :
    t.locate_key cfg k = none ∧ t'.invariant cfg ∧ t'.size = t.size ∧
      (∀ k' v', t'.holds k' v' ↔ t.holds k' v') := by
  unfold emplace at h
  split at h
  · simp at h
  · next hl =>
    simp only at h
    split at h
    · simp at h
    · next e0 t0 hloop =>
      simp only [Prod.mk.injEq, Outcome.thrown.injEq] at h
      obtain ⟨rfl, rfl⟩ := h
      by_cases hload : (cfg.load_exceeded t.size t.bucket_count &&
          decide (t.segment_count < cfg.segment_capacity)) = true
      · rw [if_pos hload] at hloop
        obtain ⟨a1, a2, a3⟩ := insert_loop_thrown _ (invariant_resize hinv) hloop
        refine ⟨hl, a1, by rw [a2, size_resize], ?_⟩
        intro k' v'
        rw [a3, holds_resize]
      · rw [if_neg hload] at hloop
        obtain ⟨a1, a2, a3⟩ := insert_loop_thrown _ hinv hloop
        exact ⟨hl, a1, a2, a3⟩

end Table
end Comanche
namespace Comanche
namespace Table

/-! ### Tables with the same keys and owners -/

theorem invariant_congr {cfg : Config} {t t' : Table}
    (hn : t'.bucket_count = t.bucket_count)
    (ho : ∀ x, t'.owner_at x = t.owner_at x) (hk : ∀ x, t'.key_at x = t.key_at x)
    (hinv : t.invariant cfg) : t'.invariant cfg := by
  obtain ⟨hpos, hown, hslot, hdist⟩ := hinv
  have hb : ∀ k, t'.bucket cfg k = t.bucket cfg k := fun k => by simp [bucket, hn]
  have hsh : ∀ x, t'.slot_home cfg x = t.slot_home cfg x := fun x => by
    simp [slot_home, hk, hb]
  refine ⟨by rw [hn]; exact hpos, ?_, ?_, ?_⟩
  · intro h0 hh0 i hi hbit
    rw [hn] at hh0 ⊢
    rw [ho] at hbit
    rw [hsh]
    exact hown h0 hh0 i hi hbit
  · intro j hj
    rw [hn] at hj
    have := hslot j hj
    unfold slot_ok at this ⊢
    rw [hsh]
    cases hs : t.slot_home cfg j with
    | none => rfl
    | some h => rw [hs] at this; simpa [ho] using this
  · intro j1 hj1 j2 hj2
    rw [hn] at hj1 hj2
    rw [hk, hk]
    exact hdist j1 hj1 j2 hj2

theorem locate_key_congr {cfg : Config} {t t' : Table}
    (hn : t'.bucket_count = t.bucket_count)
    (ho : ∀ x, t'.owner_at x = t.owner_at x) (hk : ∀ x, t'.key_at x = t.key_at x)
    (k : KEY_T) : t'.locate_key cfg k = t.locate_key cfg k := by
  unfold locate_key
  simp [bucket, hn, ho, hk]

theorem value_of_congr_content {cfg : Config} {t t' : Table}
    (hn : t'.bucket_count = t.bucket_count)
    (ho : ∀ x, t'.owner_at x = t.owner_at x) (hc : ∀ x, t'.content_at x = t.content_at x)
    (k : KEY_T) : t'.value_of cfg k = t.value_of cfg k := by
  unfold value_of
  rw [locate_key_congr hn ho (fun x => by simp [key_at, hc])]
  simp [hc]

/-! ### Rewriting the lock state of a bucket -/

theorem content_at_update_same (t : Table) (j : Nat) (f : Bucket → Bucket)
    (hf : (f (t.bucket_at j)).content = (t.bucket_at j).content) (x : Nat) :
    (t.update j f).content_at x = t.content_at x := by
  unfold content_at
  rw [bucket_at_update]
  split
  · next h => rw [h.1]; exact hf
  · rfl

theorem owner_at_update_same (t : Table) (j : Nat) (f : Bucket → Bucket)
    (hf : (f (t.bucket_at j)).owner = (t.bucket_at j).owner) (x : Nat) :
    (t.update j f).owner_at x = t.owner_at x := by
  unfold owner_at
  rw [bucket_at_update]
  split
  · next h => rw [h.1]; exact hf
  · rfl

theorem size_update_same (t : Table) (j : Nat) (f : Bucket → Bucket)
    (hf : (f (t.bucket_at j)).content = (t.bucket_at j).content) :
    (t.update j f).size = t.size := by
  by_cases hj : j < t.bucket_count
  · have := size_update t j f hj
    rw [hf] at this
    unfold content_at at this
    omega
  · exact size_update_ge _ _ _ (Nat.le_of_not_lt hj)

/-! ### Replacing the value of a key -/

theorem set_value_spec {cfg : Config} {t : Table} {j : Nat} {k : KEY_T} {v : MAPPED_T}
    (v' : MAPPED_T) (hinv : t.invariant cfg) (hc : t.content_at j = some (k, v)) :
    (t.set_content j (some (k, v'))).invariant cfg ∧
      (t.set_content j (some (k, v'))).size = t.size ∧
      (t.set_content j (some (k, v'))).value_of cfg k = some v' ∧
      (∀ k', k' ≠ k → (t.set_content j (some (k, v'))).value_of cfg k' = t.value_of cfg k') ∧
      (t.set_content j (some (k, v'))).locate_key cfg k = some j ∧
      (t.set_content j (some (k, v'))).content_at j = some (k, v') := by
  have hj := lt_of_content_at hc
  have hn := bucket_count_set_content t j (some (k, v'))
  have ho := owner_at_set_content t j (some (k, v'))
  have hk : ∀ x, (t.set_content j (some (k, v'))).key_at x = t.key_at x := by
    intro x
    unfold key_at
    rw [content_at_set_content]
    split
    · next h => rw [h.1, hc]; rfl
    · rfl
  have hinv' := invariant_congr hn ho hk hinv
  have hcj : (t.set_content j (some (k, v'))).content_at j = some (k, v') := by
    rw [content_at_set_content, if_pos ⟨rfl, hj⟩]
  refine ⟨hinv', ?_, ?_, ?_, ?_, hcj⟩
  · have := size_set_content t j (some (k, v')) hj
    simp [hc] at this
    exact this
  · rw [value_of_eq_some hinv'.2.2.1 hinv'.2.2.2]
    exact ⟨j, by rw [hn]; exact hj, hcj⟩
  · intro k' hne
    apply value_of_congr k' hinv.2.2.1 hinv.2.2.2 hinv'.2.2.1 hinv'.2.2.2
    intro w
    unfold holds
    rw [hn]
    constructor
    · rintro ⟨x, hx, hcx⟩
      rw [content_at_set_content] at hcx
      split at hcx
      · simp only [Option.some.injEq, Prod.mk.injEq] at hcx
        exact absurd hcx.1.symm hne
      · exact ⟨x, hx, hcx⟩
    · rintro ⟨x, hx, hcx⟩
      refine ⟨x, hx, ?_⟩
      rw [content_at_set_content]
      split
      · next h =>
        rw [h.1, hc] at hcx
        simp only [Option.some.injEq, Prod.mk.injEq] at hcx
        exact absurd hcx.1.symm hne
      · exact hcx
  · rw [locate_key_congr hn ho hk]
    exact locate_key_of_key_at hinv.2.2.1 hinv.2.2.2 (key_at_eq hc)

end Table
end Comanche
namespace Comanche
namespace Table

/-! ### Erase -/

theorem erase_absent {cfg : Config} {t : Table} {k : KEY_T} (h : t.locate_key cfg k = none) :
    t.erase cfg k = (0, t) := by
  unfold erase; rw [h]

theorem erase_fst (cfg : Config) (t : Table) (k : KEY_T) :
    (t.erase cfg k).1 = if (t.locate_key cfg k).isSome then 1 else 0 := by
  unfold erase
  cases t.locate_key cfg k <;> rfl

theorem erase_present {cfg : Config} {t : Table} {k : KEY_T} {j : Nat}
    (hinv : t.invariant cfg) (hl : t.locate_key cfg k = some j) :
    (t.erase cfg k).1 = 1 ∧ (t.erase cfg k).2.invariant cfg ∧
      (t.erase cfg k).2.size + 1 = t.size ∧
      (∀ k' v', (t.erase cfg k).2.holds k' v' ↔ k' ≠ k ∧ t.holds k' v') := by
  obtain ⟨hpos, hown, hslot, hdist⟩ := hinv
  obtain ⟨hk, hj, hle, hlt, hbit⟩ := locate_key_some hl
  obtain ⟨v, hv⟩ := content_of_key_at hk
  have hhn : t.bucket cfg k < t.bucket_count := Nat.lt_of_le_of_lt hle hj
  have hsj : t.slot_home cfg j = some (t.bucket cfg k) := slot_home_eq hv
  have he : (t.erase cfg k).2 =
      (t.set_content j none).set_owner (t.bucket cfg k)
        (bit_clear (t.owner_at (t.bucket cfg k)) (j - t.bucket cfg k)) := by
    unfold erase; rw [hl]
  have hn : (t.erase cfg k).2.bucket_count = t.bucket_count := by
    rw [he, bucket_count_set_owner, bucket_count_set_content]
  have hc : ∀ x, (t.erase cfg k).2.content_at x = if x = j then none else t.content_at x := by
    intro x
    rw [he, content_at_set_owner, content_at_set_content]
    simp [hj]
  have hkey : ∀ x, (t.erase cfg k).2.key_at x = if x = j then none else t.key_at x := by
    intro x
    unfold key_at
    rw [hc]
    split <;> rfl
  have ho : ∀ x, (t.erase cfg k).2.owner_at x =
      if x = t.bucket cfg k then bit_clear (t.owner_at (t.bucket cfg k)) (j - t.bucket cfg k)
      else t.owner_at x := by
    intro x
    rw [he, owner_at_set_owner, owner_at_set_content, bucket_count_set_content]
    simp [hhn]
  have hb : ∀ k', (t.erase cfg k).2.bucket cfg k' = t.bucket cfg k' := fun k' => by
    simp [bucket, hn]
  have hsh : ∀ x, (t.erase cfg k).2.slot_home cfg x =
      if x = j then none else t.slot_home cfg x := by
    intro x
    unfold slot_home
    rw [hkey]
    split
    · rfl
    · simp [hb]
  refine ⟨by unfold erase; rw [hl], ⟨by rw [hn]; exact hpos, ?_, ?_, ?_⟩, ?_, ?_⟩
  · intro h0 hh0 i hi hb0
    rw [hn] at hh0 ⊢
    rw [ho] at hb0
    rw [hsh]
    by_cases e : h0 = t.bucket cfg k
    · rw [if_pos e, testBit_bit_clear] at hb0
      simp only [Bool.and_eq_true, Bool.not_eq_true', decide_eq_false_iff_not] at hb0
      rw [← e] at hb0
      obtain ⟨o1, o2⟩ := hown h0 hh0 i hi hb0.2
      refine ⟨o1, ?_⟩
      rw [if_neg (by omega)]
      exact o2
    · rw [if_neg e] at hb0
      obtain ⟨o1, o2⟩ := hown h0 hh0 i hi hb0
      refine ⟨o1, ?_⟩
      have : ¬ h0 + i = j := by
        intro e2
        rw [e2, hsj] at o2
        exact e (Option.some.inj o2).symm
      rw [if_neg this]
      exact o2
  · intro j0 hj0
    rw [hn] at hj0
    apply slot_ok_intro
    intro k0 hk0
    rw [hkey] at hk0
    by_cases e : j0 = j
    · rw [if_pos e] at hk0; cases hk0
    · rw [if_neg e] at hk0
      obtain ⟨s1, s2, s3⟩ := slot_ok_of_key_at (hslot j0 hj0) hk0
      rw [hb, ho]
      refine ⟨s1, s2, ?_⟩
      split
      · next e2 =>
        rw [testBit_bit_clear, ← e2, s3]
        have : ¬ j - t.bucket cfg k0 = j0 - t.bucket cfg k0 := by
          rw [← e2] at hle; omega
        simp [this]
      · exact s3
  · intro j1 hj1 j2 hj2 hne heq
    rw [hn] at hj1 hj2
    rw [hkey] at hne heq
    rw [hkey] at heq
    by_cases e1 : j1 = j
    · rw [if_pos e1] at hne; exact absurd rfl hne
    · rw [if_neg e1] at hne heq
      by_cases e2 : j2 = j
      · rw [if_pos e2] at heq; exact absurd heq hne
      · rw [if_neg e2] at heq
        exact hdist j1 hj1 j2 hj2 hne heq
  · rw [he, size_set_owner]
    have := size_set_content t j none hj
    simp [hv] at this
    omega
  · intro k' v'
    unfold holds
    rw [hn]
    constructor
    · rintro ⟨x, hx, hcx⟩
      rw [hc] at hcx
      by_cases e : x = j
      · rw [if_pos e] at hcx; cases hcx
      · rw [if_neg e] at hcx
        refine ⟨?_, x, hx, hcx⟩
        intro ek
        subst ek
        exact e (hdist x hx j hj (by rw [key_at_eq hcx]; simp) (by rw [key_at_eq hcx, hk]))
    · rintro ⟨hne, x, hx, hcx⟩
      refine ⟨x, hx, ?_⟩
      rw [hc]
      have : ¬ x = j := by
        intro e
        rw [e, hv] at hcx
        simp only [Option.some.injEq, Prod.mk.injEq] at hcx
        exact hne hcx.1.symm
      rw [if_neg this]
      exact hcx

/-! ### The fresh table -/

theorem bucket_at_create (k j : Nat) : (create k).bucket_at j = clear_bucket := by
  unfold create bucket_at
  simp only [List.getD_eq_getElem?_getD, List.getElem?_replicate]
  split <;> rfl

theorem invariant_create (cfg : Config) (k : Nat) : (create k).invariant cfg := by
  have hc : ∀ j, (create k).key_at j = none := fun j => by
    simp [key_at, content_at, bucket_at_create, clear_bucket]
  have ho : ∀ j, (create k).owner_at j = 0 := fun j => by
    simp [owner_at, bucket_at_create, clear_bucket]
  refine ⟨by simp [create, bucket_count], ?_, ?_, ?_⟩
  · intro h _ i _ hb
    rw [ho] at hb
    simp at hb
  · intro j _
    unfold slot_ok slot_home
    rw [hc]; rfl
  · intro j _ j' _ hne
    exact absurd (hc j) hne

theorem size_create (k : Nat) : (create k).size = 0 := by
  unfold size create
  simp [List.countP_replicate, clear_bucket]

end Table
end Comanche
namespace Comanche
namespace hstore

/-! ## The pool registry -/

theorem lookup_map_set (l : List (pool_t × session_t)) (pid : pool_t) (s : session_t)
    (pid' : pool_t) :
    (l.map (fun p => if p.1 = pid then (pid, s) else p)).lookup pid' =
      if pid' = pid then (l.lookup pid).map (fun _ => s) else l.lookup pid' := by
  induction l with
  | nil => simp
  | cons a l ih =>
    obtain ⟨q, sq⟩ := a
    simp only [List.map_cons]
    by_cases hq : q = pid
    · subst hq
      rw [if_pos rfl]
      by_cases hp : pid' = q
      · subst hp
        simp [List.lookup_cons]
      · have : (pid' == q) = false := by simpa using hp
        simp only [List.lookup_cons, this, ih, if_neg hp]
    · rw [if_neg hq]
      by_cases hp : pid' = q
      · subst hp
        simp [List.lookup_cons, hq]
      · have : (pid' == q) = false := by simpa using hp
        have h2 : (pid == q) = false := by simpa using fun h : pid = q => hq h.symm
        simp only [List.lookup_cons, this, ih, h2]

theorem deref_set_session (st : hstore) (pid : pool_t) (s : session_t) (pid' : pool_t) :
    (st.set_session pid s).deref pid' =
      if pid' = pid then (st.deref pid).map (fun _ => s) else st.deref pid' := by
  unfold deref set_session
  exact lookup_map_set _ _ _ _

theorem deref_cached (st : hstore) (pid pid' : pool_t) :
    (st.cached pid).deref pid' = st.deref pid' := rfl

theorem cached_cached (st : hstore) (pid : pool_t) : (st.cached pid).cached pid = st.cached pid := by
  unfold cached
  by_cases h : pid ∈ st.tls_cache
  · simp [h]
  · simp [h]

theorem tls_cache_set_session (st : hstore) (pid : pool_t) (s : session_t) :
    (st.set_session pid s).tls_cache = st.tls_cache := rfl

theorem locate_session_open {st : hstore} {pool : pool_t} {s : session_t}
    (hs : st.deref pool = some s) :
    st.locate_session pool = (.returned s, st.cached pool) := by
  unfold locate_session locate_open_pool cached
  by_cases h : pool ∈ st.tls_cache
  · rw [if_pos h, hs]
    simp [h]
  · unfold deref at hs
    rw [if_neg h, hs]
    simp [h]

theorem deref_after {st : hstore} {pool : pool_t} {s : session_t} (s' : session_t)
    (hs : st.deref pool = some s) :
    ((st.cached pool).set_session pool s').deref pool = some s' := by
  rw [deref_set_session, if_pos rfl, deref_cached, hs]; rfl

theorem deref_after_ne {st : hstore} {pool pool' : pool_t} (s' : session_t) (h : pool' ≠ pool) :
    ((st.cached pool).set_session pool s').deref pool' = st.deref pool' := by
  rw [deref_set_session, if_neg h, deref_cached]

/-! ## `get`, `get_direct`, `count` on an open pool -/

theorem get_open {cfg : Config} {st : hstore} {pool : pool_t} {s : session_t}
    (hs : st.deref pool = some s) (key : String) (out_value : Option Bytes) (out_value_len : Nat) :
    st.get cfg pool key out_value out_value_len =
      (match s.map.value_of cfg key with
        | none => .returned ⟨E_KEY_NOT_FOUND, out_value, out_value_len⟩
        | some v =>
          if out_value.isNone ∨ out_value_len = 0 then
            match malloc cfg v.length with
            | none => .thrown .General_exception
            | some buf =>
              match memcpy buf v v.length with
              | none => .thrown .fault
              | some buf' => .returned ⟨S_OK, some buf', v.length⟩
          else
            match out_value.bind (fun buf => memcpy buf v out_value_len) with
            | none => .thrown .fault
            | some buf' => .returned ⟨S_OK, some buf', out_value_len⟩,
        st.cached pool) := by
  unfold get
  rw [locate_session_open hs]
  simp only [Table.at_]
  cases hv : s.map.value_of cfg key with
  | none => rfl
  | some v =>
    simp only
    split
    · cases malloc cfg v.length with
      | none => rfl
      | some buf =>
        simp only
        cases memcpy buf v v.length <;> rfl
    · cases out_value.bind (fun buf => memcpy buf v out_value_len) <;> rfl

theorem get_direct_open {cfg : Config} {st : hstore} {pool : pool_t} {s : session_t}
    (hs : st.deref pool = some s) (key : String) (out_value : Option Bytes) (out_value_len : Nat) :
    st.get_direct cfg pool key out_value out_value_len =
      (match s.map.value_of cfg key with
        | none => .returned ⟨E_KEY_NOT_FOUND, out_value, out_value_len⟩
        | some v =>
          if out_value_len < v.length then
            .returned ⟨E_INSUFFICIENT_BUFFER, out_value, out_value_len⟩
          else
            match out_value.bind (fun buf => memcpy buf v v.length) with
            | none => .thrown .fault
            | some buf' => .returned ⟨S_OK, some buf', v.length⟩,
        st.cached pool) := by
  unfold get_direct
  rw [locate_session_open hs]
  simp only [Table.at_]
  cases hv : s.map.value_of cfg key with
  | none => rfl
  | some v =>
    simp only
    split
    · rfl
    · cases out_value.bind (fun buf => memcpy buf v v.length) <;> rfl

theorem count_open {st : hstore} {pool : pool_t} {s : session_t}
    (hs : st.deref pool = some s) : st.count pool = (.returned s.map.size, st.cached pool) := by
  unfold count
  rw [locate_session_open hs]

theorem memcpy_malloc (cfg : Config) (v : Bytes) (buf : Bytes) (h : malloc cfg v.length = some buf) :
    memcpy buf v v.length = some v := by
  unfold malloc at h
  split at h
  · cases h
  · simp only [Option.some.injEq] at h
    subst h
    unfold memcpy
    simp

end hstore
end Comanche
namespace Comanche
namespace hstore

/-! ## `put` on an open pool -/

theorem apply_ops_write_all (v0 value : Bytes) (h : value.length = v0.length) :
    apply_ops v0 [.Operation_write 0 value.length value] = some value := by
  have h1 : 0 + value.length ≤ v0.length ∧ value.length ≤ value.length := by omega
  simp only [apply_ops, apply_op, if_pos h1]
  unfold write_at
  simp [h]

theorem update_by_issue_41_open {cfg : Config} {st : hstore} {pool : pool_t} {s : session_t}
    {key : String} {j : Nat} {v0 : Bytes} (value : Bytes)
    (hs : st.deref pool = some s) (hl : s.map.locate_key cfg key = some j)
    (hc : s.map.content_at j = some (key, v0)) :
    st.update_by_issue_41 cfg pool key value v0.length =
      (.returned S_OK,
        (st.cached pool).set_session pool
          { s with map := s.map.set_content j (some (key, value)) }) := by
  unfold update_by_issue_41
  by_cases hlen : value.length ≠ v0.length
  · rw [if_pos hlen, locate_session_open hs]
    simp only [session_t.enter_replace, hl, hc]
  · rw [if_neg hlen]
    have hlen' : value.length = v0.length := by omega
    unfold atomic_update
    rw [locate_session_open hs]
    simp only [maybe_lock, Bool.false_eq_true, if_false, session_t.enter_update, hl, hc,
      apply_ops_write_all v0 value hlen']

theorem set_session_set_session (st : hstore) (pid : pool_t) (s1 s2 : session_t) :
    (st.set_session pid s1).set_session pid s2 = st.set_session pid s2 := by
  unfold set_session
  simp only [List.map_map]
  congr 1
  apply List.map_congr_left
  intro p _
  simp only [Function.comp]
  by_cases h : p.1 = pid
  · simp [h]
  · simp [h]

theorem cached_set_session (st : hstore) (pid : pool_t) (s1 : session_t) :
    (st.set_session pid s1).cached pid = (st.cached pid).set_session pid s1 := rfl

theorem put_eq {cfg : Config} {st : hstore} {pool : pool_t} {s : session_t}
    (hs : st.deref pool = some s) (key : String) (value : Bytes) :
    st.put cfg pool key (some value) =
      match s.map.emplace cfg key value with
      | (.thrown e, m) => (.thrown e, (st.cached pool).set_session pool { s with map := m })
      | (.returned i, m) =>
        if i.2 then (.returned S_OK, (st.cached pool).set_session pool { s with map := m })
        else
          ((st.cached pool).set_session pool { s with map := m }).update_by_issue_41 cfg pool key
            value (((m.content_at i.1).map (fun kv => kv.2.length)).getD 0) := by
  unfold put
  simp only
  rw [locate_session_open hs]

/-- What `put` does on an open pool whose table satisfies the invariant. -/
theorem put_open {cfg : Config} {st : hstore} {pool : pool_t} {s : session_t}
    (hs : st.deref pool = some s) (hinv : s.map.invariant cfg) (key : String) (value : Bytes) :
    ∃ m : Table,
      (st.put cfg pool key (some value)).2 = (st.cached pool).set_session pool { s with map := m } ∧
      m.invariant cfg ∧
      (((st.put cfg pool key (some value)).1 = .returned S_OK ∧
          m.value_of cfg key = some value ∧
          (∀ k', k' ≠ key → m.value_of cfg k' = s.map.value_of cfg k') ∧
          m.size = s.map.size + (if (s.map.value_of cfg key).isSome then 0 else 1)) ∨
        ((∃ e, (st.put cfg pool key (some value)).1 = .thrown e) ∧
          s.map.value_of cfg key = none ∧
          (∀ k', m.value_of cfg k' = s.map.value_of cfg k') ∧
          m.size = s.map.size)) := by
  rw [put_eq hs]
  cases he : s.map.emplace cfg key value with
  | mk o m =>
    cases o with
    | thrown e =>
      obtain ⟨a1, a2, a3, a4⟩ := Table.emplace_thrown hinv he
      refine ⟨m, rfl, a2, Or.inr ⟨⟨e, rfl⟩, ?_, ?_, a3⟩⟩
      · simp [Table.value_of, a1]
      · intro k'
        exact Table.value_of_congr k' hinv.2.2.1 hinv.2.2.2 a2.2.2.1 a2.2.2.2 (a4 k')
    | returned i =>
      obtain ⟨j, b⟩ := i
      cases b with
      | true =>
        obtain ⟨a1, a2, a3, a4, a5⟩ := Table.emplace_returned_true hinv he
        refine ⟨m, rfl, a2, Or.inl ⟨rfl, ?_, ?_, ?_⟩⟩
        · rw [Table.value_of_eq_some a2.2.2.1 a2.2.2.2, a5]
          exact Or.inl ⟨rfl, rfl⟩
        · intro k' hne
          apply Table.value_of_congr k' hinv.2.2.1 hinv.2.2.2 a2.2.2.1 a2.2.2.2
          intro v'
          rw [a5]
          constructor
          · rintro (⟨h1, _⟩ | h2)
            · exact absurd h1 hne
            · exact h2
          · exact Or.inr
        · have : s.map.value_of cfg key = none := by simp [Table.value_of, a1]
          rw [a3, this]; rfl
      | false =>
        obtain ⟨hm, hl⟩ := Table.emplace_returned_false he
        subst hm
        obtain ⟨hk, _⟩ := Table.locate_key_some hl
        obtain ⟨v0, hv0⟩ := Table.content_of_key_at hk
        obtain ⟨b1, b2, b3, b4, _, _⟩ := Table.set_value_spec value hinv hv0
        have hs2 : ((st.cached pool).set_session pool { s with map := s.map }).deref pool =
            some { s with map := s.map } := deref_after _ hs
        have hupd := update_by_issue_41_open value hs2 hl hv0
        rw [cached_set_session, cached_cached, set_session_set_session] at hupd
        have hlen : ((s.map.content_at j).map (fun kv => kv.2.length)).getD 0 = v0.length := by
          rw [hv0]; rfl
        simp only [Bool.false_eq_true, if_false, hlen, hupd]
        refine ⟨s.map.set_content j (some (key, value)), ?_, b1, Or.inl ⟨?_, b3, b4, ?_⟩⟩
        · rfl
        · trivial
        have : s.map.value_of cfg key = some v0 := by
          rw [Table.value_of_eq_some hinv.2.2.1 hinv.2.2.2]
          exact ⟨j, Table.lt_of_content_at hv0, hv0⟩
        rw [b2, this]; rfl

end hstore
end Comanche
namespace Comanche

namespace Table

/-! ### Inserting into a table whose home slot is clear -/

theorem try_insert_of_clear_home {cfg : Config} {t : Table} (k : KEY_T) (v : MAPPED_T)
    (hH : 0 < cfg.H) (hn : 0 < t.bucket_count) (hc : t.content_at (t.bucket cfg k) = none) :
    ∃ r, t.try_insert cfg k v = some r := by
  have hlt : t.bucket cfg k < t.bucket_count := Nat.mod_lt _ hn
  have hf : (t.free_slot (t.bucket cfg k) (min (t.bucket cfg k + cfg.H) t.bucket_count)).isSome := by
    unfold free_slot
    rw [List.find?_isSome]
    refine ⟨t.bucket cfg k, ?_, by simp [hc]⟩
    rw [List.mem_range'_1]
    omega
  unfold try_insert
  simp only
  cases hfs : t.free_slot (t.bucket cfg k) (min (t.bucket cfg k + cfg.H) t.bucket_count) with
  | none => rw [hfs] at hf; cases hf
  | some j => exact ⟨_, rfl⟩

theorem insert_loop_of_clear_home {cfg : Config} {t : Table} (k : KEY_T) (v : MAPPED_T)
    (room : Nat) (hH : 0 < cfg.H) (hn : 0 < t.bucket_count)
    (hc : t.content_at (t.bucket cfg k) = none) :
    ∃ j t', insert_loop cfg k v room t = (.returned j, t') := by
  obtain ⟨⟨t', j⟩, hr⟩ := try_insert_of_clear_home k v hH hn hc
  cases room with
  | zero => exact ⟨j, t', by unfold insert_loop; rw [hr]⟩
  | succ room => exact ⟨j, t', by unfold insert_loop; rw [hr]⟩

theorem emplace_of_all_clear {cfg : Config} {t : Table} (k : KEY_T) (v : MAPPED_T)
    (hH : 0 < cfg.H) (hn : 0 < t.bucket_count) (hc : ∀ j, t.content_at j = none) :
    ∃ j t', t.emplace cfg k v = (.returned (j, true), t') := by
  have hl : t.locate_key cfg k = none := by
    cases h : t.locate_key cfg k with
    | none => rfl
    | some j =>
      have := (locate_key_some h).1
      simp [key_at, hc] at this
  have hc' : ∀ j, (t.resize cfg).content_at j = none := by
    intro j
    cases h : (t.resize cfg).content_at j with
    | none => rfl
    | some c =>
      obtain ⟨s, _, hs, _⟩ := content_at_resize_some h
      rw [hc] at hs; cases hs
  have key : ∀ t1 : Table, 0 < t1.bucket_count → (∀ j, t1.content_at j = none) →
      ∃ j t', (match insert_loop cfg k v (cfg.segment_capacity - t1.segment_count) t1 with
        | (.returned j, t') => ((.returned (j, true), t') : Outcome (Nat × Bool) × Table)
        | (.thrown e, t') => (.thrown e, t')) = (.returned (j, true), t') := by
    intro t1 h1 h2
    obtain ⟨j, t', h⟩ := @insert_loop_of_clear_home cfg t1 k v
      (cfg.segment_capacity - t1.segment_count) hH h1 (h2 _)
    rw [h]
    exact ⟨j, t', rfl⟩
  unfold emplace
  rw [hl]
  simp only
  by_cases hload : (cfg.load_exceeded t.size t.bucket_count &&
      decide (t.segment_count < cfg.segment_capacity)) = true
  · rw [if_pos hload]
    exact key _ (by rw [bucket_count_resize]; omega) hc'
  · rw [if_neg hload]
    exact key _ hn hc

theorem content_at_create (k j : Nat) : (create k).content_at j = none := by
  simp [content_at, bucket_at_create, clear_bucket]

theorem value_of_isSome_iff (cfg : Config) (t : Table) (k : KEY_T) :
    (t.value_of cfg k).isSome = (t.locate_key cfg k).isSome := by
  unfold value_of
  cases h : t.locate_key cfg k with
  | none => rfl
  | some j =>
    obtain ⟨v, hv⟩ := content_of_key_at (locate_key_some h).1
    simp [hv]

end Table

namespace hstore

/-! ## `erase` and `create_pool` -/

theorem erase_open {cfg : Config} {st : hstore} {pool : pool_t} {s : session_t}
    (hs : st.deref pool = some s) (key : String) :
    st.erase cfg pool key =
      (.returned (if (s.map.erase cfg key).1 = 0 then E_KEY_NOT_FOUND else S_OK),
        (st.cached pool).set_session pool { s with map := (s.map.erase cfg key).2 }) := by
  unfold erase
  rw [locate_session_open hs]

theorem lookup_append_new (l : List (pool_t × session_t)) (p : pool_t) (s : session_t)
    (h : l.lookup p = none) : (l ++ [(p, s)]).lookup p = some s := by
  induction l with
  | nil => simp [List.lookup]
  | cons a l ih =>
    obtain ⟨q, sq⟩ := a
    simp only [List.cons_append, List.lookup_cons] at h ⊢
    cases hq : (p == q) with
    | true => rw [hq] at h; cases h
    | false => rw [hq] at h; exact ih h

theorem create_pool_new (st : hstore) (p : pool_t) (seg_log : Nat) (h : st.deref p = none) :
    (st.create_pool S_OK p seg_log).1 = p ∧
      (st.create_pool S_OK p seg_log).2.deref p = some (pool_create seg_log) := by
  unfold deref at h
  unfold create_pool
  simp only [ne_eq, not_true_eq_false, if_false, h]
  exact ⟨trivial, lookup_append_new _ _ _ h⟩

end hstore
end Comanche
namespace Comanche

namespace Table

/-! ### The lock of the bucket of a key -/

theorem update_self (t : Table) (j : Nat) : t.update j (fun _ => t.bucket_at j) = t := by
  unfold update
  cases t with
  | mk sc bs =>
    simp only [bucket_at, Table.mk.injEq, true_and]
    apply List.ext_getElem?
    intro i
    rw [List.getElem?_set]
    by_cases h : j = i
    · subst h
      by_cases h2 : j < bs.length
      · simp [h2, List.getD_eq_getElem?_getD, List.getElem?_eq_getElem h2]
      · simp [h2, List.getElem?_eq_none (Nat.le_of_not_lt h2)]
    · simp [h]

theorem value_of_update_lock {cfg : Config} (t : Table) (j : Nat) (b : Bucket)
    (ho : b.owner = (t.bucket_at j).owner) (hc : b.content = (t.bucket_at j).content)
    (k : KEY_T) : (t.update j (fun _ => b)).value_of cfg k = t.value_of cfg k :=
  value_of_congr_content (bucket_count_update _ _ _)
    (owner_at_update_same t j _ ho) (content_at_update_same t j _ hc) k

theorem locate_key_update_lock {cfg : Config} (t : Table) (j : Nat) (b : Bucket)
    (ho : b.owner = (t.bucket_at j).owner) (hc : b.content = (t.bucket_at j).content)
    (k : KEY_T) : (t.update j (fun _ => b)).locate_key cfg k = t.locate_key cfg k :=
  locate_key_congr (bucket_count_update _ _ _)
    (owner_at_update_same t j _ ho)
    (fun x => by
      unfold key_at
      rw [content_at_update_same t j (fun _ => b) hc]) k

theorem try_lock_shared_data (cfg : Config) (b : Bucket) :
    (try_lock_shared cfg b).2.owner = b.owner ∧ (try_lock_shared cfg b).2.content = b.content := by
  unfold try_lock_shared
  split
  · split <;> exact ⟨rfl, rfl⟩
  · exact ⟨rfl, rfl⟩

theorem try_lock_unique_data (cfg : Config) (b : Bucket) :
    (try_lock_unique cfg b).2.owner = b.owner ∧ (try_lock_unique cfg b).2.content = b.content := by
  unfold try_lock_unique
  split
  · split <;> exact ⟨rfl, rfl⟩
  · exact ⟨rfl, rfl⟩

end Table

namespace hstore

/-! ## `lock` on an open pool -/

/-- The try-lock that `try_lock` (hstore.cpp:494) performs on a bucket. -/
theorem try_lock_located {cfg : Config} {t : Table} {k : KEY_T} {j : Nat} (type : lock_type_t)
    (hl : t.locate_key cfg k = some j) :
    try_lock cfg t type k =
      (.returned (if type = .STORE_LOCK_READ then Table.try_lock_shared cfg (t.bucket_at j)
          else Table.try_lock_unique cfg (t.bucket_at j)).1,
        t.update j (fun _ =>
          (if type = .STORE_LOCK_READ then Table.try_lock_shared cfg (t.bucket_at j)
            else Table.try_lock_unique cfg (t.bucket_at j)).2)) := by
  unfold try_lock
  split
  · simp only [Table.lock_shared, hl]
  · simp only [Table.lock_unique, hl]

theorem lock_present {cfg : Config} {st : hstore} {pool : pool_t} {s : session_t}
    {key : String} {val : Bytes} {j : Nat} (type : lock_type_t)
    (out_value : Option Bytes) (out_value_len : Nat)
    (hs : st.deref pool = some s) (hv : s.map.value_of cfg key = some val)
    (hl : s.map.locate_key cfg key = some j) :
    st.lock cfg pool key type out_value out_value_len =
      ((if (if type = .STORE_LOCK_READ then Table.try_lock_shared cfg (s.map.bucket_at j)
            else Table.try_lock_unique cfg (s.map.bucket_at j)).1
        then .returned ⟨some key, some val, val.length⟩
        else .returned ⟨KEY_NONE, out_value, out_value_len⟩),
       (st.cached pool).set_session pool { s with map := s.map.update j (fun _ =>
          (if type = .STORE_LOCK_READ then Table.try_lock_shared cfg (s.map.bucket_at j)
            else Table.try_lock_unique cfg (s.map.bucket_at j)).2) }) := by
  unfold lock
  rw [locate_session_open hs]
  simp only [Table.at_, hv, try_lock_located type hl]
  cases (if type = .STORE_LOCK_READ then Table.try_lock_shared cfg (s.map.bucket_at j)
            else Table.try_lock_unique cfg (s.map.bucket_at j)).1 <;> rfl

theorem locate_of_value_of {cfg : Config} {t : Table} {k : KEY_T} {v : MAPPED_T}
    (h : t.value_of cfg k = some v) : ∃ j, t.locate_key cfg k = some j := by
  unfold Table.value_of at h
  cases hl : t.locate_key cfg k with
  | none => rw [hl] at h; cases h
  | some j => exact ⟨j, rfl⟩

end hstore
end Comanche
namespace Comanche
namespace hstore

/-! ## Every operation keeps the table invariant of every pool -/

theorem mem_of_lookup {l : List (pool_t × session_t)} {p : pool_t} {s : session_t}
    (h : l.lookup p = some s) : (p, s) ∈ l := by
  induction l with
  | nil => simp at h
  | cons a l ih =>
    obtain ⟨q, sq⟩ := a
    rw [List.lookup_cons] at h
    cases hq : (p == q) with
    | true =>
      rw [hq] at h
      simp only [Option.some.injEq] at h
      have : p = q := by simpa using hq
      rw [this, h]
      exact List.mem_cons_self _ _
    | false =>
      rw [hq] at h
      exact List.mem_cons_of_mem _ (ih h)

theorem tables_ok_set_session {cfg : Config} {st : hstore} (pool : pool_t) {s : session_t}
    (h : Table.tables_ok cfg st._pools) (hs : s.map.invariant cfg) :
    Table.tables_ok cfg ((st.cached pool).set_session pool s)._pools := by
  intro p hp
  simp only [set_session, cached, List.mem_map] at hp
  obtain ⟨q, hq, rfl⟩ := hp
  split
  · exact hs
  · exact h q hq

theorem locate_session_closed {st : hstore} {pool : pool_t} (h : st.deref pool = none) :
    ∃ e, st.locate_session pool = (.thrown e, st) := by
  unfold locate_session locate_open_pool
  unfold deref at h
  by_cases hc : pool ∈ st.tls_cache
  · exact ⟨.fault, by rw [if_pos hc]; simp only [deref, h]⟩
  · exact ⟨.API_exception, by rw [if_neg hc, h]⟩

theorem tables_ok_put (cfg : Config) (st : hstore) (pool : pool_t) (key : String)
    (value : Option Bytes) (h : Table.tables_ok cfg st._pools) :
    Table.tables_ok cfg (st.put cfg pool key value).2._pools := by
  cases value with
  | none => exact h
  | some v =>
    cases hd : st.deref pool with
    | none =>
      obtain ⟨e, he⟩ := locate_session_closed hd
      unfold put
      simp only [he]
      exact h
    | some s =>
      obtain ⟨m, h1, h2, _⟩ := put_open hd (h _ (mem_of_lookup hd)) key v
      rw [h1]
      exact tables_ok_set_session pool h h2

theorem tables_ok_erase (cfg : Config) (st : hstore) (pool : pool_t) (key : String)
    (h : Table.tables_ok cfg st._pools) :
    Table.tables_ok cfg (st.erase cfg pool key).2._pools := by
  cases hd : st.deref pool with
  | none =>
    obtain ⟨e, he⟩ := locate_session_closed hd
    unfold erase
    rw [he]
    cases e <;> exact h
  | some s =>
    rw [erase_open hd]
    apply tables_ok_set_session pool h
    have hinv := h _ (mem_of_lookup hd)
    cases hl : s.map.locate_key cfg key with
    | none => rw [Table.erase_absent hl]; exact hinv
    | some j => exact (Table.erase_present hinv hl).2.1

theorem invariant_update_lock {cfg : Config} {t : Table} (j : Nat) (f : Bucket → Bucket)
    (ho : (f (t.bucket_at j)).owner = (t.bucket_at j).owner)
    (hc : (f (t.bucket_at j)).content = (t.bucket_at j).content)
    (hinv : t.invariant cfg) : (t.update j f).invariant cfg :=
  Table.invariant_congr (Table.bucket_count_update _ _ _)
    (Table.owner_at_update_same t j f ho)
    (fun x => by
      unfold Table.key_at
      rw [Table.content_at_update_same t j f hc]) hinv

theorem tables_ok_lock (cfg : Config) (st : hstore) (pool : pool_t) (key : String)
    (type : lock_type_t) (out_value : Option Bytes) (out_value_len : Nat)
    (h : Table.tables_ok cfg st._pools) :
    Table.tables_ok cfg (st.lock cfg pool key type out_value out_value_len).2._pools := by
  cases hd : st.deref pool with
  | none =>
    obtain ⟨e, he⟩ := locate_session_closed hd
    unfold lock
    rw [he]
    exact h
  | some s =>
    have hinv := h _ (mem_of_lookup hd)
    cases hv : s.map.value_of cfg key with
    | some val =>
      obtain ⟨j, hl⟩ := locate_of_value_of hv
      rw [lock_present type out_value out_value_len hd hv hl]
      apply tables_ok_set_session pool h
      apply invariant_update_lock j _ _ _ hinv
      · split
        · exact (Table.try_lock_shared_data cfg _).1
        · exact (Table.try_lock_unique_data cfg _).1
      · split
        · exact (Table.try_lock_shared_data cfg _).2
        · exact (Table.try_lock_unique_data cfg _).2
    | none =>
      have hlk : st.lock cfg pool key type out_value out_value_len =
          lock_key_not_found cfg (st.cached pool) pool s key out_value out_value_len := by
        unfold lock
        rw [locate_session_open hd]
        simp only [Table.at_, hv]
      rw [hlk]
      unfold lock_key_not_found
      cases he : s.map.emplace cfg key ((List.range out_value_len).map cfg.uninit) with
      | mk o m =>
        cases o with
        | thrown e =>
          exact tables_ok_set_session pool h (Table.emplace_thrown hinv he).2.1
        | returned i =>
          obtain ⟨j, b⟩ := i
          have hm : m.invariant cfg := by
            cases b with
            | true => exact (Table.emplace_returned_true hinv he).2.1
            | false => rw [(Table.emplace_returned_false he).1]; exact hinv
          simp only
          split <;> exact tables_ok_set_session pool h hm

theorem tables_ok_unlock (cfg : Config) (st : hstore) (pool : pool_t) (key_ : key_t)
    (h : Table.tables_ok cfg st._pools) :
    Table.tables_ok cfg (st.unlock cfg pool key_).2._pools := by
  cases key_ with
  | none => exact h
  | some key =>
    cases hd : st.deref pool with
    | none =>
      obtain ⟨e, he⟩ := locate_session_closed hd
      unfold unlock
      simp only [he]
      cases e <;> exact h
    | some s =>
      have hinv := h _ (mem_of_lookup hd)
      unfold unlock
      simp only [locate_session_open hd]
      unfold Table.unlock
      cases hl : s.map.locate_key cfg key with
      | none => exact tables_ok_set_session pool h hinv
      | some j =>
        apply tables_ok_set_session pool h
        apply invariant_update_lock j _ _ _ hinv
        · unfold Table.unlock_bucket
          split
          · split <;> rfl
          · rfl
        · unfold Table.unlock_bucket
          split
          · split <;> rfl
          · rfl

theorem tables_ok_create_pool (cfg : Config) (st : hstore) (c : status_t) (p : pool_t)
    (seg_log : Nat) (h : Table.tables_ok cfg st._pools) :
    Table.tables_ok cfg (st.create_pool c p seg_log).2._pools := by
  unfold create_pool
  split
  · exact h
  · split
    · exact h
    · intro q hq
      simp only [List.mem_append, List.mem_singleton] at hq
      rcases hq with hq | rfl
      · exact h q hq
      · exact Table.invariant_create cfg seg_log

end hstore
end Comanche

namespace Comanche
namespace hstore

/-! ## The claims -/

/-- After a `put` of a non-empty value that returned `S_OK`, `get` with a null
buffer returns the value. -/
theorem get_after_put {cfg : Config} {st st' : hstore} {pool : pool_t} {s : session_t}
    {k : String} {v : Bytes} (out_value_len : Nat)
    (hs : st.deref pool = some s) (hinv : s.map.invariant cfg) (hlen : 0 < v.length)
    (hput : st.put cfg pool k (some v) = (.returned S_OK, st')) :
    (st'.get cfg pool k none out_value_len).1 = .returned ⟨S_OK, some v, v.length⟩ := by
  obtain ⟨m, h1, _, h3⟩ := put_open hs hinv k v
  rw [hput] at h1 h3
  simp only at h1 h3
  have hs' : st'.deref pool = some { s with map := m } := by rw [h1]; exact deref_after _ hs
  rcases h3 with ⟨_, hv, _, _⟩ | ⟨⟨e, he⟩, _⟩
  · rw [get_open hs']
    simp only [hv, Option.isNone_none, true_or, if_true]
    have hm : malloc cfg v.length = some ((List.range v.length).map cfg.uninit) := by
      unfold malloc
      rw [if_neg (by omega)]
    rw [hm]
    simp only [memcpy_malloc cfg v _ hm]
  · cases he

/-- C1 (round trip): on an open pool whose table satisfies the table
invariant, if `put(pool, k, v, len)` with a non-null `v` and `0 < len` returns
`S_OK`, then the `get(pool, k, out_value = null, out_value_len)` that follows
returns `S_OK`, sets `out_value_len` to `len`, and the buffer it returns holds
exactly the bytes of `v`. -/
theorem C1_put_get_round_trip (cfg : Config) (st st' : hstore) (pool : pool_t) (s : session_t)
    (k : String) (v : Bytes) (out_value_len : Nat)
    (hs : st.deref pool = some s) (hinv : s.map.invariant cfg) (hlen : 0 < v.length)
    (hput : st.put cfg pool k (some v) = (.returned S_OK, st')) :
    (st'.get cfg pool k none out_value_len).1 = .returned ⟨S_OK, some v, v.length⟩ :=
  get_after_put out_value_len hs hinv hlen hput

theorem C1_witness :
    st_w.deref 4096 = some s_w ∧ s_w.map.invariant cfg_w ∧
      0 < ([97, 98, 99, 100, 101] : Bytes).length ∧
      st_w.put cfg_w 4096 "k" (some [97, 98, 99, 100, 101]) = (.returned S_OK, st_k) ∧
      (st_k.get cfg_w 4096 "k" none 0).1 = .returned ⟨S_OK, some [97, 98, 99, 100, 101], 5⟩ :=
  ⟨by decide, by decide, by decide, by decide,
    C1_put_get_round_trip cfg_w st_w st_k 4096 s_w "k" [97, 98, 99, 100, 101] 0
      (by decide) (by decide) (by decide) (by decide)⟩

/-- C2 (overwrite semantics): on an open pool whose table satisfies the table
invariant, for every key `k`, every value `v1` and every non-empty value `v2`
(of equal length or not), after a `put(k, v1)` that returned `S_OK` the `put(k, v2)`
returns `S_OK` and the `get(k)` with a null buffer that follows returns
exactly the bytes of `v2` with `out_value_len = len(v2)`. -/
theorem C2_overwrite (cfg : Config) (st st1 : hstore) (pool : pool_t) (s : session_t)
    (k : String) (v1 v2 : Bytes) (out_value_len : Nat)
    (hs : st.deref pool = some s) (hinv : s.map.invariant cfg)
    (hlen2 : 0 < v2.length)
    (hput : st.put cfg pool k (some v1) = (.returned S_OK, st1)) :
    (st1.put cfg pool k (some v2)).1 = .returned S_OK ∧
      ((st1.put cfg pool k (some v2)).2.get cfg pool k none out_value_len).1 =
        .returned ⟨S_OK, some v2, v2.length⟩ := by
  obtain ⟨m, h1, h2, h3⟩ := put_open hs hinv k v1
  rw [hput] at h1 h3
  simp only at h1 h3
  have hs1 : st1.deref pool = some { s with map := m } := by rw [h1]; exact deref_after _ hs
  have hv1 : m.value_of cfg k = some v1 := by
    rcases h3 with ⟨_, hv, _, _⟩ | ⟨⟨e, he⟩, _⟩
    · exact hv
    · cases he
  obtain ⟨m2, g1, g2, g3⟩ := put_open hs1 h2 k v2
  have hret : (st1.put cfg pool k (some v2)).1 = .returned S_OK := by
    rcases g3 with ⟨hr, _⟩ | ⟨_, hn, _⟩
    · exact hr
    · rw [hv1] at hn; cases hn
  refine ⟨hret, ?_⟩
  exact get_after_put out_value_len hs1 h2 hlen2 (Prod.ext hret rfl)

theorem C2_witness :
    st_w.deref 4096 = some s_w ∧ s_w.map.invariant cfg_w ∧
      0 < ([1, 2] : Bytes).length ∧
      st_w.put cfg_w 4096 "k" (some [97, 98, 99, 100, 101]) = (.returned S_OK, st_k) ∧
      (st_k.put cfg_w 4096 "k" (some [1, 2])).1 = .returned S_OK ∧
      ((st_k.put cfg_w 4096 "k" (some [1, 2])).2.get cfg_w 4096 "k" none 0).1 =
        .returned ⟨S_OK, some [1, 2], 2⟩ ∧
      ((st_k.put cfg_w 4096 "k" (some [5, 4, 3, 2, 1])).2.get cfg_w 4096 "k" none 0).1 =
        .returned ⟨S_OK, some [5, 4, 3, 2, 1], 5⟩ :=
  ⟨by decide, by decide, by decide, by decide,
    (C2_overwrite cfg_w st_w st_k 4096 s_w "k" [97, 98, 99, 100, 101] [1, 2] 0
      (by decide) (by decide) (by decide) (by decide)).1,
    (C2_overwrite cfg_w st_w st_k 4096 s_w "k" [97, 98, 99, 100, 101] [1, 2] 0
      (by decide) (by decide) (by decide) (by decide)).2,
    (C2_overwrite cfg_w st_w st_k 4096 s_w "k" [97, 98, 99, 100, 101] [5, 4, 3, 2, 1] 0
      (by decide) (by decide) (by decide) (by decide)).2⟩

/-- C3: for a key that is present in the pool (the lookup finds the value
`v`), `get_direct` returns `E_INSUFFICIENT_BUFFER` if and only if the caller's
`out_value_len` is smaller than the size of `v`; in that case `out_value_len`
and the caller's buffer are returned exactly as they were passed in. -/
theorem C3_get_direct_insufficient (cfg : Config) (st : hstore) (pool : pool_t) (s : session_t)
    (key : String) (v : Bytes) (out_value : Option Bytes) (out_value_len : Nat)
    (hs : st.deref pool = some s) (hv : s.map.value_of cfg key = some v) :
    ((∃ r, (st.get_direct cfg pool key out_value out_value_len).1 = .returned r ∧
        r.status = E_INSUFFICIENT_BUFFER) ↔ out_value_len < v.length) ∧
    (out_value_len < v.length →
      (st.get_direct cfg pool key out_value out_value_len).1 =
        .returned ⟨E_INSUFFICIENT_BUFFER, out_value, out_value_len⟩) := by
  rw [get_direct_open hs, hv]
  simp only
  constructor
  · constructor
    · rintro ⟨r, hr, hst⟩
      by_contra hn
      rw [if_neg hn] at hr
      cases hb : out_value.bind (fun buf => memcpy buf v v.length) with
      | none => rw [hb] at hr; cases hr
      | some b =>
        rw [hb] at hr
        simp only [Outcome.returned.injEq] at hr
        rw [← hr] at hst
        have hne : S_OK ≠ E_INSUFFICIENT_BUFFER := by decide
        exact hne hst
    · intro hlt
      exact ⟨_, by rw [if_pos hlt], rfl⟩
  · intro hlt
    rw [if_pos hlt]

theorem C3_witness :
    st_k.deref 4096 = some s_k ∧ s_k.map.value_of cfg_w "k" = some [97, 98, 99, 100, 101] ∧
    ((∃ r, (st_k.get_direct cfg_w 4096 "k" (some [0, 0]) 2).1 = .returned r ∧
        r.status = E_INSUFFICIENT_BUFFER) ↔ 2 < ([97, 98, 99, 100, 101] : Bytes).length) ∧
    (2 < ([97, 98, 99, 100, 101] : Bytes).length →
      (st_k.get_direct cfg_w 4096 "k" (some [0, 0]) 2).1 =
        .returned ⟨E_INSUFFICIENT_BUFFER, some [0, 0], 2⟩) :=
  ⟨by decide, by decide,
    C3_get_direct_insufficient cfg_w st_k 4096 s_k "k" [97, 98, 99, 100, 101] (some [0, 0]) 2
      (by decide) (by decide)⟩

/-- C4: for a key that is present (the lookup finds the value `v`) and a
caller buffer `buf` of at least `out_value_len` bytes with `out_value_len`
not smaller than the size of `v`, `get_direct` returns `S_OK`, sets
`out_value_len` to the size of `v`, writes exactly the bytes of `v` to the
first `out_value_len` bytes of the buffer and leaves the rest of the buffer
unchanged. -/
theorem C4_get_direct_ok (cfg : Config) (st : hstore) (pool : pool_t) (s : session_t)
    (key : String) (v buf : Bytes) (out_value_len : Nat)
    (hs : st.deref pool = some s) (hv : s.map.value_of cfg key = some v)
    (hlen : v.length ≤ out_value_len) (hbuf : out_value_len ≤ buf.length) :
    (st.get_direct cfg pool key (some buf) out_value_len).1 =
      .returned ⟨S_OK, some (v ++ buf.drop v.length), v.length⟩ := by
  rw [get_direct_open hs, hv]
  simp only
  rw [if_neg (by omega)]
  have : memcpy buf v v.length = some (v ++ buf.drop v.length) := by
    unfold memcpy
    rw [if_pos ⟨by omega, Nat.le_refl _⟩, List.take_length]
  simp only [Option.some_bind, this]

theorem C4_witness :
    st_k.deref 4096 = some s_k ∧ s_k.map.value_of cfg_w "k" = some [97, 98, 99, 100, 101] ∧
    ([97, 98, 99, 100, 101] : Bytes).length ≤ 7 ∧ 7 ≤ ([0, 0, 0, 0, 0, 1, 2, 3] : Bytes).length ∧
    (st_k.get_direct cfg_w 4096 "k" (some [0, 0, 0, 0, 0, 1, 2, 3]) 7).1 =
      .returned ⟨S_OK, some [97, 98, 99, 100, 101, 1, 2, 3], 5⟩ :=
  ⟨by decide, by decide, by decide, by decide,
    C4_get_direct_ok cfg_w st_k 4096 s_k "k" [97, 98, 99, 100, 101] [0, 0, 0, 0, 0, 1, 2, 3] 7
      (by decide) (by decide) (by decide) (by decide)⟩

end hstore
end Comanche
namespace Comanche
namespace hstore

/-- What `get` does with a caller-supplied buffer and a non-zero incoming
`out_value_len` that fits both the buffer and the value: it copies
`out_value_len` bytes and leaves `out_value_len` as it was passed in. -/
theorem get_caller_buffer (cfg : Config) (st : hstore) (pool : pool_t) (s : session_t)
    (key : String) (v buf : Bytes) (n : Nat)
    (hs : st.deref pool = some s) (hv : s.map.value_of cfg key = some v)
    (hn : n ≠ 0) (h1 : n ≤ buf.length) (h2 : n ≤ v.length) :
    (st.get cfg pool key (some buf) n).1 = .returned ⟨S_OK, some (v.take n ++ buf.drop n), n⟩ := by
  rw [get_open hs, hv]
  simp only [Option.isNone_some, Bool.false_eq_true, false_or, if_neg hn, Option.some_bind]
  unfold memcpy
  rw [if_pos ⟨h1, h2⟩]

/-- C5 (the code at the failing input): under `"k"` the pool stores the five
bytes `abcde`; `get` with a caller buffer of three bytes and incoming
`out_value_len = 3` returns `S_OK` and leaves `out_value_len` at 3, which is
not the size of the stored value. -/
theorem C5_get_keeps_incoming_length :
    s_k.map.value_of cfg_w "k" = some [97, 98, 99, 100, 101] ∧
    (st_k.get cfg_w 4096 "k" (some [0, 0, 0]) 3).1 = .returned ⟨S_OK, some [97, 98, 99], 3⟩ := by
  decide

/-- A `put` of another key leaves the lookup of `k` as it was and keeps the
pool open with the table invariant. -/
theorem put_frame {cfg : Config} {st : hstore} {pool : pool_t} {s : session_t}
    (hs : st.deref pool = some s) (hinv : s.map.invariant cfg) (k k' : String) (v' : Bytes)
    (hne : k ≠ k') :
    ∃ s', (st.put cfg pool k' (some v')).2.deref pool = some s' ∧ s'.map.invariant cfg ∧
      s'.map.value_of cfg k = s.map.value_of cfg k := by
  obtain ⟨m, h1, h2, h3⟩ := put_open hs hinv k' v'
  refine ⟨{ s with map := m }, by rw [h1]; exact deref_after _ hs, h2, ?_⟩
  rcases h3 with ⟨_, _, hv, _⟩ | ⟨_, _, hv, _⟩
  · exact hv k hne
  · exact hv k

theorem put_all_frame {cfg : Config} {pool : pool_t} (k : String) (kvs : List (String × Bytes)) :
    ∀ {st : hstore} {s : session_t}, st.deref pool = some s → s.map.invariant cfg →
      k ∉ kvs.map Prod.fst →
      ∃ s', (put_all cfg pool st kvs).1.deref pool = some s' ∧ s'.map.invariant cfg ∧
        s'.map.value_of cfg k = s.map.value_of cfg k := by
  induction kvs with
  | nil =>
    intro st s hs hinv _
    exact ⟨s, hs, hinv, rfl⟩
  | cons kv rest ih =>
    intro st s hs hinv hk
    simp only [List.map_cons, List.mem_cons, not_or] at hk
    obtain ⟨s1, a1, a2, a3⟩ := put_frame hs hinv k kv.1 kv.2 hk.1
    obtain ⟨s2, b1, b2, b3⟩ := ih a1 a2 hk.2
    exact ⟨s2, b1, b2, by rw [b3, a3]⟩

theorem put_all_retrievable {cfg : Config} {pool : pool_t} (kvs : List (String × Bytes)) :
    ∀ {st st' : hstore} {s : session_t}, st.deref pool = some s → s.map.invariant cfg →
      (kvs.map Prod.fst).Nodup → put_all cfg pool st kvs = (st', true) →
      ∃ s', st'.deref pool = some s' ∧ ∀ kv ∈ kvs, s'.map.value_of cfg kv.1 = some kv.2 := by
  induction kvs with
  | nil =>
    intro st st' s hs _ _ h
    simp only [put_all, Prod.mk.injEq, and_true] at h
    subst h
    exact ⟨s, hs, by simp⟩
  | cons kv rest ih =>
    intro st st' s hs hinv hnd h
    simp only [List.map_cons, List.nodup_cons] at hnd
    simp only [put_all, Prod.mk.injEq, Bool.and_eq_true, decide_eq_true_eq] at h
    obtain ⟨h1, hret, h2⟩ := h
    obtain ⟨m, a1, a2, a3⟩ := put_open hs hinv kv.1 kv.2
    have hs1 : (st.put cfg pool kv.1 (some kv.2)).2.deref pool = some { s with map := m } := by
      rw [a1]; exact deref_after _ hs
    have hv : m.value_of cfg kv.1 = some kv.2 := by
      rcases a3 with ⟨_, hv, _⟩ | ⟨⟨e, he⟩, _⟩
      · exact hv
      · rw [hret] at he; cases he
    obtain ⟨s2, b1, b2⟩ := ih hs1 a2 hnd.2 (Prod.ext h1 h2)
    obtain ⟨s3, c1, _, c3⟩ := put_all_frame kv.1 rest hs1 a2 hnd.1
    rw [h1] at c1
    rw [b1] at c1
    simp only [Option.some.injEq] at c1
    subst c1
    refine ⟨s2, b1, ?_⟩
    intro kv' hmem
    rcases List.mem_cons.1 hmem with rfl | hr
    · rw [c3]; exact hv
    · exact b2 kv' hr

/-- C8 (frame): on an open pool whose table satisfies the table invariant,
for distinct keys `k` and `k'` a `put(k', v')` (whether it inserts a new key,
overwrites, makes the table grow, or fails) leaves the result of `get(k)`
unchanged: same status, same length, same bytes.  Hence after a sequence of
successful puts of pairwise distinct keys, `get` with a null buffer returns
for every one of them the (non-empty) value that was put. -/
theorem C8_put_leaves_other_keys (cfg : Config) (st : hstore) (pool : pool_t) (s : session_t)
    (k k' : String) (value : Option Bytes) (out_value : Option Bytes) (out_value_len : Nat)
    (hs : st.deref pool = some s) (hinv : s.map.invariant cfg) (hne : k ≠ k') :
    ((st.put cfg pool k' value).2.get cfg pool k out_value out_value_len).1 =
        (st.get cfg pool k out_value out_value_len).1 ∧
    ∀ (kvs : List (String × Bytes)) (st' : hstore), (kvs.map Prod.fst).Nodup →
      put_all cfg pool st kvs = (st', true) →
      ∀ kv ∈ kvs, 0 < kv.2.length →
        (st'.get cfg pool kv.1 none out_value_len).1 = .returned ⟨S_OK, some kv.2, kv.2.length⟩ := by
  constructor
  · cases value with
    | none => rfl
    | some v' =>
      obtain ⟨s', a1, _, a3⟩ := put_frame hs hinv k k' v' hne
      rw [get_open a1, get_open hs, a3]
  · intro kvs st' hnd hall kv hmem hlen
    obtain ⟨s', b1, b2⟩ := put_all_retrievable kvs hs hinv hnd hall
    rw [get_open b1, b2 kv hmem]
    simp only [Option.isNone_none, true_or, if_true]
    have hm : malloc cfg kv.2.length = some ((List.range kv.2.length).map cfg.uninit) := by
      unfold malloc
      rw [if_neg (by omega)]
    rw [hm]
    simp only [memcpy_malloc cfg kv.2 _ hm]

theorem C8_witness :
    st_g.deref 4096 = some s_g ∧ s_g.map.invariant cfg_w ∧ "a" ≠ "d" ∧
    s_g.map.segment_count = 1 ∧
    ((st_g.put cfg_w 4096 "d" (some [4])).2.deref 4096).map (fun s => s.map.segment_count) =
      some 2 ∧
    (((st_g.put cfg_w 4096 "d" (some [4])).2.get cfg_w 4096 "a" none 0).1 =
        (st_g.get cfg_w 4096 "a" none 0).1 ∧
    ∀ (kvs : List (String × Bytes)) (st' : hstore), (kvs.map Prod.fst).Nodup →
      put_all cfg_w 4096 st_g kvs = (st', true) →
      ∀ kv ∈ kvs, 0 < kv.2.length →
        (st'.get cfg_w 4096 kv.1 none 0).1 = .returned ⟨S_OK, some kv.2, kv.2.length⟩) :=
  ⟨by decide, by decide, by decide, by decide, by decide,
    C8_put_leaves_other_keys cfg_w st_g 4096 s_g "a" "d" (some [4]) none 0
      (by decide) (by decide) (by decide)⟩

end hstore
end Comanche
namespace Comanche
namespace hstore

/-- C6: on an open pool whose table satisfies the table invariant,
`erase(pool, k)` returns `S_OK` exactly when `k` is present and
`E_KEY_NOT_FOUND` exactly when it is absent; after an erase that returned
`S_OK`, `get(k)` and `get_direct(k)` return `E_KEY_NOT_FOUND`; an erase that
returned `E_KEY_NOT_FOUND` leaves the pool's table (every key and value) and
the count as they were. -/
theorem C6_erase (cfg : Config) (st : hstore) (pool : pool_t) (s : session_t) (k : String)
    (hs : st.deref pool = some s) (hinv : s.map.invariant cfg) :
    ((st.erase cfg pool k).1 = .returned S_OK ↔ (s.map.value_of cfg k).isSome = true) ∧
    ((st.erase cfg pool k).1 = .returned E_KEY_NOT_FOUND ↔ s.map.value_of cfg k = none) ∧
    ((st.erase cfg pool k).1 = .returned S_OK →
      ∀ (out_value : Option Bytes) (out_value_len : Nat),
        ((st.erase cfg pool k).2.get cfg pool k out_value out_value_len).1 =
            .returned ⟨E_KEY_NOT_FOUND, out_value, out_value_len⟩ ∧
        ((st.erase cfg pool k).2.get_direct cfg pool k out_value out_value_len).1 =
            .returned ⟨E_KEY_NOT_FOUND, out_value, out_value_len⟩) ∧
    ((st.erase cfg pool k).1 = .returned E_KEY_NOT_FOUND →
      (st.erase cfg pool k).2.deref pool = some s ∧
      ((st.erase cfg pool k).2.count pool).1 = (st.count pool).1) := by
  rw [erase_open hs]
  simp only
  have hne : E_KEY_NOT_FOUND ≠ S_OK := by decide
  cases hl : s.map.locate_key cfg k with
  | none =>
    have hv : s.map.value_of cfg k = none := by simp [Table.value_of, hl]
    rw [Table.erase_absent hl]
    simp only [if_true, hv, Option.isSome_none, Bool.false_eq_true, iff_false, iff_true]
    have hd : ((st.cached pool).set_session pool { s with map := s.map }).deref pool = some s :=
      deref_after _ hs
    refine ⟨fun h => hne (Outcome.returned.inj h), trivial,
      fun h => absurd (Outcome.returned.inj h) hne, fun _ => ⟨hd, ?_⟩⟩
    rw [count_open hd, count_open hs]
  | some j =>
    obtain ⟨e1, e2, _, e4⟩ := Table.erase_present hinv hl
    have hv : (s.map.value_of cfg k).isSome = true := by
      rw [Table.value_of_isSome_iff, hl]; rfl
    have hv' : s.map.value_of cfg k ≠ none := by
      intro h; rw [h] at hv; cases hv
    rw [e1]
    simp only [Nat.succ_ne_zero, if_false, hv, hv', iff_true, iff_false, true_implies]
    have hd : ((st.cached pool).set_session pool { s with map := (s.map.erase cfg k).2 }).deref pool
        = some { s with map := (s.map.erase cfg k).2 } := deref_after _ hs
    have hgone : (s.map.erase cfg k).2.value_of cfg k = none := by
      rw [Table.value_of_eq_none e2.2.2.1 e2.2.2.2]
      intro x hx
      obtain ⟨v, hv⟩ := Table.content_of_key_at hx
      exact ((e4 k v).1 ⟨x, Table.lt_of_content_at hv, hv⟩).1 rfl
    refine ⟨trivial, fun h => hne (Outcome.returned.inj h).symm, ?_, fun h => absurd (Outcome.returned.inj h).symm hne⟩
    intro ov ol
    rw [get_open hd, get_direct_open hd, hgone]
    exact ⟨rfl, rfl⟩

theorem C6_witness :
    st_k.deref 4096 = some s_k ∧ s_k.map.invariant cfg_w ∧
    (st_k.erase cfg_w 4096 "k").1 = .returned S_OK ∧
    (st_k.erase cfg_w 4096 "j").1 = .returned E_KEY_NOT_FOUND ∧
    ((st_k.erase cfg_w 4096 "k").1 = .returned S_OK →
      ∀ (out_value : Option Bytes) (out_value_len : Nat),
        ((st_k.erase cfg_w 4096 "k").2.get cfg_w 4096 "k" out_value out_value_len).1 =
            .returned ⟨E_KEY_NOT_FOUND, out_value, out_value_len⟩ ∧
        ((st_k.erase cfg_w 4096 "k").2.get_direct cfg_w 4096 "k" out_value out_value_len).1 =
            .returned ⟨E_KEY_NOT_FOUND, out_value, out_value_len⟩) :=
  ⟨by decide, by decide, by decide, by decide,
    (C6_erase cfg_w st_k 4096 s_k "k" (by decide) (by decide)).2.2.1⟩

/-- C7: `count(pool)` is the number of objects in the pool.  It is 0 for a
freshly created pool; on an open pool whose table satisfies the table
invariant a `put` of an absent key that returns `S_OK` raises it by exactly
1 (one that throws leaves it unchanged), a `put` of a key that is already
present returns `S_OK` and leaves it unchanged, and an `erase` that returns `S_OK` lowers it by exactly 1; a `put`
on a new pool returns `S_OK` and gives count 1 (the neighbourhood width being
positive). -/
theorem C7_count (cfg : Config) (st : hstore) (pool : pool_t) (s : session_t)
    (k : String) (v : Bytes) (hs : st.deref pool = some s) (hinv : s.map.invariant cfg) :
    (∀ (st0 : hstore) (p : pool_t) (seg_log : Nat), st0.deref p = none →
      ((st0.create_pool S_OK p seg_log).2.count (st0.create_pool S_OK p seg_log).1).1 =
        .returned 0) ∧
    (s.map.value_of cfg k = none → (st.put cfg pool k (some v)).1 = .returned S_OK →
      ((st.put cfg pool k (some v)).2.count pool).1 = .returned (s.map.size + 1)) ∧
    (∀ e, (st.put cfg pool k (some v)).1 = .thrown e →
      ((st.put cfg pool k (some v)).2.count pool).1 = .returned s.map.size) ∧
    ((s.map.value_of cfg k).isSome = true →
      (st.put cfg pool k (some v)).1 = .returned S_OK ∧
      ((st.put cfg pool k (some v)).2.count pool).1 = .returned s.map.size) ∧
    ((st.erase cfg pool k).1 = .returned S_OK →
      ∃ n, ((st.erase cfg pool k).2.count pool).1 = .returned n ∧ n + 1 = s.map.size) ∧
    (st.count pool).1 = .returned s.map.size ∧
    (0 < cfg.H → ∀ (st0 : hstore) (p : pool_t) (seg_log : Nat), st0.deref p = none →
      ((st0.create_pool S_OK p seg_log).2.put cfg p k (some v)).1 = .returned S_OK ∧
      (((st0.create_pool S_OK p seg_log).2.put cfg p k (some v)).2.count p).1 = .returned 1) := by
  obtain ⟨m, h1, h2, h3⟩ := put_open hs hinv k v
  have hd : (st.put cfg pool k (some v)).2.deref pool = some { s with map := m } := by
    rw [h1]; exact deref_after _ hs
  refine ⟨?_, ?_, ?_, ?_, ?_, by rw [count_open hs], ?_⟩
  · intro st0 p seg_log hnew
    obtain ⟨c1, c2⟩ := create_pool_new st0 p seg_log hnew
    rw [c1, count_open c2]
    simp only [pool_create, Table.size_create]
  · intro habs hret
    rw [count_open hd]
    rcases h3 with ⟨_, _, _, hsz⟩ | ⟨⟨e, he⟩, _⟩
    · simp only [hsz, habs, Option.isSome_none, Bool.false_eq_true, if_false]
    · rw [hret] at he; cases he
  · intro e he
    rw [count_open hd]
    rcases h3 with ⟨hret, _⟩ | ⟨_, _, _, hsz⟩
    · rw [hret] at he; cases he
    · simp only [hsz]
  · intro hpres
    rcases h3 with ⟨hret, _, _, hsz⟩ | ⟨_, hn, _⟩
    · refine ⟨hret, ?_⟩
      rw [count_open hd]
      simp only [hsz, hpres, if_true, Nat.add_zero]
    · rw [hn] at hpres; cases hpres
  · intro hret
    rw [erase_open hs] at hret ⊢
    have hd2 : ((st.cached pool).set_session pool { s with map := (s.map.erase cfg k).2 }).deref
        pool = some { s with map := (s.map.erase cfg k).2 } := deref_after _ hs
    simp only at hret ⊢
    rw [count_open hd2]
    cases hl : s.map.locate_key cfg k with
    | none =>
      rw [Table.erase_absent hl] at hret
      simp only [if_true, Outcome.returned.injEq] at hret
      exact absurd hret (by decide)
    | some j =>
      obtain ⟨_, _, e3, _⟩ := Table.erase_present hinv hl
      exact ⟨_, rfl, e3⟩
  · intro hH st0 p seg_log hnew
    obtain ⟨_, c2⟩ := create_pool_new st0 p seg_log hnew
    have hinv0 : (pool_create seg_log).map.invariant cfg := Table.invariant_create cfg seg_log
    obtain ⟨j, t', he⟩ := @Table.emplace_of_all_clear cfg (pool_create seg_log).map
      k v hH (by simp [pool_create, Table.create, Table.bucket_count])
      (fun j => Table.content_at_create seg_log j)
    obtain ⟨_, _, a3, _⟩ := Table.emplace_returned_true hinv0 he
    have hput := @put_eq cfg _ _ _ c2 k v
    rw [he] at hput
    simp only [if_true] at hput
    rw [hput]
    refine ⟨rfl, ?_⟩
    simp only
    rw [count_open (deref_after _ c2)]
    simp only [a3, pool_create, Table.size_create]

theorem C7_witness :
    st_k.deref 4096 = some s_k ∧ s_k.map.invariant cfg_w ∧
    (st_k.count 4096).1 = .returned 1 ∧ (st_w.count 4096).1 = .returned 0 ∧
    ((st_k.put cfg_w 4096 "j" (some [1])).2.count 4096).1 = .returned 2 ∧
    ((st_k.put cfg_w 4096 "k" (some [1])).2.count 4096).1 = .returned 1 ∧
    ((st_k.erase cfg_w 4096 "k").2.count 4096).1 = .returned 0 ∧
    (s_k.map.value_of cfg_w "j" = none → (st_k.put cfg_w 4096 "j" (some [1])).1 = .returned S_OK →
      ((st_k.put cfg_w 4096 "j" (some [1])).2.count 4096).1 = .returned (s_k.map.size + 1)) :=
  ⟨by decide, by decide, by decide, by decide, by decide, by decide, by decide,
    (C7_count cfg_w st_k 4096 s_k "j" [1] (by decide) (by decide)).2.1⟩

end hstore
end Comanche
namespace Comanche
namespace hstore

/-- The pool after a `lock` on a present key: the key is still there, in the
same slot, and the bucket of the slot is the one the try-lock left. -/
theorem lock_post {cfg : Config} {st : hstore} {pool : pool_t} {s : session_t}
    {key : String} {val : Bytes} {j : Nat} (type : lock_type_t)
    (out_value : Option Bytes) (out_value_len : Nat)
    (hs : st.deref pool = some s) (hv : s.map.value_of cfg key = some val)
    (hl : s.map.locate_key cfg key = some j) :
    ∃ s1, (st.lock cfg pool key type out_value out_value_len).2.deref pool = some s1 ∧
      s1.map.value_of cfg key = some val ∧ s1.map.locate_key cfg key = some j ∧
      s1.map.bucket_at j =
        (if type = .STORE_LOCK_READ then Table.try_lock_shared cfg (s.map.bucket_at j)
          else Table.try_lock_unique cfg (s.map.bucket_at j)).2 := by
  rw [lock_present type out_value out_value_len hs hv hl]
  have hj : j < s.map.bucket_count := (Table.locate_key_some hl).2.1
  have hdata : (if type = .STORE_LOCK_READ then Table.try_lock_shared cfg (s.map.bucket_at j)
      else Table.try_lock_unique cfg (s.map.bucket_at j)).2.owner = (s.map.bucket_at j).owner ∧
      (if type = .STORE_LOCK_READ then Table.try_lock_shared cfg (s.map.bucket_at j)
      else Table.try_lock_unique cfg (s.map.bucket_at j)).2.content
        = (s.map.bucket_at j).content := by
    split
    · exact Table.try_lock_shared_data cfg _
    · exact Table.try_lock_unique_data cfg _
  refine ⟨_, deref_after _ hs, ?_, ?_, ?_⟩
  · simp only
    rw [Table.value_of_update_lock _ _ _ hdata.1 hdata.2, hv]
  · simp only
    rw [Table.locate_key_update_lock _ _ _ hdata.1 hdata.2, hl]
  · simp only
    rw [Table.bucket_at_update, if_pos ⟨rfl, hj⟩]

/-- C10 (as amended): for a key `k` that is present in an open pool.  Built
as the source is (`thread_safe_hash = false`, the no-op `dummy::shared_mutex`)
every `lock(k, READ or WRITE)` returns a handle different from `KEY_NONE`,
also directly after another `lock(k, ·)` that has not been unlocked.  Built
with the shared/exclusive mutex (`thread_safe_hash = true`): directly after a
`lock(k, STORE_LOCK_WRITE)` that returned a handle, every `lock(k, READ or
WRITE)` returns `KEY_NONE` and leaves the pool as it is; directly after a
`lock(k, STORE_LOCK_READ)` that returned a handle, a `lock(k, READ)` returns a
handle and a `lock(k, WRITE)` returns `KEY_NONE`. -/
theorem C10_lock_exclusivity_amended (cfg : Config) (st : hstore) (pool : pool_t)
    (s : session_t) (k : String) (v : Bytes) (out_value : Option Bytes) (out_value_len : Nat)
    (hs : st.deref pool = some s) (hv : s.map.value_of cfg k = some v) :
    (cfg.thread_safe_hash = false → ∀ (t1 t2 : lock_type_t) (ov : Option Bytes) (ol : Nat),
      (st.lock cfg pool k t1 out_value out_value_len).1 = .returned ⟨some k, some v, v.length⟩ ∧
      ((st.lock cfg pool k t1 out_value out_value_len).2.lock cfg pool k t2 ov ol).1 =
        .returned ⟨some k, some v, v.length⟩) ∧
    (cfg.thread_safe_hash = true →
      (∀ r, (st.lock cfg pool k .STORE_LOCK_WRITE out_value out_value_len).1 = .returned r →
        r.handle ≠ KEY_NONE → ∀ (t2 : lock_type_t) (ov : Option Bytes) (ol : Nat),
          ((st.lock cfg pool k .STORE_LOCK_WRITE out_value out_value_len).2.lock
              cfg pool k t2 ov ol).1 = .returned ⟨KEY_NONE, ov, ol⟩ ∧
          ((st.lock cfg pool k .STORE_LOCK_WRITE out_value out_value_len).2.lock
              cfg pool k t2 ov ol).2.deref pool =
            (st.lock cfg pool k .STORE_LOCK_WRITE out_value out_value_len).2.deref pool) ∧
      (∀ r, (st.lock cfg pool k .STORE_LOCK_READ out_value out_value_len).1 = .returned r →
        r.handle ≠ KEY_NONE → ∀ (ov : Option Bytes) (ol : Nat),
          ((st.lock cfg pool k .STORE_LOCK_READ out_value out_value_len).2.lock
              cfg pool k .STORE_LOCK_READ ov ol).1 = .returned ⟨some k, some v, v.length⟩ ∧
          ((st.lock cfg pool k .STORE_LOCK_READ out_value out_value_len).2.lock
              cfg pool k .STORE_LOCK_WRITE ov ol).1 = .returned ⟨KEY_NONE, ov, ol⟩)) := by
  obtain ⟨j, hl⟩ := locate_of_value_of hv
  constructor
  · intro hts t1 t2 ov ol
    have hfree : ∀ (t : lock_type_t) (b : Bucket),
        (if t = .STORE_LOCK_READ then Table.try_lock_shared cfg b
          else Table.try_lock_unique cfg b).1 = true := by
      intro t b
      split
      · simp [Table.try_lock_shared, hts]
      · simp [Table.try_lock_unique, hts]
    obtain ⟨s1, a1, a2, a3, _⟩ := lock_post t1 out_value out_value_len hs hv hl
    constructor
    · rw [lock_present t1 out_value out_value_len hs hv hl]
      simp only [hfree, if_true]
    · rw [lock_present t2 ov ol a1 a2 a3]
      simp only [hfree, if_true]
  · intro hts
    constructor
    · intro r hr hh t2 ov ol
      obtain ⟨s1, a1, a2, a3, a4⟩ :=
        lock_post .STORE_LOCK_WRITE out_value out_value_len hs hv hl
      rw [lock_present .STORE_LOCK_WRITE out_value out_value_len hs hv hl] at hr
      simp only [reduceCtorEq, if_false] at hr a4
      have hw : s1.map.bucket_at j = { s.map.bucket_at j with writer := true } := by
        rw [a4]
        unfold Table.try_lock_unique at hr ⊢
        rw [if_pos hts] at hr ⊢
        split at hr
        · simp only [Bool.false_eq_true, if_false, Outcome.returned.injEq] at hr
          rw [← hr] at hh
          exact absurd rfl hh
        · next hfree => rw [if_neg hfree]
      have hfail : (if t2 = .STORE_LOCK_READ then Table.try_lock_shared cfg (s1.map.bucket_at j)
          else Table.try_lock_unique cfg (s1.map.bucket_at j)) = (false, s1.map.bucket_at j) := by
        rw [hw]
        split
        · simp [Table.try_lock_shared, hts]
        · simp [Table.try_lock_unique, hts]
      rw [lock_present t2 ov ol a1 a2 a3, hfail]
      simp only [Bool.false_eq_true, if_false, Table.update_self, true_and]
      rw [deref_after _ a1, a1]
    · intro r hr hh ov ol
      obtain ⟨s1, a1, a2, a3, a4⟩ :=
        lock_post .STORE_LOCK_READ out_value out_value_len hs hv hl
      rw [lock_present .STORE_LOCK_READ out_value out_value_len hs hv hl] at hr
      simp only [if_true] at hr a4
      have hw : (s.map.bucket_at j).writer = false ∧
          s1.map.bucket_at j =
            { s.map.bucket_at j with readers := (s.map.bucket_at j).readers + 1 } := by
        rw [a4]
        unfold Table.try_lock_shared at hr ⊢
        rw [if_pos hts] at hr ⊢
        split at hr
        · simp only [Bool.false_eq_true, if_false, Outcome.returned.injEq] at hr
          rw [← hr] at hh
          exact absurd rfl hh
        · next hfree =>
          rw [if_neg hfree]
          exact ⟨by simpa using hfree, rfl⟩
      constructor
      · rw [lock_present .STORE_LOCK_READ ov ol a1 a2 a3, hw.2]
        simp [Table.try_lock_shared, hts, hw.1]
      · rw [lock_present .STORE_LOCK_WRITE ov ol a1 a2 a3, hw.2]
        simp [Table.try_lock_unique, hts, hw.1]

end hstore
end Comanche

namespace Comanche
namespace hstore

theorem C10_witness :
    st_k.deref 4096 = some s_k ∧ s_k.map.value_of cfg_mt "k" = some [97, 98, 99, 100, 101] ∧
    (st_k.lock cfg_mt 4096 "k" .STORE_LOCK_WRITE none 0).1 =
      .returned ⟨some "k", some [97, 98, 99, 100, 101], 5⟩ ∧
    ((st_k.lock cfg_mt 4096 "k" .STORE_LOCK_WRITE none 0).2.lock cfg_mt 4096 "k"
      .STORE_LOCK_READ none 0).1 = .returned ⟨KEY_NONE, none, 0⟩ ∧
    ((st_k.lock cfg_mt 4096 "k" .STORE_LOCK_READ none 0).2.lock cfg_mt 4096 "k"
      .STORE_LOCK_READ none 0).1 = .returned ⟨some "k", some [97, 98, 99, 100, 101], 5⟩ ∧
    ((st_k.lock cfg_mt 4096 "k" .STORE_LOCK_READ none 0).2.lock cfg_mt 4096 "k"
      .STORE_LOCK_WRITE none 0).1 = .returned ⟨KEY_NONE, none, 0⟩ :=
  ⟨by decide, by decide, by decide,
    (((C10_lock_exclusivity_amended cfg_mt st_k 4096 s_k "k" [97, 98, 99, 100, 101] none 0
      (by decide) (by decide)).2 (by decide)).1
        ⟨some "k", some [97, 98, 99, 100, 101], 5⟩ (by decide) (by decide)
        .STORE_LOCK_READ none 0).1,
    (((C10_lock_exclusivity_amended cfg_mt st_k 4096 s_k "k" [97, 98, 99, 100, 101] none 0
      (by decide) (by decide)).2 (by decide)).2
        ⟨some "k", some [97, 98, 99, 100, 101], 5⟩ (by decide) (by decide) none 0).1,
    (((C10_lock_exclusivity_amended cfg_mt st_k 4096 s_k "k" [97, 98, 99, 100, 101] none 0
      (by decide) (by decide)).2 (by decide)).2
        ⟨some "k", some [97, 98, 99, 100, 101], 5⟩ (by decide) (by decide) none 0).2⟩

/-- C10 (counterexample): built as the source is (`dummy::shared_mutex`), the
pool stores `"k"`; `lock("k", STORE_LOCK_WRITE)` returns a handle, and while
it has not been unlocked a second `lock("k", STORE_LOCK_WRITE)` and a
`lock("k", STORE_LOCK_READ)` return a handle too, not `KEY_NONE`. -/
theorem C10_counterexample :
    cfg_w.thread_safe_hash = false ∧
    (st_k.lock cfg_w 4096 "k" .STORE_LOCK_WRITE none 0).1 =
      .returned ⟨some "k", some [97, 98, 99, 100, 101], 5⟩ ∧
    ((st_k.lock cfg_w 4096 "k" .STORE_LOCK_WRITE none 0).2.lock cfg_w 4096 "k"
      .STORE_LOCK_WRITE none 0).1 = .returned ⟨some "k", some [97, 98, 99, 100, 101], 5⟩ ∧
    ((st_k.lock cfg_w 4096 "k" .STORE_LOCK_WRITE none 0).2.lock cfg_w 4096 "k"
      .STORE_LOCK_READ none 0).1 = .returned ⟨some "k", some [97, 98, 99, 100, 101], 5⟩ ∧
    (some "k" : key_t) ≠ KEY_NONE := by
  decide

/-- What `lock` does on an absent key when it returns: the key is created
with a value of `out_value_len` bytes, the handle is not `KEY_NONE`,
`out_value` is the new value, `out_value_len` its size, and the count has
grown by one. -/
theorem lock_absent {cfg : Config} {st : hstore} {pool : pool_t} {s : session_t}
    (k : String) (type : lock_type_t) (out_value : Option Bytes) (out_value_len : Nat)
    (hs : st.deref pool = some s) (hinv : s.map.invariant cfg)
    (habs : s.map.value_of cfg k = none) (r : lock_result)
    (hr : (st.lock cfg pool k type out_value out_value_len).1 = .returned r) :
    r = ⟨some k, some ((List.range out_value_len).map cfg.uninit), out_value_len⟩ ∧
      ((st.lock cfg pool k type out_value out_value_len).2.count pool).1 =
        .returned (s.map.size + 1) ∧
      ∃ s', (st.lock cfg pool k type out_value out_value_len).2.deref pool = some s' ∧
        s'.map.value_of cfg k = some ((List.range out_value_len).map cfg.uninit) := by
  have hlk : st.lock cfg pool k type out_value out_value_len =
      lock_key_not_found cfg (st.cached pool) pool s k out_value out_value_len := by
    unfold lock
    rw [locate_session_open hs]
    simp only [Table.at_, habs]
  rw [hlk] at hr ⊢
  unfold lock_key_not_found at hr ⊢
  cases he : s.map.emplace cfg k ((List.range out_value_len).map cfg.uninit) with
  | mk o m =>
    rw [he] at hr
    cases o with
    | thrown e => simp at hr
    | returned i =>
      obtain ⟨j, b⟩ := i
      cases b with
      | false =>
        obtain ⟨_, hl⟩ := Table.emplace_returned_false he
        have := Table.value_of_isSome_iff cfg s.map k
        rw [habs, hl] at this
        cases this
      | true =>
        obtain ⟨_, a2, a3, a4, a5⟩ := Table.emplace_returned_true hinv he
        simp only [Bool.not_true, Bool.false_eq_true, if_false, a4, Option.map_some',
          Option.getD_some, List.length_map, List.length_range, Outcome.returned.injEq] at hr ⊢
        refine ⟨hr.symm, ?_, _, deref_after _ hs, ?_⟩
        · rw [count_open (deref_after _ hs)]
          simp only [a3]
        · rw [Table.value_of_eq_some a2.2.2.1 a2.2.2.2, a5]
          exact Or.inl ⟨rfl, rfl⟩

/-- C9 (the code at the failing input), built with the shared/exclusive
mutex: on a pool without `"k"`, `lock("k", STORE_LOCK_WRITE)` with incoming
`out_value_len = 4` creates the key with four bytes and returns a handle, the
count becomes 1, but no lock is taken: the lock of the bucket is free and a
second `lock("k", STORE_LOCK_WRITE)` returns a handle as well.  On a pool
that stores `"k"` the second `lock` returns `KEY_NONE`. -/
theorem C9_lock_creates_without_locking :
    (st_w.get cfg_mt 4096 "k" none 0).1 = .returned ⟨E_KEY_NOT_FOUND, none, 0⟩ ∧
    (st_w.lock cfg_mt 4096 "k" .STORE_LOCK_WRITE none 4).1 =
      .returned ⟨some "k", some [0, 0, 0, 0], 4⟩ ∧
    ((st_w.lock cfg_mt 4096 "k" .STORE_LOCK_WRITE none 4).2.count 4096).1 = .returned 1 ∧
    (((st_w.lock cfg_mt 4096 "k" .STORE_LOCK_WRITE none 4).2.deref 4096).map
      (fun s => s.map.buckets.map (fun b => (b.readers, b.writer)))) =
        some [(0, false), (0, false), (0, false), (0, false)] ∧
    ((st_w.lock cfg_mt 4096 "k" .STORE_LOCK_WRITE none 4).2.lock cfg_mt 4096 "k"
      .STORE_LOCK_WRITE none 0).1 = .returned ⟨some "k", some [0, 0, 0, 0], 4⟩ ∧
    ((st_k.lock cfg_mt 4096 "k" .STORE_LOCK_WRITE none 0).2.lock cfg_mt 4096 "k"
      .STORE_LOCK_WRITE none 0).1 = .returned ⟨KEY_NONE, none, 0⟩ := by
  decide

end hstore
end Comanche

namespace Comanche
namespace hstore

/-- C11 (refuted on the code): `put_direct` on a pool that holds no object
with the given key does not return `E_KEY_EXISTS`.  On the pool that
`create_pool` has just made, which holds no object at all, `put_direct` with
any key and any non-null value returns `S_OK`, and the pool then holds the
key with that value. -/
theorem C11_put_direct_absent_key_inserts (key : String) (value : Bytes) :
    st_w.deref 4096 = some s_w ∧ (∀ k, s_w.map.value_of cfg_w k = none) ∧
      (st_w.put_direct cfg_w 4096 key (some value)).1 = .returned S_OK ∧
      (st_w.put_direct cfg_w 4096 key (some value)).1 ≠ .returned E_KEY_EXISTS ∧
      ∃ s', (st_w.put_direct cfg_w 4096 key (some value)).2.deref 4096 = some s' ∧
        s'.map.value_of cfg_w key = some value := by
  have hs : st_w.deref 4096 = some s_w := by decide
  have hcl : ∀ j, s_w.map.content_at j = none := fun j => Table.content_at_create 2 j
  have hnone : ∀ k, s_w.map.value_of cfg_w k = none := by
    intro k
    cases h : s_w.map.value_of cfg_w k with
    | none => rfl
    | some v =>
      obtain ⟨j, hj⟩ := locate_of_value_of h
      have := (Table.locate_key_some hj).1
      simp [Table.key_at, hcl] at this
  have hinv : s_w.map.invariant cfg_w := Table.invariant_create cfg_w 2
  obtain ⟨j, t', he⟩ := @Table.emplace_of_all_clear cfg_w s_w.map key value (by decide) (by decide) hcl
  have hput : st_w.put_direct cfg_w 4096 key (some value) =
      (.returned S_OK, (st_w.cached 4096).set_session 4096 { s_w with map := t' }) := by
    unfold put_direct
    rw [put_eq hs, he]
    rfl
  obtain ⟨_, hinv', _, hc, hh⟩ := Table.emplace_returned_true hinv he
  refine ⟨hs, hnone, by rw [hput], ?_, ?_⟩
  · rw [hput]
    intro h
    injection h with h
    exact absurd h (by decide)
  · refine ⟨{ s_w with map := t' }, ?_, ?_⟩
    · rw [hput]
      exact deref_after _ hs
    · exact (Table.value_of_eq_some hinv'.2.2.1 hinv'.2.2.2).2 ((hh key value).2 (Or.inl ⟨rfl, rfl⟩))

end hstore
end Comanche

namespace Comanche
namespace Table

/-! ### Iteration over the table -/

theorem mem_owned_slots {cfg : Config} {t : Table} {h j : Nat} :
    j ∈ t.owned_slots cfg h ↔ ∃ i, i < cfg.H ∧ (t.owner_at h).testBit i = true ∧ j = h + i := by
  unfold owned_slots
  simp only [List.mem_map, List.mem_filter, List.mem_range]
  constructor
  · rintro ⟨i, ⟨hi, hb⟩, rfl⟩
    exact ⟨i, hi, hb, rfl⟩
  · rintro ⟨i, hi, hb, rfl⟩
    exact ⟨i, ⟨hi, hb⟩, rfl⟩

theorem nodup_owned_slots (cfg : Config) (t : Table) (h : Nat) : (t.owned_slots cfg h).Nodup := by
  unfold owned_slots
  apply List.Nodup.map
  · intro a b hab
    simp only at hab
    omega
  · exact (List.nodup_range cfg.H).filter _

/-- The slots visited by the iteration: the owned slots of every bucket. -/
theorem mem_slots {cfg : Config} {t : Table} (ho : t.owners_ok cfg) {j : Nat}
    (hj : j ∈ (List.range t.bucket_count).flatMap (t.owned_slots cfg)) :
    j < t.bucket_count ∧ ∃ c, t.content_at j = some c := by
  obtain ⟨h, hh, hm⟩ := List.mem_flatMap.1 hj
  obtain ⟨i, hi, hb, rfl⟩ := mem_owned_slots.1 hm
  obtain ⟨h1, h2⟩ := ho h (List.mem_range.1 hh) i hi hb
  refine ⟨h1, ?_⟩
  unfold slot_home key_at at h2
  cases hc : t.content_at (h + i) with
  | none => rw [hc] at h2; cases h2
  | some c => exact ⟨c, rfl⟩

theorem nodup_slots {cfg : Config} {t : Table} (ho : t.owners_ok cfg) :
    ((List.range t.bucket_count).flatMap (t.owned_slots cfg)).Nodup := by
  rw [List.nodup_flatMap]
  refine ⟨fun h _ => nodup_owned_slots cfg t h, ?_⟩
  apply List.Nodup.pairwise_of_forall_ne (List.nodup_range _)
  intro a ha b hb hab j hja hjb
  obtain ⟨i, hi, hbi, rfl⟩ := mem_owned_slots.1 hja
  obtain ⟨i', hi', hbi', hj'⟩ := mem_owned_slots.1 hjb
  have h1 := (ho a (List.mem_range.1 ha) i hi hbi).2
  have h2 := (ho b (List.mem_range.1 hb) i' hi' hbi').2
  rw [← hj', h1] at h2
  exact hab (Option.some.inj h2)

/-- The iteration visits exactly the pairs the table holds. -/
theorem mem_entries {cfg : Config} {t : Table} (hinv : t.invariant cfg) (k : KEY_T) (v : MAPPED_T) :
    (k, v) ∈ t.entries cfg ↔ t.holds k v := by
  obtain ⟨hn, ho, hs, _⟩ := hinv
  unfold entries holds
  rw [List.mem_filterMap]
  constructor
  · rintro ⟨j, hj, hc⟩
    exact ⟨j, (mem_slots ho hj).1, hc⟩
  · rintro ⟨j, hj, hc⟩
    refine ⟨j, ?_, hc⟩
    obtain ⟨h1, h2, h3⟩ := slot_ok_of_key_at (hs j hj) (key_at_eq hc)
    refine List.mem_flatMap.2 ⟨t.bucket cfg k, List.mem_range.2 (Nat.mod_lt _ hn), ?_⟩
    exact mem_owned_slots.2 ⟨j - t.bucket cfg k, h2, h3, by omega⟩

/-- The iteration visits no key twice. -/
theorem nodup_keys_entries {cfg : Config} {t : Table} (hinv : t.invariant cfg) :
    ((t.entries cfg).map Prod.fst).Nodup := by
  obtain ⟨_, ho, _, hd⟩ := hinv
  unfold entries
  rw [List.map_filterMap]
  apply List.Nodup.filterMap _ (nodup_slots ho)
  intro a a' b hb hb'
  have ha : t.key_at a = some b := by simpa [key_at] using hb
  have ha' : t.key_at a' = some b := by simpa [key_at] using hb'
  exact hd a (lt_of_key_at ha) a' (lt_of_key_at ha') (by rw [ha]; simp) (by rw [ha, ha'])

/-- The iteration visits as many entries as the table counts. -/
theorem length_entries {cfg : Config} {t : Table} (hinv : t.invariant cfg) :
    (t.entries cfg).length = t.size := by
  have ho := hinv.2.1
  have hs := hinv.2.2.1
  have hperm : List.Perm ((List.range t.bucket_count).flatMap (t.owned_slots cfg))
      ((List.range t.bucket_count).filter (fun j => (t.content_at j).isSome)) := by
    rw [List.perm_ext_iff_of_nodup (nodup_slots ho) ((List.nodup_range _).filter _)]
    intro j
    rw [List.mem_filter, List.mem_range]
    constructor
    · intro hj
      obtain ⟨h1, c, hc⟩ := mem_slots ho hj
      exact ⟨h1, by rw [hc]; rfl⟩
    · rintro ⟨hj, hc⟩
      cases hcc : t.content_at j with
      | none => rw [hcc] at hc; cases hc
      | some c =>
        obtain ⟨h1, h2, h3⟩ := slot_ok_of_key_at (hs j hj) (@key_at_eq t j c.1 c.2 hcc)
        refine List.mem_flatMap.2 ⟨t.bucket cfg c.1, List.mem_range.2 (Nat.mod_lt _ hinv.1), ?_⟩
        exact mem_owned_slots.2 ⟨j - t.bucket cfg c.1, h2, h3, by omega⟩
  have hlen : (t.entries cfg).length =
      ((List.range t.bucket_count).flatMap (t.owned_slots cfg)).length := by
    unfold entries
    have key : ∀ l : List Nat, (∀ j ∈ l, ∃ c, t.content_at j = some c) →
        (l.filterMap t.content_at).length = l.length := by
      intro l
      induction l with
      | nil => intro _; rfl
      | cons a l ih =>
        intro h
        obtain ⟨c, hc⟩ := h a (List.mem_cons_self _ _)
        rw [List.filterMap_cons_some hc, List.length_cons, List.length_cons,
          ih (fun j hj => h j (List.mem_cons_of_mem _ hj))]
    exact key _ (fun j hj => (mem_slots ho hj).2)
  rw [hlen, hperm.length_eq, ← List.countP_eq_length_filter]
  unfold size
  conv_rhs => rw [← map_bucket_at_range t]
  rw [List.countP_map]
  rfl

end Table
end Comanche

namespace Comanche
namespace hstore

/-- What `map` does on an open pool whose table satisfies the invariant. -/
theorem map_open {cfg : Config} {st : hstore} {pool : pool_t} {s : session_t}
    (function : String → Bytes → Nat → Int)
    (hs : st.deref pool = some s) :
    st.map cfg pool function =
      (.returned (S_OK,
        (s.map.entries cfg).map (fun mt => ⟨mt.1, mt.2, mt.2.length, function mt.1 mt.2 mt.2.length⟩)),
        st.cached pool) := by
  unfold map
  rw [locate_session_open hs]
  rfl

/-- C12: on an open pool whose table satisfies the table invariant,
`map(pool, fn)` returns `S_OK` whatever `fn` returns; `fn` is invoked exactly
once for every pair `(k, v)` the pool holds, with the key, the value and the
length of the value, and every invocation is for such a pair; no key is
visited twice and the number of invocations is the number of entries; the
registry, and so every key and value of the pool, is as before. -/
theorem C12_map_visits_every_entry_once (cfg : Config) (st : hstore) (pool : pool_t) (s : session_t)
    (function : String → Bytes → Nat → Int)
    (hs : st.deref pool = some s) (hinv : s.map.invariant cfg) :
    ∃ calls : List map_call,
      (st.map cfg pool function).1 = .returned (S_OK, calls) ∧
      (∀ k v, s.map.value_of cfg k = some v →
        calls.count ⟨k, v, v.length, function k v v.length⟩ = 1) ∧
      (∀ c, c ∈ calls → s.map.value_of cfg c.key = some c.val ∧ c.val_len = c.val.length ∧
        c.result = function c.key c.val c.val_len) ∧
      (calls.map map_call.key).Nodup ∧
      calls.length = s.map.size ∧
      (st.map cfg pool function).2._pools = st._pools ∧
      (st.map cfg pool function).2.deref pool = some s := by
  rw [map_open function hs]
  have hk := Table.nodup_keys_entries hinv
  have hv := fun k v => @Table.value_of_eq_some cfg s.map k v hinv.2.2.1 hinv.2.2.2
  have hmap : ((s.map.entries cfg).map
      (fun mt => (⟨mt.1, mt.2, mt.2.length, function mt.1 mt.2 mt.2.length⟩ : map_call))).map
        map_call.key = (s.map.entries cfg).map Prod.fst := by
    rw [List.map_map]; rfl
  refine ⟨_, rfl, ?_, ?_, ?_, ?_, rfl, ?_⟩
  · intro k v hkv
    apply List.count_eq_one_of_mem
    · exact List.Nodup.of_map map_call.key (by rw [hmap]; exact hk)
    · exact List.mem_map.2 ⟨(k, v), (Table.mem_entries hinv k v).2 ((hv k v).1 hkv), rfl⟩
  · intro c hc
    obtain ⟨mt, hmt, rfl⟩ := List.mem_map.1 hc
    exact ⟨(hv mt.1 mt.2).2 ((Table.mem_entries hinv mt.1 mt.2).1 hmt), rfl, rfl⟩
  · rw [hmap]; exact hk
  · rw [List.length_map, Table.length_entries hinv]
  · rw [deref_cached]; exact hs

theorem C12_witness :
    st_g.deref 4096 = some s_g ∧ s_g.map.invariant cfg_w ∧
    ∃ calls : List map_call,
      (st_g.map cfg_w 4096 (fun _ _ n => n)).1 = .returned (S_OK, calls) ∧
      (∀ k v, s_g.map.value_of cfg_w k = some v →
        calls.count ⟨k, v, v.length, (v.length : Int)⟩ = 1) ∧
      (∀ c, c ∈ calls → s_g.map.value_of cfg_w c.key = some c.val ∧ c.val_len = c.val.length ∧
        c.result = (c.val_len : Int)) ∧
      (calls.map map_call.key).Nodup ∧
      calls.length = s_g.map.size ∧
      (st_g.map cfg_w 4096 (fun _ _ n => n)).2._pools = st_g._pools ∧
      (st_g.map cfg_w 4096 (fun _ _ n => n)).2.deref 4096 = some s_g :=
  ⟨by decide, by decide,
    C12_map_visits_every_entry_once cfg_w st_g 4096 s_g (fun _ _ n => n) (by decide) (by decide)⟩

end hstore
end Comanche

namespace Comanche
namespace hstore

/-! ## `put` of a present key and `atomic_update` -/

/-- Function `update_by_issue_41` lets no `std::exception` out. -/
theorem update_by_issue_41_no_std (cfg : Config) (st : hstore) (pool : pool_t) (key : String)
    (value : Bytes) (old_value_len : Nat) (e : Exn)
    (h : (st.update_by_issue_41 cfg pool key value old_value_len).1 = .thrown e) :
    e.is_std_exception = false := by
  unfold update_by_issue_41 at h
  split at h
  · split at h
    · split at h
      · cases h
      · injection h with h; subst h; exact Bool.eq_false_iff.2 (by assumption)
    · split at h
      · split at h
        · cases h
        · injection h with h; subst h; exact Bool.eq_false_iff.2 (by assumption)
      · cases h
  · split at h
    · split at h
      · cases h
      · injection h with h; subst h; exact Bool.eq_false_iff.2 (by assumption)
    · rename_i r hr
      revert h hr
      unfold atomic_update
      intro hr h
      split at h
      · split at h
        · cases h
        · injection h with h; subst h; exact Bool.eq_false_iff.2 (by assumption)
      · split at h
        · split at h
          · cases h
          · injection h with h; subst h; exact Bool.eq_false_iff.2 (by assumption)
        · cases h

/-- Function `atomic_update` on an open pool. -/
theorem atomic_update_open {cfg : Config} {st : hstore} {pool : pool_t} {s : session_t}
    (hs : st.deref pool = some s) (key : String) (ops : List Operation) :
    st.atomic_update cfg pool key ops false =
      match s.enter_update cfg key ops with
      | (.thrown e, s') =>
        if e.is_std_exception then (.returned E_FAIL, (st.cached pool).set_session pool s')
        else (.thrown e, (st.cached pool).set_session pool s')
      | (.returned r, s') => (.returned r, (st.cached pool).set_session pool s') := by
  unfold atomic_update
  rw [locate_session_open hs]
  simp only [maybe_lock, Bool.false_eq_true, if_false]

end hstore
end Comanche

namespace Comanche
namespace hstore

/-- C13: for a key that the pool holds with value `v0`, a `put` of a value of
the same length is, in result and in state afterwards,
`atomic_update(pool, key, [WRITE(0, value_len, value)], take_lock = false)`;
a `put` of a value of another length gives the result of
`session::enter_replace` and stores the session it leaves; and
`update_by_issue_41` lets no `std::exception` out: on an open pool a
`std::exception` of `enter_replace` (lengths differ) or of `enter_update`
(lengths equal) becomes the return code `E_FAIL`. -/
theorem C13_put_is_atomic_update (cfg : Config) (st : hstore) (pool : pool_t) (s : session_t)
    (key : String) (j : Nat) (v0 value : Bytes)
    (hs : st.deref pool = some s) (hl : s.map.locate_key cfg key = some j)
    (hc : s.map.content_at j = some (key, v0)) :
    (value.length = v0.length →
      st.put cfg pool key (some value) =
        st.atomic_update cfg pool key [.Operation_write 0 value.length value] false) ∧
    (value.length ≠ v0.length →
      st.put cfg pool key (some value) =
        ((s.enter_replace cfg key value).1,
          (st.cached pool).set_session pool (s.enter_replace cfg key value).2)) ∧
    (∀ (st' : hstore) (pool' : pool_t) (key' : String) (value' : Bytes) (old_value_len : Nat)
      (e : Exn), (st'.update_by_issue_41 cfg pool' key' value' old_value_len).1 = .thrown e →
        e.is_std_exception = false) ∧
    (∀ (st' : hstore) (pool' : pool_t) (s' : session_t) (key' : String) (value' : Bytes)
      (old_value_len : Nat) (e : Exn), st'.deref pool' = some s' → e.is_std_exception = true →
      (if value'.length ≠ old_value_len then (s'.enter_replace cfg key' value').1
        else (s'.enter_update cfg key' [.Operation_write 0 value'.length value']).1) = .thrown e →
      (st'.update_by_issue_41 cfg pool' key' value' old_value_len).1 = .returned E_FAIL) := by
  have hput : st.put cfg pool key (some value) =
      (.returned S_OK,
        (st.cached pool).set_session pool
          { s with map := s.map.set_content j (some (key, value)) }) := by
    rw [put_eq hs, Table.emplace_of_locate value hl]
    simp only [hc, Option.map_some', Option.getD_some, Bool.false_eq_true, if_false]
    rw [update_by_issue_41_open value (deref_after _ hs) hl hc, cached_set_session, cached_cached,
      set_session_set_session]
  refine ⟨?_, ?_, ?_, ?_⟩
  · intro hlen
    rw [hput, atomic_update_open hs]
    simp only [session_t.enter_update, hl, hc, apply_ops_write_all v0 value hlen]
  · intro _
    rw [hput]
    simp only [session_t.enter_replace, hl, hc]
  · exact fun st' pool' key' value' old e h =>
      update_by_issue_41_no_std cfg st' pool' key' value' old e h
  · intro st' pool' s' key' value' old e hs' he h
    unfold update_by_issue_41
    by_cases hlen : value'.length ≠ old
    · rw [if_pos hlen] at h
      rw [if_pos hlen, locate_session_open hs']
      cases hr : s'.enter_replace cfg key' value' with
      | mk o s2 =>
        rw [hr] at h
        simp only at h
        subst h
        simp only [hr, he, if_true]
    · rw [if_neg hlen] at h
      rw [if_neg hlen, atomic_update_open hs']
      cases hr : s'.enter_update cfg key' [.Operation_write 0 value'.length value'] with
      | mk o s2 =>
        rw [hr] at h
        simp only at h
        subst h
        simp only [hr, he, if_true]

theorem C13_witness :
    st_k.deref 4096 = some s_k ∧ s_k.map.locate_key cfg_w "k" = some 1 ∧
    s_k.map.content_at 1 = some ("k", [97, 98, 99, 100, 101]) ∧
    st_k.put cfg_w 4096 "k" (some [1, 2, 3, 4, 5]) =
      st_k.atomic_update cfg_w 4096 "k" [.Operation_write 0 5 [1, 2, 3, 4, 5]] false ∧
    st_k.put cfg_w 4096 "k" (some [1, 2]) =
      ((s_k.enter_replace cfg_w "k" [1, 2]).1,
        (st_k.cached 4096).set_session 4096 (s_k.enter_replace cfg_w "k" [1, 2]).2) ∧
    (st_k.update_by_issue_41 cfg_w 4096 "j" [1, 2] 5).1 = .returned E_FAIL ∧
    (st_k.update_by_issue_41 cfg_w 4096 "j" [1, 2] 2).1 = .returned E_FAIL ∧
    Exn.is_std_exception .API_exception = false :=
  ⟨by decide, by decide, by decide,
    (C13_put_is_atomic_update cfg_w st_k 4096 s_k "k" 1 [97, 98, 99, 100, 101] [1, 2, 3, 4, 5]
      (by decide) (by decide) (by decide)).1 (by decide),
    (C13_put_is_atomic_update cfg_w st_k 4096 s_k "k" 1 [97, 98, 99, 100, 101] [1, 2]
      (by decide) (by decide) (by decide)).2.1 (by decide),
    (C13_put_is_atomic_update cfg_w st_k 4096 s_k "k" 1 [97, 98, 99, 100, 101] [1, 2]
      (by decide) (by decide) (by decide)).2.2.2 st_k 4096 s_k "j" [1, 2] 5 .out_of_range
      (by decide) (by decide) (by decide),
    (C13_put_is_atomic_update cfg_w st_k 4096 s_k "k" 1 [97, 98, 99, 100, 101] [1, 2]
      (by decide) (by decide) (by decide)).2.2.2 st_k 4096 s_k "j" [1, 2] 2 .out_of_range
      (by decide) (by decide) (by decide),
    (C13_put_is_atomic_update cfg_w st_k 4096 s_k "k" 1 [97, 98, 99, 100, 101] [1, 2]
      (by decide) (by decide) (by decide)).2.2.1 ⟨[], []⟩ 7 "k" [1] 0 .API_exception (by decide)⟩

end hstore
end Comanche

namespace Comanche
namespace hstore

/-! ## Closing a pool -/

theorem lookup_filter_ne (l : List (pool_t × session_t)) (pid q : pool_t) :
    (l.filter (fun p => p.1 ≠ pid)).lookup q = if q = pid then none else l.lookup q := by
  induction l with
  | nil => simp
  | cons a l ih =>
    obtain ⟨a1, a2⟩ := a
    by_cases ha : a1 = pid
    · have hf : ((a1, a2) :: l).filter (fun p => p.1 ≠ pid) = l.filter (fun p => p.1 ≠ pid) := by
        simp [List.filter_cons, ha]
      rw [hf, ih]
      by_cases hq : q = pid
      · simp [hq]
      · have hqa : (q == a1) = false := by simp [ha, hq]
        simp only [hq, if_false, List.lookup_cons, hqa]
    · have hf : ((a1, a2) :: l).filter (fun p => p.1 ≠ pid) =
          (a1, a2) :: l.filter (fun p => p.1 ≠ pid) := by
        simp [List.filter_cons, ha]
      rw [hf]
      simp only [List.lookup_cons]
      by_cases hqa : q = a1
      · subst hqa
        simp [ha]
      · have : (q == a1) = false := by simp [hqa]
        simp only [this, ih]

/-- What `move_pool` does to a registered pool. -/
theorem move_pool_open {st : hstore} {pid : pool_t} {s : session_t} (hs : st.deref pid = some s) :
    st.move_pool pid =
      (.returned s,
        { _pools := st._pools.filter (fun p => p.1 ≠ pid)
          tls_cache := st.tls_cache.filter (fun q => q ≠ pid) }) := by
  unfold deref at hs
  unfold move_pool
  rw [hs]

/-- Function `move_pool` on an identifier that is not registered. -/
theorem move_pool_closed {st : hstore} {pid : pool_t} (hs : st.deref pid = none) :
    st.move_pool pid = (.thrown .API_exception, st) := by
  unfold deref at hs
  unfold move_pool
  rw [hs]

/-- Function `locate_open_pool` on an identifier that is neither cached nor
registered. -/
theorem locate_open_pool_unknown {st : hstore} {pid : pool_t}
    (hc : pid ∉ st.tls_cache) (hs : st.deref pid = none) :
    st.locate_open_pool pid = (.thrown .API_exception, st) := by
  unfold deref at hs
  unfold locate_open_pool
  rw [if_neg hc, hs]

/-- The state after `close_pool` returned. -/
theorem close_pool_returned {st : hstore} {pid : pool_t} {pool_close_check : Outcome Unit}
    (h : (st.close_pool pid pool_close_check).1 = .returned ()) :
    (∃ s, st.deref pid = some s) ∧
      (st.close_pool pid pool_close_check).2 =
        { _pools := st._pools.filter (fun p => p.1 ≠ pid)
          tls_cache := st.tls_cache.filter (fun q => q ≠ pid) } := by
  cases hs : st.deref pid with
  | none =>
    unfold close_pool at h
    rw [move_pool_closed hs] at h
    cases h
  | some s =>
    refine ⟨⟨s, rfl⟩, ?_⟩
    unfold close_pool
    rw [move_pool_open hs]

end hstore
end Comanche

namespace Comanche
namespace hstore

/-- C14, the claim as stated fails: after `close_pool(4096)` returned, a
`get` on pool 4096 raises `General_exception` (the handler `catch (...)` of
`get`, hstore.cpp:425-427), not `API_exception`. -/
theorem C14_counterexample :
    (st_k.close_pool 4096 (.returned ())).1 = .returned () ∧
    ((st_k.close_pool 4096 (.returned ())).2.get cfg_w 4096 "k" none 0).1 =
      .thrown .General_exception ∧
    ((st_k.close_pool 4096 (.returned ())).2.get cfg_w 4096 "k" none 0).1 ≠
      .thrown .API_exception := by
  decide

/-- C14 (amended): after `close_pool(p)` returned, `p` is neither in the pool
registry nor in the calling thread's cache; `locate_open_pool`, `put` of a
non-null value, a second `close_pool` and `delete_pool` on `p` raise
`API_exception`, while `get`, `get_direct` and `erase` raise
`General_exception`; every other identifier keeps its session and its place
in the cache, so `locate_open_pool` answers for it as before; and on any
store an identifier that is neither cached nor registered raises
`API_exception` in `locate_open_pool`. -/
theorem C14_close_pool_amended (cfg : Config) (st : hstore) (p : pool_t)
    (pool_close_check : Outcome Unit)
    (h : (st.close_pool p pool_close_check).1 = .returned ()) :
    (st.close_pool p pool_close_check).2.deref p = none ∧
    p ∉ (st.close_pool p pool_close_check).2.tls_cache ∧
    (st.close_pool p pool_close_check).2.locate_open_pool p =
      (.thrown .API_exception, (st.close_pool p pool_close_check).2) ∧
    (∀ key value, ((st.close_pool p pool_close_check).2.put cfg p key (some value)).1 =
      .thrown .API_exception) ∧
    (∀ c, ((st.close_pool p pool_close_check).2.close_pool p c).1 = .thrown .API_exception) ∧
    (∀ c, ((st.close_pool p pool_close_check).2.delete_pool p c).1 = .thrown .API_exception) ∧
    (∀ key out_value out_value_len,
      ((st.close_pool p pool_close_check).2.get cfg p key out_value out_value_len).1 =
        .thrown .General_exception ∧
      ((st.close_pool p pool_close_check).2.get_direct cfg p key out_value out_value_len).1 =
        .thrown .General_exception) ∧
    (∀ key, ((st.close_pool p pool_close_check).2.erase cfg p key).1 =
      .thrown .General_exception) ∧
    (∀ q, q ≠ p →
      (st.close_pool p pool_close_check).2.deref q = st.deref q ∧
      (q ∈ (st.close_pool p pool_close_check).2.tls_cache ↔ q ∈ st.tls_cache) ∧
      ((st.close_pool p pool_close_check).2.locate_open_pool q).1 = (st.locate_open_pool q).1) ∧
    (∀ (st0 : hstore) (q : pool_t), q ∉ st0.tls_cache → st0.deref q = none →
      st0.locate_open_pool q = (.thrown .API_exception, st0)) := by
  obtain ⟨_, hst⟩ := close_pool_returned h
  generalize (st.close_pool p pool_close_check).2 = st' at hst
  have hd : ∀ q, st'.deref q = if q = p then none else st.deref q := by
    intro q
    rw [hst]
    exact lookup_filter_ne st._pools p q
  have hc : ∀ q, q ∈ st'.tls_cache ↔ q ≠ p ∧ q ∈ st.tls_cache := by
    intro q
    rw [hst]
    simp only [List.mem_filter, decide_eq_true_eq, ne_eq, decide_not, Bool.not_eq_eq_eq_not,
      Bool.not_true, decide_eq_false_iff_not]
    exact and_comm
  have hdp : st'.deref p = none := by rw [hd, if_pos rfl]
  have hcp : p ∉ st'.tls_cache := fun hm => ((hc p).1 hm).1 rfl
  have hloc := locate_open_pool_unknown hcp hdp
  have hls : st'.locate_session p = (.thrown .API_exception, st') := hloc
  refine ⟨hdp, hcp, hloc, ?_, ?_, ?_, ?_, ?_, ?_, ?_⟩
  · intro key value
    unfold put
    simp only [hls]
  · intro c
    unfold close_pool
    rw [move_pool_closed hdp]
  · intro c
    unfold delete_pool
    rw [move_pool_closed hdp]
  · intro key ov ol
    constructor
    · unfold get
      simp only [hls]
    · unfold get_direct
      simp only [hls]
  · intro key
    unfold erase
    simp only [hls]
  · intro q hq
    have h1 : st'.deref q = st.deref q := by rw [hd, if_neg hq]
    have h2 : q ∈ st'.tls_cache ↔ q ∈ st.tls_cache := by
      rw [hc]
      exact ⟨fun a => a.2, fun a => ⟨hq, a⟩⟩
    refine ⟨h1, h2, ?_⟩
    unfold locate_open_pool
    unfold deref at h1
    by_cases hm : q ∈ st.tls_cache
    · rw [if_pos hm, if_pos (h2.2 hm)]
      unfold deref
      rw [h1]
      cases st._pools.lookup q <;> rfl
    · rw [if_neg hm, if_neg (fun a => hm (h2.1 a)), h1]
      cases st._pools.lookup q <;> rfl
  · exact fun st0 q a b => locate_open_pool_unknown a b

end hstore
end Comanche

namespace Comanche
namespace hstore

theorem C14_witness :
    (st_2.close_pool 4096 (.returned ())).1 = .returned () ∧
    st_2c.deref 4096 = none ∧ st_2c.deref 8192 = st_2.deref 8192 ∧
    st_2.deref 8192 = some s_w ∧
    st_2c.locate_open_pool 4096 = (.thrown .API_exception, st_2c) ∧
    (st_2c.put cfg_w 4096 "k" (some [1])).1 = .thrown .API_exception ∧
    (st_2c.close_pool 4096 (.returned ())).1 = .thrown .API_exception ∧
    (st_2c.delete_pool 4096 (.returned ())).1 = .thrown .API_exception ∧
    (st_2c.get cfg_w 4096 "k" none 0).1 = .thrown .General_exception ∧
    (st_2c.locate_open_pool 8192).1 = (st_2.locate_open_pool 8192).1 :=
  ⟨by decide,
    (C14_close_pool_amended cfg_w st_2 4096 (.returned ()) (by decide)).1,
    ((C14_close_pool_amended cfg_w st_2 4096 (.returned ()) (by decide)).2.2.2.2.2.2.2.2.1
      8192 (by decide)).1,
    by decide,
    (C14_close_pool_amended cfg_w st_2 4096 (.returned ()) (by decide)).2.2.1,
    (C14_close_pool_amended cfg_w st_2 4096 (.returned ()) (by decide)).2.2.2.1 "k" [1],
    (C14_close_pool_amended cfg_w st_2 4096 (.returned ()) (by decide)).2.2.2.2.1 (.returned ()),
    (C14_close_pool_amended cfg_w st_2 4096 (.returned ()) (by decide)).2.2.2.2.2.1 (.returned ()),
    ((C14_close_pool_amended cfg_w st_2 4096 (.returned ()) (by decide)).2.2.2.2.2.2.1
      "k" none 0).1,
    ((C14_close_pool_amended cfg_w st_2 4096 (.returned ()) (by decide)).2.2.2.2.2.2.2.2.1
      8192 (by decide)).2.2⟩

end hstore
end Comanche

namespace Comanche
namespace hstore

/-! ## Registering a pool -/

/-- What `open_pool` does when the address of the session is new to the
registry. -/
theorem open_pool_new (st : hstore) (p : pool_t) (s : session_t) (h : st.deref p = none) :
    (st.open_pool p s).1 = p ∧ (st.open_pool p s).2.deref p = some s := by
  unfold deref at h
  unfold open_pool
  simp only [h]
  exact ⟨trivial, lookup_append_new _ _ _ h⟩

/-- C15, the claim as stated fails: when `pool_create_check` reports `E_FAIL`,
`create_pool` returns the id `2^64 - 1`, which is not a key of the registry,
and `locate_open_pool` on it raises `API_exception`. -/
theorem C15_counterexample :
    (create_pool ⟨[], []⟩ E_FAIL 4096 2).1 = 2 ^ 64 - 1 ∧
    (create_pool ⟨[], []⟩ E_FAIL 4096 2).2.deref (2 ^ 64 - 1) = none ∧
    ((create_pool ⟨[], []⟩ E_FAIL 4096 2).2.locate_open_pool
      (create_pool ⟨[], []⟩ E_FAIL 4096 2).1).1 = .thrown .API_exception := by
  decide

/-- C15 (amended): with `p` the address of the new session, an address the
registry does not hold yet, the id that `open_pool` returns, and the id that
`create_pool` returns when `pool_create_check` reported `S_OK`, is `p`, at
return a key of the registry mapped to the new session, and
`locate_open_pool` on it returns that session; when `pool_create_check`
reports a status `c` other than `S_OK`, `create_pool` returns `c` converted
to `pool_t` and leaves the store as it was: that value is a key of the
registry after the call only if it was one before, and when it was not,
`locate_open_pool` on it returns no session; it raises `API_exception` when
the thread's cache of located pools does not hold the value either. -/
theorem C15_returned_id_registered_amended (st : hstore) (c : status_t) (p : pool_t)
    (seg_log : Nat) (s : session_t) (h : st.deref p = none) :
    ((st.create_pool S_OK p seg_log).1 = p ∧
      (st.create_pool S_OK p seg_log).2.deref (st.create_pool S_OK p seg_log).1 =
        some (pool_create seg_log) ∧
      ((st.create_pool S_OK p seg_log).2.locate_open_pool (st.create_pool S_OK p seg_log).1).1 =
        .returned (pool_create seg_log)) ∧
    ((st.open_pool p s).1 = p ∧
      (st.open_pool p s).2.deref (st.open_pool p s).1 = some s ∧
      ((st.open_pool p s).2.locate_open_pool (st.open_pool p s).1).1 = .returned s) ∧
    (c ≠ S_OK →
      st.create_pool c p seg_log = ((c % 2 ^ 64).toNat, st) ∧
      (st.create_pool c p seg_log).2.deref (st.create_pool c p seg_log).1 =
        st.deref (c % 2 ^ 64).toNat ∧
      (st.deref (c % 2 ^ 64).toNat = none →
        (∀ s', ((st.create_pool c p seg_log).2.locate_open_pool
          (st.create_pool c p seg_log).1).1 ≠ .returned s') ∧
        ((c % 2 ^ 64).toNat ∉ st.tls_cache →
          ((st.create_pool c p seg_log).2.locate_open_pool
            (st.create_pool c p seg_log).1).1 = .thrown .API_exception))) := by
  obtain ⟨h1, h2⟩ := create_pool_new st p seg_log h
  obtain ⟨h3, h4⟩ := open_pool_new st p s h
  refine ⟨⟨h1, ?_, ?_⟩, ⟨h3, ?_, ?_⟩, ?_⟩
  · rw [h1]; exact h2
  · rw [h1]
    have := locate_session_open h2
    unfold locate_session at this
    rw [this]
  · rw [h3]; exact h4
  · rw [h3]
    have := locate_session_open h4
    unfold locate_session at this
    rw [this]
  · intro hc
    have hcp : st.create_pool c p seg_log = ((c % 2 ^ 64).toNat, st) := by
      unfold create_pool
      rw [if_pos hc]
    rw [hcp]
    refine ⟨rfl, rfl, ?_⟩
    intro hnone
    constructor
    · intro s' hs'
      simp only at hs'
      unfold locate_open_pool at hs'
      have hl : st._pools.lookup (c % 2 ^ 64).toNat = none := hnone
      rw [hnone, hl] at hs'
      split at hs' <;> cases hs'
    · intro hcache
      simp only
      rw [locate_open_pool_unknown hcache hnone]

theorem C15_witness :
    st_k.deref 8192 = none ∧
    ((st_k.create_pool S_OK 8192 2).1 = 8192 ∧
      (st_k.create_pool S_OK 8192 2).2.deref (st_k.create_pool S_OK 8192 2).1 =
        some (pool_create 2) ∧
      ((st_k.create_pool S_OK 8192 2).2.locate_open_pool (st_k.create_pool S_OK 8192 2).1).1 =
        .returned (pool_create 2)) ∧
    ((st_k.open_pool 8192 s_g).1 = 8192 ∧
      (st_k.open_pool 8192 s_g).2.deref (st_k.open_pool 8192 s_g).1 = some s_g ∧
      ((st_k.open_pool 8192 s_g).2.locate_open_pool (st_k.open_pool 8192 s_g).1).1 =
        .returned s_g) ∧
    st_k.create_pool E_TOO_LARGE 8192 2 = (2 ^ 64 - 7, st_k) ∧
    st_k.deref (2 ^ 64 - 7) = none ∧
    ((st_k.create_pool E_TOO_LARGE 8192 2).2.locate_open_pool
      (st_k.create_pool E_TOO_LARGE 8192 2).1).1 = .thrown .API_exception :=
  ⟨by decide,
    (C15_returned_id_registered_amended st_k E_TOO_LARGE 8192 2 s_g (by decide)).1,
    (C15_returned_id_registered_amended st_k E_TOO_LARGE 8192 2 s_g (by decide)).2.1,
    ((C15_returned_id_registered_amended st_k E_TOO_LARGE 8192 2 s_g (by decide)).2.2
      (by decide)).1,
    by decide,
    (((C15_returned_id_registered_amended st_k E_TOO_LARGE 8192 2 s_g (by decide)).2.2
      (by decide)).2.2 (by decide)).2 (by decide)⟩

end hstore
end Comanche

namespace Comanche
namespace Fabric

/-! ## The demultiplexer: state projections -/

namespace State

@[simp] theorem comm_set_comm (st : State) (g : group_t) (c : Fabric_comm_grouped) (g' : group_t) :
    (st.set_comm g c).comm g' = if g' = g then c else st.comm g' := by
  unfold set_comm
  by_cases h : g' = g
  · subst h; simp
  · simp [h]

@[simp] theorem records_set_comm (st : State) (g : group_t) (c : Fabric_comm_grouped) :
    (st.set_comm g c).records = st.records := rfl

@[simp] theorem called_set_comm (st : State) (g : group_t) (c : Fabric_comm_grouped) :
    (st.set_comm g c).called = st.called := rfl

@[simp] theorem cq_set_comm (st : State) (g : group_t) (c : Fabric_comm_grouped) :
    (st.set_comm g c).cq = st.cq := rfl

@[simp] theorem clients_set_comm (st : State) (g : group_t) (c : Fabric_comm_grouped) :
    (st.set_comm g c).clients = st.clients := rfl

@[simp] theorem posted_set_comm (st : State) (g : group_t) (c : Fabric_comm_grouped) :
    (st.set_comm g c).posted = st.posted := rfl

@[simp] theorem records_free (st : State) (a a' : addr_t) :
    (st.free a).records a' = if a' = a then none else st.records a' := by
  unfold free
  by_cases h : a' = a
  · subst h; simp
  · simp [h]

@[simp] theorem comm_free (st : State) (a : addr_t) : (st.free a).comm = st.comm := rfl

@[simp] theorem called_free (st : State) (a : addr_t) : (st.free a).called = st.called := rfl

@[simp] theorem cq_free (st : State) (a : addr_t) : (st.free a).cq = st.cq := rfl

@[simp] theorem clients_free (st : State) (a : addr_t) : (st.free a).clients = st.clients := rfl

@[simp] theorem posted_free (st : State) (a : addr_t) : (st.free a).posted = st.posted := rfl

@[simp] theorem called_invoke (st : State) (c : cb_call) :
    (st.invoke c).called = st.called ++ [c] := rfl

@[simp] theorem comm_invoke (st : State) (c : cb_call) : (st.invoke c).comm = st.comm := rfl

@[simp] theorem records_invoke (st : State) (c : cb_call) : (st.invoke c).records = st.records := rfl

@[simp] theorem cq_invoke (st : State) (c : cb_call) : (st.invoke c).cq = st.cq := rfl

@[simp] theorem clients_invoke (st : State) (c : cb_call) : (st.invoke c).clients = st.clients := rfl

@[simp] theorem posted_invoke (st : State) (c : cb_call) : (st.invoke c).posted = st.posted := rfl

@[simp] theorem records_new_record (st : State) (a : addr_t) (r : async_req_record) (a' : addr_t) :
    (st.new_record a r).records a' = if a' = a then some r else st.records a' := by
  unfold new_record
  by_cases h : a' = a
  · subst h; simp
  · simp [h]

end State

end Fabric
end Comanche

namespace Comanche
namespace Fabric

/-- C16 (refuted on the code): the overload of `post_recv` that takes
`first_, last_, desc_` makes its one call to the connection's `post_send`,
not to `post_recv`; it is, call for call, the overload of `post_send`.  The
other seven posting operations do call the operation of their own kind, with
the buffers, descriptors, remote address and key they were given and with
the new record `(this group, context_)` at `gc` as the operation context. -/
theorem C16_post_recv_calls_post_send (this : group_t) (buffers : List iovec) (desc_ : List Nat)
    (remote_addr_ key_ context_ : Nat) (gc : addr_t) (st : State) :
    (post_recv this buffers desc_ context_ gc st).posted =
        st.posted ++ [⟨.post_send, buffers, some desc_, none, none, gc⟩] ∧
    (post_recv this buffers desc_ context_ gc st).posted ≠
        st.posted ++ [⟨.post_recv, buffers, some desc_, none, none, gc⟩] ∧
    (post_recv this buffers desc_ context_ gc st).posted =
        (post_send this buffers desc_ context_ gc st).posted ∧
    (post_recv this buffers desc_ context_ gc st).records gc = some ⟨this, context_⟩ ∧
    (post_send this buffers desc_ context_ gc st).posted =
        st.posted ++ [⟨.post_send, buffers, some desc_, none, none, gc⟩] ∧
    (post_send_vector this buffers context_ gc st).posted =
        st.posted ++ [⟨.post_send, buffers, none, none, none, gc⟩] ∧
    (post_recv_vector this buffers context_ gc st).posted =
        st.posted ++ [⟨.post_recv, buffers, none, none, none, gc⟩] ∧
    (post_read this buffers desc_ remote_addr_ key_ context_ gc st).posted =
        st.posted ++ [⟨.post_read, buffers, some desc_, some remote_addr_, some key_, gc⟩] ∧
    (post_read_vector this buffers remote_addr_ key_ context_ gc st).posted =
        st.posted ++ [⟨.post_read, buffers, none, some remote_addr_, some key_, gc⟩] ∧
    (post_write this buffers desc_ remote_addr_ key_ context_ gc st).posted =
        st.posted ++ [⟨.post_write, buffers, some desc_, some remote_addr_, some key_, gc⟩] ∧
    (post_write_vector this buffers remote_addr_ key_ context_ gc st).posted =
        st.posted ++ [⟨.post_write, buffers, none, some remote_addr_, some key_, gc⟩] ∧
    (post_send this buffers desc_ context_ gc st).records gc = some ⟨this, context_⟩ ∧
    (post_recv_vector this buffers context_ gc st).records gc = some ⟨this, context_⟩ := by
  refine ⟨rfl, ?_, rfl, ?_, rfl, rfl, rfl, rfl, rfl, rfl, rfl, ?_, ?_⟩
  · intro h
    have h' : (post_recv this buffers desc_ context_ gc st).posted =
        st.posted ++ [⟨.post_send, buffers, some desc_, none, none, gc⟩] := rfl
    rw [h'] at h
    have := List.append_cancel_left h
    simp at this
  · show ((st.new_record gc ⟨this, context_⟩).records gc) = _
    simp
  · show ((st.new_record gc ⟨this, context_⟩).records gc) = _
    simp
  · show ((st.new_record gc ⟨this, context_⟩).records gc) = _
    simp

end Fabric
end Comanche

namespace Comanche
namespace Fabric

/-! ## Routing one completion -/

theorem process_self {this : group_t} {cq_entry_ : fi_cq_entry_t} {st : State}
    {g_context : async_req_record} (cb_ : definite_completer) (status_ : status_t)
    (hr : st.records cq_entry_.op_context = some g_context) (hc : g_context.comm = this) :
    process_or_queue_completion this cb_ cq_entry_ status_ st =
      (.returned 1,
        (st.invoke (cb_.call this g_context.context status_ cq_entry_)).free
          cq_entry_.op_context) := by
  unfold process_or_queue_completion
  simp only [hr, hc, if_true]

theorem process_other {this : group_t} {cq_entry_ : fi_cq_entry_t} {st : State}
    {g_context : async_req_record} (cb_ : definite_completer) (status_ : status_t)
    (hr : st.records cq_entry_.op_context = some g_context) (hc : g_context.comm ≠ this)
    (hk : g_context.comm ∈ st.clients) :
    process_or_queue_completion this cb_ cq_entry_ status_ st =
      (.returned 0,
        (st.set_comm g_context.comm
          ((st.comm g_context.comm).queue_completion status_ cq_entry_)).incr_redirect_total
            this) := by
  unfold process_or_queue_completion conn_queue_completion
  simp only [hr, hc, if_false, hk, if_true]

theorem process_tentative_accept {this : group_t} {cq_entry_ : fi_cq_entry_t} {st : State}
    {g_context : async_req_record} (cb_ : tentative_completer) (status_ : status_t)
    (hr : st.records cq_entry_.op_context = some g_context) (hc : g_context.comm = this)
    (ha : cb_.answer st.called (cb_.call this g_context.context status_ cq_entry_) = .ACCEPT) :
    process_or_queue_completion_tentative this cb_ cq_entry_ status_ st =
      (.returned 1,
        (st.invoke (cb_.call this g_context.context status_ cq_entry_)).free
          cq_entry_.op_context) := by
  unfold process_or_queue_completion_tentative
  simp only [hr, hc, if_true, ha]

theorem process_tentative_reject {this : group_t} {cq_entry_ : fi_cq_entry_t} {st : State}
    {g_context : async_req_record} (cb_ : tentative_completer) (status_ : status_t)
    (hr : st.records cq_entry_.op_context = some g_context) (hc : g_context.comm = this)
    (hk : this ∈ st.clients)
    (ha : cb_.answer st.called (cb_.call this g_context.context status_ cq_entry_) ≠ .ACCEPT) :
    process_or_queue_completion_tentative this cb_ cq_entry_ status_ st =
      (.returned 0,
        ((st.invoke (cb_.call this g_context.context status_ cq_entry_)).set_comm this
          ((st.comm this).queue_completion status_ cq_entry_)).incr_defer_total this) := by
  unfold process_or_queue_completion_tentative conn_queue_completion
  subst hc
  simp only [hr, if_true, ha, if_false, State.clients_invoke, hk, State.comm_invoke]

theorem process_tentative_other {this : group_t} {cq_entry_ : fi_cq_entry_t} {st : State}
    {g_context : async_req_record} (cb_ : tentative_completer) (status_ : status_t)
    (hr : st.records cq_entry_.op_context = some g_context) (hc : g_context.comm ≠ this)
    (hk : g_context.comm ∈ st.clients) :
    process_or_queue_completion_tentative this cb_ cq_entry_ status_ st =
      (.returned 0,
        (st.set_comm g_context.comm
          ((st.comm g_context.comm).queue_completion status_ cq_entry_)).incr_redirect_total
            this) := by
  unfold process_or_queue_completion_tentative conn_queue_completion
  simp only [hr, hc, if_false, hk, if_true]

/-- The state after a redirection from `this` to `other`. -/
theorem redirected_state (st : State) (this other : group_t) (status_ : status_t)
    (cq_entry_ : fi_cq_entry_t) (hne : other ≠ this) :
    ((st.set_comm other ((st.comm other).queue_completion status_ cq_entry_)).incr_redirect_total
        this).called = st.called ∧
    (((st.set_comm other ((st.comm other).queue_completion status_ cq_entry_)).incr_redirect_total
        this).comm other)._completions = (st.comm other)._completions ++ [(cq_entry_, status_)] ∧
    (((st.set_comm other ((st.comm other).queue_completion status_ cq_entry_)).incr_redirect_total
        this).comm other)._stats = (st.comm other)._stats ∧
    (((st.set_comm other ((st.comm other).queue_completion status_ cq_entry_)).incr_redirect_total
        this).comm this)._completions = (st.comm this)._completions ∧
    (((st.set_comm other ((st.comm other).queue_completion status_ cq_entry_)).incr_redirect_total
        this).comm this)._stats =
      { (st.comm this)._stats with redirect_total := (st.comm this)._stats.redirect_total + 1 } ∧
    ((st.set_comm other ((st.comm other).queue_completion status_ cq_entry_)).incr_redirect_total
        this).records = st.records ∧
    ((st.set_comm other ((st.comm other).queue_completion status_ cq_entry_)).incr_redirect_total
        this).cq = st.cq ∧
    ((st.set_comm other ((st.comm other).queue_completion status_ cq_entry_)).incr_redirect_total
        this).clients = st.clients ∧
    (∀ g, g ≠ this → g ≠ other →
      ((st.set_comm other ((st.comm other).queue_completion status_ cq_entry_)).incr_redirect_total
        this).comm g = st.comm g) := by
  have hne' : this ≠ other := fun h => hne h.symm
  refine ⟨rfl, ?_, ?_, ?_, ?_, rfl, rfl, rfl, ?_⟩
  · simp [State.incr_redirect_total, hne, hne', Fabric_comm_grouped.queue_completion]
  · simp [State.incr_redirect_total, hne, hne', Fabric_comm_grouped.queue_completion]
  · simp [State.incr_redirect_total, hne, hne', Fabric_comm_grouped.queue_completion]
  · simp [State.incr_redirect_total, hne, hne', Fabric_comm_grouped.queue_completion]
  · intro g h1 h2
    simp [State.incr_redirect_total, h1, h2]

end Fabric
end Comanche

namespace Comanche
namespace Fabric

/-- C18: in all five acceptance flavors, when the routing step of a poll on
group `this` is given a completion whose async record names another group
that the connection knows, no callback is invoked, the completion with its
status is appended to the tail of the deferred queue of the other group,
`redirect_total` of `this` grows by 1 and its `defer_total` and `ct_total`
are unchanged, no record is freed, and the step adds 0 to the return value
of the poll. -/
theorem C18_redirection (this : group_t) (st : State) (cq_entry_ : fi_cq_entry_t)
    (status_ : status_t) (g_context : async_req_record) (r : Result Nat × State)
    (hr : st.records cq_entry_.op_context = some g_context) (hne : g_context.comm ≠ this)
    (hk : g_context.comm ∈ st.clients)
    (hflavor :
      (∃ cb_ : definite_completer,
        r = process_or_queue_completion this cb_ cq_entry_ status_ st) ∨
      (∃ cb_ : tentative_completer,
        r = process_or_queue_completion_tentative this cb_ cq_entry_ status_ st)) :
    r.1 = .returned 0 ∧
    r.2.called = st.called ∧
    (r.2.comm g_context.comm)._completions =
      (st.comm g_context.comm)._completions ++ [(cq_entry_, status_)] ∧
    (r.2.comm g_context.comm)._stats = (st.comm g_context.comm)._stats ∧
    (r.2.comm this)._completions = (st.comm this)._completions ∧
    (r.2.comm this)._stats.redirect_total = (st.comm this)._stats.redirect_total + 1 ∧
    (r.2.comm this)._stats.defer_total = (st.comm this)._stats.defer_total ∧
    (r.2.comm this)._stats.ct_total = (st.comm this)._stats.ct_total ∧
    r.2.records = st.records ∧
    (∀ g, g ≠ this → g ≠ g_context.comm → r.2.comm g = st.comm g) := by
  have hst : r = (.returned 0,
      (st.set_comm g_context.comm
        ((st.comm g_context.comm).queue_completion status_ cq_entry_)).incr_redirect_total
          this) := by
    rcases hflavor with ⟨cb_, h⟩ | ⟨cb_, h⟩
    · rw [h, process_other cb_ status_ hr hne hk]
    · rw [h, process_tentative_other cb_ status_ hr hne hk]
  obtain ⟨h1, h2, h3, h4, h5, h6, _, _, h9⟩ :=
    redirected_state st this g_context.comm status_ cq_entry_ hne
  subst hst
  refine ⟨rfl, h1, h2, h3, h4, ?_, ?_, ?_, h6, h9⟩
  · show (((st.set_comm _ _).incr_redirect_total this).comm this)._stats.redirect_total = _
    rw [h5]
  · show (((st.set_comm _ _).incr_redirect_total this).comm this)._stats.defer_total = _
    rw [h5]
  · show (((st.set_comm _ _).incr_redirect_total this).comm this)._stats.ct_total = _
    rw [h5]

theorem C18_witness :
    fab_w.records (entry_w 200).op_context = some ⟨2, 20⟩ ∧ (2 : group_t) ≠ 1 ∧
    (2 : group_t) ∈ fab_w.clients ∧
    (process_or_queue_completion_tentative 1 cb_accept (entry_w 200) S_OK fab_w).1 = .returned 0 ∧
    (process_or_queue_completion_tentative 1 cb_accept (entry_w 200) S_OK fab_w).2.called =
      fab_w.called ∧
    ((process_or_queue_completion_tentative 1 cb_accept (entry_w 200) S_OK fab_w).2.comm
      2)._completions = (fab_w.comm 2)._completions ++ [(entry_w 200, S_OK)] ∧
    ((process_or_queue_completion_tentative 1 cb_accept (entry_w 200) S_OK fab_w).2.comm
      1)._stats.redirect_total = (fab_w.comm 1)._stats.redirect_total + 1 ∧
    (process_or_queue_completion_tentative 1 cb_accept (entry_w 200) S_OK fab_w).2.records =
      fab_w.records :=
  ⟨by decide, by decide, by decide,
    (C18_redirection 1 fab_w (entry_w 200) S_OK ⟨2, 20⟩ _ (by decide) (by decide) (by decide)
      (Or.inr ⟨cb_accept, rfl⟩)).1,
    (C18_redirection 1 fab_w (entry_w 200) S_OK ⟨2, 20⟩ _ (by decide) (by decide) (by decide)
      (Or.inr ⟨cb_accept, rfl⟩)).2.1,
    (C18_redirection 1 fab_w (entry_w 200) S_OK ⟨2, 20⟩ _ (by decide) (by decide) (by decide)
      (Or.inr ⟨cb_accept, rfl⟩)).2.2.1,
    (C18_redirection 1 fab_w (entry_w 200) S_OK ⟨2, 20⟩ _ (by decide) (by decide) (by decide)
      (Or.inr ⟨cb_accept, rfl⟩)).2.2.2.2.2.1,
    (C18_redirection 1 fab_w (entry_w 200) S_OK ⟨2, 20⟩ _ (by decide) (by decide) (by decide)
      (Or.inr ⟨cb_accept, rfl⟩)).2.2.2.2.2.2.2.2.1⟩

end Fabric
end Comanche

namespace Comanche
namespace Fabric

/-- C19: when the routing step of a `tentative` or `param_tentative` poll on
group `this` (a group the connection knows) is given a completion tagged
`this`, the callback is invoked once, with the context of the record, the
status, and the flags and length of the entry (and `cb_param_` in the
`param` flavor); if it answers `ACCEPT` the step adds 1 to the return value,
the group's queue and counters are as before and the record is freed; if
it answers anything else the completion with the same status is appended to
the group's own deferred queue, `defer_total` grows by 1, `redirect_total`
is unchanged, no record is freed and the step adds 0 to the return value. -/
theorem C19_tentative_acceptance (this : group_t) (cb_ : tentative_completer) (st : State)
    (cq_entry_ : fi_cq_entry_t) (status_ : status_t) (g_context : async_req_record)
    (hr : st.records cq_entry_.op_context = some g_context) (hc : g_context.comm = this)
    (hk : this ∈ st.clients) :
    (process_or_queue_completion_tentative this cb_ cq_entry_ status_ st).2.called =
      st.called ++ [cb_.call this g_context.context status_ cq_entry_] ∧
    (cb_.call this g_context.context status_ cq_entry_).context = g_context.context ∧
    (cb_.call this g_context.context status_ cq_entry_).status = status_ ∧
    (cb_.call this g_context.context status_ cq_entry_).flags = some cq_entry_.flags ∧
    (cb_.call this g_context.context status_ cq_entry_).len = some cq_entry_.len ∧
    (cb_.answer st.called (cb_.call this g_context.context status_ cq_entry_) = .ACCEPT →
      (process_or_queue_completion_tentative this cb_ cq_entry_ status_ st).1 = .returned 1 ∧
      (process_or_queue_completion_tentative this cb_ cq_entry_ status_ st).2.comm = st.comm ∧
      (process_or_queue_completion_tentative this cb_ cq_entry_ status_ st).2.records
        cq_entry_.op_context = none) ∧
    (cb_.answer st.called (cb_.call this g_context.context status_ cq_entry_) ≠ .ACCEPT →
      (process_or_queue_completion_tentative this cb_ cq_entry_ status_ st).1 = .returned 0 ∧
      ((process_or_queue_completion_tentative this cb_ cq_entry_ status_ st).2.comm
        this)._completions = (st.comm this)._completions ++ [(cq_entry_, status_)] ∧
      ((process_or_queue_completion_tentative this cb_ cq_entry_ status_ st).2.comm
        this)._stats.defer_total = (st.comm this)._stats.defer_total + 1 ∧
      ((process_or_queue_completion_tentative this cb_ cq_entry_ status_ st).2.comm
        this)._stats.redirect_total = (st.comm this)._stats.redirect_total ∧
      ((process_or_queue_completion_tentative this cb_ cq_entry_ status_ st).2.comm
        this)._stats.ct_total = (st.comm this)._stats.ct_total ∧
      (process_or_queue_completion_tentative this cb_ cq_entry_ status_ st).2.records =
        st.records) := by
  have hcall : (cb_.call this g_context.context status_ cq_entry_).context = g_context.context ∧
      (cb_.call this g_context.context status_ cq_entry_).status = status_ ∧
      (cb_.call this g_context.context status_ cq_entry_).flags = some cq_entry_.flags ∧
      (cb_.call this g_context.context status_ cq_entry_).len = some cq_entry_.len := by
    cases cb_ <;> exact ⟨rfl, rfl, rfl, rfl⟩
  refine ⟨?_, hcall.1, hcall.2.1, hcall.2.2.1, hcall.2.2.2, ?_, ?_⟩
  · by_cases ha : cb_.answer st.called (cb_.call this g_context.context status_ cq_entry_) = .ACCEPT
    · rw [process_tentative_accept cb_ status_ hr hc ha]; rfl
    · rw [process_tentative_reject cb_ status_ hr hc hk ha]; rfl
  · intro ha
    rw [process_tentative_accept cb_ status_ hr hc ha]
    refine ⟨rfl, rfl, ?_⟩
    simp
  · intro ha
    rw [process_tentative_reject cb_ status_ hr hc hk ha]
    refine ⟨rfl, ?_, ?_, ?_, ?_, rfl⟩ <;>
      simp [State.incr_defer_total, Fabric_comm_grouped.queue_completion]

theorem C19_witness :
    fab_w.records (entry_w 100).op_context = some ⟨1, 10⟩ ∧ (1 : group_t) ∈ fab_w.clients ∧
    (process_or_queue_completion_tentative 1 cb_reject (entry_w 100) S_OK fab_w).2.called =
      [⟨1, 10, S_OK, some 1, some 8, none⟩] ∧
    (process_or_queue_completion_tentative 1 cb_reject (entry_w 100) S_OK fab_w).1 = .returned 0 ∧
    ((process_or_queue_completion_tentative 1 cb_reject (entry_w 100) S_OK fab_w).2.comm
      1)._completions = [(entry_w 100, S_OK)] ∧
    ((process_or_queue_completion_tentative 1 cb_reject (entry_w 100) S_OK fab_w).2.comm
      1)._stats.defer_total = 1 ∧
    (process_or_queue_completion_tentative 1 cb_accept (entry_w 100) S_OK fab_w).1 = .returned 1 ∧
    (process_or_queue_completion_tentative 1 cb_accept (entry_w 100) S_OK fab_w).2.comm =
      fab_w.comm :=
  ⟨by decide, by decide,
    (C19_tentative_acceptance 1 cb_reject fab_w (entry_w 100) S_OK ⟨1, 10⟩ (by decide) rfl
      (by decide)).1,
    ((C19_tentative_acceptance 1 cb_reject fab_w (entry_w 100) S_OK ⟨1, 10⟩ (by decide) rfl
      (by decide)).2.2.2.2.2.2 (by decide)).1,
    ((C19_tentative_acceptance 1 cb_reject fab_w (entry_w 100) S_OK ⟨1, 10⟩ (by decide) rfl
      (by decide)).2.2.2.2.2.2 (by decide)).2.1,
    ((C19_tentative_acceptance 1 cb_reject fab_w (entry_w 100) S_OK ⟨1, 10⟩ (by decide) rfl
      (by decide)).2.2.2.2.2.2 (by decide)).2.2.1,
    ((C19_tentative_acceptance 1 cb_accept fab_w (entry_w 100) S_OK ⟨1, 10⟩ (by decide) rfl
      (by decide)).2.2.2.2.2.1 (by decide)).1,
    ((C19_tentative_acceptance 1 cb_accept fab_w (entry_w 100) S_OK ⟨1, 10⟩ (by decide) rfl
      (by decide)).2.2.2.2.2.1 (by decide)).2.1⟩

end Fabric
end Comanche

namespace Comanche
namespace Fabric

/-! ## Two groups on one completion queue -/

theorem tagged_congr {st st1 : State} {es : List fi_cq_entry_t} (g : group_t)
    (h : ∀ e ∈ es, st1.records e.op_context = st.records e.op_context) :
    st1.tagged g es = st.tagged g es := by
  unfold State.tagged
  apply List.filter_congr
  intro e he
  unfold State.tag
  rw [h e he]

theorem mem_tagged {st : State} {g : group_t} {es : List fi_cq_entry_t} {e : fi_cq_entry_t}
    (h : e ∈ st.tagged g es) : e ∈ es ∧ st.tag e = some g := by
  unfold State.tagged at h
  simpa using h

theorem map_call_congr {st st1 : State} {es : List fi_cq_entry_t} (g : group_t)
    (f : Nat → fi_cq_entry_t → cb_call)
    (h : ∀ e ∈ es, st1.records e.op_context = st.records e.op_context) :
    (st.tagged g es).map (fun e => f (st1.user_context e) e) =
      (st.tagged g es).map (fun e => f (st.user_context e) e) := by
  apply List.map_congr_left
  intro e he
  unfold State.user_context
  rw [h e (mem_tagged he).1]

theorem tagged_cons_pos {st : State} {g : group_t} {e : fi_cq_entry_t} (es : List fi_cq_entry_t)
    (h : st.tag e = some g) : st.tagged g (e :: es) = e :: st.tagged g es := by
  unfold State.tagged
  simp [List.filter_cons, h]

theorem tagged_cons_neg {st : State} {g : group_t} {e : fi_cq_entry_t} (es : List fi_cq_entry_t)
    (h : st.tag e ≠ some g) : st.tagged g (e :: es) = st.tagged g es := by
  unfold State.tagged
  simp [List.filter_cons, h]

theorem tag_some {st : State} {e : fi_cq_entry_t} {g : group_t} (h : st.tag e = some g) :
    ∃ r, st.records e.op_context = some r ∧ r.comm = g ∧ st.user_context e = r.context := by
  unfold State.tag at h
  unfold State.user_context
  cases hr : st.records e.op_context with
  | none => rw [hr] at h; cases h
  | some r =>
    rw [hr] at h
    exact ⟨r, rfl, by simpa using h, rfl⟩

end Fabric
end Comanche

namespace Comanche
namespace Fabric

/-- The loop over the shared completion queue, polled by group `A`, when
every completion is tagged `A` or `B`: the completions of `A` go to the
callback, those of `B` to the tail of the deferred queue of `B`. -/
theorem cq_loop_two_groups {A B : group_t} (hAB : A ≠ B) (cb_ : definite_completer) :
    ∀ (es : List fi_cq_entry_t) (st : State),
      (∀ e ∈ es, st.tag e = some A ∨ st.tag e = some B) →
      (es.map (fun e => e.op_context)).Nodup → B ∈ st.clients →
      st.cq = es.map cq_event.completion →
      ∃ st', cq_loop (process_or_queue_completion A cb_) (process_cq_comp_err A cb_)
            (es.map cq_event.completion) st = (.returned (st.tagged A es).length, st') ∧
        st'.called = st.called ++
          (st.tagged A es).map (fun e => cb_.call A (st.user_context e) S_OK e) ∧
        (st'.comm B)._completions =
          (st.comm B)._completions ++ (st.tagged B es).map (fun e => (e, S_OK)) ∧
        (st'.comm B)._stats = (st.comm B)._stats ∧
        (st'.comm A)._completions = (st.comm A)._completions ∧
        (st'.comm A)._stats =
          { (st.comm A)._stats with
            redirect_total := (st.comm A)._stats.redirect_total + (st.tagged B es).length } ∧
        st'.clients = st.clients ∧ st'.cq = [] ∧
        (∀ a, st'.records a =
          if a ∈ (st.tagged A es).map (fun e => e.op_context) then none else st.records a) := by
  intro es
  induction es with
  | nil =>
    intro st _ _ _ hcq
    exact ⟨st, rfl, by simp [State.tagged], by simp [State.tagged], rfl, rfl, rfl, rfl,
      by simpa using hcq, by simp [State.tagged]⟩
  | cons e rest ih =>
    intro st htag hnd hB hcq
    have hnd' : (rest.map (fun e => e.op_context)).Nodup := (List.nodup_cons.1 hnd).2
    have hfresh : ∀ e' ∈ rest, e'.op_context ≠ e.op_context := by
      intro e' he' heq
      exact (List.nodup_cons.1 hnd).1 (List.mem_map.2 ⟨e', he', heq⟩)
    have hne : some A ≠ some B := fun h => hAB (Option.some.inj h)
    rcases htag e (List.mem_cons_self _ _) with hA | hBt
    · -- the completion is tagged with the polling group
      obtain ⟨r, hr, hrc, huc⟩ := tag_some hA
      have hrec : ∀ e' ∈ rest,
          (({ st with cq := rest.map cq_event.completion }.invoke
            (cb_.call A r.context S_OK e)).free e.op_context).records e'.op_context =
            st.records e'.op_context := by
        intro e' he'
        simp [hfresh e' he']
      obtain ⟨st', h1, h2, h3, h4, h5, h6, h7, h8, h9⟩ :=
        ih (({ st with cq := rest.map cq_event.completion }.invoke
            (cb_.call A r.context S_OK e)).free e.op_context)
          (by
            intro e' he'
            have := htag e' (List.mem_cons_of_mem _ he')
            unfold State.tag at this ⊢
            rw [hrec e' he']
            exact this)
          hnd' hB rfl
      rw [tagged_congr A hrec] at h1 h2 h9
      rw [tagged_congr B hrec] at h3 h6
      rw [map_call_congr A (fun c e => cb_.call A c S_OK e) hrec] at h2
      have hnB : st.tag e ≠ some B := by rw [hA]; exact hne
      refine ⟨st', ?_, ?_, ?_, h4, h5, ?_, h7, h8, ?_⟩
      · simp only [List.map_cons, cq_loop]
        rw [@process_self A e { st with cq := rest.map cq_event.completion } r cb_ S_OK hr hrc]
        simp only [h1, tagged_cons_pos rest hA, List.length_cons]
        rw [Nat.add_comm]
      · rw [h2, tagged_cons_pos rest hA, List.map_cons, huc]
        simp
      · rw [h3, tagged_cons_neg rest hnB]
        rfl
      · rw [h6, tagged_cons_neg rest hnB]
        rfl
      · intro a
        rw [h9 a]
        simp only [tagged_cons_pos rest hA, List.map_cons, List.mem_cons, State.records_free,
          State.records_invoke]
        by_cases ha : a = e.op_context
        · simp [ha]
        · simp [ha]
    · -- the completion is tagged with the other group
      obtain ⟨r, hr, hrc, _⟩ := tag_some hBt
      have hrA : r.comm ≠ A := by rw [hrc]; exact fun h => hAB h.symm
      have hk : r.comm ∈ ({ st with cq := rest.map cq_event.completion } : State).clients := by
        rw [hrc]; exact hB
      have hstep := @process_other A e { st with cq := rest.map cq_event.completion } r cb_ S_OK
        hr hrA hk
      rw [hrc] at hstep
      obtain ⟨r1, r2, r3, r4, r5, r6, r7, r8, _⟩ :=
        redirected_state { st with cq := rest.map cq_event.completion } A B S_OK e
          (fun h => hAB h.symm)
      generalize (({ st with cq := rest.map cq_event.completion } : State).set_comm B
        ((({ st with cq := rest.map cq_event.completion } : State).comm
          B).queue_completion S_OK e)).incr_redirect_total A = st1 at hstep r1 r2 r3 r4 r5 r6 r7 r8
      have hcq1 : st1.cq = rest.map cq_event.completion := r7
      have hrec1 : ∀ a, st1.records a = st.records a := fun a => congrFun r6 a
      have hrec : ∀ e' ∈ rest, st1.records e'.op_context = st.records e'.op_context := by
        intro e' _
        exact hrec1 _
      obtain ⟨st', h1, h2, h3, h4, h5, h6, h7, h8, h9⟩ :=
        ih st1
          (by
            intro e' he'
            have := htag e' (List.mem_cons_of_mem _ he')
            unfold State.tag at this ⊢
            rw [hrec e' he']
            exact this)
          hnd' (by rw [r8]; exact hB) hcq1
      rw [tagged_congr A hrec] at h1 h2 h9
      rw [tagged_congr B hrec] at h3 h6
      rw [map_call_congr A (fun c e => cb_.call A c S_OK e) hrec] at h2
      have hnA : st.tag e ≠ some A := by rw [hBt]; exact fun h => hne h.symm
      refine ⟨st', ?_, ?_, ?_, ?_, ?_, ?_, ?_, h8, ?_⟩
      · simp only [List.map_cons, cq_loop]
        rw [hstep]
        simp only [h1, tagged_cons_neg rest hnA, Nat.zero_add]
      · rw [h2, r1, tagged_cons_neg rest hnA]
      · rw [h3, r2, tagged_cons_pos rest hBt, List.map_cons]
        simp
      · rw [h4, r3]
      · rw [h5, r4]
      · rw [h6, r5, tagged_cons_pos rest hBt, List.length_cons]
        simp only [Nat.add_assoc, Nat.add_comm 1]
      · rw [h7, r8]
      · intro a
        rw [h9 a, hrec1 a]
        simp only [tagged_cons_neg rest hnA]

end Fabric
end Comanche

namespace Comanche
namespace Fabric

/-- Function `drain_old_completions` in the definite flavors hands every
queued completion to the callback, in order, and leaves the queue empty. -/
theorem drain_loop_all (this : group_t) (cb_ : definite_completer) :
    ∀ (q : List completion_t) (st : State),
      (∀ c ∈ q, ∃ r, st.records c.1.op_context = some r) →
      (q.map (fun c => c.1.op_context)).Nodup → (st.comm this)._completions = q →
      ∃ st', drain_loop this cb_ q st = (.returned q.length, st') ∧
        st'.called = st.called ++ q.map (fun c => cb_.call this (st.user_context c.1) c.2 c.1) ∧
        (st'.comm this)._completions = [] ∧
        (st'.comm this)._stats = (st.comm this)._stats ∧
        st'.cq = st.cq ∧ st'.clients = st.clients ∧
        (∀ g, g ≠ this → st'.comm g = st.comm g) ∧
        (∀ a, st'.records a =
          if a ∈ q.map (fun c => c.1.op_context) then none else st.records a) := by
  intro q
  induction q with
  | nil =>
    intro st _ _ hq
    exact ⟨st, rfl, by simp, hq, rfl, rfl, rfl, fun _ _ => rfl, by simp⟩
  | cons c rest ih =>
    intro st hlive hnd _
    obtain ⟨r, hr⟩ := hlive c (List.mem_cons_self _ _)
    have hnd' : (rest.map (fun c => c.1.op_context)).Nodup := (List.nodup_cons.1 hnd).2
    have hfresh : ∀ c' ∈ rest, c'.1.op_context ≠ c.1.op_context := by
      intro c' hc' heq
      exact (List.nodup_cons.1 hnd).1 (List.mem_map.2 ⟨c', hc', heq⟩)
    have huc : st.user_context c.1 = r.context := by
      unfold State.user_context
      rw [hr]; rfl
    have hrec : ∀ c' ∈ rest,
        (((st.set_comm this { st.comm this with _completions := rest }).invoke
          (cb_.call this r.context c.2 c.1)).free c.1.op_context).records c'.1.op_context =
          st.records c'.1.op_context := by
      intro c' hc'
      simp [hfresh c' hc']
    obtain ⟨st', h1, h2, h3, h4, h5, h6, h7, h8⟩ :=
      ih (((st.set_comm this { st.comm this with _completions := rest }).invoke
          (cb_.call this r.context c.2 c.1)).free c.1.op_context)
        (by
          intro c' hc'
          rw [hrec c' hc']
          exact hlive c' (List.mem_cons_of_mem _ hc'))
        hnd' (by simp)
    have hmap : rest.map (fun c' => cb_.call this
        ((((st.set_comm this { st.comm this with _completions := rest }).invoke
          (cb_.call this r.context c.2 c.1)).free c.1.op_context).user_context c'.1) c'.2 c'.1) =
        rest.map (fun c' => cb_.call this (st.user_context c'.1) c'.2 c'.1) := by
      apply List.map_congr_left
      intro c' hc'
      unfold State.user_context
      rw [hrec c' hc']
    rw [hmap] at h2
    refine ⟨st', ?_, ?_, h3, ?_, ?_, ?_, ?_, ?_⟩
    · simp only [drain_loop, State.records_set_comm, hr, h1, List.length_cons]
    · rw [h2, List.map_cons, huc]
      simp
    · rw [h4]
      simp
    · rw [h5]; rfl
    · rw [h6]; rfl
    · intro g hg
      rw [h7 g hg]
      simp [hg]
    · intro a
      rw [h8 a]
      simp only [List.map_cons, List.mem_cons, State.records_free, State.records_invoke,
        State.records_set_comm]
      by_cases ha : a = c.1.op_context
      · simp [ha]
      · by_cases hm : a ∈ rest.map (fun c => c.1.op_context)
        · rw [if_pos hm, if_pos (Or.inr hm)]
        · rw [if_neg hm, if_neg ha, if_neg (fun h => h.elim ha hm)]

end Fabric
end Comanche

namespace Comanche
namespace Fabric

theorem tagged_partition {A B : group_t} (hAB : A ≠ B) (st : State) :
    ∀ es : List fi_cq_entry_t, (∀ e ∈ es, st.tag e = some A ∨ st.tag e = some B) →
      (st.tagged A es).length + (st.tagged B es).length = es.length := by
  intro es
  induction es with
  | nil => intro _; rfl
  | cons e rest ih =>
    intro h
    have ih' := ih (fun e' he' => h e' (List.mem_cons_of_mem _ he'))
    rcases h e (List.mem_cons_self _ _) with hA | hB
    · have hnB : st.tag e ≠ some B := by
        rw [hA]; exact fun h => hAB (Option.some.inj h)
      rw [tagged_cons_pos rest hA, tagged_cons_neg rest hnB, List.length_cons, List.length_cons]
      omega
    · have hnA : st.tag e ≠ some A := by
        rw [hB]; exact fun h => hAB (Option.some.inj h).symm
      rw [tagged_cons_pos rest hB, tagged_cons_neg rest hnA, List.length_cons, List.length_cons]
      omega

end Fabric
end Comanche

namespace Comanche
namespace Fabric

/-- C17: two groups `A ≠ B` over one connection, both with an empty deferred
queue, and a shared completion queue holding any finite list `es` of
completions, each with its own live record naming `A` or `B`.  A poll of `A`
with a definite-flavor callback returns the number of completions tagged `A`
and invokes the callback of `A` on exactly those, in order; afterwards
`stalled_completion_count(B)` is the number of completions tagged `B`.  The
following poll of `B` returns that number and invokes the callback of `B` on
exactly the completions tagged `B`, in order; afterwards the deferred queue
of `B` is empty.  So every completion is delivered once, to the callback of
the group it is tagged with. -/
theorem C17_exactly_once_routing (A B : group_t) (cbA cbB : definite_completer)
    (es : List fi_cq_entry_t) (st : State)
    (hAB : A ≠ B) (hB : B ∈ st.clients) (hcq : st.cq = es.map cq_event.completion)
    (htag : ∀ e ∈ es, st.tag e = some A ∨ st.tag e = some B)
    (hnd : (es.map (fun e => e.op_context)).Nodup)
    (hqA : (st.comm A)._completions = []) (hqB : (st.comm B)._completions = []) :
    (poll_completions A cbA st).1 = .returned (st.tagged A es).length ∧
    (poll_completions A cbA st).2.called =
      st.called ++ (st.tagged A es).map (fun e => cbA.call A (st.user_context e) S_OK e) ∧
    stalled_completion_count B (poll_completions A cbA st).2 = (st.tagged B es).length ∧
    (poll_completions B cbB (poll_completions A cbA st).2).1 =
      .returned (st.tagged B es).length ∧
    (poll_completions B cbB (poll_completions A cbA st).2).2.called =
      st.called ++ (st.tagged A es).map (fun e => cbA.call A (st.user_context e) S_OK e) ++
        (st.tagged B es).map (fun e => cbB.call B (st.user_context e) S_OK e) ∧
    stalled_completion_count B (poll_completions B cbB (poll_completions A cbA st).2).2 = 0 ∧
    stalled_completion_count A (poll_completions B cbB (poll_completions A cbA st).2).2 = 0 ∧
    (st.tagged A es).length + (st.tagged B es).length = es.length := by
  obtain ⟨st1, h1, h2, h3, h4, h5, h6, h7, h8, h9⟩ :=
    cq_loop_two_groups hAB cbA es st htag hnd hB hcq
  have hpA : poll_completions A cbA st =
      (.returned (st.tagged A es).length, st1.add_ct_total A (st.tagged A es).length) := by
    unfold poll_completions drain_old_completions
    rw [hqA]
    simp only [drain_loop]
    rw [hcq, h1]
    simp only [Nat.zero_add]
  have hBA : B ≠ A := fun h => hAB h.symm
  have hcommB : ((st1.add_ct_total A (st.tagged A es).length).comm B) = st1.comm B := by
    simp [State.add_ct_total, hBA]
  have hqB1 : ((st1.add_ct_total A (st.tagged A es).length).comm B)._completions =
      (st.tagged B es).map (fun e => (e, S_OK)) := by
    rw [hcommB, h3, hqB]; rfl
  -- the records of the completions tagged `B` are still live
  have hinj : ∀ e ∈ st.tagged B es, e.op_context ∉ (st.tagged A es).map (fun e => e.op_context) := by
    intro e he hm
    obtain ⟨e', he', heq⟩ := List.mem_map.1 hm
    have := List.inj_on_of_nodup_map hnd (mem_tagged he').1 (mem_tagged he).1 heq
    subst this
    have t1 := (mem_tagged he').2
    have t2 := (mem_tagged he).2
    rw [t1] at t2
    exact hAB (Option.some.inj t2)
  have hrecB : ∀ e ∈ st.tagged B es,
      (st1.add_ct_total A (st.tagged A es).length).records e.op_context =
        st.records e.op_context := by
    intro e he
    show st1.records e.op_context = _
    rw [h9, if_neg (hinj e he)]
  have hlive : ∀ c ∈ (st.tagged B es).map (fun e => (e, S_OK)),
      ∃ r, (st1.add_ct_total A (st.tagged A es).length).records c.1.op_context = some r := by
    intro c hc
    obtain ⟨e, he, rfl⟩ := List.mem_map.1 hc
    rw [hrecB e he]
    obtain ⟨r, hr, _⟩ := tag_some (mem_tagged he).2
    exact ⟨r, hr⟩
  have hndB : (((st.tagged B es).map (fun e => (e, S_OK))).map
      (fun c : completion_t => c.1.op_context)).Nodup := by
    rw [List.map_map]
    exact hnd.sublist ((List.filter_sublist es).map _)
  obtain ⟨st2, d1, d2, d3, d4, d5, d6, d7, d8⟩ :=
    drain_loop_all B cbB _ (st1.add_ct_total A (st.tagged A es).length) hlive hndB hqB1
  have hcq2 : st2.cq = [] := by rw [d5]; exact h8
  have hpB : poll_completions B cbB (st1.add_ct_total A (st.tagged A es).length) =
      (.returned (st.tagged B es).length, st2.add_ct_total B (st.tagged B es).length) := by
    unfold poll_completions drain_old_completions
    rw [hqB1, d1]
    simp only [hcq2, cq_loop, List.length_map, Nat.add_zero]
  have hcalls : ((st.tagged B es).map (fun e => (e, S_OK))).map
      (fun c : completion_t => cbB.call B
        ((st1.add_ct_total A (st.tagged A es).length).user_context c.1) c.2 c.1) =
      (st.tagged B es).map (fun e => cbB.call B (st.user_context e) S_OK e) := by
    rw [List.map_map]
    apply List.map_congr_left
    intro e he
    simp only [Function.comp, State.user_context]
    rw [hrecB e he]
  rw [hpA, hpB]
  refine ⟨rfl, h2, ?_, rfl, ?_, ?_, ?_, ?_⟩
  · unfold stalled_completion_count
    rw [hqB1, List.length_map]
  · show st2.called = _
    rw [d2, hcalls]
    show st1.called ++ _ = _
    rw [h2]
  · unfold stalled_completion_count
    simp [State.add_ct_total, d3]
  · unfold stalled_completion_count
    have : ((st2.add_ct_total B (st.tagged B es).length).comm A)._completions =
        (st1.comm A)._completions := by
      simp [State.add_ct_total, hAB, d7 A hAB]
    rw [this, h5, hqA]; rfl
  · exact tagged_partition hAB st es htag

end Fabric
end Comanche

namespace Comanche
namespace Fabric

theorem C17_witness :
    (1 : group_t) ≠ 2 ∧ (2 : group_t) ∈ fab_w.clients ∧
    fab_w.cq = [entry_w 100, entry_w 200, entry_w 101, entry_w 201].map cq_event.completion ∧
    (poll_completions 1 .complete_definite fab_w).1 = .returned 2 ∧
    (poll_completions 1 .complete_definite fab_w).2.called =
      [⟨1, 10, S_OK, some 1, some 8, none⟩, ⟨1, 11, S_OK, some 1, some 8, none⟩] ∧
    stalled_completion_count 2 (poll_completions 1 .complete_definite fab_w).2 = 2 ∧
    (poll_completions 2 .complete_old (poll_completions 1 .complete_definite fab_w).2).1 =
      .returned 2 ∧
    (poll_completions 2 .complete_old (poll_completions 1 .complete_definite fab_w).2).2.called =
      [⟨1, 10, S_OK, some 1, some 8, none⟩, ⟨1, 11, S_OK, some 1, some 8, none⟩,
        ⟨2, 20, S_OK, none, none, none⟩, ⟨2, 21, S_OK, none, none, none⟩] ∧
    stalled_completion_count 2
      (poll_completions 2 .complete_old (poll_completions 1 .complete_definite fab_w).2).2 = 0 :=
  ⟨by decide, by decide, by decide,
    (C17_exactly_once_routing 1 2 .complete_definite .complete_old
      [entry_w 100, entry_w 200, entry_w 101, entry_w 201] fab_w
      (by decide) (by decide) (by decide) (by decide) (by decide) (by decide) (by decide)).1,
    (C17_exactly_once_routing 1 2 .complete_definite .complete_old
      [entry_w 100, entry_w 200, entry_w 101, entry_w 201] fab_w
      (by decide) (by decide) (by decide) (by decide) (by decide) (by decide) (by decide)).2.1,
    (C17_exactly_once_routing 1 2 .complete_definite .complete_old
      [entry_w 100, entry_w 200, entry_w 101, entry_w 201] fab_w
      (by decide) (by decide) (by decide) (by decide) (by decide) (by decide) (by decide)).2.2.1,
    (C17_exactly_once_routing 1 2 .complete_definite .complete_old
      [entry_w 100, entry_w 200, entry_w 101, entry_w 201] fab_w
      (by decide) (by decide) (by decide) (by decide) (by decide) (by decide) (by decide)).2.2.2.1,
    (C17_exactly_once_routing 1 2 .complete_definite .complete_old
      [entry_w 100, entry_w 200, entry_w 101, entry_w 201] fab_w
      (by decide) (by decide) (by decide) (by decide) (by decide) (by decide) (by decide)).2.2.2.2.1,
    (C17_exactly_once_routing 1 2 .complete_definite .complete_old
      [entry_w 100, entry_w 200, entry_w 101, entry_w 201] fab_w
      (by decide) (by decide) (by decide) (by decide) (by decide) (by decide)
      (by decide)).2.2.2.2.2.1⟩

end Fabric
end Comanche

namespace Comanche
namespace Fabric

/-! ## Tentative polls -/

theorem length_rejected_le (cb_ : tentative_completer) (this : group_t) (st : State) :
    ∀ (cs : List completion_t) (called : List cb_call),
      (cb_.rejected this st called cs).length ≤ cs.length := by
  intro cs
  induction cs with
  | nil => intro _; simp [tentative_completer.rejected]
  | cons c cs ih =>
    intro called
    unfold tentative_completer.rejected
    split
    · exact Nat.le_succ_of_le (ih _)
    · simp only [List.length_cons]
      exact Nat.succ_le_succ (ih _)

theorem rejected_sublist (cb_ : tentative_completer) (this : group_t) (st : State) :
    ∀ (cs : List completion_t) (called : List cb_call),
      (cb_.rejected this st called cs).Sublist cs := by
  intro cs
  induction cs with
  | nil => intro _; simp [tentative_completer.rejected]
  | cons c cs ih =>
    intro called
    unfold tentative_completer.rejected
    split
    · exact (ih _).cons _
    · exact (ih _).cons₂ _

theorem rejected_congr (cb_ : tentative_completer) (this : group_t) {st st1 : State} :
    ∀ (cs : List completion_t) (called : List cb_call),
      (∀ c ∈ cs, st1.records c.1.op_context = st.records c.1.op_context) →
      cb_.rejected this st1 called cs = cb_.rejected this st called cs := by
  intro cs
  induction cs with
  | nil => intro _ _; simp [tentative_completer.rejected]
  | cons c cs ih =>
    intro called h
    have hc : cb_.offer this st1 c = cb_.offer this st c := by
      unfold tentative_completer.offer State.user_context
      rw [h c (List.mem_cons_self _ _)]
    unfold tentative_completer.rejected
    rw [hc, ih _ (fun c' hc' => h c' (List.mem_cons_of_mem _ hc'))]

theorem map_offer_congr (cb_ : tentative_completer) (this : group_t) {st st1 : State}
    (cs : List completion_t)
    (h : ∀ c ∈ cs, st1.records c.1.op_context = st.records c.1.op_context) :
    cs.map (cb_.offer this st1) = cs.map (cb_.offer this st) := by
  apply List.map_congr_left
  intro c hc
  unfold tentative_completer.offer State.user_context
  rw [h c hc]

end Fabric
end Comanche

namespace Comanche
namespace Fabric

/-- Function `drain_old_completions` in the tentative flavors offers every
queued completion to the callback once, in order; the rejected ones, in
order, are the queue afterwards. -/
theorem drain_loop_tentative_spec (this : group_t) (cb_ : tentative_completer) :
    ∀ (q deferred : List completion_t) (st : State),
      (∀ c ∈ q, ∃ r, st.records c.1.op_context = some r) →
      (q.map (fun c => c.1.op_context)).Nodup →
      ∃ st', drain_loop_tentative this cb_ q deferred st =
            (.returned (q.length - (cb_.rejected this st st.called q).length), st') ∧
        st'.called = st.called ++ q.map (cb_.offer this st) ∧
        (st'.comm this)._completions = deferred ++ cb_.rejected this st st.called q ∧
        (st'.comm this)._stats.defer_total =
          (st.comm this)._stats.defer_total + (cb_.rejected this st st.called q).length ∧
        (st'.comm this)._stats.redirect_total = (st.comm this)._stats.redirect_total ∧
        (st'.comm this)._stats.ct_total = (st.comm this)._stats.ct_total ∧
        st'.cq = st.cq ∧ st'.clients = st.clients ∧
        (∀ g, g ≠ this → st'.comm g = st.comm g) ∧
        (∀ a, a ∉ q.map (fun c => c.1.op_context) → st'.records a = st.records a) ∧
        (∀ c ∈ cb_.rejected this st st.called q,
          st'.records c.1.op_context = st.records c.1.op_context) := by
  intro q
  induction q with
  | nil =>
    intro deferred st _ _
    refine ⟨_, rfl, ?_, ?_, ?_, ?_, ?_, rfl, rfl, ?_, ?_, ?_⟩ <;>
      simp [tentative_completer.rejected]
    intro g hg
    simp [hg]
  | cons c rest ih =>
    intro deferred st hlive hnd
    obtain ⟨r, hr⟩ := hlive c (List.mem_cons_self _ _)
    have hnd' : (rest.map (fun c => c.1.op_context)).Nodup := (List.nodup_cons.1 hnd).2
    have hfresh : ∀ c' ∈ rest, c'.1.op_context ≠ c.1.op_context := by
      intro c' hc' heq
      exact (List.nodup_cons.1 hnd).1 (List.mem_map.2 ⟨c', hc', heq⟩)
    have hoffer : cb_.offer this st c = cb_.call this r.context c.2 c.1 := by
      unfold tentative_completer.offer State.user_context
      rw [hr]; rfl
    by_cases ha : cb_.answer st.called (cb_.offer this st c) = .ACCEPT
    · -- accepted: the record is freed
      have hrec : ∀ c' ∈ rest,
          (((st.set_comm this { st.comm this with _completions := rest }).invoke
            (cb_.offer this st c)).free c.1.op_context).records c'.1.op_context =
            st.records c'.1.op_context := by
        intro c' hc'
        simp [hfresh c' hc']
      obtain ⟨st', h1, h2, h3, h4, h5, h6, h7, h8, h9, h10, h11⟩ :=
        ih deferred (((st.set_comm this { st.comm this with _completions := rest }).invoke
            (cb_.offer this st c)).free c.1.op_context)
          (by
            intro c' hc'
            rw [hrec c' hc']
            exact hlive c' (List.mem_cons_of_mem _ hc'))
          hnd'
      rw [rejected_congr cb_ this rest _ hrec] at h1 h3 h4 h11
      rw [map_offer_congr cb_ this rest hrec] at h2
      have hrej : cb_.rejected this st st.called (c :: rest) =
          cb_.rejected this st (st.called ++ [cb_.offer this st c]) rest := by
        rw [tentative_completer.rejected, if_pos ha]
      have hle := length_rejected_le cb_ this st rest (st.called ++ [cb_.offer this st c])
      refine ⟨st', ?_, ?_, ?_, ?_, ?_, ?_, ?_, ?_, ?_, ?_, ?_⟩
      · rw [hrej]
        simp only [drain_loop_tentative, State.records_set_comm, hr, State.called_set_comm]
        rw [← hoffer, if_pos ha]
        simp only [State.called_free, State.called_invoke, State.called_set_comm] at h1
        simp only [h1, List.length_cons]
        congr 2
        omega
      · rw [h2]; simp
      · rw [h3, hrej]; rfl
      · rw [h4, hrej]; simp
      · rw [h5]; simp
      · rw [h6]; simp
      · rw [h7]; rfl
      · rw [h8]; rfl
      · intro g hg
        rw [h9 g hg]
        simp [hg]
      · intro a ha'
        simp only [List.map_cons, List.mem_cons, not_or] at ha'
        rw [h10 a ha'.2]
        simp [ha'.1]
      · intro c' hc'
        rw [hrej] at hc'
        rw [h11 c' hc']
        exact hrec c' ((rejected_sublist cb_ this st rest _).subset hc')
    · -- rejected: the completion goes to the local queue
      have hrec : ∀ a,
          (((st.set_comm this { st.comm this with _completions := rest }).invoke
            (cb_.offer this st c)).incr_defer_total this).records a = st.records a :=
        fun _ => rfl
      obtain ⟨st', h1, h2, h3, h4, h5, h6, h7, h8, h9, h10, h11⟩ :=
        ih (deferred ++ [c])
          (((st.set_comm this { st.comm this with _completions := rest }).invoke
            (cb_.offer this st c)).incr_defer_total this)
          (fun c' hc' => hlive c' (List.mem_cons_of_mem _ hc')) hnd'
      rw [rejected_congr cb_ this rest _ (fun c' _ => hrec c'.1.op_context)] at h1 h3 h4 h11
      rw [map_offer_congr cb_ this rest (fun c' _ => hrec c'.1.op_context)] at h2
      have hrej : cb_.rejected this st st.called (c :: rest) =
          c :: cb_.rejected this st (st.called ++ [cb_.offer this st c]) rest := by
        rw [tentative_completer.rejected, if_neg ha]
      refine ⟨st', ?_, ?_, ?_, ?_, ?_, ?_, ?_, ?_, ?_, ?_, ?_⟩
      · rw [hrej]
        simp only [drain_loop_tentative, State.records_set_comm, hr, State.called_set_comm]
        rw [← hoffer, if_neg ha]
        simp only [State.incr_defer_total, State.called_invoke, State.called_set_comm] at h1
        simp only [State.incr_defer_total, h1, List.length_cons, Nat.add_sub_add_right]
      · rw [h2]; simp [State.incr_defer_total]
      · rw [h3, hrej]; simp [State.incr_defer_total]
      · rw [h4, hrej]
        simp [State.incr_defer_total]
        omega
      · rw [h5]; simp [State.incr_defer_total]
      · rw [h6]; simp [State.incr_defer_total]
      · rw [h7]; rfl
      · rw [h8]; rfl
      · intro g hg
        rw [h9 g hg]
        simp [State.incr_defer_total, hg]
      · intro a ha'
        simp only [List.map_cons, List.mem_cons, not_or] at ha'
        rw [h10 a ha'.2]
        rfl
      · intro c' hc'
        rw [hrej] at hc'
        rcases List.mem_cons.1 hc' with rfl | hc''
        · have hnot : c'.1.op_context ∉ rest.map (fun c => c.1.op_context) :=
            (List.nodup_cons.1 hnd).1
          rw [h10 _ hnot]
          rfl
        · rw [h11 c' hc'']
          rfl

end Fabric
end Comanche

namespace Comanche
namespace Fabric

/-- The loop over the shared completion queue in a tentative poll of group
`this`, when every completion is tagged `this`: each is offered to the
callback once, and the rejected ones go to the tail of the group's own
deferred queue. -/
theorem cq_loop_tentative_own (this : group_t) (cb_ : tentative_completer) :
    ∀ (es : List fi_cq_entry_t) (st : State),
      (∀ e ∈ es, st.tag e = some this) →
      (es.map (fun e => e.op_context)).Nodup → this ∈ st.clients →
      st.cq = es.map cq_event.completion →
      ∃ st', cq_loop (process_or_queue_completion_tentative this cb_)
            (process_cq_comp_err_tentative this cb_) (es.map cq_event.completion) st =
            (.returned (es.length -
              (cb_.rejected this st st.called (es.map (fun e => (e, S_OK)))).length), st') ∧
        st'.called = st.called ++ (es.map (fun e => (e, S_OK))).map (cb_.offer this st) ∧
        (st'.comm this)._completions = (st.comm this)._completions ++
          cb_.rejected this st st.called (es.map (fun e => (e, S_OK))) ∧
        (st'.comm this)._stats.defer_total = (st.comm this)._stats.defer_total +
          (cb_.rejected this st st.called (es.map (fun e => (e, S_OK)))).length ∧
        (st'.comm this)._stats.redirect_total = (st.comm this)._stats.redirect_total ∧
        (st'.comm this)._stats.ct_total = (st.comm this)._stats.ct_total ∧
        st'.cq = [] ∧ st'.clients = st.clients ∧
        (∀ g, g ≠ this → st'.comm g = st.comm g) ∧
        (∀ a, a ∉ es.map (fun e => e.op_context) → st'.records a = st.records a) ∧
        (∀ c ∈ cb_.rejected this st st.called (es.map (fun e => (e, S_OK))),
          st'.records c.1.op_context = st.records c.1.op_context) := by
  intro es
  induction es with
  | nil =>
    intro st _ _ _ hcq
    exact ⟨st, rfl, by simp, by simp [tentative_completer.rejected],
      by simp [tentative_completer.rejected], rfl, rfl, by simpa using hcq, rfl,
      fun _ _ => rfl, fun _ _ => rfl, by simp [tentative_completer.rejected]⟩
  | cons e rest ih =>
    intro st htag hnd hk _
    obtain ⟨r, hr, hrc, huc⟩ := tag_some (htag e (List.mem_cons_self _ _))
    have hnd' : (rest.map (fun e => e.op_context)).Nodup := (List.nodup_cons.1 hnd).2
    have hnot : e.op_context ∉ rest.map (fun e => e.op_context) := (List.nodup_cons.1 hnd).1
    have hfresh : ∀ e' ∈ rest, e'.op_context ≠ e.op_context := by
      intro e' he' heq
      exact hnot (List.mem_map.2 ⟨e', he', heq⟩)
    have hfresh' : ∀ c ∈ rest.map (fun e => (e, S_OK)), c.1.op_context ≠ e.op_context := by
      intro c hc
      obtain ⟨e', he', rfl⟩ := List.mem_map.1 hc
      exact hfresh e' he'
    have hoffer : cb_.offer this st (e, S_OK) = cb_.call this r.context S_OK e := by
      unfold tentative_completer.offer
      rw [huc]
    by_cases ha : cb_.answer st.called (cb_.offer this st (e, S_OK)) = .ACCEPT
    · have ha' : cb_.answer ({ st with cq := rest.map cq_event.completion } : State).called
          (cb_.call this r.context S_OK e) = .ACCEPT := by rw [← hoffer]; exact ha
      have hstep := @process_tentative_accept this e { st with cq := rest.map cq_event.completion }
        r cb_ S_OK hr hrc ha'
      rw [← hoffer] at hstep
      have hrec : ∀ a, a ≠ e.op_context →
          (({ st with cq := rest.map cq_event.completion }.invoke
            (cb_.offer this st (e, S_OK))).free e.op_context).records a = st.records a := by
        intro a hne
        simp [hne]
      have hrecc : ∀ c ∈ rest.map (fun e => (e, S_OK)),
          (({ st with cq := rest.map cq_event.completion }.invoke
            (cb_.offer this st (e, S_OK))).free e.op_context).records c.1.op_context =
            st.records c.1.op_context := fun c hc => hrec _ (hfresh' c hc)
      obtain ⟨st', h1, h2, h3, h4, h5, h6, h7, h8, h9, h10, h11⟩ :=
        ih (({ st with cq := rest.map cq_event.completion }.invoke
            (cb_.offer this st (e, S_OK))).free e.op_context)
          (by
            intro e' he'
            have := htag e' (List.mem_cons_of_mem _ he')
            unfold State.tag at this ⊢
            rw [hrec _ (hfresh e' he')]
            exact this)
          hnd' hk rfl
      rw [rejected_congr cb_ this _ _ hrecc] at h1 h3 h4 h11
      rw [map_offer_congr cb_ this _ hrecc] at h2
      have hrej : cb_.rejected this st st.called ((e :: rest).map (fun e => (e, S_OK))) =
          cb_.rejected this st (st.called ++ [cb_.offer this st (e, S_OK)])
            (rest.map (fun e => (e, S_OK))) := by
        rw [List.map_cons, tentative_completer.rejected, if_pos ha]
      have hle := length_rejected_le cb_ this st (rest.map (fun e => (e, S_OK)))
        (st.called ++ [cb_.offer this st (e, S_OK)])
      rw [List.length_map] at hle
      refine ⟨st', ?_, ?_, ?_, ?_, ?_, ?_, h7, ?_, ?_, ?_, ?_⟩
      · rw [hrej]
        simp only [List.map_cons, cq_loop]
        rw [hstep]
        simp only [State.called_free, State.called_invoke] at h1
        simp only [h1, List.length_cons]
        congr 2
        omega
      · rw [h2]; simp
      · rw [h3, hrej]; rfl
      · rw [h4, hrej]; rfl
      · rw [h5]; rfl
      · rw [h6]; rfl
      · rw [h8]; rfl
      · intro g hg
        rw [h9 g hg]; rfl
      · intro a ha2
        simp only [List.map_cons, List.mem_cons, not_or] at ha2
        rw [h10 a ha2.2]
        exact hrec a ha2.1
      · intro c hc
        rw [hrej] at hc
        rw [h11 c hc]
        exact hrecc c ((rejected_sublist cb_ this st _ _).subset hc)
    · have ha' : cb_.answer ({ st with cq := rest.map cq_event.completion } : State).called
          (cb_.call this r.context S_OK e) ≠ .ACCEPT := by rw [← hoffer]; exact ha
      have hstep := @process_tentative_reject this e { st with cq := rest.map cq_event.completion }
        r cb_ S_OK hr hrc hk ha'
      rw [← hoffer] at hstep
      have hrec : ∀ a,
          (((({ st with cq := rest.map cq_event.completion } : State).invoke
            (cb_.offer this st (e, S_OK))).set_comm this
              ((({ st with cq := rest.map cq_event.completion } : State).comm
                this).queue_completion S_OK e)).incr_defer_total this).records a =
            st.records a := fun _ => rfl
      obtain ⟨st', h1, h2, h3, h4, h5, h6, h7, h8, h9, h10, h11⟩ :=
        ih (((({ st with cq := rest.map cq_event.completion } : State).invoke
            (cb_.offer this st (e, S_OK))).set_comm this
              ((({ st with cq := rest.map cq_event.completion } : State).comm
                this).queue_completion S_OK e)).incr_defer_total this)
          (fun e' he' => htag e' (List.mem_cons_of_mem _ he')) hnd' hk rfl
      rw [rejected_congr cb_ this _ _ (fun c _ => hrec c.1.op_context)] at h1 h3 h4 h11
      rw [map_offer_congr cb_ this _ (fun c _ => hrec c.1.op_context)] at h2
      have hrej : cb_.rejected this st st.called ((e :: rest).map (fun e => (e, S_OK))) =
          (e, S_OK) :: cb_.rejected this st (st.called ++ [cb_.offer this st (e, S_OK)])
            (rest.map (fun e => (e, S_OK))) := by
        rw [List.map_cons, tentative_completer.rejected, if_neg ha]
      refine ⟨st', ?_, ?_, ?_, ?_, ?_, ?_, h7, ?_, ?_, ?_, ?_⟩
      · rw [hrej]
        simp only [List.map_cons, cq_loop]
        rw [hstep]
        simp only [State.incr_defer_total, State.called_set_comm, State.called_invoke] at h1
        simp only [State.incr_defer_total, h1, List.length_cons, Nat.add_sub_add_right,
          Nat.zero_add]
      · rw [h2]; simp [State.incr_defer_total]
      · rw [h3, hrej]
        simp [State.incr_defer_total, Fabric_comm_grouped.queue_completion]
      · rw [h4, hrej]
        simp [State.incr_defer_total, Fabric_comm_grouped.queue_completion]
        omega
      · rw [h5]; simp [State.incr_defer_total, Fabric_comm_grouped.queue_completion]
      · rw [h6]; simp [State.incr_defer_total, Fabric_comm_grouped.queue_completion]
      · rw [h8]; rfl
      · intro g hg
        rw [h9 g hg]
        simp [State.incr_defer_total, hg]
      · intro a ha2
        simp only [List.map_cons, List.mem_cons, not_or] at ha2
        rw [h10 a ha2.2]
        rfl
      · intro c hc
        rw [hrej] at hc
        rcases List.mem_cons.1 hc with rfl | hc'
        · rw [h10 _ hnot]
          rfl
        · rw [h11 c hc']
          rfl

end Fabric
end Comanche

namespace Comanche
namespace Fabric

/-- C20, the claim as stated fails: group 1 has an empty deferred queue and
the shared queue holds one completion, tagged 1.  In one call of
`poll_completions_tentative` with a callback that rejects, the callback is
invoked twice for that completion, and `defer_total` grows by 2; with a
callback that rejects its first offer and accepts from then on, the
completion that the callback has just rejected is accepted in the same
call. -/
theorem C20_counterexample :
    fab_1.cq = [.completion (entry_w 100)] ∧ (fab_1.comm 1)._completions = [] ∧
    fab_1.called = [] ∧
    (poll_completions_tentative 1 cb_reject fab_1).1 = .returned 0 ∧
    (poll_completions_tentative 1 cb_reject fab_1).2.called =
      [⟨1, 10, S_OK, some 1, some 8, none⟩, ⟨1, 10, S_OK, some 1, some 8, none⟩] ∧
    ((poll_completions_tentative 1 cb_reject fab_1).2.comm 1)._stats.defer_total = 2 ∧
    ((poll_completions_tentative 1 cb_reject fab_1).2.comm 1)._completions =
      [(entry_w 100, S_OK)] ∧
    (poll_completions_tentative 1 cb_second fab_1).1 = .returned 1 ∧
    (poll_completions_tentative 1 cb_second fab_1).2.called =
      [⟨1, 10, S_OK, some 1, some 8, some 5⟩, ⟨1, 10, S_OK, some 1, some 8, some 5⟩] ∧
    ((poll_completions_tentative 1 cb_second fab_1).2.comm 1)._completions = [] := by
  decide

end Fabric
end Comanche

namespace Comanche
namespace Fabric

end Fabric
end Comanche

namespace Comanche
namespace Table

/-- Walking the bucket-local ranges of all buckets, last bucket first,
counts the slots that the owners name. -/
theorem foldl_owned_slots (cfg : Config) (t : Table) (l : List Nat) :
    l.reverse.foldl (fun count n => count + (t.owned_slots cfg n).length) 0 =
      (l.flatMap (t.owned_slots cfg)).length := by
  rw [List.foldl_reverse]
  induction l with
  | nil => rfl
  | cons a l ih =>
    rw [List.foldr_cons, ih]
    simp only [List.flatMap_cons, List.length_append]
    omega

/-- The owners name as many slots as the table counts entries. -/
theorem length_slots {cfg : Config} {t : Table} (hinv : t.invariant cfg) :
    ((List.range t.bucket_count).flatMap (t.owned_slots cfg)).length = t.size := by
  rw [← length_entries hinv]
  unfold entries
  have key : ∀ l : List Nat, (∀ j ∈ l, ∃ c, t.content_at j = some c) →
      (l.filterMap t.content_at).length = l.length := by
    intro l
    induction l with
    | nil => intro _; rfl
    | cons a l ih =>
      intro h
      obtain ⟨c, hc⟩ := h a (List.mem_cons_self _ _)
      rw [List.filterMap_cons_some hc, List.length_cons, List.length_cons,
        ih (fun j hj => h j (List.mem_cons_of_mem _ hj))]
  exact (key _ (fun j hj => (mem_slots hinv.2.1 hj).2)).symm

end Table

namespace hstore

/-- C23: on an open pool whose table satisfies the table invariant,
`debug(pool, 2, arg)` returns after storing through `arg` the number of
elements found by walking the bucket-local range of every bucket; that
number is what `count(pool)` returns, and the registry, with the keys and
values of every pool, is as before. -/
theorem C23_debug_counts_entries (cfg : Config) (st : hstore) (pool : pool_t) (s : session_t)
    (hs : st.deref pool = some s) (hinv : s.map.invariant cfg) :
    (st.debug cfg pool 2).1 = .returned (some ((List.range s.map.bucket_count).reverse.foldl
      (fun count n => count + (s.map.owned_slots cfg n).length) 0)) ∧
    (st.debug cfg pool 2).1 = .returned (some s.map.size) ∧
    (st.count pool).1 = .returned s.map.size ∧
    (st.debug cfg pool 2).2._pools = st._pools ∧
    (st.debug cfg pool 2).2.deref pool = some s := by
  have hd : st.debug cfg pool 2 =
      (.returned (some ((List.range s.map.bucket_count).reverse.foldl
        (fun count n => count + (s.map.owned_slots cfg n).length) 0)), st.cached pool) := by
    unfold debug
    rw [if_pos rfl, locate_session_open hs]
  rw [hd]
  refine ⟨rfl, ?_, ?_, rfl, ?_⟩
  · rw [Table.foldl_owned_slots, Table.length_slots hinv]
  · rw [count_open hs]
  · rw [deref_cached]; exact hs

theorem C23_witness :
    st_g.deref 4096 = some s_g ∧ s_g.map.invariant cfg_w ∧
    (st_g.debug cfg_w 4096 2).1 = .returned (some 3) ∧
    (st_g.count 4096).1 = .returned 3 ∧
    (st_g.debug cfg_w 4096 2).2._pools = st_g._pools :=
  ⟨by decide, by decide,
    (C23_debug_counts_entries cfg_w st_g 4096 s_g (by decide) (by decide)).2.1,
    (C23_debug_counts_entries cfg_w st_g 4096 s_g (by decide) (by decide)).2.2.1,
    (C23_debug_counts_entries cfg_w st_g 4096 s_g (by decide) (by decide)).2.2.2.1⟩

end hstore
end Comanche

namespace Comanche
namespace Fabric

theorem rejected_of_reject_all (this : group_t) (cb_ : tentative_completer) (st : State)
    (hall : ∀ called c, cb_.answer called c ≠ .ACCEPT) :
    ∀ (cs : List completion_t) (called : List cb_call), cb_.rejected this st called cs = cs := by
  intro cs
  induction cs with
  | nil => intro _; rfl
  | cons c cs ih =>
    intro called
    rw [tentative_completer.rejected, if_neg (hall _ _), ih]

theorem rejected_of_accept_all (this : group_t) (cb_ : tentative_completer) (st : State)
    (hall : ∀ called c, cb_.answer called c = .ACCEPT) :
    ∀ (cs : List completion_t) (called : List cb_call), cb_.rejected this st called cs = [] := by
  intro cs
  induction cs with
  | nil => intro _; rfl
  | cons c cs ih =>
    intro called
    rw [tentative_completer.rejected, if_pos (hall _ _), ih]

/-- C25: `drain_old_completions` with a tentative or param_tentative
callback, on a deferred queue `q` of completions each with its own live
record, returns for every callback (the model is a total function: the loop
ends after one pass over `q`).  The callback is invoked once per queued
completion, in queue order; the call returns the number accepted;
`defer_total` grows by the number rejected, the other counters are
unchanged; and the deferred queue afterwards holds exactly the rejected
completions, in their original order.  A callback that rejects everything
leaves the queue as it was and returns 0. -/
theorem C25_drain_tentative (this : group_t) (cb_ : tentative_completer) (st : State)
    (q : List completion_t) (hq : (st.comm this)._completions = q)
    (hlive : ∀ c ∈ q, (st.records c.1.op_context).isSome = true)
    (hnd : (q.map (fun c => c.1.op_context)).Nodup) :
    (drain_old_completions_tentative this cb_ st).1 =
      .returned (q.length - (cb_.rejected this st st.called q).length) ∧
    (drain_old_completions_tentative this cb_ st).2.called =
      st.called ++ q.map (cb_.offer this st) ∧
    ((drain_old_completions_tentative this cb_ st).2.comm this)._completions =
      cb_.rejected this st st.called q ∧
    ((drain_old_completions_tentative this cb_ st).2.comm this)._stats.defer_total =
      (st.comm this)._stats.defer_total + (cb_.rejected this st st.called q).length ∧
    ((drain_old_completions_tentative this cb_ st).2.comm this)._stats.redirect_total =
      (st.comm this)._stats.redirect_total ∧
    ((drain_old_completions_tentative this cb_ st).2.comm this)._stats.ct_total =
      (st.comm this)._stats.ct_total ∧
    (cb_.rejected this st st.called q).Sublist q ∧
    ((∀ called c, cb_.answer called c ≠ .ACCEPT) → cb_.rejected this st st.called q = q) ∧
    ((∀ called c, cb_.answer called c = .ACCEPT) → cb_.rejected this st st.called q = []) := by
  obtain ⟨st', h1, h2, h3, h4, h5, h6, _⟩ :=
    drain_loop_tentative_spec this cb_ q [] st
      (fun c hc => Option.isSome_iff_exists.1 (hlive c hc)) hnd
  have hd : drain_old_completions_tentative this cb_ st =
      (.returned (q.length - (cb_.rejected this st st.called q).length), st') := by
    unfold drain_old_completions_tentative
    rw [hq, h1]
  rw [hd]
  refine ⟨rfl, h2, ?_, h4, h5, h6, rejected_sublist cb_ this st q _, ?_, ?_⟩
  · rw [h3]; rfl
  · exact fun hall => rejected_of_reject_all this cb_ st hall q _
  · exact fun hall => rejected_of_accept_all this cb_ st hall q _

theorem C25_witness :
    (((process_or_queue_completion_tentative 1 cb_reject (entry_w 100) S_OK fab_1).2.comm
      1)._completions = [(entry_w 100, S_OK)]) ∧
    (drain_old_completions_tentative 1 cb_reject
      (process_or_queue_completion_tentative 1 cb_reject (entry_w 100) S_OK fab_1).2).1 =
        .returned 0 ∧
    ((drain_old_completions_tentative 1 cb_reject
      (process_or_queue_completion_tentative 1 cb_reject (entry_w 100) S_OK fab_1).2).2.comm
        1)._completions = [(entry_w 100, S_OK)] ∧
    ((drain_old_completions_tentative 1 cb_reject
      (process_or_queue_completion_tentative 1 cb_reject (entry_w 100) S_OK fab_1).2).2.comm
        1)._stats.defer_total = 2 :=
  ⟨by decide,
    (C25_drain_tentative 1 cb_reject
      (process_or_queue_completion_tentative 1 cb_reject (entry_w 100) S_OK fab_1).2
      [(entry_w 100, S_OK)] (by decide) (by decide) (by decide)).1,
    (C25_drain_tentative 1 cb_reject
      (process_or_queue_completion_tentative 1 cb_reject (entry_w 100) S_OK fab_1).2
      [(entry_w 100, S_OK)] (by decide) (by decide) (by decide)).2.2.1,
    (C25_drain_tentative 1 cb_reject
      (process_or_queue_completion_tentative 1 cb_reject (entry_w 100) S_OK fab_1).2
      [(entry_w 100, S_OK)] (by decide) (by decide) (by decide)).2.2.2.1⟩

end Fabric
end Comanche

namespace Comanche
namespace RamRBTree

/-! ## The ordered index -/

theorem sorted_set_insert {m_index : index_t} (hs : m_index.Sorted (fun a b => a < b))
    (key : string) : (set_insert m_index key).1.Sorted (fun a b => a < b) := by
  unfold set_insert
  by_cases h : key ∈ m_index
  · rw [if_pos h]; exact hs
  · rw [if_neg h]
    apply List.Sorted.lt_of_le
    · exact List.Sorted.orderedInsert key m_index hs.le_of_lt
    · exact (List.perm_orderedInsert _ key m_index).nodup_iff.2 (List.nodup_cons.2 ⟨h, hs.nodup⟩)

theorem sorted_erase {m_index : index_t} (hs : m_index.Sorted (fun a b => a < b))
    (key : string) : (erase m_index key).Sorted (fun a b => a < b) :=
  List.Sorted.filter _ hs

theorem mem_erase {m_index : index_t} {key k : string} :
    k ∈ erase m_index key ↔ k ≠ key ∧ k ∈ m_index := by
  unfold erase
  simp [List.mem_filter, and_comm]

theorem erase_not_mem {m_index : index_t} {key : string} (h : key ∉ m_index) :
    erase m_index key = m_index := by
  unfold erase
  rw [List.filter_eq_self]
  intro a ha
  simp only [ne_eq, decide_eq_true_eq]
  exact fun e => h (e ▸ ha)

theorem get_lt {m_index : index_t} {position : Nat} (h : position < m_index.length) :
    get m_index position = .returned (m_index.get ⟨position, h⟩) := by
  unfold get
  rw [if_neg (by omega), List.getD_eq_getElem _ _ h]
  rfl

/-- In a strictly ascending list the key at position `i` has exactly `i` keys
below it. -/
theorem rank_of_sorted : ∀ (l : index_t), l.Sorted (fun a b => a < b) →
    ∀ (i : Nat) (h : i < l.length), (l.filter (fun k => k < l.get ⟨i, h⟩)).length = i := by
  intro l
  induction l with
  | nil => intro _ i h; simp at h
  | cons a l ih =>
    intro hs i h
    have hal : ∀ b ∈ l, a < b := List.rel_of_sorted_cons hs
    cases i with
    | zero =>
      have : (a :: l).filter (fun k => k < a) = [] := by
        rw [List.filter_eq_nil_iff]
        intro b hb
        simp only [decide_eq_true_eq, not_lt]
        rcases List.mem_cons.1 hb with rfl | hb'
        · exact le_refl _
        · exact le_of_lt (hal b hb')
      simpa using this
    | succ i =>
      have hi : i < l.length := by simpa using h
      have hlt : a < l.get ⟨i, hi⟩ := hal _ (List.get_mem _ _ _)
      have := ih (List.Sorted.of_cons hs) i hi
      simp only [List.get_cons_succ, List.filter_cons, hlt, decide_True, if_true, List.length_cons]
      omega

end RamRBTree
end Comanche

namespace Comanche
namespace RamRBTree

/-- C29: the index is kept in strictly ascending order (true of the empty
index and kept by `insert`, `erase` and `clear`, which add and remove
exactly the key given).  On such an index `get(position)` raises
`out_of_range` exactly when `position >= count()`, and otherwise returns the
key at that position of the ascending order, the key with exactly `position`
keys of the index below it; so `get(i) < get(j)` for `i < j < count()`. -/
theorem C29_get_is_rank (m_index : index_t) (hs : m_index.Sorted (fun a b => a < b))
    (position : Nat) :
    (get m_index position = .thrown .out_of_range ↔ position ≥ count m_index) ∧
    (∀ h : position < m_index.length,
      get m_index position = .returned (m_index.get ⟨position, h⟩) ∧
      (m_index.filter (fun k => k < m_index.get ⟨position, h⟩)).length = position) ∧
    (∀ i j (hj : j < count m_index) (hij : i < j),
      get m_index i = .returned (m_index.get ⟨i, Nat.lt_trans hij hj⟩) ∧
      get m_index j = .returned (m_index.get ⟨j, hj⟩) ∧
      m_index.get ⟨i, Nat.lt_trans hij hj⟩ < m_index.get ⟨j, hj⟩) ∧
    (∀ key, (insert m_index key).2.Sorted (fun a b => a < b) ∧
      (erase m_index key).Sorted (fun a b => a < b) ∧
      (∀ k, k ∈ (insert m_index key).2 ↔ k = key ∨ k ∈ m_index) ∧
      (∀ k, k ∈ erase m_index key ↔ k ≠ key ∧ k ∈ m_index)) ∧
    (clear m_index).Sorted (fun a b => a < b) ∧
    List.Sorted (fun a b : string => a < b) [] := by
  refine ⟨?_, ?_, ?_, ?_, List.sorted_nil, List.sorted_nil⟩
  · unfold get count
    by_cases h : position ≥ m_index.length
    · simp [h]
    · simp [h]
  · intro h
    exact ⟨get_lt h, rank_of_sorted m_index hs position h⟩
  · intro i j hj hij
    exact ⟨get_lt _, get_lt _, hs.rel_get_of_lt (by exact hij)⟩
  · intro key
    refine ⟨?_, sorted_erase hs key, ?_, fun k => mem_erase⟩
    · have := sorted_set_insert hs key
      unfold insert
      split <;> exact this
    · intro k
      have hm : k ∈ (set_insert m_index key).1 ↔ k = key ∨ k ∈ m_index := by
        unfold set_insert
        by_cases h : key ∈ m_index
        · rw [if_pos h]
          exact ⟨Or.inr, fun o => o.elim (fun e => e ▸ h) id⟩
        · rw [if_neg h]
          exact List.mem_orderedInsert _
      unfold insert
      split <;> exact hm

theorem C29_witness :
    List.Sorted (fun a b : string => a < b) ["ab".toList, "b".toList, "ba".toList] ∧
    (get ["ab".toList, "b".toList, "ba".toList] 3 = .thrown .out_of_range ↔
      3 ≥ count ["ab".toList, "b".toList, "ba".toList]) ∧
    get ["ab".toList, "b".toList, "ba".toList] 1 = .returned "b".toList ∧
    (insert ["ab".toList, "ba".toList] "b".toList).2 = ["ab".toList, "b".toList, "ba".toList] :=
  ⟨by decide,
    (C29_get_is_rank ["ab".toList, "b".toList, "ba".toList] (by decide) 3).1,
    ((C29_get_is_rank ["ab".toList, "b".toList, "ba".toList] (by decide) 1).2.1 (by decide)).1,
    by decide⟩

/-- C30: `insert(key)` raises `API_exception` exactly when the key is in the
index already, and then leaves the index as it was; otherwise it returns,
the key is in the index, every other key is as before and `count()` has
grown by 1.  `erase(key)` of a key that is not in the index leaves the index
as it was (it cannot raise: it returns the index). -/
theorem C30_insert_erase (m_index : index_t) (key : string) :
    ((insert m_index key).1 = .thrown .API_exception ↔ key ∈ m_index) ∧
    ((insert m_index key).1 = .returned () ↔ key ∉ m_index) ∧
    (key ∈ m_index → (insert m_index key).2 = m_index) ∧
    (key ∉ m_index →
      count (insert m_index key).2 = count m_index + 1 ∧
      (∀ k, k ∈ (insert m_index key).2 ↔ k = key ∨ k ∈ m_index)) ∧
    (key ∉ m_index → erase m_index key = m_index) := by
  by_cases h : key ∈ m_index
  · have hi : insert m_index key = (.thrown .API_exception, m_index) := by
      unfold insert set_insert
      simp [h]
    rw [hi]
    refine ⟨⟨fun _ => h, fun _ => rfl⟩, ⟨(fun e => by cases e), fun n => absurd h n⟩, fun _ => rfl,
      fun n => absurd h n, fun n => absurd h n⟩
  · have hi : insert m_index key =
        (.returned (), m_index.orderedInsert (fun a b => a ≤ b) key) := by
      unfold insert set_insert
      simp [h]
    rw [hi]
    refine ⟨⟨(fun e => by cases e), fun n => absurd n h⟩, ⟨fun _ => h, fun _ => rfl⟩,
      fun n => absurd n h, fun _ => ⟨?_, fun k => List.mem_orderedInsert _⟩,
      fun _ => erase_not_mem h⟩
    exact List.orderedInsert_length _ _ _

theorem C30_witness :
    "b".toList ∈ ["ab".toList, "b".toList] ∧
    (insert ["ab".toList, "b".toList] "b".toList).2 = ["ab".toList, "b".toList] ∧
    "a".toList ∉ ["ab".toList, "b".toList] ∧
    count (insert ["ab".toList, "b".toList] "a".toList).2 =
      count ["ab".toList, "b".toList] + 1 ∧
    erase ["ab".toList, "b".toList] "a".toList = ["ab".toList, "b".toList] :=
  ⟨by decide,
    (C30_insert_erase ["ab".toList, "b".toList] "b".toList).2.2.1 (by decide),
    by decide,
    ((C30_insert_erase ["ab".toList, "b".toList] "a".toList).2.2.2.1 (by decide)).1,
    (C30_insert_erase ["ab".toList, "b".toList] "a".toList).2.2.2.2 (by decide)⟩

end RamRBTree
end Comanche

namespace Comanche
namespace RamRBTree

/-! ## `find` -/

/-- The loop returns the first key, in the order of the positions, that
passes the test. -/
theorem find_loop_first (m_index : index_t) (test : string → Bool) :
    ∀ (n b i : Nat), b + n ≤ m_index.length → b ≤ i → i < b + n →
      test (m_index.getD i []) = true →
      (∀ j, b ≤ j → j < i → test (m_index.getD j []) = false) →
      find_loop m_index test (List.range' b n) = .returned (m_index.getD i []) := by
  intro n
  induction n with
  | zero => intro b i _ h1 h2; omega
  | succ n ih =>
    intro b i hb h1 h2 ht hf
    rw [List.range'_succ, find_loop]
    have hg : get m_index b = .returned (m_index.getD b []) := by
      unfold get
      rw [if_neg (by omega)]
    rw [hg]
    by_cases hbi : b = i
    · subst hbi
      simp only [ht, if_true]
    · have hfb := hf b (le_refl _) (by omega)
      simp only [hfb, Bool.false_eq_true, if_false]
      exact ih (b + 1) i (by omega) (by omega) (by omega) ht
        (fun j hj1 hj2 => hf j (by omega) hj2)

/-- The loop returns the empty string when no key passes the test. -/
theorem find_loop_none (m_index : index_t) (test : string → Bool) :
    ∀ (n b : Nat), b + n ≤ m_index.length →
      (∀ j, b ≤ j → j < b + n → test (m_index.getD j []) = false) →
      find_loop m_index test (List.range' b n) = .returned [] := by
  intro n
  induction n with
  | zero => intro b _ _; rfl
  | succ n ih =>
    intro b hb hf
    rw [List.range'_succ, find_loop]
    have hg : get m_index b = .returned (m_index.getD b []) := by
      unfold get
      rw [if_neg (by omega)]
    rw [hg]
    have hfb := hf b (le_refl _) (by omega)
    simp only [hfb, Bool.false_eq_true, if_false]
    exact ih (b + 1) (by omega) (fun j hj1 hj2 => hf j (by omega) (by omega))

/-- What `find` does with a well-formed expression and in-range positions. -/
theorem find_in_range {re : regex_lib} {m_index : index_t} {key_expression : string}
    {begin_position out_end_position : Nat} {find_type : find_t}
    (hw : re.well_formed key_expression = true) (hb : begin_position < m_index.length)
    (he : out_end_position < m_index.length) (hft : find_type ≠ .FIND_TYPE_NEXT) :
    find re m_index key_expression begin_position find_type out_end_position =
      ⟨find_loop m_index (find_test re find_type key_expression)
        (List.range' begin_position (out_end_position + 1 - begin_position)),
        out_end_position⟩ := by
  unfold find
  rw [hw]
  simp only [Bool.not_true, Bool.false_eq_true, if_false, ge_iff_le, Nat.not_le.2 hb,
    Nat.not_le.2 he]

end RamRBTree
end Comanche

namespace Comanche
namespace RamRBTree

/-- C24, the claim as stated fails: `find` constructs the `std::regex` of
`key_expression` before it looks at the positions.  With the expression `(`
and find type REGEX, on the index holding the key `a`, positions 0..0, it
raises `regex_error` instead of returning the empty string; on the empty
index it raises `regex_error`, not `out_of_range`. -/
theorem C24_counterexample :
    (find re_w ["a".toList] "(".toList 0 .FIND_TYPE_REGEX 0).result = .thrown .regex_error ∧
    (find re_w ["a".toList] "(".toList 0 .FIND_TYPE_REGEX 0).result ≠ .returned [] ∧
    (0 ≥ count []) ∧
    (find re_w [] "(".toList 0 .FIND_TYPE_REGEX 0).result = .thrown .regex_error ∧
    (find re_w [] "(".toList 0 .FIND_TYPE_REGEX 0).result ≠ .thrown .out_of_range := by
  decide

/-- C24 (amended): `find` never writes `out_end_position`.  With find type
REGEX an expression that is not a well-formed regular expression raises
`regex_error`, whatever the positions.  With a well-formed expression and
find type REGEX, EXACT or PREFIX: `find` raises `out_of_range` when
`begin_position` or `out_end_position` is `>= count()`; otherwise it returns
the key with the smallest position in `begin_position..out_end_position`
(inclusive) that passes the test of the find type, and the empty string when
no key at these positions passes. -/
theorem C24_find_amended (re : regex_lib) (m_index : index_t) (key_expression : string)
    (begin_position out_end_position : Nat) (find_type : find_t)
    (hft : find_type ≠ .FIND_TYPE_NEXT) :
    (find re m_index key_expression begin_position find_type out_end_position).out_end_position =
      out_end_position ∧
    (re.well_formed key_expression = false →
      (find re m_index key_expression begin_position .FIND_TYPE_REGEX out_end_position).result =
        .thrown .regex_error) ∧
    (re.well_formed key_expression = true →
      ((begin_position ≥ count m_index ∨ out_end_position ≥ count m_index) →
        (find re m_index key_expression begin_position find_type out_end_position).result =
          .thrown .out_of_range) ∧
      (begin_position < count m_index → out_end_position < count m_index →
        (∀ i, begin_position ≤ i → i ≤ out_end_position →
          find_test re find_type key_expression (m_index.getD i []) = true →
          (∀ j, begin_position ≤ j → j < i →
            find_test re find_type key_expression (m_index.getD j []) = false) →
          (find re m_index key_expression begin_position find_type out_end_position).result =
            .returned (m_index.getD i [])) ∧
        ((∀ j, begin_position ≤ j → j ≤ out_end_position →
            find_test re find_type key_expression (m_index.getD j []) = false) →
          (find re m_index key_expression begin_position find_type out_end_position).result =
            .returned []))) := by
  refine ⟨?_, ?_, ?_⟩
  · unfold find
    split
    · rfl
    · split
      · rfl
      · split
        · rfl
        · split <;> rfl
  · intro hw
    unfold find
    simp [hw]
  · intro hw
    constructor
    · intro hpos
      unfold find count at *
      rw [hw]
      simp only [Bool.not_true, Bool.false_eq_true, if_false]
      by_cases hb : begin_position ≥ m_index.length
      · rw [if_pos hb]
      · rw [if_neg hb]
        have he : out_end_position ≥ m_index.length := hpos.resolve_left hb
        rw [if_pos he]
    · intro hb he
      unfold count at hb he
      rw [find_in_range hw hb he hft]
      constructor
      · intro i hi1 hi2 ht hf
        exact find_loop_first m_index _ _ begin_position i (by omega) hi1 (by omega) ht hf
      · intro hf
        by_cases hbe : begin_position ≤ out_end_position
        · exact find_loop_none m_index _ _ begin_position (by omega)
            (fun j hj1 hj2 => hf j hj1 (by omega))
        · have : out_end_position + 1 - begin_position = 0 := by omega
          rw [this]
          rfl

theorem C24_witness :
    find_t.FIND_TYPE_EXACT ≠ find_t.FIND_TYPE_NEXT ∧
    (find re_w ["ab".toList, "b".toList, "ba".toList] "b".toList 0 .FIND_TYPE_EXACT
      2).out_end_position = 2 ∧
    (find re_w ["ab".toList, "b".toList, "ba".toList] "b".toList 0 .FIND_TYPE_EXACT 2).result =
      .returned "b".toList ∧
    (find re_w ["ab".toList, "b".toList, "ba".toList] "b".toList 3 .FIND_TYPE_EXACT 2).result =
      .thrown .out_of_range :=
  ⟨by decide,
    (C24_find_amended re_w ["ab".toList, "b".toList, "ba".toList] "b".toList 0 2 .FIND_TYPE_EXACT
      (by decide)).1,
    (((C24_find_amended re_w ["ab".toList, "b".toList, "ba".toList] "b".toList 0 2 .FIND_TYPE_EXACT
      (by decide)).2.2 (by decide)).2 (by decide) (by decide)).1 1 (by decide) (by decide)
        (by decide) (by decide),
    ((C24_find_amended re_w ["ab".toList, "b".toList, "ba".toList] "b".toList 3 2 .FIND_TYPE_EXACT
      (by decide)).2.2 (by decide)).1 (Or.inl (by decide))⟩

/-- C26 (refuted on the code): with find type PREFIX the test is
`key.find(key_expression) != string::npos`, which accepts a key that holds
the expression anywhere.  On the index holding the one key `xab`, `find` of
`ab` at positions 0..0 returns `xab` (given that `std::regex` accepts `ab`),
a non-empty result that does not begin with `ab`. -/
theorem C26_prefix_find_is_substring (re : regex_lib) :
    (find re ["xab".toList] "ab".toList 0 .FIND_TYPE_PREFIX 0).result =
      (if re.well_formed "ab".toList then .returned "xab".toList else .thrown .regex_error) ∧
    (find re_w ["xab".toList] "ab".toList 0 .FIND_TYPE_PREFIX 0).result = .returned "xab".toList ∧
    "xab".toList ≠ [] ∧ ¬ ("ab".toList <+: "xab".toList) ∧
    find_test re .FIND_TYPE_PREFIX "ab".toList "xab".toList = true := by
  refine ⟨?_, by decide, by decide, by decide, rfl⟩
  unfold find
  cases re.well_formed "ab".toList with
  | false => rfl
  | true => rfl

end RamRBTree
end Comanche

namespace Comanche
namespace Append_store

/-! ## Splitting an iterator -/

/-- The numbers below `n` that are `k` modulo `w`, ascending. -/
theorem filter_mod_succ (w n k : Nat) :
    (List.range (n + 1)).filter (fun j => j % w = k) =
      (List.range n).filter (fun j => j % w = k) ++ (if n % w = k then [n] else []) := by
  rw [List.range_succ, List.filter_append]
  by_cases h : n % w = k
  · simp [h]
  · simp [h]

theorem succ_div_mod (w n : Nat) (hw : 0 < w) :
    (n % w + 1 < w → (n + 1) / w = n / w ∧ (n + 1) % w = n % w + 1) ∧
    (n % w + 1 = w → (n + 1) / w = n / w + 1 ∧ (n + 1) % w = 0) := by
  have h := Nat.div_add_mod n w
  have hlt := Nat.mod_lt n hw
  have e : n + 1 = (n % w + 1) + w * (n / w) := by omega
  constructor
  · intro hs
    rw [e, Nat.add_mul_div_left _ _ hw, Nat.add_mul_mod_self_left, Nat.div_eq_of_lt hs,
      Nat.mod_eq_of_lt hs]
    omega
  · intro hs
    rw [e, Nat.add_mul_div_left _ _ hw, Nat.add_mul_mod_self_left, hs, Nat.div_self hw,
      Nat.mod_self]
    omega

theorem length_filter_mod (w : Nat) (hw : 0 < w) (k : Nat) (hk : k < w) :
    ∀ n, ((List.range n).filter (fun j => j % w = k)).length =
      n / w + (if k < n % w then 1 else 0) := by
  intro n
  induction n with
  | zero => simp
  | succ n ih =>
    rw [filter_mod_succ, List.length_append, ih]
    have hlt := Nat.mod_lt n hw
    obtain ⟨h1, h2⟩ := succ_div_mod w n hw
    by_cases hs : n % w + 1 < w
    · obtain ⟨e1, e2⟩ := h1 hs
      rw [e1, e2]
      by_cases hnk : n % w = k
      · simp [hnk]
      · by_cases hk2 : k < n % w
        · simp [hnk, hk2, Nat.lt_succ_of_lt hk2]
        · have : ¬ k < n % w + 1 := by omega
          simp [hnk, hk2, this]
    · have hs' : n % w + 1 = w := by omega
      obtain ⟨e1, e2⟩ := h2 hs'
      rw [e1, e2]
      by_cases hnk : n % w = k
      · have : ¬ k < n % w := by omega
        simp [hnk]
      · have : k < n % w := by omega
        simp [hnk, this]

theorem getElem?_filter_mod (w : Nat) (hw : 0 < w) :
    ∀ n j, j < n → ((List.range n).filter (fun i => i % w = j % w))[j / w]? = some j := by
  intro n
  induction n with
  | zero => intro j hj; omega
  | succ n ih =>
    intro j hj
    rw [filter_mod_succ]
    by_cases hjn : j < n
    · have := ih j hjn
      have hlen : j / w < ((List.range n).filter (fun i => i % w = j % w)).length := by
        by_contra hc
        rw [List.getElem?_eq_none (by omega)] at this
        cases this
      rw [List.getElem?_append_left hlen, this]
    · have hjn' : j = n := by omega
      subst hjn'
      have hlen := length_filter_mod w hw (j % w) (Nat.mod_lt j hw) j
      simp only [lt_self_iff_false, if_false, Nat.add_zero] at hlen
      rw [if_pos rfl, List.getElem?_append_right (by omega), hlen, Nat.sub_self]
      rfl

theorem sum_indicator_lt : ∀ w r : Nat, r ≤ w →
    ((List.range w).map (fun k => if k < r then 1 else 0)).sum = r := by
  intro w
  induction w with
  | zero => intro r hr; simp; omega
  | succ w ih =>
    intro r hr
    rw [List.sum_range_succ]
    by_cases h : r ≤ w
    · rw [ih r h, if_neg (by omega), Nat.add_zero]
    · have hr' : r = w + 1 := by omega
      subst hr'
      have : (List.range w).map (fun k => if k < w + 1 then 1 else 0) =
          (List.range w).map (fun k => if k < w then 1 else 0) := by
        apply List.map_congr_left
        intro k hk
        have := List.mem_range.1 hk
        simp [this, Nat.lt_succ_of_lt this]
      rw [this, ih w (le_refl _)]
      simp

end Append_store
end Comanche

namespace Comanche
namespace Append_store

/-- After the second loop has run for the records `0 .. n - 1`, iterator `k`
has got, in order, the records whose number is `k` modulo `ways`. -/
theorem getElem?_distribute (ways : Nat) (source : List __record_t) (iv : List __iterator_t)
    (k : Nat) :
    ∀ n, (distribute ways source iv n)[k]? =
      iv[k]?.map (fun e => { e with record_vector := e.record_vector ++
        ((List.range n).filter (fun j => j % ways = k)).map (fun j => source.getD j ⟨0, 0⟩) }) := by
  intro n
  induction n with
  | zero =>
    unfold distribute
    cases h : iv[k]? with
    | none => simp [h]
    | some e => simp [h]
  | succ n ih =>
    have hstep : distribute ways source iv (n + 1) =
        push_record ways (distribute ways source iv n) n (source.getD n ⟨0, 0⟩) := by
      unfold distribute
      rw [List.range_succ, List.foldl_append]
      rfl
    rw [hstep]
    unfold push_record
    rw [List.getElem?_modify, ih, filter_mod_succ]
    cases h : iv[k]? with
    | none => rfl
    | some e =>
      by_cases hk : n % ways = k
      · simp [hk]
      · simp [hk]

/-- The iterators that `split_iterator` makes. -/
theorem split_iterator_out (source_iter : __iterator_t) (ways : Nat)
    (out_iter_vector : List __iterator_t) (h2 : 2 ≤ ways) (hw : ways < 2 ^ 32)
    (hn : source_iter.record_vector.length < 2 ^ 32) :
    split_iterator (some source_iter) ways out_iter_vector =
      (.returned (), (List.range ways).map (fun k =>
        ⟨APPEND_STORE_ITERATOR_MAGIC, 0,
          ((List.range source_iter.record_vector.length).filter (fun j => j % ways = k)).length,
          ((List.range source_iter.record_vector.length).filter (fun j => j % ways = k)).map
            (fun j => source_iter.record_vector.getD j ⟨0, 0⟩)⟩)) := by
  unfold split_iterator
  simp only [if_neg (show ¬ ways < 2 by omega),
    if_neg (show ¬ (2 ^ 32 ≤ ways ∨ 2 ^ 32 ≤ source_iter.record_vector.length) by omega)]
  congr 1
  apply List.ext_getElem?
  intro k
  rw [List.getElem?_map, getElem?_distribute, List.getElem?_map, List.getElem?_map]
  by_cases hk : k < ways
  · rw [List.getElem?_range hk]
    simp
  · rw [List.getElem?_eq_none (by simpa using hk)]
    rfl

end Append_store
end Comanche

namespace Comanche
namespace Append_store

/-- C27: `split_iterator(iter, ways, out)` with a non-null source and
`2 <= ways` (fewer than `2^32` ways and records, the range of the `unsigned`
loop counters) returns with `out` holding exactly `ways` iterators; record
`j` of the source, counted from the first record whatever the source's
`current_idx`, is record `j / ways` of output iterator `j mod ways`; the
record counts of the outputs sum to the record count of the source and each
is `n / ways` or `n / ways + 1`; every output has `current_idx` 0,
`exceeded_idx` equal to its record count and the iterator magic.  With
`ways < 2` or a null source the call raises `API_exception` and `out` is as
it was. -/
theorem C27_split_iterator (source_iter : __iterator_t) (ways : Nat)
    (out_iter_vector : List __iterator_t) (h2 : 2 ≤ ways) (hw : ways < 2 ^ 32)
    (hn : source_iter.record_vector.length < 2 ^ 32) :
    (split_iterator (some source_iter) ways out_iter_vector).1 = .returned () ∧
    (split_iterator (some source_iter) ways out_iter_vector).2.length = ways ∧
    (∀ j (hj : j < source_iter.record_vector.length),
      (((split_iterator (some source_iter) ways out_iter_vector).2.getD (j % ways)
        ⟨0, 0, 0, []⟩).record_vector)[j / ways]? = some (source_iter.record_vector.get ⟨j, hj⟩)) ∧
    ((split_iterator (some source_iter) ways out_iter_vector).2.map
      (fun e => e.record_vector.length)).sum = source_iter.record_vector.length ∧
    (∀ e ∈ (split_iterator (some source_iter) ways out_iter_vector).2,
      e.current_idx = 0 ∧ e.exceeded_idx = e.record_vector.length ∧
      e.magic = APPEND_STORE_ITERATOR_MAGIC ∧
      (e.record_vector.length = source_iter.record_vector.length / ways ∨
        e.record_vector.length = source_iter.record_vector.length / ways + 1)) ∧
    (∀ (iter : Option __iterator_t) (w : Nat), (w < 2 ∨ iter = none) →
      split_iterator iter w out_iter_vector = (.thrown .API_exception, out_iter_vector)) := by
  have hw0 : 0 < ways := by omega
  rw [split_iterator_out source_iter ways out_iter_vector h2 hw hn]
  refine ⟨rfl, by simp, ?_, ?_, ?_, ?_⟩
  · intro j hj
    have hk : j % ways < ways := Nat.mod_lt j hw0
    rw [List.getD_eq_getElem?_getD, List.getElem?_map, List.getElem?_range hk]
    simp only [Option.map_some', Option.getD_some, List.getElem?_map,
      getElem?_filter_mod ways hw0 _ j hj]
    rw [List.getD_eq_getElem _ _ hj]
    rfl
  · rw [List.map_map]
    have : (List.range ways).map ((fun e : __iterator_t => e.record_vector.length) ∘ fun k =>
        (⟨APPEND_STORE_ITERATOR_MAGIC, 0,
          ((List.range source_iter.record_vector.length).filter (fun j => j % ways = k)).length,
          ((List.range source_iter.record_vector.length).filter (fun j => j % ways = k)).map
            (fun j => source_iter.record_vector.getD j ⟨0, 0⟩)⟩ : __iterator_t)) =
        (List.range ways).map (fun k => source_iter.record_vector.length / ways +
          (if k < source_iter.record_vector.length % ways then 1 else 0)) := by
      apply List.map_congr_left
      intro k hk
      simp only [Function.comp, List.length_map]
      exact length_filter_mod ways hw0 k (List.mem_range.1 hk) _
    rw [this, List.sum_map_add, sum_indicator_lt ways _ (Nat.le_of_lt (Nat.mod_lt _ hw0))]
    simp only [List.map_const', List.sum_replicate, List.length_range, smul_eq_mul]
    exact Nat.div_add_mod _ _
  · intro e he
    obtain ⟨k, hk, rfl⟩ := List.mem_map.1 he
    have hlen := length_filter_mod ways hw0 k (List.mem_range.1 hk)
      source_iter.record_vector.length
    refine ⟨rfl, by simp, rfl, ?_⟩
    simp only [List.length_map]
    rw [hlen]
    by_cases h : k < source_iter.record_vector.length % ways
    · right; simp [h]
    · left; simp [h]
  · intro iter w h
    unfold split_iterator
    cases iter with
    | none => rfl
    | some it =>
      rcases h with h | h
      · simp only [if_pos h]
      · cases h

theorem C27_witness :
    (split_iterator (some ⟨APPEND_STORE_ITERATOR_MAGIC, 1, 3, [⟨10, 1⟩, ⟨11, 2⟩, ⟨13, 1⟩]⟩) 2
      []).1 = .returned () ∧
    (split_iterator (some ⟨APPEND_STORE_ITERATOR_MAGIC, 1, 3, [⟨10, 1⟩, ⟨11, 2⟩, ⟨13, 1⟩]⟩) 2
      []).2 = [⟨APPEND_STORE_ITERATOR_MAGIC, 0, 2, [⟨10, 1⟩, ⟨13, 1⟩]⟩,
        ⟨APPEND_STORE_ITERATOR_MAGIC, 0, 1, [⟨11, 2⟩]⟩] ∧
    (split_iterator (some ⟨APPEND_STORE_ITERATOR_MAGIC, 1, 3, [⟨10, 1⟩, ⟨11, 2⟩, ⟨13, 1⟩]⟩) 2
      []).2.length = 2 ∧
    split_iterator (some ⟨APPEND_STORE_ITERATOR_MAGIC, 1, 3, [⟨10, 1⟩]⟩) 1 [] =
      (.thrown .API_exception, []) :=
  ⟨(C27_split_iterator ⟨APPEND_STORE_ITERATOR_MAGIC, 1, 3, [⟨10, 1⟩, ⟨11, 2⟩, ⟨13, 1⟩]⟩ 2 []
      (by decide) (by decide) (by decide)).1,
    by decide,
    (C27_split_iterator ⟨APPEND_STORE_ITERATOR_MAGIC, 1, 3, [⟨10, 1⟩, ⟨11, 2⟩, ⟨13, 1⟩]⟩ 2 []
      (by decide) (by decide) (by decide)).2.1,
    (C27_split_iterator ⟨APPEND_STORE_ITERATOR_MAGIC, 1, 3, [⟨10, 1⟩, ⟨11, 2⟩, ⟨13, 1⟩]⟩ 2 []
      (by decide) (by decide) (by decide)).2.2.2.2.2
        (some ⟨APPEND_STORE_ITERATOR_MAGIC, 1, 3, [⟨10, 1⟩]⟩) 1 (Or.inl (by decide))⟩

end Append_store
end Comanche

namespace Comanche
namespace Append_store

/-- C28 (refuted on the code): with an IO buffer of 4096 bytes, blocks of
4096 bytes, a record of one block and the block-aligned offset 8192, no byte
of the buffer is available from the offset on, yet both overloads of `get`
issue the block read at that offset and return `S_OK`: the difference
`get_size(iob) - offset` wraps to `2^64 - 4096`, which is not below 4096.
The same holds for every offset beyond the buffer as long as the record
length in bytes is at most the wrapped difference.  When the offset is
within the buffer the test does what the claim says. -/
theorem C28_get_offset_beyond_buffer (E_INSUFFICIENT_SPACE : status_t) (NDEBUG : Bool)
    (data_lba queue_id : Int) :
    get ⟨4096, E_INSUFFICIENT_SPACE, NDEBUG⟩ (data_lba, 1) 4096 8192 queue_id =
      (.returned S_OK, [⟨8192, data_lba, 1, queue_id⟩]) ∧
    get_by_key ⟨4096, E_INSUFFICIENT_SPACE, NDEBUG⟩ (data_lba, 1) 4096 8192 queue_id =
      (.returned S_OK, [⟨8192, data_lba, 1, queue_id⟩]) ∧
    (4096 + 2 ^ 64 - 8192) % 2 ^ 64 = 2 ^ 64 - 4096 ∧
    (∀ (block_size iob_size offset : Nat) (data_len : Int),
      0 < block_size → offset % block_size = 0 → iob_size < offset → offset < 2 ^ 64 →
      0 < data_len → data_len * block_size ≤ iob_size + 2 ^ 64 - offset →
      get ⟨block_size, E_INSUFFICIENT_SPACE, NDEBUG⟩ (data_lba, data_len) iob_size offset
        queue_id = (.returned S_OK, [⟨offset, data_lba, data_len, queue_id⟩]) ∧
      get_by_key ⟨block_size, E_INSUFFICIENT_SPACE, NDEBUG⟩ (data_lba, data_len) iob_size offset
        queue_id = (.returned S_OK, [⟨offset, data_lba, data_len, queue_id⟩])) ∧
    (∀ (block_size iob_size offset : Nat) (data_len : Int),
      0 < block_size → offset % block_size = 0 → offset ≤ iob_size → iob_size < 2 ^ 64 →
      0 ≤ data_len → data_len * block_size < 2 ^ 64 →
      ((iob_size - offset : Nat) : Int) < data_len * block_size →
      get ⟨block_size, E_INSUFFICIENT_SPACE, NDEBUG⟩ (data_lba, data_len) iob_size offset
        queue_id = (.returned E_INSUFFICIENT_SPACE, []) ∧
      get_by_key ⟨block_size, E_INSUFFICIENT_SPACE, NDEBUG⟩ (data_lba, data_len) iob_size offset
        queue_id = (.returned E_INSUFFICIENT_SPACE, [])) := by
  have key : ∀ (block_size iob_size offset : Nat) (data_len : Int),
      get_by_key ⟨block_size, E_INSUFFICIENT_SPACE, NDEBUG⟩ (data_lba, data_len) iob_size offset
        queue_id =
      get ⟨block_size, E_INSUFFICIENT_SPACE, NDEBUG⟩ (data_lba, data_len) iob_size offset
        queue_id := fun _ _ _ _ => rfl
  have gen : ∀ (block_size iob_size offset : Nat) (data_len : Int),
      0 < block_size → offset % block_size = 0 → iob_size < offset → offset < 2 ^ 64 →
      0 < data_len → data_len * block_size ≤ iob_size + 2 ^ 64 - offset →
      get ⟨block_size, E_INSUFFICIENT_SPACE, NDEBUG⟩ (data_lba, data_len) iob_size offset
        queue_id = (.returned S_OK, [⟨offset, data_lba, data_len, queue_id⟩]) := by
    intro block_size iob_size offset data_len hb ha hio ho hd hle
    have hnn : 0 ≤ data_len * (block_size : Int) :=
      Int.mul_nonneg (Int.le_of_lt hd) (Int.ofNat_nonneg _)
    have hlt : data_len * (block_size : Int) < 2 ^ 64 := by omega
    have hmod : (data_len * (block_size : Int)) % 2 ^ 64 = data_len * block_size :=
      Int.emod_eq_of_lt hnn hlt
    have hl : (iob_size + 2 ^ 64 - offset) % 2 ^ 64 = iob_size + 2 ^ 64 - offset :=
      Nat.mod_eq_of_lt (by omega)
    unfold get
    simp only [if_neg (Nat.pos_iff_ne_zero.1 hb), ha, ne_eq, not_true_eq_false, if_false, hmod, hl]
    rw [if_neg (by omega), if_neg (by simp [hd])]
  refine ⟨?_, ?_, by decide, ?_, ?_⟩
  · exact gen 4096 4096 8192 1 (by decide) (by decide) (by decide) (by decide) (by decide)
      (by decide)
  · rw [key]
    exact gen 4096 4096 8192 1 (by decide) (by decide) (by decide) (by decide) (by decide)
      (by decide)
  · intro block_size iob_size offset data_len hb ha hio ho hd hle
    rw [key]
    exact ⟨gen _ _ _ _ hb ha hio ho hd hle, gen _ _ _ _ hb ha hio ho hd hle⟩
  · intro block_size iob_size offset data_len hb ha hio hs hd hlt hins
    rw [key]
    have hmod : (data_len * (block_size : Int)) % 2 ^ 64 = data_len * block_size :=
      Int.emod_eq_of_lt (Int.mul_nonneg hd (Int.ofNat_nonneg _)) hlt
    have hl : (iob_size + 2 ^ 64 - offset) % 2 ^ 64 = iob_size - offset := by
      have : iob_size + 2 ^ 64 - offset = (iob_size - offset) + 2 ^ 64 := by omega
      rw [this, Nat.add_mod_right, Nat.mod_eq_of_lt (by omega)]
    have hg : get ⟨block_size, E_INSUFFICIENT_SPACE, NDEBUG⟩ (data_lba, data_len) iob_size offset
        queue_id = (.returned E_INSUFFICIENT_SPACE, []) := by
      unfold get
      simp only [if_neg (Nat.pos_iff_ne_zero.1 hb), ha, ne_eq, not_true_eq_false, if_false, hmod,
        hl]
      rw [if_pos (by omega)]
    exact ⟨hg, hg⟩

end Append_store
end Comanche

namespace Comanche
namespace Fabric

/-! ## The results of `cq_read` -/

end Fabric
end Comanche

namespace Comanche
namespace Fabric

end Fabric
end Comanche

namespace Comanche
namespace Fabric

end Fabric
end Comanche

namespace Comanche
namespace Fabric

end Fabric
end Comanche

namespace Comanche
namespace Fabric

/-! ## Counting posts and consumed completions -/

theorem length_filter_remove_one {α : Type} [DecidableEq α] (p p1 : α → Bool) (a : α) :
    ∀ l : List α, l.Nodup → a ∈ l → p a = true → p1 a = false →
      (∀ x, x ≠ a → p1 x = p x) → (l.filter p1).length + 1 = (l.filter p).length := by
  intro l
  induction l with
  | nil => intro _ h; cases h
  | cons b l ih =>
    intro hnd hm hpa hp1a hne
    obtain ⟨hb, hnd'⟩ := List.nodup_cons.1 hnd
    by_cases hba : b = a
    · subst hba
      have hl : l.filter p1 = l.filter p := by
        apply List.filter_congr
        intro x hx
        exact hne x (fun e => hb (e ▸ hx))
      simp [List.filter_cons, hpa, hp1a, hl]
    · have hm' : a ∈ l := (List.mem_cons.1 hm).resolve_left (fun e => hba e.symm)
      have := ih hnd' hm' hpa hp1a hne
      rw [List.filter_cons, List.filter_cons, hne b hba]
      by_cases hpb : p b = true
      · simp only [hpb, if_true, List.length_cons]
        omega
      · simp only [hpb, if_false]
        exact this

/-- Bookkeeping after a record of `this` was consumed. -/
theorem eff_free {this : group_t} {st st1 : State} {a : addr_t} {r : async_req_record}
    (hwf : st.WF) (hr : st.records a = some r) (hc : r.comm = this)
    (hp : st1.posted = st.posted)
    (hrec : ∀ x, st1.records x = if x = a then none else st.records x)
    (hct : ∀ g, (st1.comm g)._stats.ct_total = (st.comm g)._stats.ct_total)
    (hq : ∀ g c, c ∈ (st1.comm g)._completions →
      c.1.op_context ∈ st.used ∧ ∀ r, st.records c.1.op_context = some r → r.comm = g) :
    State.Eff this 1 st st1 := by
  obtain ⟨hnd, hu, _⟩ := hwf
  have hused : st1.used = st.used := by unfold State.used; rw [hp]
  have ha : a ∈ st.used := hu a (by rw [hr]; simp)
  have hmono : ∀ x r', st1.records x = some r' → st.records x = some r' := by
    intro x r' h
    rw [hrec] at h
    by_cases hx : x = a
    · rw [if_pos hx] at h; cases h
    · rw [if_neg hx] at h; exact h
  refine ⟨hp, ?_, ?_, hct, hmono, ?_⟩
  · unfold State.outstanding
    rw [hused]
    apply length_filter_remove_one _ _ a st.used hnd ha
    · simp [State.tag_at, hr, hc]
    · simp [State.tag_at, hrec]
    · intro x hx
      simp [State.tag_at, hrec, hx]
  · intro g hg
    unfold State.outstanding
    rw [hused]
    congr 1
    apply List.filter_congr
    intro x _
    by_cases hx : x = a
    · subst hx
      have hne : r.comm ≠ g := by rw [hc]; exact fun e => hg e.symm
      simp [State.tag_at, hrec, hr, hne]
    · simp [State.tag_at, hrec, hx]
  · refine ⟨by rw [hused]; exact hnd, ?_, ?_⟩
    · intro x hx
      rw [hused]
      apply hu
      intro hn
      apply hx
      rw [hrec, hn]
      simp
    · intro g c hcm
      rw [hused]
      exact ⟨(hq g c hcm).1, fun r' hr' => (hq g c hcm).2 r' (hmono _ _ hr')⟩

/-- Bookkeeping after a step that consumed nothing. -/
theorem eff_keep {this : group_t} {st st1 : State} (hwf : st.WF)
    (hp : st1.posted = st.posted) (hrec : ∀ x, st1.records x = st.records x)
    (hct : ∀ g, (st1.comm g)._stats.ct_total = (st.comm g)._stats.ct_total)
    (hq : ∀ g c, c ∈ (st1.comm g)._completions →
      c.1.op_context ∈ st.used ∧ ∀ r, st.records c.1.op_context = some r → r.comm = g) :
    State.Eff this 0 st st1 := by
  obtain ⟨hnd, hu, _⟩ := hwf
  have hused : st1.used = st.used := by unfold State.used; rw [hp]
  have hout : ∀ g, st1.outstanding g = st.outstanding g := by
    intro g
    unfold State.outstanding
    rw [hused]
    congr 1
    apply List.filter_congr
    intro x _
    simp [State.tag_at, hrec]
  refine ⟨hp, by rw [hout, Nat.add_zero], fun g _ => hout g, hct, fun a r h => by rw [← hrec]; exact h, ?_⟩
  refine ⟨by rw [hused]; exact hnd, ?_, ?_⟩
  · intro x hx
    rw [hused]
    exact hu x (by rw [← hrec]; exact hx)
  · intro g c hcm
    rw [hused]
    exact ⟨(hq g c hcm).1, fun r' hr' => (hq g c hcm).2 r' (by rw [← hrec]; exact hr')⟩

theorem eff_trans {this : group_t} {n1 n2 : Nat} {st st1 st2 : State}
    (h1 : State.Eff this n1 st st1) (h2 : State.Eff this n2 st1 st2) :
    State.Eff this (n1 + n2) st st2 := by
  obtain ⟨a1, a2, a3, a4, a5, _⟩ := h1
  obtain ⟨b1, b2, b3, b4, b5, b6⟩ := h2
  refine ⟨by rw [b1, a1], by omega, fun g hg => by rw [b3 g hg, a3 g hg],
    fun g => by rw [b4, a4], fun a r h => a5 a r (b5 a r h), b6⟩

end Fabric
end Comanche

namespace Comanche
namespace Fabric

theorem conn_queue_completion_proj (st : State) (g0 : group_t) (s : status_t)
    (e : fi_cq_entry_t) :
    (conn_queue_completion st g0 s e).posted = st.posted ∧
    (conn_queue_completion st g0 s e).records = st.records ∧
    (conn_queue_completion st g0 s e).called = st.called ∧
    (∀ g, ((conn_queue_completion st g0 s e).comm g)._stats = (st.comm g)._stats) ∧
    (∀ g c, c ∈ ((conn_queue_completion st g0 s e).comm g)._completions →
      c ∈ (st.comm g)._completions ∨ (c = (e, s) ∧ g = g0)) := by
  unfold conn_queue_completion
  by_cases h : g0 ∈ st.clients
  · rw [if_pos h]
    refine ⟨rfl, rfl, rfl, ?_, ?_⟩
    · intro g
      by_cases hg : g = g0
      · subst hg; simp [Fabric_comm_grouped.queue_completion]
      · simp [hg]
    · intro g c hc
      by_cases hg : g = g0
      · subst hg
        simp [Fabric_comm_grouped.queue_completion] at hc
        rcases hc with hc | hc
        · exact Or.inl hc
        · exact Or.inr ⟨hc, rfl⟩
      · simp [hg] at hc
        exact Or.inl hc
  · rw [if_neg h]
    exact ⟨rfl, rfl, rfl, fun _ => rfl, fun _ _ hc => Or.inl hc⟩

/-- A change of the counters `redirect_total` or `defer_total` of a group
leaves queues and `ct_total` as they are. -/
theorem incr_proj (st : State) (this : group_t) :
    (∀ g, ((st.incr_redirect_total this).comm g)._completions = (st.comm g)._completions) ∧
    (∀ g, ((st.incr_redirect_total this).comm g)._stats.ct_total = (st.comm g)._stats.ct_total) ∧
    (∀ g, ((st.incr_defer_total this).comm g)._completions = (st.comm g)._completions) ∧
    (∀ g, ((st.incr_defer_total this).comm g)._stats.ct_total = (st.comm g)._stats.ct_total) := by
  refine ⟨?_, ?_, ?_, ?_⟩ <;>
  · intro g
    by_cases hg : g = this
    · subst hg; simp [State.incr_redirect_total, State.incr_defer_total]
    · simp [State.incr_redirect_total, State.incr_defer_total, hg]

theorem process_eff {this : group_t} {cb_ : definite_completer} {e : fi_cq_entry_t}
    {s : status_t} {st st1 : State} {n : Nat} (hwf : st.WF)
    (h : process_or_queue_completion this cb_ e s st = (.returned n, st1)) :
    State.Eff this n st st1 := by
  unfold process_or_queue_completion at h
  cases hr : st.records e.op_context with
  | none => rw [hr] at h; cases h
  | some r =>
    rw [hr] at h
    simp only at h
    by_cases hc : r.comm = this
    · rw [if_pos hc] at h
      injection h with h1 h2
      injection h1 with h1
      subst h1 h2
      exact eff_free hwf hr hc rfl (fun x => State.records_free _ _ _) (fun _ => rfl)
        (fun g c hcm => hwf.2.2 g c hcm)
    · rw [if_neg hc] at h
      injection h with h1 h2
      injection h1 with h1
      subst h1 h2
      obtain ⟨p1, p2, _, p4, p5⟩ := conn_queue_completion_proj st r.comm s e
      obtain ⟨i1, i2, _, _⟩ := incr_proj (conn_queue_completion st r.comm s e) this
      apply eff_keep hwf
      · exact p1
      · intro x
        show (conn_queue_completion st r.comm s e).records x = _
        rw [p2]
      · intro g
        rw [i2, p4]
      · intro g c hcm
        rw [i1] at hcm
        rcases p5 g c hcm with hold | ⟨rfl, rfl⟩
        · exact hwf.2.2 g c hold
        · exact ⟨hwf.2.1 _ (by rw [hr]; simp), fun r' hr' => by
            rw [hr] at hr'; injection hr' with hr'; rw [← hr']⟩

theorem process_tentative_eff {this : group_t} {cb_ : tentative_completer} {e : fi_cq_entry_t}
    {s : status_t} {st st1 : State} {n : Nat} (hwf : st.WF)
    (h : process_or_queue_completion_tentative this cb_ e s st = (.returned n, st1)) :
    State.Eff this n st st1 := by
  unfold process_or_queue_completion_tentative at h
  cases hr : st.records e.op_context with
  | none => rw [hr] at h; cases h
  | some r =>
    rw [hr] at h
    simp only at h
    by_cases hc : r.comm = this
    · rw [if_pos hc] at h
      by_cases ha : cb_.answer st.called (cb_.call this r.context s e) = .ACCEPT
      · rw [if_pos ha] at h
        injection h with h1 h2
        injection h1 with h1
        subst h1 h2
        exact eff_free hwf hr hc rfl (fun x => State.records_free _ _ _) (fun _ => rfl)
          (fun g c hcm => hwf.2.2 g c hcm)
      · rw [if_neg ha] at h
        injection h with h1 h2
        injection h1 with h1
        subst h1 h2
        obtain ⟨p1, p2, _, p4, p5⟩ :=
          conn_queue_completion_proj (st.invoke (cb_.call this r.context s e)) r.comm s e
        obtain ⟨_, _, i3, i4⟩ := incr_proj
          (conn_queue_completion (st.invoke (cb_.call this r.context s e)) r.comm s e) this
        apply eff_keep hwf
        · exact p1
        · intro x
          show (conn_queue_completion (st.invoke (cb_.call this r.context s e)) r.comm s
            e).records x = _
          rw [p2]; rfl
        · intro g
          rw [i4, p4]; rfl
        · intro g c hcm
          rw [i3] at hcm
          rcases p5 g c hcm with hold | ⟨rfl, rfl⟩
          · exact hwf.2.2 g c hold
          · exact ⟨hwf.2.1 _ (by rw [hr]; simp), fun r' hr' => by
              rw [hr] at hr'; injection hr' with hr'; rw [← hr']⟩
    · rw [if_neg hc] at h
      injection h with h1 h2
      injection h1 with h1
      subst h1 h2
      obtain ⟨p1, p2, _, p4, p5⟩ := conn_queue_completion_proj st r.comm s e
      obtain ⟨i1, i2, _, _⟩ := incr_proj (conn_queue_completion st r.comm s e) this
      apply eff_keep hwf
      · exact p1
      · intro x
        show (conn_queue_completion st r.comm s e).records x = _
        rw [p2]
      · intro g
        rw [i2, p4]
      · intro g c hcm
        rw [i1] at hcm
        rcases p5 g c hcm with hold | ⟨rfl, rfl⟩
        · exact hwf.2.2 g c hold
        · exact ⟨hwf.2.1 _ (by rw [hr]; simp), fun r' hr' => by
            rw [hr] at hr'; injection hr' with hr'; rw [← hr']⟩

end Fabric
end Comanche

namespace Comanche
namespace Fabric

theorem eff_refl {this : group_t} {st : State} (hwf : st.WF) : State.Eff this 0 st st :=
  eff_keep hwf rfl (fun _ => rfl) (fun _ => rfl) hwf.2.2

theorem cq_loop_eff {this : group_t}
    {comp : fi_cq_entry_t → status_t → State → Result Nat × State}
    {comp_err : fi_cq_entry_t → State → Result Nat × State}
    (hc : ∀ e s st n st1, State.WF st → comp e s st = (.returned n, st1) →
      State.Eff this n st st1)
    (hce : ∀ e st n st1, State.WF st → comp_err e st = (.returned n, st1) →
      State.Eff this n st st1) :
    ∀ (evs : List cq_event) (st st1 : State) (n : Nat), st.WF →
      cq_loop comp comp_err evs st = (.returned n, st1) → State.Eff this n st st1 := by
  intro evs
  induction evs with
  | nil =>
    intro st st1 n hwf h
    simp only [cq_loop] at h
    injection h with h1 h2
    injection h1 with h1
    subst h1 h2
    exact eff_refl hwf
  | cons ev rest ih =>
    intro st st1 n hwf h
    have hwf0 : State.WF { st with cq := rest } := hwf
    cases ev with
    | completion entry =>
      simp only [cq_loop] at h
      cases hr : comp entry S_OK { st with cq := rest } with
      | mk o sa =>
        rw [hr] at h
        cases o with
        | returned ct =>
          simp only at h
          have e1 : State.Eff this ct st sa := hc entry S_OK { st with cq := rest } ct sa hwf0 hr
          cases hr2 : cq_loop comp comp_err rest sa with
          | mk o2 sb =>
            rw [hr2] at h
            cases o2 with
            | returned m =>
              simp only at h
              injection h with h1 h2
              injection h1 with h1
              subst h1 h2
              exact eff_trans e1 (ih sa sb m e1.2.2.2.2.2 hr2)
            | fabric_runtime_error e' => simp only at h; cases h
            | fault => simp only at h; cases h
        | fabric_runtime_error e' => simp only at h; cases h
        | fault => simp only at h; cases h
    | error e err =>
      simp only [cq_loop] at h
      by_cases h1 : unsigned e = FI_EAVAIL
      · simp only [h1, if_true] at h
        cases hr : comp_err err { st with cq := rest } with
        | mk o sa =>
          rw [hr] at h
          cases o with
          | returned ct =>
            simp only at h
            have e1 : State.Eff this ct st sa := hce err { st with cq := rest } ct sa hwf0 hr
            cases hr2 : cq_loop comp comp_err rest sa with
            | mk o2 sb =>
              rw [hr2] at h
              cases o2 with
              | returned m =>
                simp only at h
                injection h with h1 h2
                injection h1 with h1
                subst h1 h2
                exact eff_trans e1 (ih sa sb m e1.2.2.2.2.2 hr2)
              | fabric_runtime_error e' => simp only at h; cases h
              | fault => simp only at h; cases h
          | fabric_runtime_error e' => simp only at h; cases h
          | fault => simp only at h; cases h
      · simp only [h1, if_false] at h
        by_cases h2 : unsigned e = FI_EAGAIN
        · simp only [h2, if_true] at h
          injection h with ha hb
          injection ha with ha
          subst ha hb
          exact eff_refl hwf
        · simp only [h2, if_false] at h
          by_cases h3 : unsigned e = FI_EINTR
          · simp only [h3, if_true] at h
            exact ih { st with cq := rest } st1 n hwf0 h
          · simp only [h3, if_false] at h
            cases h

end Fabric
end Comanche

namespace Comanche
namespace Fabric

/-- The state in which the front completion has been taken off the queue of
`this`: queues, as far as the bookkeeping goes. -/
theorem pop_queue_ok {this : group_t} {st : State} {q rest : List completion_t}
    (hwf : st.WF) (hsub : ∀ c ∈ rest, c ∈ q)
    (hq : ∀ c ∈ q, c.1.op_context ∈ st.used ∧
      ∀ r, st.records c.1.op_context = some r → r.comm = this) :
    ∀ g c, c ∈ ((st.set_comm this { st.comm this with _completions := rest }).comm
        g)._completions →
      c.1.op_context ∈ st.used ∧ ∀ r, st.records c.1.op_context = some r → r.comm = g := by
  intro g c hc
  by_cases hg : g = this
  · subst hg
    simp at hc
    exact hq c (hsub c hc)
  · simp [hg] at hc
    exact hwf.2.2 g c hc

theorem pop_queue_ct (this : group_t) (st : State) (rest : List completion_t) (g : group_t) :
    ((st.set_comm this { st.comm this with _completions := rest }).comm g)._stats.ct_total =
      (st.comm g)._stats.ct_total := by
  by_cases hg : g = this
  · subst hg; simp
  · simp [hg]

theorem drain_loop_eff {this : group_t} {cb_ : definite_completer} :
    ∀ (q : List completion_t) (st st1 : State) (n : Nat), st.WF →
      (∀ c ∈ q, c.1.op_context ∈ st.used ∧
        ∀ r, st.records c.1.op_context = some r → r.comm = this) →
      drain_loop this cb_ q st = (.returned n, st1) → State.Eff this n st st1 := by
  intro q
  induction q with
  | nil =>
    intro st st1 n hwf _ h
    simp only [drain_loop] at h
    injection h with h1 h2
    injection h1 with h1
    subst h1 h2
    exact eff_refl hwf
  | cons c rest ih =>
    intro st st1 n hwf hq h
    simp only [drain_loop, State.records_set_comm] at h
    cases hr : st.records c.1.op_context with
    | none => rw [hr] at h; cases h
    | some r =>
      rw [hr] at h
      simp only at h
      have hc : r.comm = this := (hq c (List.mem_cons_self _ _)).2 r hr
      have e1 : State.Eff this 1 st
          (((st.set_comm this { st.comm this with _completions := rest }).invoke
            (cb_.call this r.context c.2 c.1)).free c.1.op_context) :=
        eff_free hwf hr hc rfl (fun x => by simp) (fun g => pop_queue_ct this st rest g)
          (pop_queue_ok hwf (fun c' hc' => List.mem_cons_of_mem _ hc') hq)
      cases hd : drain_loop this cb_ rest
          (((st.set_comm this { st.comm this with _completions := rest }).invoke
            (cb_.call this r.context c.2 c.1)).free c.1.op_context) with
      | mk o sb =>
        rw [hd] at h
        cases o with
        | returned m =>
          simp only at h
          injection h with h1 h2
          injection h1 with h1
          subst h1 h2
          have e2 := ih _ sb m e1.2.2.2.2.2
            (fun c' hc' => ⟨(hq c' (List.mem_cons_of_mem _ hc')).1,
              fun r' hr' => (hq c' (List.mem_cons_of_mem _ hc')).2 r' (e1.2.2.2.2.1 _ _ hr')⟩) hd
          have := eff_trans e1 e2
          rw [Nat.add_comm] at this
          exact this
        | fabric_runtime_error e' => simp only at h; cases h
        | fault => simp only at h; cases h

theorem drain_loop_tentative_eff {this : group_t} {cb_ : tentative_completer} :
    ∀ (q deferred : List completion_t) (st st1 : State) (n : Nat), st.WF →
      (∀ c ∈ q, c.1.op_context ∈ st.used ∧
        ∀ r, st.records c.1.op_context = some r → r.comm = this) →
      (∀ c ∈ deferred, c.1.op_context ∈ st.used ∧
        ∀ r, st.records c.1.op_context = some r → r.comm = this) →
      drain_loop_tentative this cb_ q deferred st = (.returned n, st1) →
      State.Eff this n st st1 := by
  intro q
  induction q with
  | nil =>
    intro deferred st st1 n hwf _ hd h
    simp only [drain_loop_tentative] at h
    injection h with h1 h2
    injection h1 with h1
    subst h1 h2
    exact eff_keep hwf rfl (fun _ => rfl) (fun g => pop_queue_ct this st deferred g)
      (pop_queue_ok hwf (fun c hc => hc) hd)
  | cons c rest ih =>
    intro deferred st st1 n hwf hq hdef h
    simp only [drain_loop_tentative, State.records_set_comm, State.called_set_comm] at h
    cases hr : st.records c.1.op_context with
    | none => rw [hr] at h; cases h
    | some r =>
      rw [hr] at h
      simp only at h
      have hc : r.comm = this := (hq c (List.mem_cons_self _ _)).2 r hr
      by_cases ha : cb_.answer st.called (cb_.call this r.context c.2 c.1) = .ACCEPT
      · rw [if_pos ha] at h
        have e1 : State.Eff this 1 st
            (((st.set_comm this { st.comm this with _completions := rest }).invoke
              (cb_.call this r.context c.2 c.1)).free c.1.op_context) :=
          eff_free hwf hr hc rfl (fun x => by simp) (fun g => pop_queue_ct this st rest g)
            (pop_queue_ok hwf (fun c' hc' => List.mem_cons_of_mem _ hc') hq)
        cases hd : drain_loop_tentative this cb_ rest deferred
            (((st.set_comm this { st.comm this with _completions := rest }).invoke
              (cb_.call this r.context c.2 c.1)).free c.1.op_context) with
        | mk o sb =>
          rw [hd] at h
          cases o with
          | returned m =>
            simp only at h
            injection h with h1 h2
            injection h1 with h1
            subst h1 h2
            have e2 := ih deferred _ sb m e1.2.2.2.2.2
              (fun c' hc' => ⟨(hq c' (List.mem_cons_of_mem _ hc')).1,
                fun r' hr' => (hq c' (List.mem_cons_of_mem _ hc')).2 r' (e1.2.2.2.2.1 _ _ hr')⟩)
              (fun c' hc' => ⟨(hdef c' hc').1,
                fun r' hr' => (hdef c' hc').2 r' (e1.2.2.2.2.1 _ _ hr')⟩) hd
            have := eff_trans e1 e2
            rw [Nat.add_comm] at this
            exact this
          | fabric_runtime_error e' => simp only at h; cases h
          | fault => simp only at h; cases h
      · rw [if_neg ha] at h
        obtain ⟨_, _, i3, i4⟩ := incr_proj
          ((st.set_comm this { st.comm this with _completions := rest }).invoke
            (cb_.call this r.context c.2 c.1)) this
        have e1 : State.Eff this 0 st
            (((st.set_comm this { st.comm this with _completions := rest }).invoke
              (cb_.call this r.context c.2 c.1)).incr_defer_total this) := by
          refine eff_keep hwf ?_ ?_ ?_ ?_
          · rfl
          · intro x; rfl
          · intro g
            rw [i4]
            exact pop_queue_ct this st rest g
          · intro g c' hc'
            rw [i3] at hc'
            exact pop_queue_ok hwf (fun c' hc' => List.mem_cons_of_mem _ hc') hq g c' hc'
        have e2 := ih (deferred ++ [c]) _ st1 n e1.2.2.2.2.2
          (fun c' hc' => ⟨(hq c' (List.mem_cons_of_mem _ hc')).1,
            fun r' hr' => (hq c' (List.mem_cons_of_mem _ hc')).2 r' (e1.2.2.2.2.1 _ _ hr')⟩)
          (fun c' hc' => by
            rcases List.mem_append.1 hc' with hm | hm
            · exact ⟨(hdef c' hm).1, fun r' hr' => (hdef c' hm).2 r' (e1.2.2.2.2.1 _ _ hr')⟩
            · rw [List.mem_singleton.1 hm]
              exact ⟨(hq c (List.mem_cons_self _ _)).1,
                fun r' hr' => (hq c (List.mem_cons_self _ _)).2 r' (e1.2.2.2.2.1 _ _ hr')⟩) h
        have := eff_trans e1 e2
        rw [Nat.zero_add] at this
        exact this

end Fabric
end Comanche

namespace Comanche
namespace Fabric

/-- Bookkeeping at the end of a poll: `_stats.ct_total += ct_total`. -/
theorem eff_add_ct_total {this : group_t} {n : Nat} {st sb : State}
    (he : State.Eff this n st sb) :
    (sb.add_ct_total this n).WF ∧ (sb.add_ct_total this n).posted = st.posted ∧
    (∀ g, ((sb.add_ct_total this n).comm g)._stats.ct_total +
        (sb.add_ct_total this n).outstanding g =
      (st.comm g)._stats.ct_total + st.outstanding g) := by
  obtain ⟨a1, a2, a3, a4, _, a6⟩ := he
  have hq : ∀ g, ((sb.add_ct_total this n).comm g)._completions = (sb.comm g)._completions := by
    intro g
    by_cases hg : g = this
    · subst hg; simp [State.add_ct_total]
    · simp [State.add_ct_total, hg]
  have hout : ∀ g, (sb.add_ct_total this n).outstanding g = sb.outstanding g := fun _ => rfl
  refine ⟨⟨a6.1, a6.2.1, ?_⟩, a1, ?_⟩
  · intro g c hc
    rw [hq] at hc
    exact a6.2.2 g c hc
  · intro g
    rw [hout]
    by_cases hg : g = this
    · subst hg
      have : ((sb.add_ct_total g n).comm g)._stats.ct_total = (sb.comm g)._stats.ct_total + n := by
        simp [State.add_ct_total]
      rw [this, a4]
      omega
    · have : ((sb.add_ct_total this n).comm g)._stats.ct_total = (sb.comm g)._stats.ct_total := by
        simp [State.add_ct_total, hg]
      rw [this, a4, a3 g hg]

theorem poll_completions_inv {this : group_t} {cb_ : definite_completer} {st st1 : State}
    {n : Nat} (hwf : st.WF) (h : poll_completions this cb_ st = (.returned n, st1)) :
    st1.WF ∧ st1.posted = st.posted ∧
    (∀ g, (st1.comm g)._stats.ct_total + st1.outstanding g =
      (st.comm g)._stats.ct_total + st.outstanding g) := by
  unfold poll_completions drain_old_completions at h
  cases hd : drain_loop this cb_ (st.comm this)._completions st with
  | mk o sa =>
    rw [hd] at h
    cases o with
    | returned n0 =>
      simp only at h
      have e1 := drain_loop_eff _ st sa n0 hwf (fun c hc => hwf.2.2 this c hc) hd
      cases hl : cq_loop (process_or_queue_completion this cb_) (process_cq_comp_err this cb_)
          sa.cq sa with
      | mk o2 sb =>
        rw [hl] at h
        cases o2 with
        | returned n1 =>
          simp only at h
          injection h with h1 h2
          injection h1 with h1
          subst h1 h2
          have e2 := @cq_loop_eff this _ _
            (fun e s st n st1 hw hp => process_eff hw hp)
            (fun e st n st1 hw hp => process_eff hw hp) sa.cq sa sb n1 e1.2.2.2.2.2 hl
          exact eff_add_ct_total (eff_trans e1 e2)
        | fabric_runtime_error e' => simp only at h; cases h
        | fault => simp only at h; cases h
    | fabric_runtime_error e' => simp only at h; cases h
    | fault => simp only at h; cases h

theorem poll_completions_tentative_inv {this : group_t} {cb_ : tentative_completer}
    {st st1 : State} {n : Nat} (hwf : st.WF)
    (h : poll_completions_tentative this cb_ st = (.returned n, st1)) :
    st1.WF ∧ st1.posted = st.posted ∧
    (∀ g, (st1.comm g)._stats.ct_total + st1.outstanding g =
      (st.comm g)._stats.ct_total + st.outstanding g) := by
  unfold poll_completions_tentative drain_old_completions_tentative at h
  cases hl : cq_loop (process_or_queue_completion_tentative this cb_)
      (process_cq_comp_err_tentative this cb_) st.cq st with
  | mk o sa =>
    rw [hl] at h
    cases o with
    | returned n0 =>
      simp only at h
      have e1 := @cq_loop_eff this _ _
        (fun e s st n st1 hw hp => process_tentative_eff hw hp)
        (fun e st n st1 hw hp => process_tentative_eff hw hp) st.cq st sa n0 hwf hl
      cases hd : drain_loop_tentative this cb_ (sa.comm this)._completions [] sa with
      | mk o2 sb =>
        rw [hd] at h
        cases o2 with
        | returned n1 =>
          simp only at h
          injection h with h1 h2
          injection h1 with h1
          subst h1 h2
          have e2 := drain_loop_tentative_eff _ [] sa sb n1 e1.2.2.2.2.2
            (fun c hc => e1.2.2.2.2.2.2.2 this c hc) (fun c hc => by cases hc) hd
          exact eff_add_ct_total (eff_trans e1 e2)
        | fabric_runtime_error e' => simp only at h; cases h
        | fault => simp only at h; cases h
    | fabric_runtime_error e' => simp only at h; cases h
    | fault => simp only at h; cases h

end Fabric
end Comanche

namespace Comanche
namespace Fabric

/-- Every posting operation creates the record at `gc`, tagged with the group
and the user context, and hands one call with context `gc` to the
connection. -/
theorem post_op_call_shape (op : post_op) (this : group_t) (context_ : Nat) (gc : addr_t)
    (st : State) :
    ∃ c : post_call, c.context = gc ∧
      op.call this context_ gc st = conn_post (st.new_record gc ⟨this, context_⟩) c := by
  cases op <;> exact ⟨_, rfl, rfl⟩

theorem post_inv {this : group_t} {context_ : Nat} {gc : addr_t} {st : State} {c : post_call}
    (hwf : st.WF) (hgc : gc ∉ st.used) (hc : c.context = gc) :
    (conn_post (st.new_record gc ⟨this, context_⟩) c).WF ∧
    (∀ g, (conn_post (st.new_record gc ⟨this, context_⟩) c).outstanding g =
      st.outstanding g + (if this = g then 1 else 0)) := by
  have hused : (conn_post (st.new_record gc ⟨this, context_⟩) c).used = st.used ++ [gc] := by
    simp [State.used, conn_post, State.new_record, hc]
  have hrec : ∀ a, (conn_post (st.new_record gc ⟨this, context_⟩) c).records a =
      if a = gc then some ⟨this, context_⟩ else st.records a := by
    intro a
    by_cases ha : a = gc
    · subst ha; simp [conn_post, State.new_record]
    · simp [conn_post, State.new_record, ha]
  have hcomm : ∀ g, (conn_post (st.new_record gc ⟨this, context_⟩) c).comm g = st.comm g :=
    fun _ => rfl
  refine ⟨⟨?_, ?_, ?_⟩, ?_⟩
  · rw [hused]
    exact List.nodup_append.2 ⟨hwf.1, List.nodup_singleton gc, by
      intro a ha hb
      rw [List.mem_singleton] at hb
      subst hb
      exact hgc ha⟩
  · intro a ha
    rw [hused]
    rw [hrec] at ha
    by_cases hag : a = gc
    · subst hag; simp
    · rw [if_neg hag] at ha
      exact List.mem_append_left _ (hwf.2.1 a ha)
  · intro g x hx
    rw [hcomm] at hx
    obtain ⟨h1, h2⟩ := hwf.2.2 g x hx
    refine ⟨by rw [hused]; exact List.mem_append_left _ h1, ?_⟩
    intro r hr
    rw [hrec] at hr
    have hne : x.1.op_context ≠ gc := fun e => hgc (e ▸ h1)
    rw [if_neg hne] at hr
    exact h2 r hr
  · intro g
    unfold State.outstanding
    rw [hused, List.filter_append, List.length_append]
    have h1 : st.used.filter
        (fun a => (conn_post (st.new_record gc ⟨this, context_⟩) c).tag_at a = some g) =
        st.used.filter (fun a => st.tag_at a = some g) := by
      apply List.filter_congr
      intro a ha
      have hne : a ≠ gc := fun e => hgc (e ▸ ha)
      simp only [State.tag_at, hrec, if_neg hne]
    rw [h1]
    congr 1
    have ht : (conn_post (st.new_record gc ⟨this, context_⟩) c).tag_at gc = some this := by
      unfold State.tag_at
      rw [hrec, if_pos rfl]
      rfl
    by_cases hg : this = g
    · subst hg
      simp [ht]
    · have hne : ¬ (some this = some g) := fun e => hg (Option.some.inj e)
      simp [ht, hg]

/-- The conservation law of a run: along every run that starts in a state
whose bookkeeping is in order, `ct_total` of a group plus the number of its
live records grows by exactly the number of operations posted through the
group. -/
theorem run_inv : ∀ (acts : List action) (st0 st : State), st0.WF → run acts st0 = some st →
    st.WF ∧ ∀ g, (st.comm g)._stats.ct_total + st.outstanding g =
      (st0.comm g)._stats.ct_total + st0.outstanding g + posted_through g acts
  | [], st0, st, hwf, h => by
    simp only [run, Option.some.injEq] at h
    subst h
    exact ⟨hwf, fun g => rfl⟩
  | a :: rest, st0, st, hwf, h => by
    simp only [run] at h
    cases hs : step st0 a with
    | none => rw [hs] at h; cases h
    | some s1 =>
      rw [hs] at h
      simp only at h
      cases a with
      | post this op context_ gc =>
        simp only [step] at hs
        by_cases hgc : gc ∈ st0.used
        · rw [if_pos hgc] at hs; cases hs
        · rw [if_neg hgc, Option.some.injEq] at hs
          obtain ⟨c, hc, hcall⟩ := post_op_call_shape op this context_ gc st0
          rw [hcall] at hs
          subst hs
          obtain ⟨w1, w2⟩ := @post_inv this context_ gc st0 c hwf hgc hc
          obtain ⟨i1, i2⟩ := run_inv rest _ st w1 h
          refine ⟨i1, fun g => ?_⟩
          rw [i2 g, w2 g]
          have : ((conn_post (st0.new_record gc ⟨this, context_⟩) c).comm g)._stats.ct_total =
              (st0.comm g)._stats.ct_total := rfl
          rw [this]
          simp only [posted_through]
          omega
      | arrive events =>
        simp only [step, Option.some.injEq] at hs
        subst hs
        obtain ⟨i1, i2⟩ := run_inv rest _ st (show State.WF { st0 with cq := st0.cq ++ events }
          from hwf) h
        refine ⟨i1, fun g => ?_⟩
        rw [i2 g]
        rfl
      | poll this cb_ =>
        simp only [step] at hs
        cases hp : poll_completions this cb_ st0 with
        | mk o s2 =>
          rw [hp] at hs
          cases o with
          | returned n =>
            simp only [Option.some.injEq] at hs
            subst hs
            obtain ⟨p1, _, p3⟩ := poll_completions_inv hwf hp
            obtain ⟨i1, i2⟩ := run_inv rest _ st p1 h
            refine ⟨i1, fun g => ?_⟩
            rw [i2 g, p3 g]
            rfl
          | fabric_runtime_error e => simp only at hs; cases hs
          | fault => simp only at hs; cases hs
      | poll_tentative this cb_ =>
        simp only [step] at hs
        cases hp : poll_completions_tentative this cb_ st0 with
        | mk o s2 =>
          rw [hp] at hs
          cases o with
          | returned n =>
            simp only [Option.some.injEq] at hs
            subst hs
            obtain ⟨p1, _, p3⟩ := poll_completions_tentative_inv hwf hp
            obtain ⟨i1, i2⟩ := run_inv rest _ st p1 h
            refine ⟨i1, fun g => ?_⟩
            rw [i2 g, p3 g]
            rfl
          | fabric_runtime_error e => simp only at hs; cases hs
          | fault => simp only at hs; cases hs

/-- A connection on which nothing was posted, with no live record and empty
deferred queues, has its bookkeeping in order. -/
theorem wf_of_fresh {st0 : State} (h0 : st0.posted = []) (hrec : ∀ a, st0.records a = none)
    (hq : ∀ g, (st0.comm g)._completions = []) : st0.WF ∧ ∀ g, st0.outstanding g = 0 := by
  refine ⟨⟨?_, ?_, ?_⟩, ?_⟩
  · simp [State.used, h0]
  · intro a ha; exact absurd (hrec a) ha
  · intro g c hc; rw [hq g] at hc; cases hc
  · intro g; simp [State.outstanding, State.used, h0]

end Fabric
end Comanche

namespace Comanche
namespace Fabric

/-- C22 (counterexample): two operations are posted through group 1 and two
through group 2; the four completions arrive interleaved; group 1 polls, then
group 2 polls.  Afterwards the shared completion queue and both deferred
queues are empty and no record is live, yet for group 1
`redirect_total + defer_total + ct_total` is 2 + 0 + 2 = 4 while 2 operations
were posted through it: its poll passed the two completions of group 2 on and
counted them in `redirect_total`. -/
theorem C22_counterexample :
    (run run_w fab_0).map (fun st => st.cq) = some [] ∧
    (run run_w fab_0).map (fun st => st.clients.map (fun g => (st.comm g)._completions)) =
      some [[], []] ∧
    (run run_w fab_0).map (fun st => (st.comm 1)._stats) = some ⟨2, 0, 2⟩ ∧
    (run run_w fab_0).map (fun st => (st.outstanding 1, st.outstanding 2)) = some (0, 0) ∧
    posted_through 1 run_w = 2 ∧
    (run run_w fab_0).map (fun st => decide
        ((st.comm 1)._stats.redirect_total + (st.comm 1)._stats.defer_total +
          (st.comm 1)._stats.ct_total = posted_through 1 run_w)) = some false := by
  decide

/-- C22 (amended): counter conservation.  For every group `g` and every run
of posts (each creating its record at a fresh address), arrivals and polls of
any flavors on any groups, every poll returning, begun on a connection with
nothing posted, no live record, empty deferred queues and `ct_total` zero:
the number of operations posted through `g` equals `ct_total` of `g` plus
the number of operations of `g` whose completion no callback has consumed
yet; so once none is left, `ct_total` of `g` is the number posted through
`g`. -/
theorem C22_counter_conservation (acts : List action) (st0 st : State) (g : group_t)
    (h0 : st0.posted = []) (hrec : ∀ a, st0.records a = none)
    (hq : ∀ g, (st0.comm g)._completions = [])
    (hct : ∀ g, (st0.comm g)._stats.ct_total = 0)
    (hrun : run acts st0 = some st) :
    posted_through g acts = (st.comm g)._stats.ct_total + st.outstanding g ∧
    (st.outstanding g = 0 → (st.comm g)._stats.ct_total = posted_through g acts) := by
  obtain ⟨hwf, hout⟩ := wf_of_fresh h0 hrec hq
  have h := (run_inv acts st0 st hwf hrun).2 g
  rw [hct g, hout g] at h
  constructor
  · omega
  · intro hz
    omega

theorem C22_witness :
    run run_w fab_0 = some fab_run_w ∧ fab_0.posted = [] ∧
    (posted_through 1 run_w = (fab_run_w.comm 1)._stats.ct_total + fab_run_w.outstanding 1 ∧
      (fab_run_w.outstanding 1 = 0 →
        (fab_run_w.comm 1)._stats.ct_total = posted_through 1 run_w)) :=
  ⟨rfl, rfl, C22_counter_conservation run_w fab_0 fab_run_w 1 rfl (fun _ => rfl) (fun _ => rfl)
    (fun _ => rfl) rfl⟩

end Fabric
end Comanche

namespace Comanche
namespace Fabric

/-! ## The read loop of the polls, result by result -/

end Fabric
end Comanche

namespace Comanche
namespace Fabric

end Fabric
end Comanche

namespace Comanche
namespace Fabric

end Fabric
end Comanche

namespace Comanche
namespace Fabric

/-! ## A tentative poll on a shared queue of any content -/

theorem own_cons_pos {st : State} {g : group_t} {c : completion_t} (cs : List completion_t)
    (h : st.tag c.1 = some g) : st.own g (c :: cs) = c :: st.own g cs := by
  unfold State.own
  rw [List.filter_cons_of_pos (by simpa using h)]

theorem own_cons_neg {st : State} {g : group_t} {c : completion_t} (cs : List completion_t)
    (h : st.tag c.1 ≠ some g) : st.own g (c :: cs) = st.own g cs := by
  unfold State.own
  rw [List.filter_cons_of_neg (by simpa using h)]

theorem own_congr {st st1 : State} {cs : List completion_t} (g : group_t)
    (h : ∀ c ∈ cs, st1.records c.1.op_context = st.records c.1.op_context) :
    st1.own g cs = st.own g cs := by
  unfold State.own
  apply List.filter_congr
  intro c hc
  unfold State.tag
  rw [h c hc]

theorem own_sublist (st : State) (g : group_t) (cs : List completion_t) :
    (st.own g cs).Sublist cs := List.filter_sublist _

theorem mem_own {st : State} {g : group_t} {cs : List completion_t} {c : completion_t}
    (h : c ∈ st.own g cs) : c ∈ cs ∧ st.tag c.1 = some g := by
  unfold State.own at h
  simpa using h

/-- The state after a completion that names another group was passed on. -/
theorem redirected_any (st : State) (this other : group_t) (status_ : status_t)
    (cq_entry_ : fi_cq_entry_t) (hne : other ≠ this) :
    ((conn_queue_completion st other status_ cq_entry_).incr_redirect_total this).called =
      st.called ∧
    ((conn_queue_completion st other status_ cq_entry_).incr_redirect_total this).records =
      st.records ∧
    ((conn_queue_completion st other status_ cq_entry_).incr_redirect_total this).clients =
      st.clients ∧
    ((conn_queue_completion st other status_ cq_entry_).incr_redirect_total this).cq = st.cq ∧
    (((conn_queue_completion st other status_ cq_entry_).incr_redirect_total this).comm
      this)._completions = (st.comm this)._completions ∧
    (((conn_queue_completion st other status_ cq_entry_).incr_redirect_total this).comm
      this)._stats.defer_total = (st.comm this)._stats.defer_total ∧
    (((conn_queue_completion st other status_ cq_entry_).incr_redirect_total this).comm
      this)._stats.redirect_total = (st.comm this)._stats.redirect_total + 1 ∧
    (((conn_queue_completion st other status_ cq_entry_).incr_redirect_total this).comm
      this)._stats.ct_total = (st.comm this)._stats.ct_total := by
  have hne' : ¬ this = other := fun h => hne h.symm
  unfold conn_queue_completion
  split
  · refine ⟨rfl, rfl, rfl, rfl, ?_, ?_, ?_, ?_⟩ <;>
      simp [State.incr_redirect_total, hne']
  · refine ⟨rfl, rfl, rfl, rfl, ?_, ?_, ?_, ?_⟩ <;>
      simp [State.incr_redirect_total]

end Fabric
end Comanche

namespace Comanche
namespace Fabric

/-- Routing the completions `cs`, each with its own live record, through a
tentative poll of group `this`: those that name `this` are offered to the
callback once, in order, and the rejected ones go to the tail of the group's
own deferred queue; the others are passed on, each counted in
`redirect_total`. -/
theorem route_all_tentative_spec (this : group_t) (cb_ : tentative_completer) :
    ∀ (cs : List completion_t) (st : State),
      (∀ c ∈ cs, ∃ r, st.records c.1.op_context = some r) →
      (cs.map (fun c => c.1.op_context)).Nodup → this ∈ st.clients →
      ∃ st', route_all (process_or_queue_completion_tentative this cb_) cs st =
            (.returned ((st.own this cs).length -
              (cb_.rejected this st st.called (st.own this cs)).length), st') ∧
        st'.called = st.called ++ (st.own this cs).map (cb_.offer this st) ∧
        (st'.comm this)._completions = (st.comm this)._completions ++
          cb_.rejected this st st.called (st.own this cs) ∧
        (st'.comm this)._stats.defer_total = (st.comm this)._stats.defer_total +
          (cb_.rejected this st st.called (st.own this cs)).length ∧
        (st'.comm this)._stats.redirect_total = (st.comm this)._stats.redirect_total +
          (cs.length - (st.own this cs).length) ∧
        (st'.comm this)._stats.ct_total = (st.comm this)._stats.ct_total ∧
        st'.cq = st.cq ∧ st'.clients = st.clients ∧
        (∀ a, a ∉ (st.own this cs).map (fun c => c.1.op_context) →
          st'.records a = st.records a) ∧
        (∀ c ∈ cb_.rejected this st st.called (st.own this cs),
          st'.records c.1.op_context = st.records c.1.op_context) := by
  intro cs
  induction cs with
  | nil =>
    intro st _ _ _
    refine ⟨st, rfl, ?_, ?_, rfl, rfl, rfl, rfl, rfl, fun _ _ => rfl, fun _ _ => rfl⟩
    · simp [State.own]
    · simp [State.own, tentative_completer.rejected]
  | cons c cs ih =>
    intro st hlive hnd hk
    obtain ⟨r, hr⟩ := hlive c (List.mem_cons_self _ _)
    have hnd' : (cs.map (fun c => c.1.op_context)).Nodup := (List.nodup_cons.1 hnd).2
    have hnot : c.1.op_context ∉ cs.map (fun c => c.1.op_context) := (List.nodup_cons.1 hnd).1
    have hfresh : ∀ c' ∈ cs, c'.1.op_context ≠ c.1.op_context := by
      intro c' hc' heq
      exact hnot (List.mem_map.2 ⟨c', hc', heq⟩)
    have htagc : st.tag c.1 = some r.comm := by
      unfold State.tag
      rw [hr]
      rfl
    have hoffer : cb_.offer this st c = cb_.call this r.context c.2 c.1 := by
      unfold tentative_completer.offer State.user_context
      rw [hr]
      rfl
    have hlen : (st.own this cs).length ≤ cs.length := (own_sublist st this cs).length_le
    by_cases hc : r.comm = this
    · have hown : st.own this (c :: cs) = c :: st.own this cs :=
        own_cons_pos cs (by rw [htagc, hc])
      by_cases ha : cb_.answer st.called (cb_.offer this st c) = .ACCEPT
      · have hstep := @process_tentative_accept this c.1 st r cb_ c.2 hr hc
          (by rw [← hoffer]; exact ha)
        rw [← hoffer] at hstep
        have hrec : ∀ a, a ≠ c.1.op_context →
            ((st.invoke (cb_.offer this st c)).free c.1.op_context).records a =
              st.records a := by
          intro a hne
          simp [hne]
        have hrecc : ∀ c' ∈ cs,
            ((st.invoke (cb_.offer this st c)).free c.1.op_context).records c'.1.op_context =
              st.records c'.1.op_context := fun c' hc' => hrec _ (hfresh c' hc')
        have hreco : ∀ c' ∈ st.own this cs,
            ((st.invoke (cb_.offer this st c)).free c.1.op_context).records c'.1.op_context =
              st.records c'.1.op_context := fun c' hc' => hrecc c' (mem_own hc').1
        obtain ⟨st', h1, h2, h3, h4, h5, h6, h7, h8, h9, h10⟩ :=
          ih ((st.invoke (cb_.offer this st c)).free c.1.op_context)
            (fun c' hc' => by
              rw [hrecc c' hc']
              exact hlive c' (List.mem_cons_of_mem _ hc'))
            hnd' hk
        rw [own_congr this hrecc] at h1 h2 h3 h4 h5 h9 h10
        rw [rejected_congr cb_ this _ _ hreco] at h1 h3 h4 h10
        rw [map_offer_congr cb_ this _ hreco] at h2
        simp only [State.called_free, State.called_invoke] at h1 h2 h3 h4 h10
        have hrej : cb_.rejected this st st.called (c :: st.own this cs) =
            cb_.rejected this st (st.called ++ [cb_.offer this st c]) (st.own this cs) := by
          rw [tentative_completer.rejected, if_pos ha]
        have hle := length_rejected_le cb_ this st (st.own this cs)
          (st.called ++ [cb_.offer this st c])
        refine ⟨st', ?_, ?_, ?_, ?_, ?_, ?_, h7, ?_, ?_, ?_⟩
        · rw [hown, hrej]
          simp only [route_all]
          rw [hstep]
          simp only [h1, List.length_cons]
          congr 2
          omega
        · rw [h2, hown]; simp
        · rw [h3, hown, hrej]; rfl
        · rw [h4, hown, hrej]; rfl
        · rw [h5, hown]
          simp only [List.length_cons, Nat.add_sub_add_right]
          rfl
        · rw [h6]; rfl
        · rw [h8]; rfl
        · intro a ha2
          rw [hown] at ha2
          simp only [List.map_cons, List.mem_cons, not_or] at ha2
          rw [h9 a ha2.2]
          exact hrec a ha2.1
        · intro c' hc'
          rw [hown, hrej] at hc'
          rw [h10 c' hc']
          exact hreco c' ((rejected_sublist cb_ this st _ _).subset hc')
      · have hstep := @process_tentative_reject this c.1 st r cb_ c.2 hr hc hk
          (by rw [← hoffer]; exact ha)
        rw [← hoffer] at hstep
        have hrec : ∀ a,
            (((st.invoke (cb_.offer this st c)).set_comm this
              ((st.comm this).queue_completion c.2 c.1)).incr_defer_total this).records a =
              st.records a := fun _ => rfl
        have hreco : ∀ c' ∈ st.own this cs,
            (((st.invoke (cb_.offer this st c)).set_comm this
              ((st.comm this).queue_completion c.2 c.1)).incr_defer_total
                this).records c'.1.op_context = st.records c'.1.op_context := fun _ _ => rfl
        obtain ⟨st', h1, h2, h3, h4, h5, h6, h7, h8, h9, h10⟩ :=
          ih (((st.invoke (cb_.offer this st c)).set_comm this
              ((st.comm this).queue_completion c.2 c.1)).incr_defer_total this)
            (fun c' hc' => hlive c' (List.mem_cons_of_mem _ hc')) hnd' hk
        rw [own_congr this (fun c' _ => hrec c'.1.op_context)] at h1 h2 h3 h4 h5 h9 h10
        rw [rejected_congr cb_ this _ _ hreco] at h1 h3 h4 h10
        rw [map_offer_congr cb_ this _ hreco] at h2
        have hcalled : (((st.invoke (cb_.offer this st c)).set_comm this
              ((st.comm this).queue_completion c.2 c.1)).incr_defer_total this).called =
            st.called ++ [cb_.offer this st c] := rfl
        rw [hcalled] at h1 h2 h3 h4 h10
        have hrej : cb_.rejected this st st.called (c :: st.own this cs) =
            c :: cb_.rejected this st (st.called ++ [cb_.offer this st c])
              (st.own this cs) := by
          rw [tentative_completer.rejected, if_neg ha]
        refine ⟨st', ?_, ?_, ?_, ?_, ?_, ?_, h7, ?_, ?_, ?_⟩
        · rw [hown, hrej]
          simp only [route_all]
          rw [hstep]
          simp only [h1, List.length_cons, Nat.add_sub_add_right, Nat.zero_add]
        · rw [h2, hown]; simp
        · rw [h3, hown, hrej]
          simp [State.incr_defer_total, Fabric_comm_grouped.queue_completion]
        · rw [h4, hown, hrej]
          simp [State.incr_defer_total, Fabric_comm_grouped.queue_completion]
          omega
        · rw [h5, hown]
          simp only [List.length_cons, Nat.add_sub_add_right]
          simp [State.incr_defer_total, Fabric_comm_grouped.queue_completion]
        · rw [h6]; simp [State.incr_defer_total, Fabric_comm_grouped.queue_completion]
        · rw [h8]; rfl
        · intro a ha2
          rw [hown] at ha2
          simp only [List.map_cons, List.mem_cons, not_or] at ha2
          rw [h9 a ha2.2]
          rfl
        · intro c' hc'
          rw [hown, hrej] at hc'
          rcases List.mem_cons.1 hc' with rfl | hc''
          · rw [h9 _ (fun hm => by
              obtain ⟨x, hx, hxe⟩ := List.mem_map.1 hm
              exact hfresh x (mem_own hx).1 hxe)]
            rfl
          · rw [h10 c' hc'']
            rfl
    · have hown : st.own this (c :: cs) = st.own this cs :=
        own_cons_neg cs (by rw [htagc]; exact fun h => hc (Option.some.inj h))
      have hstep : process_or_queue_completion_tentative this cb_ c.1 c.2 st =
          (.returned 0, (conn_queue_completion st r.comm c.2 c.1).incr_redirect_total this) := by
        unfold process_or_queue_completion_tentative
        simp only [hr, hc, if_false]
      obtain ⟨r1, r2, r3, r4, r5, r6, r7, r8⟩ := redirected_any st this r.comm c.2 c.1 hc
      obtain ⟨st', h1, h2, h3, h4, h5, h6, h7, h8, h9, h10⟩ :=
        ih ((conn_queue_completion st r.comm c.2 c.1).incr_redirect_total this)
          (fun c' hc' => by rw [r2]; exact hlive c' (List.mem_cons_of_mem _ hc')) hnd'
          (by rw [r3]; exact hk)
      have hrecall : ∀ c' ∈ cs,
          ((conn_queue_completion st r.comm c.2 c.1).incr_redirect_total
            this).records c'.1.op_context = st.records c'.1.op_context :=
        fun _ _ => by rw [r2]
      have hreco : ∀ c' ∈ st.own this cs,
          ((conn_queue_completion st r.comm c.2 c.1).incr_redirect_total
            this).records c'.1.op_context = st.records c'.1.op_context :=
        fun _ _ => by rw [r2]
      rw [own_congr this hrecall] at h1 h2 h3 h4 h5 h9 h10
      rw [rejected_congr cb_ this _ _ hreco] at h1 h3 h4 h10
      rw [map_offer_congr cb_ this _ hreco] at h2
      rw [r1] at h1 h2 h3 h4 h10
      refine ⟨st', ?_, ?_, ?_, ?_, ?_, ?_, ?_, ?_, ?_, ?_⟩
      · rw [hown]
        simp only [route_all]
        rw [hstep]
        simp only [h1, Nat.zero_add]
      · rw [h2, hown]
      · rw [h3, hown, r5]
      · rw [h4, hown, r6]
      · rw [h5, hown, r7]
        simp only [List.length_cons]
        omega
      · rw [h6, r8]
      · rw [h7, r4]
      · rw [h8, r3]
      · intro a ha2
        rw [hown] at ha2
        rw [h9 a ha2, r2]
      · intro c' hc'
        rw [hown] at hc'
        rw [h10 c' hc', r2]

end Fabric
end Comanche

namespace Comanche
namespace Fabric

/-- The tentative routing of a completion neither reads nor writes the
shared completion queue. -/
theorem process_tentative_with_cq (this : group_t) (cb_ : tentative_completer)
    (e : fi_cq_entry_t) (s : status_t) (st : State) (c : List cq_event) :
    process_or_queue_completion_tentative this cb_ e s { st with cq := c } =
      ((process_or_queue_completion_tentative this cb_ e s st).1,
        { (process_or_queue_completion_tentative this cb_ e s st).2 with cq := c }) := by
  unfold process_or_queue_completion_tentative conn_queue_completion
  have e1 : ({ st with cq := c } : State).records = st.records := rfl
  have e2 : ({ st with cq := c } : State).called = st.called := rfl
  rw [e1, e2]
  cases hr : st.records e.op_context with
  | none => rfl
  | some g =>
    simp only
    by_cases hc : g.comm = this
    · simp only [hc, if_true]
      by_cases ha : cb_.answer st.called (cb_.call this g.context s e) = .ACCEPT
      · simp only [ha, if_true]
        rfl
      · simp only [ha, if_false]
        by_cases hk : this ∈ st.clients
        · have hk1 : this ∈ (({ st with cq := c } : State).invoke
              (cb_.call this g.context s e)).clients := hk
          have hk2 : this ∈ (st.invoke (cb_.call this g.context s e)).clients := hk
          rw [if_pos hk1, if_pos hk2]
          rfl
        · have hk1 : this ∉ (({ st with cq := c } : State).invoke
              (cb_.call this g.context s e)).clients := hk
          have hk2 : this ∉ (st.invoke (cb_.call this g.context s e)).clients := hk
          rw [if_neg hk1, if_neg hk2]
          rfl
    · simp only [hc, if_false]
      by_cases hk : g.comm ∈ st.clients
      · have hk1 : g.comm ∈ ({ st with cq := c } : State).clients := hk
        rw [if_pos hk1, if_pos hk]
        rfl
      · have hk1 : g.comm ∉ ({ st with cq := c } : State).clients := hk
        rw [if_neg hk1, if_neg hk]
        rfl

theorem route_all_with_cq (comp : fi_cq_entry_t → status_t → State → Result Nat × State)
    (hcomp : ∀ e s (st : State) c, comp e s { st with cq := c } =
      ((comp e s st).1, { (comp e s st).2 with cq := c })) :
    ∀ (cs : List completion_t) (st : State) (c : List cq_event) (n : Nat) (st1 : State),
      route_all comp cs st = (.returned n, st1) →
      route_all comp cs { st with cq := c } = (.returned n, { st1 with cq := c }) := by
  intro cs
  induction cs with
  | nil =>
    intro st c n st1 h
    simp only [route_all, Prod.mk.injEq, Result.returned.injEq] at h ⊢
    exact ⟨h.1, by rw [← h.2]⟩
  | cons x cs ih =>
    intro st c n st1 h
    simp only [route_all] at h ⊢
    rw [hcomp]
    cases hx : comp x.1 x.2 st with
    | mk o s1 =>
      rw [hx] at h
      cases o with
      | returned k =>
        simp only at h ⊢
        cases hr : route_all comp cs s1 with
        | mk o2 s2 =>
          rw [hr] at h
          cases o2 with
          | returned m =>
            simp only [Prod.mk.injEq, Result.returned.injEq] at h
            rw [ih s1 c m s2 hr]
            simp only [Prod.mk.injEq, Result.returned.injEq]
            exact ⟨h.1, by rw [← h.2]⟩
          | fabric_runtime_error e' => simp only at h; cases h
          | fault => simp only at h; cases h
      | fabric_runtime_error e' => simp only at h; cases h
      | fault => simp only at h; cases h

/-- A read loop that does not raise routes the completions `routed evs` one
after the other and leaves `unread evs` on the shared completion queue. -/
theorem cq_loop_route_all (comp : fi_cq_entry_t → status_t → State → Result Nat × State)
    (comp_err : fi_cq_entry_t → State → Result Nat × State)
    (hcomp : ∀ e s (st : State) c, comp e s { st with cq := c } =
      ((comp e s st).1, { (comp e s st).2 with cq := c }))
    (herr : ∀ err st, comp_err err st = comp err E_FAIL st) :
    ∀ (evs : List cq_event) (st : State) (n : Nat) (st1 : State),
      st.cq = evs → fatal_before_again evs = none →
      route_all comp (routed evs) st = (.returned n, st1) →
      cq_loop comp comp_err evs st = (.returned n, { st1 with cq := unread evs }) := by
  have key : ∀ (rest : List cq_event) (x : completion_t) (st : State) (n : Nat) (st1 : State),
      (∀ (st : State) (n : Nat) (st1 : State), st.cq = rest →
        route_all comp (routed rest) st = (.returned n, st1) →
        cq_loop comp comp_err rest st = (.returned n, { st1 with cq := unread rest })) →
      route_all comp (x :: routed rest) st = (.returned n, st1) →
      (match comp x.1 x.2 { st with cq := rest } with
        | (.returned ct, st1) =>
          match cq_loop comp comp_err rest st1 with
          | (.returned ct_total, st2) => (.returned (ct + ct_total), st2)
          | r => r
        | r => r) = (.returned n, { st1 with cq := unread rest }) := by
    intro rest x st n st1 ih h
    simp only [route_all] at h
    rw [hcomp]
    cases hx : comp x.1 x.2 st with
    | mk o s1 =>
      rw [hx] at h
      cases o with
      | returned k =>
        simp only at h ⊢
        cases hr : route_all comp (routed rest) s1 with
        | mk o2 s2 =>
          rw [hr] at h
          cases o2 with
          | returned m =>
            simp only [Prod.mk.injEq, Result.returned.injEq] at h
            rw [ih _ m _ rfl (route_all_with_cq comp hcomp _ s1 rest m s2 hr)]
            simp only [Prod.mk.injEq, Result.returned.injEq]
            exact ⟨h.1, by rw [← h.2]⟩
          | fabric_runtime_error e' => simp only at h; cases h
          | fault => simp only at h; cases h
      | fabric_runtime_error e' => simp only at h; cases h
      | fault => simp only at h; cases h
  intro evs
  induction evs with
  | nil =>
    intro st n st1 hcq _ h
    simp only [routed, route_all, Prod.mk.injEq, Result.returned.injEq] at h
    simp only [cq_loop, unread, Prod.mk.injEq, Result.returned.injEq]
    refine ⟨h.1, ?_⟩
    rw [← h.2, ← hcq]
  | cons ev rest ih =>
    intro st n st1 _ hf h
    cases ev with
    | completion entry =>
      simp only [fatal_before_again] at hf
      simp only [routed] at h
      simp only [cq_loop, unread]
      exact key rest (entry, S_OK) st n st1 (fun st n st1 hq => ih st n st1 hq hf) h
    | error errno err =>
      simp only [fatal_before_again] at hf
      simp only [routed] at h
      simp only [cq_loop, unread]
      by_cases h1 : unsigned errno = FI_EAVAIL
      · simp only [h1, if_true] at hf h ⊢
        rw [herr]
        exact key rest (err, E_FAIL) st n st1 (fun st n st1 hq => ih st n st1 hq hf) h
      · simp only [h1, if_false] at hf h ⊢
        by_cases h2 : unsigned errno = FI_EAGAIN
        · simp only [h2, if_true] at h ⊢
          simp only [route_all, Prod.mk.injEq, Result.returned.injEq] at h
          simp only [Prod.mk.injEq, Result.returned.injEq]
          exact ⟨h.1, by rw [← h.2]⟩
        · simp only [h2, if_false] at hf h ⊢
          by_cases h3 : unsigned errno = FI_EINTR
          · simp only [h3, if_true] at hf h ⊢
            have := ih { st with cq := rest } n { st1 with cq := rest } rfl hf
              (route_all_with_cq comp hcomp _ st rest n st1 h)
            rw [this]
          · simp only [h3, if_false] at hf
            cases hf

end Fabric
end Comanche

namespace Comanche
namespace Fabric

/-- C20 (amended): a call of `poll_completions_tentative` (either flavor) on
a group `this` that the connection knows, with deferred queue `q0`, on a
shared completion queue of any content for which the call does not raise.
The read loop routes the completions `routed st.cq` (those of non-negative
results with `S_OK`, error entries with `E_FAIL`, up to the first
`-FI_EAGAIN`), each with its own live record.  Those that name `this`,
`own`, are offered to the callback once each, in order, when they are read;
the rejected ones, `rej`, are appended to the group's deferred queue; the
others are passed on without a callback and counted in `redirect_total`.
Then, in the same call, the final drain offers every completion of
`q0 ++ rej` to the callback once, in order: so a completion that was read in
this call and rejected is offered a second time in the same call, and no
completion is offered more than twice.  Those rejected in the drain, `rej2`,
are the deferred queue afterwards (what the next poll of the group drains);
the call returns the number of acceptances; `defer_total` grows by the
number of rejections, `ct_total` by the return value. -/
theorem C20_tentative_poll_amended (this : group_t) (cb_ : tentative_completer) (st : State)
    (own q0 rej rej2 : List completion_t)
    (hk : this ∈ st.clients) (hret : fatal_before_again st.cq = none)
    (hown : own = st.own this (routed st.cq))
    (hq0 : (st.comm this)._completions = q0)
    (hlive : ∀ c ∈ q0 ++ routed st.cq, (st.records c.1.op_context).isSome = true)
    (hnd : ((q0 ++ routed st.cq).map (fun c => c.1.op_context)).Nodup)
    (hrej : rej = cb_.rejected this st st.called own)
    (hrej2 : rej2 = cb_.rejected this st
      (st.called ++ own.map (cb_.offer this st)) (q0 ++ rej)) :
    (poll_completions_tentative this cb_ st).1 =
      .returned ((own.length - rej.length) + ((q0 ++ rej).length - rej2.length)) ∧
    (poll_completions_tentative this cb_ st).2.called =
      st.called ++ own.map (cb_.offer this st) ++ (q0 ++ rej).map (cb_.offer this st) ∧
    ((poll_completions_tentative this cb_ st).2.comm this)._completions = rej2 ∧
    ((poll_completions_tentative this cb_ st).2.comm this)._stats.defer_total =
      (st.comm this)._stats.defer_total + rej.length + rej2.length ∧
    ((poll_completions_tentative this cb_ st).2.comm this)._stats.redirect_total =
      (st.comm this)._stats.redirect_total + ((routed st.cq).length - own.length) ∧
    ((poll_completions_tentative this cb_ st).2.comm this)._stats.ct_total =
      (st.comm this)._stats.ct_total +
        ((own.length - rej.length) + ((q0 ++ rej).length - rej2.length)) ∧
    (poll_completions_tentative this cb_ st).2.cq = unread st.cq ∧
    own.Sublist (routed st.cq) ∧ rej.Sublist own ∧ rej2.Sublist (q0 ++ rej) := by
  rw [List.map_append] at hnd
  have hnd1 := (List.nodup_append.1 hnd).2.1
  have hdisj := (List.nodup_append.1 hnd).2.2
  have hlive0 : ∀ c ∈ routed st.cq, ∃ r, st.records c.1.op_context = some r :=
    fun c hc => Option.isSome_iff_exists.1 (hlive c (List.mem_append_right _ hc))
  obtain ⟨s1, h1, h2, h3, h4, h5, h6, _, _, h9, h10⟩ :=
    route_all_tentative_spec this cb_ (routed st.cq) st hlive0 hnd1 hk
  rw [← hown] at h1 h2 h3 h4 h5 h9 h10
  rw [← hrej] at h1 h3 h4 h10
  rw [hq0] at h3
  have hloop : ∃ s1c : State,
      cq_loop (process_or_queue_completion_tentative this cb_)
        (process_cq_comp_err_tentative this cb_) st.cq st =
          (.returned (own.length - rej.length), s1c) ∧
      s1c.called = s1.called ∧ s1c.comm = s1.comm ∧ s1c.records = s1.records ∧
      s1c.cq = unread st.cq :=
    ⟨_, cq_loop_route_all (process_or_queue_completion_tentative this cb_)
      (process_cq_comp_err_tentative this cb_) (process_tentative_with_cq this cb_)
      (fun _ _ => rfl) st.cq st _ s1 rfl hret h1, rfl, rfl, rfl, rfl⟩
  obtain ⟨s1c, hloop, c1, c2, c3, c4⟩ := hloop
  rw [← c1] at h2
  rw [← c2] at h3 h4 h5 h6
  rw [← c3] at h9 h10
  have hownsub : own.Sublist (routed st.cq) := by
    rw [hown]; exact own_sublist st this _
  have hsub : rej.Sublist own := by
    rw [hrej]; exact rejected_sublist cb_ this st _ _
  -- the records of the queued completions are live after the read loop
  have hrec1 : ∀ c ∈ q0 ++ rej, s1c.records c.1.op_context = st.records c.1.op_context := by
    intro c hc
    rcases List.mem_append.1 hc with hc0 | hcr
    · apply h9
      intro hm
      obtain ⟨x, hx, hxe⟩ := List.mem_map.1 hm
      exact hdisj (List.mem_map.2 ⟨c, hc0, rfl⟩)
        (List.mem_map.2 ⟨x, hownsub.subset hx, hxe⟩)
    · exact h10 c hcr
  have hlive1 : ∀ c ∈ q0 ++ rej, ∃ r, s1c.records c.1.op_context = some r := by
    intro c hc
    rw [hrec1 c hc]
    rcases List.mem_append.1 hc with hc0 | hcr
    · exact Option.isSome_iff_exists.1 (hlive c (List.mem_append_left _ hc0))
    · exact hlive0 c (hownsub.subset (hsub.subset hcr))
  have hnd2 : ((q0 ++ rej).map (fun c : completion_t => c.1.op_context)).Nodup := by
    apply hnd.sublist
    rw [List.map_append]
    exact List.Sublist.append (List.Sublist.refl _)
      ((hsub.trans hownsub).map (fun c : completion_t => c.1.op_context))
  obtain ⟨st2, d1, d2, d3, d4, d5, d6, d7, _, _, _, _⟩ :=
    drain_loop_tentative_spec this cb_ (q0 ++ rej) [] s1c hlive1 hnd2
  rw [rejected_congr cb_ this _ _ hrec1, h2, ← hrej2] at d1 d3 d4
  rw [map_offer_congr cb_ this _ hrec1, h2] at d2
  have hp : poll_completions_tentative this cb_ st =
      (.returned ((own.length - rej.length) + ((q0 ++ rej).length - rej2.length)),
        st2.add_ct_total this ((own.length - rej.length) + ((q0 ++ rej).length - rej2.length))) := by
    unfold poll_completions_tentative drain_old_completions_tentative
    rw [hloop]
    simp only [h3, d1]
  rw [hp]
  refine ⟨rfl, d2, ?_, ?_, ?_, ?_, ?_, hownsub, hsub, ?_⟩
  · simp [State.add_ct_total, d3]
  · simp [State.add_ct_total, d4, h4]
  · simp [State.add_ct_total, d5, h5]
  · simp [State.add_ct_total, d6, h6]
  · simp [State.add_ct_total, d7, c4]
  · rw [hrej2]; exact rejected_sublist cb_ this st _ _

theorem C20_witness :
    (1 : group_t) ∈ fab_mixed.clients ∧ fatal_before_again fab_mixed.cq = none ∧
    routed fab_mixed.cq = [(entry_w 100, S_OK), (entry_w 200, S_OK), (entry_w 101, E_FAIL)] ∧
    fab_mixed.own 1 (routed fab_mixed.cq) = [(entry_w 100, S_OK), (entry_w 101, E_FAIL)] ∧
    cb_second.rejected 1 fab_mixed fab_mixed.called
      [(entry_w 100, S_OK), (entry_w 101, E_FAIL)] = [(entry_w 100, S_OK)] ∧
    (poll_completions_tentative 1 cb_second fab_mixed).1 = .returned 2 ∧
    (poll_completions_tentative 1 cb_second fab_mixed).2.called =
      [cb_second.offer 1 fab_mixed (entry_w 100, S_OK),
        cb_second.offer 1 fab_mixed (entry_w 101, E_FAIL),
        cb_second.offer 1 fab_mixed (entry_w 100, S_OK)] ∧
    ((poll_completions_tentative 1 cb_second fab_mixed).2.comm 1)._completions = [] ∧
    ((poll_completions_tentative 1 cb_second fab_mixed).2.comm 1)._stats.defer_total = 1 ∧
    ((poll_completions_tentative 1 cb_second fab_mixed).2.comm 1)._stats.redirect_total = 1 ∧
    (poll_completions_tentative 1 cb_second fab_mixed).2.cq = [.completion (entry_w 201)] :=
  ⟨by decide, by decide, by decide, by decide, by decide,
    (C20_tentative_poll_amended 1 cb_second fab_mixed
      [(entry_w 100, S_OK), (entry_w 101, E_FAIL)] [] [(entry_w 100, S_OK)] []
      (by decide) (by decide) (by decide) (by decide) (by decide) (by decide) (by decide)
      (by decide)).1,
    (C20_tentative_poll_amended 1 cb_second fab_mixed
      [(entry_w 100, S_OK), (entry_w 101, E_FAIL)] [] [(entry_w 100, S_OK)] []
      (by decide) (by decide) (by decide) (by decide) (by decide) (by decide) (by decide)
      (by decide)).2.1,
    (C20_tentative_poll_amended 1 cb_second fab_mixed
      [(entry_w 100, S_OK), (entry_w 101, E_FAIL)] [] [(entry_w 100, S_OK)] []
      (by decide) (by decide) (by decide) (by decide) (by decide) (by decide) (by decide)
      (by decide)).2.2.1,
    (C20_tentative_poll_amended 1 cb_second fab_mixed
      [(entry_w 100, S_OK), (entry_w 101, E_FAIL)] [] [(entry_w 100, S_OK)] []
      (by decide) (by decide) (by decide) (by decide) (by decide) (by decide) (by decide)
      (by decide)).2.2.2.1,
    (C20_tentative_poll_amended 1 cb_second fab_mixed
      [(entry_w 100, S_OK), (entry_w 101, E_FAIL)] [] [(entry_w 100, S_OK)] []
      (by decide) (by decide) (by decide) (by decide) (by decide) (by decide) (by decide)
      (by decide)).2.2.2.2.1,
    (C20_tentative_poll_amended 1 cb_second fab_mixed
      [(entry_w 100, S_OK), (entry_w 101, E_FAIL)] [] [(entry_w 100, S_OK)] []
      (by decide) (by decide) (by decide) (by decide) (by decide) (by decide) (by decide)
      (by decide)).2.2.2.2.2.2.1⟩

end Fabric
end Comanche
